import Mathlib

/-!
# Parallel construction of succinct plane graphs: a verification development

Shallow embedding of `defs.c` (`parallel_prefix_sum`, `parallel_list_ranking`)
and of `parallel_succinct_graph.c` (`parallel_succinct_graph`).

Modelling conventions.

* C arrays are lists; every read and write is bounds checked and an access
  outside the array yields `Fault.outOfBounds`.
* `uint` data (array cells, ranks) is a natural number reduced modulo `2^32`
  after every addition; `ushort` counters are reduced modulo `2^16`.  The
  `int` accumulators of the sublist table are kept as their 32-bit pattern, so
  their additions are also taken modulo `2^32`.
* Index arithmetic (`i*chk`, `ll+chk`, ...) is done in `Nat`: array sizes are
  taken to be far below `2^32`.  The floating point expressions
  `ceil((float)size/threads)` and `ceil(log2(size)*threads)` are modelled by
  their exact real values.
* `threads` (the Cilk worker count) is an explicit parameter.  A `cilk_for`
  is modelled by its serial elision: the iterations run in increasing order.
* `while` loops take a fuel argument; running out of it yields
  `Fault.outOfFuel`.
-/

namespace SuccinctPlanarGraph

/-- Ways in which a run of the C code can go wrong in the model. -/
inductive Fault where
  | outOfBounds
  | outOfFuel
  | divByZero
deriving DecidableEq, Repr

deriving instance DecidableEq for Except

/-- Modulus of the C type `uint`. -/
def UINT : Nat := 4294967296

/-- Modulus of the C type `ushort`. -/
def USHORT : Nat := 65536

/-- Bounds-checked read `A[i]`. -/
def rd {α : Type} (A : List α) (i : Nat) : Except Fault α :=
  match A.get? i with
  | some a => .ok a
  | none => .error Fault.outOfBounds

/-- Bounds-checked write `A[i] = v`. -/
def wr {α : Type} (A : List α) (i : Nat) (v : α) : Except Fault (List α) :=
  if i < A.length then .ok (A.set i v) else .error Fault.outOfBounds

/-- Sequential loop `for (k = lo; k < lo + cnt; k++) st = body st k`. -/
def forLoop {σ : Type} (body : σ → Nat → Except Fault σ) :
    Nat → Nat → σ → Except Fault σ
  | _, 0, st => .ok st
  | lo, cnt + 1, st =>
    match body st lo with
    | .ok st1 => forLoop body (lo + 1) cnt st1
    | .error e => .error e

/-! ## `parallel_prefix_sum` (defs.c, lines 115-146) -/

/-- Floor of the binary logarithm of `n` (`0` for `n < 2`), by halving at
most `fuel` times. -/
def log2F : Nat → Nat → Nat
  | 0, _ => 0
  | fuel + 1, n => if n < 2 then 0 else log2F fuel (n / 2) + 1

/-- The integer nearest to `a / b`, ties going to the even one. -/
def roundEven (a b : Nat) : Nat :=
  if 2 * (a % b) < b then a / b
  else if b < 2 * (a % b) then a / b + 1
  else if (a / b) % 2 = 0 then a / b else a / b + 1

/-- The single-precision (`float`, IEEE binary32) value nearest to `a / b`,
ties to even, given as its multiple `x` of `2^-64`: the significand is
`a / b` scaled by a power of two `2^e` into `[2^23, 2^24)` and rounded to an
integer. Exact for `2^-40 ≤ a / b < 2^64`, where no exponent leaves the range
of `float`; the fuel `160` exceeds the bit length of every quotient that
`ceilDiv` forms. -/
def f32 (a b : Nat) : Nat :=
  if a = 0 then 0
  else roundEven (a * 2 ^ 64) (b * 2 ^ (log2F 160 (a * 2 ^ 64 / b) - 23)) *
    2 ^ (log2F 160 (a * 2 ^ 64 / b) - 23)

/-- The value of `ceil((float)size/threads)` stored into the `uint chk`
(line 116): `size` and `threads` are converted to `float`, divided in
`float`, and the quotient is rounded up to an integer; `threads ≥ 1`. A
size of `2^32 - 128` or more is converted to `2^32`; a result that does not
fit the `uint` is taken modulo `2^32`. -/
def ceilDiv (size threads : Nat) : Nat :=
  ((f32 (f32 size 1) (f32 threads 1) + (2 ^ 64 - 1)) / 2 ^ 64) % UINT

/-- Inner loop of the first region: `A[j] += acc; acc = A[j]` for
`cnt` consecutive cells from `j`. -/
def scanLoop : List Nat → Nat → Nat → Nat → Except Fault (List Nat)
  | A, _, _, 0 => .ok A
  | A, j, acc, cnt + 1 =>
    match rd A j with
    | .error e => .error e
    | .ok a =>
      match wr A j ((a + acc) % UINT) with
      | .error e => .error e
      | .ok A1 => scanLoop A1 (j + 1) ((a + acc) % UINT) cnt

/-- Body of the first `cilk_for`: local scan of chunk `i`. -/
def psLocal (chk size : Nat) (A : List Nat) (i : Nat) : Except Fault (List Nat) :=
  let ll := i * chk
  let ul := if ll + chk > size then size else ll + chk
  scanLoop A ll 0 (ul - ll)

/-- The statement `A[dst] += A[src]`. -/
def addCell (A : List Nat) (dst src : Nat) : Except Fault (List Nat) :=
  match rd A src with
  | .error e => .error e
  | .ok b =>
    match rd A dst with
    | .error e => .error e
    | .ok a => wr A dst ((a + b) % UINT)

/-- Body of the sequential loop `A[((i+1)*chk)-1] += A[i*chk-1]`. -/
def psCarry (chk : Nat) (A : List Nat) (i : Nat) : Except Fault (List Nat) :=
  addCell A ((i + 1) * chk - 1) (i * chk - 1)

/-- Inner loop of the last region: `A[j] += acc` for `cnt` cells from `j`. -/
def addLoop (acc : Nat) : List Nat → Nat → Nat → Except Fault (List Nat)
  | A, _, 0 => .ok A
  | A, j, cnt + 1 =>
    match rd A j with
    | .error e => .error e
    | .ok a =>
      match wr A j ((a + acc) % UINT) with
      | .error e => .error e
      | .ok A1 => addLoop acc A1 (j + 1) cnt

/-- Body of the last `cilk_for`: add the carry of the previous chunk. -/
def psAdd (chk size : Nat) (A : List Nat) (i : Nat) : Except Fault (List Nat) :=
  let ll := i * chk
  let ul := if ll + chk - 1 ≥ size then size - 1 else ll + chk - 1
  match rd A (ll - 1) with
  | .error e => .error e
  | .ok acc => addLoop acc A ll (ul - ll)

/-- Model of `parallel_prefix_sum(A, size)` run with `threads` workers. -/
def parallel_prefix_sum (threads : Nat) (A : List Nat) (size : Nat) :
    Except Fault (List Nat) :=
  if threads = 0 then .error Fault.divByZero else
  let chk := ceilDiv size threads
  match forLoop (psLocal chk size) 0 threads A with
  | .error e => .error e
  | .ok A1 =>
    match forLoop (psCarry chk) 1 (threads - 1 - 1) A1 with
    | .error e => .error e
    | .ok A2 =>
      match (if threads > 1 then addCell A2 (size - 1) ((threads - 1) * chk - 1)
             else .ok A2) with
      | .error e => .error e
      | .ok A3 => forLoop (psAdd chk size) 1 (threads - 1) A3

/-! ## `parallel_list_ranking` (defs.c, lines 148-226) -/

/-- The C struct `_euler_node`. -/
structure ENode where
  next : Int
  value : Nat
  rank : Nat
deriving DecidableEq, Repr

/-- The local C struct `sublist_node`; `value` holds the 32-bit pattern of
the C `int`. -/
structure SublistNode where
  head : Int
  next : Int
  scratch : Int
  value : Nat
deriving DecidableEq, Repr

/-- Bounds-checked read through a C `int` index. -/
def rdI {α : Type} (A : List α) (i : Int) : Except Fault α :=
  if i < 0 then .error Fault.outOfBounds else rd A i.toNat

/-- Bounds-checked write through a C `int` index. -/
def wrI {α : Type} (A : List α) (i : Int) (v : α) : Except Fault (List α) :=
  if i < 0 then .error Fault.outOfBounds else wr A i.toNat v

/-- Search for the least `k` with `2^k ≥ x`, starting from `k`. -/
def clog2Aux (x : Nat) : Nat → Nat → Nat
  | 0, k => k
  | f + 1, k => if 2 ^ k ≥ x then k else clog2Aux x f (k + 1)

/-- Least `k` with `2^k ≥ x`, that is `⌈log2 x⌉` for `x ≥ 1`. -/
def clog2 (x : Nat) : Nat := clog2Aux x x 0

/-- The value of `ceil(log2(size)*threads)`, which is `⌈log2 (size^threads)⌉`;
for `size = 0` the C expression is `-inf` and the model takes `0`. -/
def splitters (size threads : Nat) : Nat :=
  if size = 0 then 0 else clog2 (size ^ threads)

/-- The initial counting loop (lines 161-168); it only reads `A`.  The `break`
on `cnt > size` bounds it by `size` iterations. -/
def countLoop (A : List ENode) : Nat → Int → Except Fault Unit
  | 0, _ => .ok ()
  | rem + 1, curr2 =>
    if curr2 > 0 then
      match rdI A curr2 with
      | .error e => .error e
      | .ok nd => countLoop A rem nd.next
    else .ok ()

/-- Body of the first `cilk_for` (lines 171-178): install splitter `i`. -/
def lrSplit (chk : Nat) (st : List ENode × List SublistNode) (i : Nat) :
    Except Fault (List ENode × List SublistNode) :=
  let x := i * chk
  match rd st.1 x with
  | .error e => .error e
  | .ok nd =>
    match wr st.2 i ⟨(x : Int), -1, nd.next, nd.rank⟩ with
    | .error e => .error e
    | .ok sub1 =>
      match wr st.1 x { nd with next := -(i : Int) - 1 } with
      | .error e => .error e
      | .ok A1 => .ok (A1, sub1)

/-- The `while(curr > 0)` loop of the second region (lines 184-192) for
sublist `i`; returns the array, the final `curr` and the final `tmp`. -/
def lrWalk (i : Nat) : Nat → List ENode → Int → Nat →
    Except Fault (List ENode × Int × Nat)
  | 0, A, curr, tmp =>
    if curr > 0 then .error Fault.outOfFuel else .ok (A, curr, tmp)
  | fuel + 1, A, curr, tmp =>
    if curr > 0 then
      match rdI A curr with
      | .error e => .error e
      | .ok nd =>
        match wrI A curr { nd with rank := tmp, next := -(i : Int) - 1 } with
        | .error e => .error e
        | .ok A1 => lrWalk i fuel A1 nd.next ((tmp + nd.rank) % UINT)
    else .ok (A, curr, tmp)

/-- Body of the second `cilk_for` (lines 180-198): rank sublist `i`. -/
def lrRank (fuel : Nat) (st : List ENode × List SublistNode) (i : Nat) :
    Except Fault (List ENode × List SublistNode) :=
  match rd st.2 i with
  | .error e => .error e
  | .ok sn =>
    match lrWalk i fuel st.1 sn.scratch 0 with
    | .error e => .error e
    | .ok (A1, curr, tmp) =>
      match wr st.2 i { sn with next := -curr - 1 } with
      | .error e => .error e
      | .ok sub1 =>
        if curr ≠ 0 then
          match rdI sub1 (-curr - 1) with
          | .error e => .error e
          | .ok sk =>
            match wrI sub1 (-curr - 1) { sk with value := tmp } with
            | .error e => .error e
            | .ok sub2 => .ok (A1, sub2)
        else .ok (A1, sub1)

/-- The sequential `while(1)` loop over the sublist table (lines 200-210). -/
def lrCombine : Nat → List SublistNode → Int → Nat →
    Except Fault (List SublistNode)
  | 0, _, _, _ => .error Fault.outOfFuel
  | fuel + 1, sub, curr, tmp =>
    match rdI sub curr with
    | .error e => .error e
    | .ok sn =>
      match wrI sub curr { sn with value := (sn.value + tmp) % UINT } with
      | .error e => .error e
      | .ok sub1 =>
        if sn.next < 0 then .ok sub1
        else lrCombine fuel sub1 sn.next ((tmp + sn.value) % UINT)

/-- Inner loop of the last region (lines 219-222). -/
def lrAddLoop (sub : List SublistNode) :
    List ENode → Nat → Nat → Except Fault (List ENode)
  | A, _, 0 => .ok A
  | A, j, cnt + 1 =>
    match rd A j with
    | .error e => .error e
    | .ok nd =>
      match rdI sub (-nd.next - 1) with
      | .error e => .error e
      | .ok sn =>
        match wr A j { nd with rank := (nd.rank + sn.value) % UINT } with
        | .error e => .error e
        | .ok A1 => lrAddLoop sub A1 (j + 1) cnt

/-- Body of the last `cilk_for` (lines 212-223). -/
def lrAdd (chk size s : Nat) (sub : List SublistNode) (A : List ENode) (i : Nat) :
    Except Fault (List ENode) :=
  let ll0 := i * chk
  let ul := if i = s - 1 then size else ll0 + chk
  let ll := if i = 0 then ll0 + 1 else ll0
  lrAddLoop sub A ll (ul - ll)

/-- The body of `parallel_list_ranking` once the number of splitters `s` has
been computed. -/
def listRankingWith (s fuel : Nat) (A : List ENode) (size : Nat) :
    Except Fault (List ENode) :=
  if s = 0 then .error Fault.divByZero else
  let chk := size / s
  let sub0 : List SublistNode := List.replicate s ⟨0, 0, 0, 0⟩
  match rd A 0 with
  | .error e => .error e
  | .ok hd =>
    match countLoop A size hd.next with
    | .error e => .error e
    | .ok _ =>
      match forLoop (lrSplit chk) 0 s (A, sub0) with
      | .error e => .error e
      | .ok st1 =>
        match forLoop (lrRank fuel) 0 s st1 with
        | .error e => .error e
        | .ok st2 =>
          match lrCombine fuel st2.2 0 0 with
          | .error e => .error e
          | .ok sub3 =>
            match forLoop (lrAdd chk size s sub3) 0 s st2.1 with
            | .error e => .error e
            | .ok A4 =>
              match rd A4 0 with
              | .error e => .error e
              | .ok h4 => wr A4 0 { h4 with rank := 0 }

/-- Model of `parallel_list_ranking(A, size)` run with `threads` workers. -/
def parallel_list_ranking (threads fuel : Nat) (A : List ENode) (size : Nat) :
    Except Fault (List ENode) :=
  listRankingWith (splitters size threads) fuel A size

/-! ## `parallel_succinct_graph` (parallel_succinct_graph.c, lines 59-224) -/

/-- The C struct `_vertex_t`. -/
structure Vertex where
  first : Nat
  last : Nat
  order : Nat
deriving DecidableEq, Repr

/-- The C struct `_edge_t`. -/
structure Edge where
  src : Nat
  tgt : Nat
  p_tgt : Nat
deriving DecidableEq, Repr

/-- The C struct `_node_t`. -/
structure Node where
  first : Nat
  last : Nat
deriving DecidableEq, Repr

/-- The C struct `_graph_t`. -/
structure Graph where
  V : List Vertex
  E : List Edge
  n : Nat
  m : Nat
deriving DecidableEq, Repr

/-- The C struct `_tree_t`. -/
structure Tree where
  N : List Node
  E : List Edge
  n : Nat
deriving DecidableEq, Repr

/-- Modelled from the spec: `bit_array_create(n)` of the external bit array
library (`bit_array.h` is not among the sources), a vector of `n` zero bits. -/
def bit_array_create (n : Nat) : List Bool := List.replicate n false

/-- Modelled from the spec: `bit_array_set_bit` and
`parallel_or_bit_array_set_bit` of the external bit array library; both set
bit `i`, the second one with an atomic OR on the enclosing word. -/
def bit_array_set_bit (S : List Bool) (i : Nat) : Except Fault (List Bool) :=
  wr S i true

/-- Subtraction of two `uint` values: the difference, taken modulo `2^32`
when the subtrahend is the larger one. -/
def usub (a b : Nat) : Nat :=
  if b % UINT ≤ a % UINT then a % UINT - b % UINT else a % UINT + UINT - b % UINT

/-- Lower and upper limit of chunk `h` of the chunked loops: `ll = h*chk`
(or `first` for `h = 0` when the loop resets it), `ul = ll+chk`, or `top`
for the last worker. -/
def chunkLo (chk h : Nat) (first : Option Nat) : Nat :=
  match first with
  | some f => if h = 0 then f else h * chk
  | none => h * chk

/-- Upper limit of chunk `h`; see `chunkLo`. -/
def chunkHi (threads chk h top : Nat) : Nat :=
  if h = threads - 1 then top else h * chk + chk

/-- Body of the innermost loop of the first region (lines 92-97). -/
def countEdge (g : Graph) (st : List Nat × List Nat) (i : Nat) :
    Except Fault (List Nat × List Nat) :=
  match rd g.E i with
  | .error e => .error e
  | .ok e =>
    match rd g.V e.src with
    | .error er => .error er
    | .ok vs =>
      match rd g.V e.tgt with
      | .error er => .error er
      | .ok vt =>
        if vs.order > vt.order then
          match rd st.1 e.src with
          | .error er => .error er
          | .ok c =>
            match wr st.1 e.src ((c + 1) % USHORT) with
            | .error er => .error er
            | .ok lo1 => .ok (lo1, st.2)
        else
          match rd st.2 e.src with
          | .error er => .error er
          | .ok c =>
            match wr st.2 e.src ((c + 1) % USHORT) with
            | .error er => .error er
            | .ok hi1 => .ok (st.1, hi1)

/-- Body of the first `cilk_for` (lines 83-105). -/
def phaseA (threads chk : Nat) (g : Graph) (st : List Nat × List Nat) (h : Nat) :
    Except Fault (List Nat × List Nat) :=
  let ll := chunkLo chk h (some 1)
  let ul := chunkHi threads chk h (2 * g.m)
  forLoop (countEdge g) ll (ul - ll) st

/-- Body of the innermost loop of the second region (lines 116-117). -/
def adjustNode (t : Tree) (st : List Nat × List Nat) (i : Nat) :
    Except Fault (List Nat × List Nat) :=
  match rd st.1 i with
  | .error er => .error er
  | .ok c =>
    match wr st.1 i ((c + (USHORT - 1)) % USHORT) with
    | .error er => .error er
    | .ok lo1 =>
      match rd t.N i with
      | .error er => .error er
      | .ok nd =>
        match rd st.2 i with
        | .error er => .error er
        | .ok d =>
          match wr st.2 i ((d + (USHORT - usub nd.last nd.first % USHORT)) % USHORT) with
          | .error er => .error er
          | .ok hi1 => .ok (lo1, hi1)

/-- Body of the second `cilk_for` (lines 107-119). -/
def phaseB (threads chk : Nat) (t : Tree) (st : List Nat × List Nat) (h : Nat) :
    Except Fault (List Nat × List Nat) :=
  let ll := chunkLo chk h (some 1)
  let ul := chunkHi threads chk h t.n
  forLoop (adjustNode t) ll (ul - ll) st

/-- Body of the innermost loop of the third region (lines 138-177): fill
`ET[i]` and `ET2[i]`. -/
def classifyEdge (g : Graph) (t : Tree) (lower higher : List Nat) (root_last : Nat)
    (st : List ENode × List ENode) (i : Nat) :
    Except Fault (List ENode × List ENode) :=
  match rd t.E i with
  | .error er => .error er
  | .ok e =>
    match rd t.N e.src with
    | .error er => .error er
    | .ok _ =>
      match rd t.N e.tgt with
      | .error er => .error er
      | .ok tgt =>
        match rd g.V e.src with
        | .error er => .error er
        | .ok vs =>
          match rd g.V e.tgt with
          | .error er => .error er
          | .ok vt =>
            match rd st.1 i with
            | .error er => .error er
            | .ok a =>
                if vs.order < vt.order then
                  match rd lower e.tgt with
                  | .error er => .error er
                  | .ok lw =>
                    let nx : Int := if tgt.first = tgt.last then (e.p_tgt : Int)
                                    else ((tgt.first + 1 : Nat) : Int)
                    match wr st.1 i { a with rank := lw + 1, next := nx } with
                    | .error er => .error er
                    | .ok ET =>
                      match wr st.2 i { value := 1, rank := 1, next := nx } with
                      | .error er => .error er
                      | .ok ET2 => .ok (ET, ET2)
                else
                  match rd higher e.src with
                  | .error er => .error er
                  | .ok hg =>
                    if e.tgt = 0 ∧ e.p_tgt = root_last then
                      match wr st.1 i { a with rank := hg + 1, next := 0 } with
                      | .error er => .error er
                      | .ok ET =>
                        match wr st.2 i { value := 0, rank := 1, next := 0 } with
                        | .error er => .error er
                        | .ok ET2 => .ok (ET, ET2)
                    else
                      let nx : Int := if e.p_tgt = tgt.last then (tgt.first : Int)
                                      else ((e.p_tgt + 1 : Nat) : Int)
                      match wr st.1 i { a with rank := hg + 1, next := nx } with
                      | .error er => .error er
                      | .ok ET =>
                        match wr st.2 i { value := 0, rank := 1, next := nx } with
                        | .error er => .error er
                        | .ok ET2 => .ok (ET, ET2)

/-- Body of the third `cilk_for` (lines 124-179). -/
def phaseC (threads chk top : Nat) (g : Graph) (t : Tree) (lower higher : List Nat)
    (root_last : Nat) (st : List ENode × List ENode) (h : Nat) :
    Except Fault (List ENode × List ENode) :=
  let ll := chunkLo chk h none
  let ul := chunkHi threads chk h top
  forLoop (classifyEdge g t lower higher root_last) ll (ul - ll) st

/-- The three bit arrays under construction. -/
structure Bits where
  S1 : List Bool
  S2 : List Bool
  S3 : List Bool
deriving DecidableEq, Repr

/-- Body of the innermost loop of the last region (lines 199-207). -/
def emitEdge (t : Tree) (higher : List Nat) (ET ET2 : List ENode)
    (st : Bits) (i : Nat) : Except Fault Bits :=
  match rd ET i with
  | .error er => .error er
  | .ok a =>
    match bit_array_set_bit st.S1 ((a.rank + 1) % UINT) with
    | .error er => .error er
    | .ok S1 =>
      match rd ET2 i with
      | .error er => .error er
      | .ok b =>
        if b.value ≠ 0 then
          match bit_array_set_bit st.S2 ((b.rank + 1) % UINT) with
          | .error er => .error er
          | .ok S2 => .ok { st with S1 := S1, S2 := S2 }
        else
          match rd t.E i with
          | .error er => .error er
          | .ok e =>
            match rd higher e.src with
            | .error er => .error er
            | .ok hg =>
              let ll := usub a.rank b.rank
              let ul := (ll + hg) % UINT
              match forLoop bit_array_set_bit ll (ul - ll) st.S3 with
              | .error er => .error er
              | .ok S3 => .ok { st with S1 := S1, S3 := S3 }

/-- Body of the last `cilk_for` (lines 185-209). -/
def phaseE (threads chk top : Nat) (t : Tree) (higher : List Nat)
    (ET ET2 : List ENode) (st : Bits) (h : Nat) : Except Fault Bits :=
  let ll := chunkLo chk h none
  let ul := chunkHi threads chk h top
  forLoop (emitEdge t higher ET ET2) ll (ul - ll) st

/-- Phases A and B (lines 75-119): the counters `lower_numb` and
`higher_numb` after the first two regions. -/
def counters (threads : Nat) (g : Graph) (t : Tree) :
    Except Fault (List Nat × List Nat) :=
  let lower_numb : List Nat := List.replicate t.n 0
  let higher_numb : List Nat := List.replicate t.n 0
  let chk := 2 * g.m / threads
  match forLoop (phaseA threads chk g) 0 threads (lower_numb, higher_numb) with
  | .error er => .error er
  | .ok c1 => forLoop (phaseB threads chk t) 0 threads c1

/-- Phase C (lines 121-179): the arrays `ET` and `ET2` after classification. -/
def eulerTours (threads : Nat) (g : Graph) (t : Tree) (lower higher : List Nat) :
    Except Fault (List ENode × List ENode) :=
  let num_parentheses := (2 * t.n) % UINT
  let size := usub num_parentheses 2
  let ET : List ENode := List.replicate size ⟨0, 0, 0⟩
  let ET2 : List ENode := List.replicate size ⟨0, 0, 0⟩
  match rd t.N 0 with
  | .error er => .error er
  | .ok root =>
    let chk := num_parentheses / threads
    forLoop (phaseC threads chk size g t lower higher root.last) 0 threads (ET, ET2)

/-- The two calls of lines 181-182, `parallel_list_ranking(ET, size)` and then
`parallel_list_ranking(ET2, size)`. -/
def rankBoth (threads fuel size : Nat) (et : List ENode × List ENode) :
    Except Fault (List ENode × List ENode) :=
  match parallel_list_ranking threads fuel et.1 size with
  | .error er => .error er
  | .ok ETr =>
    match parallel_list_ranking threads fuel et.2 size with
    | .error er => .error er
    | .ok ET2r => .ok (ETr, ET2r)

/-- Phase D (lines 181-182): both arrays after list ranking, with
`size = num_parentheses - 2` as computed on line 121. -/
def rankTours (threads fuel : Nat) (t : Tree) (et : List ENode × List ENode) :
    Except Fault (List ENode × List ENode) :=
  rankBoth threads fuel (usub ((2 * t.n) % UINT) 2) et

/-- Phase E (lines 184-212): the three bit arrays. -/
def emitBits (threads : Nat) (g : Graph) (t : Tree) (higher : List Nat)
    (ETr ET2r : List ENode) : Except Fault Bits :=
  let num_parentheses := (2 * t.n) % UINT
  let num_brackets := (2 * ((usub g.m t.n + 1) % UINT)) % UINT
  let num_total := (num_parentheses + num_brackets) % UINT
  let S1 := bit_array_create num_total
  let S2 := bit_array_create num_parentheses
  let S3 := bit_array_create num_brackets
  let size := usub num_parentheses 2
  let chk := num_parentheses / threads
  match forLoop (phaseE threads chk size t higher ETr ET2r) 0 threads ⟨S1, S2, S3⟩ with
  | .error er => .error er
  | .ok b1 =>
    match bit_array_set_bit b1.S1 0 with
    | .error er => .error er
    | .ok S1a =>
      match bit_array_set_bit S1a (usub num_total 1) with
      | .error er => .error er
      | .ok S1b =>
        match bit_array_set_bit b1.S2 0 with
        | .error er => .error er
        | .ok S2a => .ok ⟨S1b, S2a, b1.S3⟩

/-- The ranked arrays `ET`, `ET2` and the counter `higher_numb` as they stand
when the last region starts (after line 182). -/
def rankedTours (threads fuel : Nat) (g : Graph) (t : Tree) :
    Except Fault (List Nat × List ENode × List ENode) :=
  if threads = 0 then .error Fault.divByZero else
  match counters threads g t with
  | .error er => .error er
  | .ok c =>
    match eulerTours threads g t c.1 c.2 with
    | .error er => .error er
    | .ok et =>
      match rankTours threads fuel t et with
      | .error er => .error er
      | .ok r => .ok (c.2, r.1, r.2)

/-- Model of `parallel_succinct_graph(g, t)` run with `threads` workers; the
result is the three bit arrays handed to `st_create_emM`. -/
def parallel_succinct_graph (threads fuel : Nat) (g : Graph) (t : Tree) :
    Except Fault Bits :=
  match rankedTours threads fuel g t with
  | .error er => .error er
  | .ok r => emitBits threads g t r.1 r.2.1 r.2.2

/-- The list `[G 0, ..., G (N-1)]`. -/
def tab {α : Type} (N : Nat) (G : Nat → α) : List α := (List.range N).map G

/-! ## Correctness of `parallel_list_ranking` on a single chain -/

/-- Data of a run of the list ranking: the array length `N`, the number of
splitters `s`, the chunk `chk`, the initial array as a function `G0`, and the
chain as the two inverse maps `node` (position to index) and `pos`. -/
structure LRCtx where
  N : Nat
  s : Nat
  chk : Nat
  G0 : Nat → ENode
  node : Nat → Nat
  pos : Nat → Nat

/-- The hypotheses on a run: between one and `N` splitters, `chk = N / s`, and
`node`/`pos` describe a chain from index 0 through all nodes that ends with
`next = 0`. -/
structure LRCtx.OK (c : LRCtx) : Prop where
  s_pos : 1 ≤ c.s
  s_le : c.s ≤ c.N
  chk_eq : c.chk = c.N / c.s
  node_lt : ∀ t, t < c.N → c.node t < c.N
  pos_lt : ∀ j, j < c.N → c.pos j < c.N
  node_pos : ∀ j, j < c.N → c.node (c.pos j) = j
  pos_node : ∀ t, t < c.N → c.pos (c.node t) = t
  node_zero : c.node 0 = 0
  link : ∀ t, t + 1 < c.N → (c.G0 (c.node t)).next = (c.node (t + 1) : Int)
  last : (c.G0 (c.node (c.N - 1))).next = 0

/-- Index `j` is a splitter: `j = i * chk` for some `i < s`. -/
def LRCtx.isSp (c : LRCtx) (j : Nat) : Prop := j % c.chk = 0 ∧ j / c.chk < c.s

instance (c : LRCtx) (j : Nat) : Decidable (c.isSp j) := by
  unfold LRCtx.isSp; exact inferInstance

/-- Original rank of the node at position `t`. -/
def LRCtx.rk (c : LRCtx) (t : Nat) : Nat := (c.G0 (c.node t)).rank

/-- Sum of the original ranks of the nodes at positions `< t`. -/
def LRCtx.pre (c : LRCtx) : Nat → Nat
  | 0 => 0
  | t + 1 => c.pre t + c.rk t

/-- Position of the last splitter strictly before position `t`. -/
def LRCtx.base (c : LRCtx) : Nat → Nat
  | 0 => 0
  | t + 1 => if c.isSp (c.node t) then t else c.base t

/-- Index of the sublist that owns position `t ≥ 1`. -/
def LRCtx.own (c : LRCtx) (t : Nat) : Nat := c.node (c.base t) / c.chk

/-- Rank written by the walker at position `t`: the sum of the ranks between
the last splitter and `t`, both excluded, with the walker's wrap-around. -/
def LRCtx.loc (c : LRCtx) : Nat → Nat
  | 0 => 0
  | t + 1 => if c.isSp (c.node t) then 0 else (c.loc t + c.rk t) % UINT

/-- Value of `curr` when a walk started at position `t` with `d` positions
left stops. -/
def LRCtx.endMark (c : LRCtx) : Nat → Nat → Int
  | 0, _ => 0
  | d + 1, t => if c.isSp (c.node t) then -((c.node t / c.chk : Nat) : Int) - 1
                else c.endMark d (t + 1)

/-- Position at which a walk started at position `t` stops. -/
def LRCtx.endPos (c : LRCtx) : Nat → Nat → Nat
  | 0, t => t
  | d + 1, t => if c.isSp (c.node t) then t else c.endPos d (t + 1)

/-- State of the array after the splitters are installed. -/
def LRCtx.G1 (c : LRCtx) (j : Nat) : ENode :=
  if c.isSp j then { c.G0 j with next := -((j / c.chk : Nat) : Int) - 1 } else c.G0 j

/-- Sublist table after the splitters are installed. -/
def LRCtx.S1 (c : LRCtx) (i : Nat) : SublistNode :=
  ⟨((i * c.chk : Nat) : Int), -1, (c.G0 (i * c.chk)).next, (c.G0 (i * c.chk)).rank⟩

/-- State written by walker `i` from position `t` on. -/
def LRCtx.walked (c : LRCtx) (i t : Nat) (F : Nat → ENode) (j : Nat) : ENode :=
  if t ≤ c.pos j ∧ c.base (c.pos j) = c.base t then
    ⟨-(i : Int) - 1, (c.G0 j).value, c.loc (c.pos j)⟩
  else F j

/-- Position of splitter `i` on the chain. -/
def LRCtx.P (c : LRCtx) (i : Nat) : Nat := c.pos (i * c.chk)

/-- Array after the walkers of the sublists `< k` have run. -/
def LRCtx.G2 (c : LRCtx) (k j : Nat) : ENode :=
  if 1 ≤ c.pos j ∧ c.own (c.pos j) < k then
    ⟨-(c.own (c.pos j) : Int) - 1, (c.G0 j).value, c.loc (c.pos j)⟩
  else c.G1 j

/-- Field `next` of sublist `i` after its walker has run. -/
def LRCtx.nxt (c : LRCtx) (i : Nat) : Int :=
  -(c.endMark (c.N - (c.P i + 1)) (c.P i + 1)) - 1

/-- Sublist table after the walkers of the sublists `< k` have run. -/
def LRCtx.S2 (c : LRCtx) (k i : Nat) : SublistNode :=
  ⟨((i * c.chk : Nat) : Int), if i < k then c.nxt i else -1, (c.G0 (i * c.chk)).next,
    if 1 ≤ c.P i ∧ c.own (c.P i) < k then (c.loc (c.P i) + c.rk (c.P i)) % UINT
    else (c.G0 (i * c.chk)).rank⟩

/-- Sublist table after the sequential pass over it. -/
def LRCtx.S3 (c : LRCtx) (i : Nat) : SublistNode :=
  { c.S2 c.s i with value := c.pre (c.P i + 1) % UINT }

/-- Sublist table when the sequential pass arrives at position `p`. -/
def LRCtx.S3p (c : LRCtx) (p i : Nat) : SublistNode :=
  if c.P i < p then c.S3 i else c.S2 c.s i

/-- Final state of the array: node `j` carries the marker of its sublist and
the sum of the original ranks before it on the chain. -/
def LRCtx.Gfin (c : LRCtx) (j : Nat) : ENode :=
  ⟨-(c.own (c.pos j) : Int) - 1, (c.G0 j).value, c.pre (c.pos j) % UINT⟩

/-- Array when the last region has handled the indices in `[1, m)`. -/
def LRCtx.F4 (c : LRCtx) (m j : Nat) : ENode :=
  if 1 ≤ j ∧ j < m then c.Gfin j else c.G2 c.s j

/-- Field `rank` at index `j` of `A`. -/
def rankAt (A : List ENode) (j : Nat) : Nat := (A.getD j ⟨0, 0, 0⟩).rank

/-- Field `next` at index `j` of `A`. -/
def nextAt (A : List ENode) (j : Nat) : Int := (A.getD j ⟨0, 0, 0⟩).next

/-- Field `value` at index `j` of `A`. -/
def valueAt (A : List ENode) (j : Nat) : Nat := (A.getD j ⟨0, 0, 0⟩).value

/-- Sum of the ranks that `A` stores at the first `t` nodes of the chain `L`. -/
def rankBefore (A : List ENode) (L : List Nat) (t : Nat) : Nat :=
  ((L.take t).map (rankAt A)).sum

/-- The `next` fields of `A` form a single chain: `L` lists the indices of `A`
in list order, starting at index 0 and visiting every index exactly once;
every node points to the following one and the last node has `next = 0`. -/
def SingleChain (A : List ENode) (L : List Nat) : Prop :=
  L.Perm (List.range A.length) ∧ L.head? = some 0 ∧
  (∀ t, t < L.length - 1 → nextAt A (L.getD t 0) = ((L.getD (t + 1) 0 : Nat) : Int)) ∧
  nextAt A (L.getD (L.length - 1) 0) = 0

instance (A : List ENode) (L : List Nat) : Decidable (SingleChain A L) := by
  unfold SingleChain; exact inferInstance

/-- The run data of `listRankingWith s _ A _` on the chain `L`. -/
def chainCtx (A : List ENode) (L : List Nat) (s : Nat) : LRCtx :=
  ⟨A.length, s, A.length / s, fun j => A.getD j ⟨0, 0, 0⟩, fun t => L.getD t 0,
    fun j => L.indexOf j⟩

/-- The `rank` fields of the array returned by a run. -/
def ranksOf (r : Except Fault (List ENode)) : Except Fault (List Nat) :=
  match r with
  | .ok A => .ok (A.map ENode.rank)
  | .error e => .error e

/-- A two-node list `0 → 1` with both ranks equal to 1. -/
def twoNodes : List ENode := [⟨1, 0, 1⟩, ⟨0, 0, 1⟩]

/-- A three-node list `0 → 1 → 2` whose ranks sum to `2^32`. -/
def wrapNodes : List ENode := [⟨1, 0, 4294967295⟩, ⟨2, 0, 1⟩, ⟨0, 0, 0⟩]

/-- The six-node list `0 → 1 → ... → 5` with all ranks 1 and the given value
in the last node's `next`. -/
def sixNodes (term : Int) : List ENode :=
  [⟨1, 0, 1⟩, ⟨2, 0, 1⟩, ⟨3, 0, 1⟩, ⟨4, 0, 1⟩, ⟨5, 0, 1⟩, ⟨term, 0, 1⟩]

/-- State of `sixNodes (-1)` and of its sublist table after the splitters
are installed (three splitters, chunk 2). -/
def sixSplit : List ENode × List SublistNode :=
  ([⟨-1, 0, 1⟩, ⟨2, 0, 1⟩, ⟨-2, 0, 1⟩, ⟨4, 0, 1⟩, ⟨-3, 0, 1⟩, ⟨-1, 0, 1⟩],
   [⟨0, -1, 1, 1⟩, ⟨2, -1, 3, 1⟩, ⟨4, -1, 5, 1⟩])

/-- State of `sixNodes (-1)` and of its sublist table after the three walks:
the `next` fields of the table form the cycle `0 → 1 → 2 → 0`. -/
def sixRanked : List ENode × List SublistNode :=
  ([⟨-1, 0, 1⟩, ⟨-1, 0, 0⟩, ⟨-1, 0, 1⟩, ⟨-2, 0, 0⟩, ⟨-2, 0, 1⟩, ⟨-3, 0, 0⟩],
   [⟨0, 1, 1, 1⟩, ⟨2, 2, 3, 2⟩, ⟨4, 0, 5, 2⟩])

/-- The triangle: three vertices with canonical order `[0, 1, 2]`, each
adjacent to the other two. -/
def triangleG : Graph :=
  { V := [⟨0, 1, 0⟩, ⟨2, 3, 1⟩, ⟨4, 5, 2⟩],
    E := [⟨0, 1, 3⟩, ⟨0, 2, 4⟩, ⟨1, 2, 5⟩, ⟨1, 0, 0⟩, ⟨2, 0, 1⟩, ⟨2, 1, 2⟩],
    n := 3, m := 3 }

/-- The spanning tree of the triangle with the edges 0-1 and 0-2, rooted at
vertex 0. -/
def triangleT : Tree :=
  { N := [⟨0, 1⟩, ⟨2, 2⟩, ⟨3, 3⟩],
    E := [⟨0, 1, 2⟩, ⟨0, 2, 3⟩, ⟨1, 0, 0⟩, ⟨2, 0, 1⟩],
    n := 3 }

/-! ## Valid inputs of `parallel_succinct_graph` and the Euler tour -/

/-- Source vertex of half-edge `i` of the tree. -/
def Tree.src (t : Tree) (i : Nat) : Nat := (t.E.getD i ⟨0, 0, 0⟩).src

/-- Target vertex of half-edge `i` of the tree. -/
def Tree.tgt (t : Tree) (i : Nat) : Nat := (t.E.getD i ⟨0, 0, 0⟩).tgt

/-- Twin (field `p_tgt`) of half-edge `i` of the tree. -/
def Tree.twin (t : Tree) (i : Nat) : Nat := (t.E.getD i ⟨0, 0, 0⟩).p_tgt

/-- First half-edge of node `v`. -/
def Tree.first (t : Tree) (v : Nat) : Nat := (t.N.getD v ⟨0, 0⟩).first

/-- Last half-edge of node `v`. -/
def Tree.last (t : Tree) (v : Nat) : Nat := (t.N.getD v ⟨0, 0⟩).last

/-- Number of half-edges of the tree, `2(n-1)`. -/
def Tree.H (t : Tree) : Nat := 2 * t.n - 2

/-- Source vertex of half-edge `i` of the graph. -/
def Graph.src (g : Graph) (i : Nat) : Nat := (g.E.getD i ⟨0, 0, 0⟩).src

/-- Target vertex of half-edge `i` of the graph. -/
def Graph.tgt (g : Graph) (i : Nat) : Nat := (g.E.getD i ⟨0, 0, 0⟩).tgt

/-- Twin (field `p_tgt`) of half-edge `i` of the graph. -/
def Graph.twin (g : Graph) (i : Nat) : Nat := (g.E.getD i ⟨0, 0, 0⟩).p_tgt

/-- Canonical order of vertex `v`. -/
def Graph.ord (g : Graph) (v : Nat) : Nat := (g.V.getD v ⟨0, 0, 0⟩).order

/-- Number of half-edges of the graph that leave vertex `v`. -/
def Graph.deg (g : Graph) (v : Nat) : Nat :=
  ((Finset.range (2 * g.m)).filter (fun i => g.src i = v)).card

/-- Tree half-edge `i` is a forward edge: the test of the classifier. -/
def isFwd (g : Graph) (t : Tree) (i : Nat) : Prop := g.ord (t.src i) < g.ord (t.tgt i)

instance (g : Graph) (t : Tree) (i : Nat) : Decidable (isFwd g t i) := by
  unfold isFwd; exact inferInstance

/-- A valid input: `n ≥ 2` vertices, `m ≥ n - 1` edges, sizes that fit in a
`uint`; the canonical order is a permutation with the root (vertex 0) lowest;
`G` is a loop-free graph stored as `2m` half-edges with involutive twins, whose
half-edge 0 leaves the root and whose degrees are below `2^16`; `T` is stored
as `2n - 2` half-edges grouped by source node, the root's range starting at 0;
the first half-edge of every other node goes to its parent (lower order), all
other tree half-edges go to children (higher order); tree twins are
involutive; and `emb` embeds the tree half-edges into the graph half-edges
(`T` is a spanning tree of `G`). -/
structure ValidInput (g : Graph) (t : Tree) (emb : Nat → Nat) : Prop where
  n_ge : 2 ≤ t.n
  m_ge : t.n ≤ g.m + 1
  size_lt : 2 * g.m + 2 < UINT
  lenV : g.V.length = t.n
  lenGE : g.E.length = 2 * g.m
  lenN : t.N.length = t.n
  lenTE : t.E.length = t.H
  ord_lt : ∀ v, v < t.n → g.ord v < t.n
  ord_inj : ∀ u, u < t.n → ∀ v, v < t.n → g.ord u = g.ord v → u = v
  root_lowest : ∀ v, v < t.n → v ≠ 0 → g.ord 0 < g.ord v
  g_src_lt : ∀ i, i < 2 * g.m → g.src i < t.n
  g_tgt_lt : ∀ i, i < 2 * g.m → g.tgt i < t.n
  g_loop : ∀ i, i < 2 * g.m → g.src i ≠ g.tgt i
  g_first : g.src 0 = 0
  g_twin_lt : ∀ i, i < 2 * g.m → g.twin i < 2 * g.m
  g_twin_src : ∀ i, i < 2 * g.m → g.src (g.twin i) = g.tgt i
  g_twin_tgt : ∀ i, i < 2 * g.m → g.tgt (g.twin i) = g.src i
  g_twin_twin : ∀ i, i < 2 * g.m → g.twin (g.twin i) = i
  deg_lt : ∀ v, v < t.n → g.deg v < USHORT
  t_src_lt : ∀ i, i < t.H → t.src i < t.n
  t_tgt_lt : ∀ i, i < t.H → t.tgt i < t.n
  t_range : ∀ i, i < t.H → t.first (t.src i) ≤ i ∧ i ≤ t.last (t.src i)
  t_range_src : ∀ v, v < t.n → ∀ i, t.first v ≤ i → i ≤ t.last v → i < t.H ∧ t.src i = v
  t_nonempty : ∀ v, v < t.n → t.first v ≤ t.last v
  t_root : t.first 0 = 0
  t_twin_lt : ∀ i, i < t.H → t.twin i < t.H
  t_twin_src : ∀ i, i < t.H → t.src (t.twin i) = t.tgt i
  t_twin_tgt : ∀ i, i < t.H → t.tgt (t.twin i) = t.src i
  t_twin_twin : ∀ i, i < t.H → t.twin (t.twin i) = i
  t_back : ∀ i, i < t.H → t.src i ≠ 0 → i = t.first (t.src i) →
    g.ord (t.tgt i) < g.ord (t.src i)
  t_fwd : ∀ i, i < t.H → (t.src i = 0 ∨ i ≠ t.first (t.src i)) →
    g.ord (t.src i) < g.ord (t.tgt i)
  emb_lt : ∀ i, i < t.H → emb i < 2 * g.m
  emb_src : ∀ i, i < t.H → g.src (emb i) = t.src i
  emb_tgt : ∀ i, i < t.H → g.tgt (emb i) = t.tgt i
  emb_inj : ∀ i, i < t.H → ∀ j, j < t.H → emb i = emb j → i = j

/-- Cyclic successor of half-edge `p` in the adjacency range of its source. -/
def csucc (t : Tree) (p : Nat) : Nat :=
  if p = t.last (t.src p) then t.first (t.src p) else p + 1

/-- Concatenation `f d ++ f (d+1) ++ ... ++ f (d+cnt-1)`. -/
def concatOver (f : Nat → List Nat) : Nat → Nat → List Nat
  | _, 0 => []
  | d, cnt + 1 => f d ++ concatOver f (d + 1) cnt

/-- Euler tour of the subtree entered through the forward half-edge `c`:
`c`, the tours of the children of its target, and the twin of `c`. -/
def subTour (t : Tree) : Nat → Nat → List Nat
  | 0, _ => []
  | fuel + 1, c =>
    c :: (concatOver (subTour t fuel) (t.first (t.tgt c) + 1)
      (t.last (t.tgt c) - t.first (t.tgt c)) ++ [t.twin c])

/-- Euler tour of the tree: the tours of the children of the root. -/
def tour (t : Tree) : List Nat := concatOver (subTour t t.n) 0 (t.last 0 + 1)

/-- First element of `l` as a C `int`, or `k` for the empty list. -/
def headOr (l : List Nat) (k : Int) : Int :=
  match l with
  | [] => k
  | a :: _ => (a : Int)

/-- Every element of `l` has the following element as `nx`, and the last one
has `k`. -/
def Linked (nx : Nat → Int) : List Nat → Int → Prop
  | [], _ => True
  | a :: l, k => nx a = headOr l k ∧ Linked nx l k

/-- The `next` pointer that the classifier stores for tree half-edge `i`. -/
def tourNext (t : Tree) (i : Nat) : Int := ((csucc t (t.twin i) : Nat) : Int)

/-- List order of the half-edges: the Euler tour as a map position ↦ index. -/
def tourAt (t : Tree) (p : Nat) : Nat := (tour t).getD p 0

/-! ## The counters `lower_numb` and `higher_numb` -/

/-- Number of graph half-edges `i` with `1 ≤ i < k` that leave `v` towards a
vertex of lower order. -/
def cntLow (g : Graph) (v k : Nat) : Nat :=
  ((Finset.range k).filter
    (fun i => 1 ≤ i ∧ g.src i = v ∧ g.ord (g.src i) > g.ord (g.tgt i))).card

/-- Number of graph half-edges `i` with `1 ≤ i < k` that leave `v` and do not
go to a vertex of lower order. -/
def cntHigh (g : Graph) (v k : Nat) : Nat :=
  ((Finset.range k).filter
    (fun i => 1 ≤ i ∧ g.src i = v ∧ ¬ (g.ord (g.src i) > g.ord (g.tgt i)))).card

/-- Value of `lower_numb[v]` after the second region. -/
def lowF (g : Graph) (v : Nat) : Nat :=
  if 1 ≤ v then cntLow g v (2 * g.m) - 1 else cntLow g v (2 * g.m)

/-- Value of `higher_numb[v]` after the second region. -/
def highF (g : Graph) (t : Tree) (v : Nat) : Nat :=
  if 1 ≤ v then cntHigh g v (2 * g.m) - (t.last v - t.first v) else cntHigh g v (2 * g.m)

/-! ## The classifier -/

/-- Rank seed that the classifier stores in `ET[i]`. -/
def wgt (g : Graph) (t : Tree) (i : Nat) : Nat :=
  if isFwd g t i then lowF g (t.tgt i) + 1 else highF g t (t.src i) + 1

/-- Contents of `ET[i]` after the classifier. -/
def etF (g : Graph) (t : Tree) (i : Nat) : ENode := ⟨tourNext t i, 0, wgt g t i⟩

/-- Contents of `ET2[i]` after the classifier. -/
def et2F (g : Graph) (t : Tree) (i : Nat) : ENode :=
  ⟨tourNext t i, if isFwd g t i then 1 else 0, 1⟩

/-! ## Total weight of the Euler tour -/

/-- Sum of the rank seeds of the first `p` half-edges of the tour: the final
rank of the half-edge at position `p`. -/
def Wsum (g : Graph) (t : Tree) (p : Nat) : Nat := (((tour t).take p).map (wgt g t)).sum

/-- Number of brackets: the sum of `lower_numb[v] + higher_numb[v]` over the
vertices other than the root. -/
def brk (g : Graph) (t : Tree) : Nat :=
  Finset.sum (Finset.Ico 1 t.n) (fun v => lowF g v + highF g t v)

/-! ## Positions on the Euler tour -/

/-- Position of half-edge `i` on the Euler tour. -/
def posOf (t : Tree) (i : Nat) : Nat := (tour t).indexOf i

/-- Final rank of `ET[i]`: the weight of everything before `i` on the tour. -/
def r1F (g : Graph) (t : Tree) (i : Nat) : Nat := Wsum g t (posOf t i)

/-! ## Emission of the bit arrays -/

/-- Lower end of the bracket range written for the backward half-edge `i`. -/
def loF (g : Graph) (t : Tree) (i : Nat) : Nat := r1F g t i - posOf t i

/-- Bit `q` of `S1` after the half-edges `0 .. k-1` have been processed. -/
def s1F (g : Graph) (t : Tree) (k q : Nat) : Bool :=
  (List.range k).any (fun i => decide (q = r1F g t i + 1))

/-- Bit `q` of `S2` after the half-edges `0 .. k-1` have been processed. -/
def s2F (g : Graph) (t : Tree) (k q : Nat) : Bool :=
  (List.range k).any (fun i => decide (isFwd g t i) && decide (q = posOf t i + 1))

/-- Bit `q` of `S3` after the half-edges `0 .. k-1` have been processed. -/
def s3F (g : Graph) (t : Tree) (k q : Nat) : Bool :=
  (List.range k).any (fun i => !decide (isFwd g t i) &&
    (decide (loF g t i ≤ q) && decide (q < loF g t i + highF g t (t.src i))))

/-- Bit `q` of the final `S1`. -/
def S1F (g : Graph) (t : Tree) (q : Nat) : Bool :=
  (s1F g t t.H q || decide (q = 0)) || decide (q = 2 * g.m + 1)

/-- Bit `q` of the final `S2`. -/
def S2F (g : Graph) (t : Tree) (q : Nat) : Bool := s2F g t t.H q || decide (q = 0)

/-- The three bit arrays that the reference run (one worker) produces. -/
def bitsF (g : Graph) (t : Tree) : Bits :=
  ⟨tab (2 * g.m + 2) (S1F g t), tab (2 * t.n) (S2F g t),
    tab (2 * (g.m + 1 - t.n)) (s3F g t t.H)⟩

/-- Embedding of the tree half-edges of `triangleT` into the half-edges of
`triangleG`. -/
def triangleEmb (i : Nat) : Nat := [0, 1, 3, 4].getD i 0

/-! ## The parenthesis word of the Euler tour -/

/-- A word over `1 = (` and `0 = )` in which no prefix closes more than it
opens and the whole word opens as much as it closes. -/
def Dyck (w : List Bool) : Prop :=
  (∀ k, (w.take k).count false ≤ (w.take k).count true) ∧ w.count true = w.count false

/-- The word of the tour: one symbol per half-edge, `1` for a forward one. -/
def tourWord (g : Graph) (t : Tree) (l : List Nat) : List Bool :=
  l.map (fun i => decide (isFwd g t i))

/-! ## `nextE` and `prevE` (defs.c, lines 75-81) -/

/-- The macro `min(a, b)` of defs.h: `_a < _b ? _a : _b`. -/
def cmin (a b : Nat) : Nat := if a < b then a else b

/-- The macro `max(a, b)` of defs.h: `_a > _b ? _a : _b`. -/
def cmax (a b : Nat) : Nat := if a > b then a else b

/-- Model of `nextE(v, i)`: `min(v.last, i+1)` on `uint` values. -/
def nextE (v : Vertex) (i : Nat) : Nat := cmin v.last ((i + 1) % UINT)

/-- Model of `prevE(v, i)`: `max(v.first, i-1)` on `uint` values. -/
def prevE (v : Vertex) (i : Nat) : Nat := cmax v.first (usub i 1)

/-! ## Lengths of the bit arrays (parallel_succinct_graph.c, lines 67-73) -/

/-- The value of `num_parentheses = 2*t->n` (line 67). -/
def num_parentheses (t : Tree) : Nat := (2 * t.n) % UINT

/-- The value of `num_brackets = 2*(g->m - t->n + 1)` (line 68). -/
def num_brackets (g : Graph) (t : Tree) : Nat := (2 * ((usub g.m t.n + 1) % UINT)) % UINT

/-- The value of `num_total = num_parentheses + num_brackets` (line 69). -/
def num_total (g : Graph) (t : Tree) : Nat := (num_parentheses t + num_brackets g t) % UINT

/-! ## The counters `lower_numb` and `higher_numb` as neighbour counts -/

/-- Model of `degree(v)` (defs.c, lines 51-53): `v.last - v.first + 1`. -/
def degree (v : Vertex) : Nat := (usub v.last v.first + 1) % UINT

/-- Tree degree of node `v`: `degree` applied to its range
`T.N[v].first .. T.N[v].last`. -/
def Tree.deg (t : Tree) (v : Nat) : Nat := degree ⟨t.first v, t.last v, 0⟩

/-- No two half-edges of `G` have the same source and the same target. -/
def Graph.Simple (g : Graph) : Prop :=
  ∀ i, i < 2 * g.m → ∀ j, j < 2 * g.m → g.src i = g.src j → g.tgt i = g.tgt j → i = j

instance (g : Graph) : Decidable g.Simple := by
  unfold Graph.Simple; exact inferInstance

/-- Half-edges of `G` that leave `v` towards a vertex of lower order. -/
def lowerEdges (g : Graph) (v : Nat) : Finset Nat :=
  (Finset.range (2 * g.m)).filter (fun i => g.src i = v ∧ g.ord (g.tgt i) < g.ord v)

/-- Half-edges of `G` that leave `v` towards a vertex of higher order. -/
def upperEdges (g : Graph) (v : Nat) : Finset Nat :=
  (Finset.range (2 * g.m)).filter (fun i => g.src i = v ∧ g.ord v < g.ord (g.tgt i))

/-- The neighbours `u` of `v` in `G` with `order[u] < order[v]`. -/
def lowerNbrs (g : Graph) (v : Nat) : Finset Nat := (lowerEdges g v).image (fun i => g.tgt i)

/-- The neighbours `u` of `v` in `G` with `order[u] > order[v]`. -/
def upperNbrs (g : Graph) (v : Nat) : Finset Nat := (upperEdges g v).image (fun i => g.tgt i)

/-- The neighbours of `v` in the tree. -/
def treeNbrs (t : Tree) (v : Nat) : Finset Nat :=
  ((Finset.range t.H).filter (fun i => t.src i = v)).image (fun i => t.tgt i)

/-- The neighbours `u` of `v` in `G` with `order[u] > order[v]` that are not
neighbours of `v` in the tree. -/
def nonTreeUpper (g : Graph) (t : Tree) (v : Nat) : Finset Nat :=
  (upperNbrs g v).filter (fun u => u ∉ treeNbrs t v)

/-! ## Correctness of `parallel_prefix_sum` when the chunks cover the array -/

/-- Follows the spec's words: the sequential inclusive prefix sums of `A`
modulo `2^32`, cell `j` holding `A[0] + ... + A[j]`. -/
def inclusivePrefixSums (A : List Nat) : List Nat :=
  tab A.length (fun j => (A.take (j + 1)).sum % UINT)

/-- The sum `G a + ... + G (b-1)`. -/
def segSum (G : Nat → Nat) (a b : Nat) : Nat := Finset.sum (Finset.Ico a b) G

/-- Cell `k` after the local scans: the sum of its chunk up to `k`. -/
def psG1 (F : Nat → Nat) (c k : Nat) : Nat := segSum F ((k / c) * c) (k + 1) % UINT

/-- The inclusive prefix sum at `k`, modulo `2^32`. -/
def psPre (F : Nat → Nat) (k : Nat) : Nat := segSum F 0 (k + 1) % UINT

/-- Cell `k` after the carry loop has handled the chunks up to `i`: the last
cells of the chunks `1 .. i` hold prefix sums. -/
def psC (F : Nat → Nat) (c i k : Nat) : Nat :=
  if (k + 1) % c = 0 ∧ (k + 1) / c ≤ i then psPre F k else psG1 F c k

/-- Cell `k` after the carry into `A[size-1]`. -/
def psD (F : Nat → Nat) (c N P k : Nat) : Nat :=
  if k = N - 1 then psPre F k else psC F c (P - 1) k

/-- Cell `k` after the last region has handled the chunks below `i`. -/
def psE (F : Nat → Nat) (c N i k : Nat) : Nat :=
  if k < i * c ∨ (k + 1) % c = 0 ∨ k = N - 1 then psPre F k else psG1 F c k

/-! ## The harness (main.c, lines 42-52) -/

/-- What `main` does with its arguments: it prints the usage line and exits
with `EXIT_FAILURE`, or it goes on and calls the three readers with `argv[1]`,
`argv[2]` and `argv[3]`; `argv[argc]` is the null pointer, here `none`. -/
inductive MainAction (α : Type) where
  | usage : MainAction α
  | read (graph tree : α) (order : Option α) : MainAction α
deriving DecidableEq, Repr

/-- Model of the argument handling of `main(argc, argv)`; `argv` lists the
program name followed by the arguments, so `argc = argv.length`. -/
def main_args {α : Type} (argv : List α) : MainAction α :=
  if argv.length < 3 then .usage
  else
    match argv with
    | _ :: a1 :: a2 :: rest => .read a1 a2 rest.head?
    | _ => .usage

/-! ## The twin post-pass of the readers (util.c, lines 83-94 and 232-243) -/

/-- Inner loop of the post-pass: `for (j = first; j <= last; j++)
if (E[j].tgt == s) { ...; break; }`, run for `cnt` positions from `j`; the
result is the position found, if any. -/
def findTwin (E : List Edge) (s : Nat) : Nat → Nat → Except Fault (Option Nat)
  | _, 0 => .ok none
  | j, cnt + 1 =>
    match rd E j with
    | .error e => .error e
    | .ok ej => if ej.tgt = s then .ok (some j) else findTwin E s (j + 1) cnt

/-- Body of the outer loop of the post-pass for half-edge `i`; `R` lists the
ranges `(first, last)` of the vertices (or nodes). -/
def twinStep (R : List (Nat × Nat)) (E : List Edge) (i : Nat) : Except Fault (List Edge) :=
  match rd E i with
  | .error e => .error e
  | .ok ei =>
    match rd R ei.tgt with
    | .error e => .error e
    | .ok rg =>
      match findTwin E ei.src rg.1 (rg.2 + 1 - rg.1) with
      | .error e => .error e
      | .ok none => .ok E
      | .ok (some j) => wr E i { ei with p_tgt := j }

/-- The post-pass over the half-edges `0 .. cnt-1`. -/
def fill_twins (R : List (Nat × Nat)) (cnt : Nat) (E : List Edge) : Except Fault (List Edge) :=
  forLoop (twinStep R) 0 cnt E

/-- The post-pass of `read_graph_from_file`, over `2*g->m` half-edges. -/
def graph_twins (g : Graph) : Except Fault (List Edge) :=
  fill_twins (g.V.map (fun v => (v.first, v.last))) ((2 * g.m) % UINT) g.E

/-- The post-pass of `read_tree_from_file`, over `2*(t->n-1)` half-edges. -/
def tree_twins (t : Tree) : Except Fault (List Edge) :=
  fill_twins (t.N.map (fun v => (v.first, v.last))) ((2 * usub t.n 1) % UINT) t.E

/-- Source of half-edge `i` of the array `E`. -/
def srcOf (E : List Edge) (i : Nat) : Nat := (E.getD i ⟨0, 0, 0⟩).src

/-- Target of half-edge `i` of the array `E`. -/
def tgtOf (E : List Edge) (i : Nat) : Nat := (E.getD i ⟨0, 0, 0⟩).tgt

/-- Twin pointer of half-edge `i` of the array `E`. -/
def twinOf (E : List Edge) (i : Nat) : Nat := (E.getD i ⟨0, 0, 0⟩).p_tgt

/-- The arrays left by the first pass of a reader on the adjacency lists of a
simple graph with symmetric lists: every half-edge lies in the range of its
source, the range of every vertex that is the target of a half-edge holds
half-edges of that vertex only, no two half-edges have the same source and
target, and every half-edge has a reverse half-edge. -/
structure SymmetricLists (R : List (Nat × Nat)) (E : List Edge) : Prop where
  tgt_lt : ∀ i, i < E.length → tgtOf E i < R.length
  in_range : ∀ i, i < E.length →
    (R.getD (srcOf E i) (0, 0)).1 ≤ i ∧ i ≤ (R.getD (srcOf E i) (0, 0)).2
  range : ∀ i, i < E.length → ∀ j, (R.getD (tgtOf E i) (0, 0)).1 ≤ j →
    j ≤ (R.getD (tgtOf E i) (0, 0)).2 → j < E.length ∧ srcOf E j = tgtOf E i
  simple : ∀ i, i < E.length → ∀ j, j < E.length →
    srcOf E i = srcOf E j → tgtOf E i = tgtOf E j → i = j
  symm : ∀ i, i < E.length → ∃ j, j < E.length ∧ srcOf E j = tgtOf E i ∧ tgtOf E j = srcOf E i

/-- The half-edges of `E1` are those of `E` with twin pointers that are
involutive and reverse source and target. -/
def Twinned (E E1 : List Edge) : Prop :=
  E1.length = E.length ∧ ∀ i, i < E.length →
    srcOf E1 i = srcOf E i ∧ tgtOf E1 i = tgtOf E i ∧ twinOf E1 i < E.length ∧
    twinOf E1 (twinOf E1 i) = i ∧ srcOf E1 (twinOf E1 i) = tgtOf E1 i ∧
    tgtOf E1 (twinOf E1 i) = srcOf E1 i

/-- The scan of the inner loop as a function of the target fields. -/
def scanF (tg : Nat → Nat) (s : Nat) : Nat → Nat → Option Nat
  | _, 0 => none
  | j, cnt + 1 => if tg j = s then some j else scanF tg s (j + 1) cnt

/-- The twin that the post-pass finds for half-edge `i`. -/
def twF (R : List (Nat × Nat)) (E : List Edge) (i : Nat) : Nat :=
  (scanF (tgtOf E) (srcOf E i) (R.getD (tgtOf E i) (0, 0)).1
    ((R.getD (tgtOf E i) (0, 0)).2 + 1 - (R.getD (tgtOf E i) (0, 0)).1)).getD 0

/-- The array after the post-pass has handled the half-edges below `k`. -/
def twG (R : List (Nat × Nat)) (E : List Edge) (k j : Nat) : Edge :=
  if j < k then ⟨srcOf E j, tgtOf E j, twF R E j⟩ else E.getD j ⟨0, 0, 0⟩

/-- The triangle as the first pass of `read_graph_from_file` leaves it: all
twin pointers still `0`. -/
def triangleRawG : Graph :=
  { V := [⟨0, 1, 0⟩, ⟨2, 3, 1⟩, ⟨4, 5, 2⟩],
    E := [⟨0, 1, 0⟩, ⟨0, 2, 0⟩, ⟨1, 2, 0⟩, ⟨1, 0, 0⟩, ⟨2, 0, 0⟩, ⟨2, 1, 0⟩],
    n := 3, m := 3 }

/-- The spanning tree `0-1, 0-2` as the first pass of `read_tree_from_file`
leaves it: all twin pointers still `0`. -/
def triangleRawT : Tree :=
  { N := [⟨0, 1⟩, ⟨2, 2⟩, ⟨3, 3⟩],
    E := [⟨0, 1, 0⟩, ⟨0, 2, 0⟩, ⟨1, 0, 0⟩, ⟨2, 0, 0⟩],
    n := 3 }

/-! ## Interleavings of the workers of a parallel region -/

/-- Sequential execution of a list of operations on a shared state. -/
def runSeq {σ α : Type} (act : σ → α → Except Fault σ) : List α → σ → Except Fault σ
  | [], st => .ok st
  | a :: l, st =>
    match act st a with
    | .ok st1 => runSeq act l st1
    | .error e => .error e

/-- One step of a schedule: worker `h` performs the next operation of its
program as one atomic step on the shared state; a worker whose program is
finished does nothing. -/
def stepWorker {σ α : Type} (act : σ → α → Except Fault σ) (cfg : List (List α) × σ)
    (h : Nat) : Except Fault (List (List α) × σ) :=
  match cfg.1.getD h [] with
  | [] => .ok cfg
  | a :: w =>
    match act cfg.2 a with
    | .ok st1 => .ok (cfg.1.set h w, st1)
    | .error e => .error e

/-- Execution of the workers' programs under the schedule `s`, which names
the worker that moves at each step: an interleaving of the programs. -/
def runSchedule {σ α : Type} (act : σ → α → Except Fault σ) :
    List Nat → List (List α) × σ → Except Fault (List (List α) × σ)
  | [], cfg => .ok cfg
  | h :: s, cfg =>
    match stepWorker act cfg h with
    | .ok cfg1 => runSchedule act s cfg1
    | .error e => .error e

/-! ## The iterations of the workers of the first region -/

/-- The iterations `i` that worker `h` of the first region performs, in
order; each one issues one atomic increment. -/
def itersA (threads : Nat) (g : Graph) (h : Nat) : List Nat :=
  List.range' (chunkLo (2 * g.m / threads) h (some 1))
    (chunkHi threads (2 * g.m / threads) h (2 * g.m) - chunkLo (2 * g.m / threads) h (some 1))

/-- The programs of the `threads` workers of the first region. -/
def workersA (threads : Nat) (g : Graph) : List (List Nat) :=
  (List.range threads).map (itersA threads g)

/-- Number of increments of `lower_numb[v]` among the iterations `done`. -/
def incLow (g : Graph) (done : List Nat) (v : Nat) : Nat :=
  done.countP (fun i => decide (g.src i = v ∧ g.ord (g.src i) > g.ord (g.tgt i)))

/-- Number of increments of `higher_numb[v]` among the iterations `done`. -/
def incHigh (g : Graph) (done : List Nat) (v : Nat) : Nat :=
  done.countP (fun i => decide (g.src i = v ∧ ¬ (g.ord (g.src i) > g.ord (g.tgt i))))

/-- The reads of iteration `i` of the first region are in bounds for counter
arrays of length `n`. -/
def AllowedA (g : Graph) (n : Nat) (i : Nat) : Prop :=
  i < g.E.length ∧ g.src i < g.V.length ∧ g.tgt i < g.V.length ∧ g.src i < n

instance (g : Graph) (n i : Nat) : Decidable (AllowedA g n i) := by
  unfold AllowedA; exact inferInstance

/-! ## The bit sets issued by the workers of the last region -/

/-- A bit of `S1`, `S2` or `S3` for which a set is issued. -/
inductive BitOp where
  | s1 (q : Nat)
  | s2 (q : Nat)
  | s3 (q : Nat)
deriving DecidableEq, Repr

/-- Effect of one bit set on the three bit arrays, as `bit_array_set_bit`
of the model of the routine. -/
def applyBit (b : Bits) : BitOp → Except Fault Bits
  | .s1 q =>
    match bit_array_set_bit b.S1 q with
    | .error e => .error e
    | .ok S => .ok ⟨S, b.S2, b.S3⟩
  | .s2 q =>
    match bit_array_set_bit b.S2 q with
    | .error e => .error e
    | .ok S => .ok ⟨b.S1, S, b.S3⟩
  | .s3 q =>
    match bit_array_set_bit b.S3 q with
    | .error e => .error e
    | .ok S => .ok ⟨b.S1, b.S2, S⟩

/-- The bit sets that iteration `i` of the last region issues, in order
(lines 199-207): bit `ET[i].rank+1` of `S1`, then bit `ET2[i].rank+1` of `S2`
if `ET2[i].value` is set, else the bits `[ll, ul)` of `S3`; for an iteration
`i` whose reads of `ET`, `ET2`, `T.E` and `higher_numb` are inside the
arrays. -/
def emitOps (t : Tree) (higher : List Nat) (ET ET2 : List ENode) (i : Nat) : List BitOp :=
  BitOp.s1 (((ET.getD i ⟨0, 0, 0⟩).rank + 1) % UINT) ::
    (if (ET2.getD i ⟨0, 0, 0⟩).value ≠ 0 then
      [BitOp.s2 (((ET2.getD i ⟨0, 0, 0⟩).rank + 1) % UINT)]
    else
      (List.range' (usub (ET.getD i ⟨0, 0, 0⟩).rank (ET2.getD i ⟨0, 0, 0⟩).rank)
        ((usub (ET.getD i ⟨0, 0, 0⟩).rank (ET2.getD i ⟨0, 0, 0⟩).rank +
            higher.getD (t.src i) 0) % UINT -
          usub (ET.getD i ⟨0, 0, 0⟩).rank (ET2.getD i ⟨0, 0, 0⟩).rank)).map BitOp.s3)

/-- The program of worker `h` of the last region: the bit sets of the
iterations of its chunk. -/
def opsE (threads : Nat) (t : Tree) (higher : List Nat) (ET ET2 : List ENode) (h : Nat) :
    List BitOp :=
  ((List.range' (chunkLo ((2 * t.n) % UINT / threads) h none)
    (chunkHi threads ((2 * t.n) % UINT / threads) h (usub ((2 * t.n) % UINT) 2) -
      chunkLo ((2 * t.n) % UINT / threads) h none)).map (emitOps t higher ET ET2)).flatten

/-- The programs of the `threads` workers of the last region. -/
def workersE (threads : Nat) (t : Tree) (higher : List Nat) (ET ET2 : List ENode) :
    List (List BitOp) :=
  (List.range threads).map (opsE threads t higher ET ET2)

/-- The bit set `op` is inside its array, for arrays of the lengths `N1`,
`N2`, `N3`. -/
def AllowedE (N1 N2 N3 : Nat) : BitOp → Prop
  | .s1 q => q < N1
  | .s2 q => q < N2
  | .s3 q => q < N3

instance (N1 N2 N3 : Nat) (op : BitOp) : Decidable (AllowedE N1 N2 N3 op) := by
  cases op <;> (unfold AllowedE; exact inferInstance)

/-- The schedule `s` is complete for the programs `progs`: every worker
moves at least as often as its program is long. -/
def Complete {α : Type} (s : List Nat) (progs : List (List α)) : Prop :=
  ∀ h, h < progs.length → (progs.getD h []).length ≤ s.count h

instance {α : Type} (s : List Nat) (progs : List (List α)) : Decidable (Complete s progs) := by
  unfold Complete; exact inferInstance

/-- The ranked tour `ET` of the triangle (the value computed by
`rankedTours 2 4 triangleG triangleT`). -/
def triangleET : List ENode :=
  [⟨-1, 0, 0⟩, ⟨-3, 0, 3⟩, ⟨-1, 0, 1⟩, ⟨-2, 0, 5⟩]

/-- The ranked tour `ET2` of the triangle. -/
def triangleET2 : List ENode :=
  [⟨-1, 1, 0⟩, ⟨-3, 1, 2⟩, ⟨-1, 0, 1⟩, ⟨-2, 0, 3⟩]

/-! ## Further valid inputs -/

/-- The path `0 - 1 - 2` with canonical order `[0, 1, 2]` (`n = 3`,
`m = 2`). -/
def pathG : Graph :=
  { V := [⟨0, 0, 0⟩, ⟨1, 2, 1⟩, ⟨3, 3, 2⟩],
    E := [⟨0, 1, 1⟩, ⟨1, 0, 0⟩, ⟨1, 2, 3⟩, ⟨2, 1, 2⟩],
    n := 3, m := 2 }

/-- The path `0 - 1 - 2` as its own spanning tree, rooted at vertex 0. -/
def pathT : Tree :=
  { N := [⟨0, 0⟩, ⟨1, 2⟩, ⟨3, 3⟩],
    E := [⟨0, 1, 1⟩, ⟨1, 0, 0⟩, ⟨1, 2, 3⟩, ⟨2, 1, 2⟩],
    n := 3 }

/-- Embedding of the tree half-edges of `pathT` into those of `pathG`. -/
def pathEmb (i : Nat) : Nat := i

/-- The single edge `0 - 1` (`n = 2`, `m = 1`). -/
def edgeG : Graph :=
  { V := [⟨0, 0, 0⟩, ⟨1, 1, 1⟩],
    E := [⟨0, 1, 1⟩, ⟨1, 0, 0⟩],
    n := 2, m := 1 }

/-- The single edge `0 - 1` as its own spanning tree, rooted at vertex 0. -/
def edgeT : Tree :=
  { N := [⟨0, 0⟩, ⟨1, 1⟩],
    E := [⟨0, 1, 1⟩, ⟨1, 0, 0⟩],
    n := 2 }

/-- Embedding of the tree half-edges of `edgeT` into those of `edgeG`. -/
def edgeEmb (i : Nat) : Nat := i

/-- The spanning tree of the triangle with the edges 0-1 and 0-2 rooted at
vertex 0, the list of the root given as `2 1`. -/
def triangleT2 : Tree :=
  { N := [⟨0, 1⟩, ⟨2, 2⟩, ⟨3, 3⟩],
    E := [⟨0, 2, 3⟩, ⟨0, 1, 2⟩, ⟨1, 0, 1⟩, ⟨2, 0, 0⟩],
    n := 3 }

/-- Embedding of the tree half-edges of `triangleT2` into the half-edges of
`triangleG`. -/
def triangleEmb2 (i : Nat) : Nat := [1, 0, 3, 4].getD i 0

/-! ## The counter updates of the first region as steps on a shared memory -/

/-- The memory of the first region: the shared arrays `lower_numb` and
`higher_numb`, and one private register per worker. -/
structure CMem where
  lower : List Nat
  higher : List Nat
  reg : List Nat
deriving DecidableEq, Repr

/-- The steps that a worker of the first region can take on the memory.
`faa i` is iteration `i` as the source has it, with
`__sync_add_and_fetch(&counter, 1)`: the builtin reads, increments and writes
the counter as one indivisible step. `load w i` and `store w i` are the two
steps of the same iteration written with a plain `counter++`: worker `w` reads
the counter into its register, and later writes the register plus one. -/
inductive COp where
  | faa (i : Nat)
  | load (w i : Nat)
  | store (w i : Nat)
deriving DecidableEq, Repr

/-- The counter that iteration `i` updates (lines 92-97): `lower_numb`
(`true`) or `higher_numb` (`false`) of the source of half-edge `i`; these reads
touch `g->E` and `g->V` only, which no worker writes. -/
def cellOf (g : Graph) (i : Nat) : Except Fault (Bool × Nat) :=
  match rd g.E i with
  | .error e => .error e
  | .ok e =>
    match rd g.V e.src with
    | .error er => .error er
    | .ok vs =>
      match rd g.V e.tgt with
      | .error er => .error er
      | .ok vt => .ok (decide (vs.order > vt.order), e.src)

/-- Effect of one step on the memory. -/
def applyCtr (g : Graph) (m : CMem) : COp → Except Fault CMem
  | .faa i =>
    match countEdge g (m.lower, m.higher) i with
    | .error e => .error e
    | .ok st => .ok ⟨st.1, st.2, m.reg⟩
  | .load w i =>
    match cellOf g i with
    | .error e => .error e
    | .ok c =>
      match rd (if c.1 then m.lower else m.higher) c.2 with
      | .error e => .error e
      | .ok x =>
        match wr m.reg w x with
        | .error e => .error e
        | .ok r => .ok ⟨m.lower, m.higher, r⟩
  | .store w i =>
    match cellOf g i with
    | .error e => .error e
    | .ok c =>
      match rd m.reg w with
      | .error e => .error e
      | .ok x =>
        if c.1 then
          match wr m.lower c.2 ((x + 1) % USHORT) with
          | .error e => .error e
          | .ok l => .ok ⟨l, m.higher, m.reg⟩
        else
          match wr m.higher c.2 ((x + 1) % USHORT) with
          | .error e => .error e
          | .ok l => .ok ⟨m.lower, l, m.reg⟩

/-- The programs of the workers of the first region as in the source: one
atomic increment per iteration of the chunk. -/
def atomicA (threads : Nat) (g : Graph) : List (List COp) :=
  (workersA threads g).map (fun l => l.map COp.faa)

/-- The programs of the workers of the first region with a plain
`counter++` in place of the builtin: a read and a write per iteration. -/
def plainA (threads : Nat) (g : Graph) : List (List COp) :=
  (List.range threads).map
    (fun h => ((itersA threads g h).map (fun i => [COp.load h i, COp.store h i])).flatten)

/-- The iterations whose atomic increments occur in `ops`. -/
def faaIters (ops : List COp) : List Nat :=
  ops.filterMap (fun op => match op with | .faa i => some i | _ => none)

/-- The step `op` is an atomic increment whose reads are in bounds. -/
def AtomicA (g : Graph) (n : Nat) (op : COp) : Prop :=
  ∃ i, op = COp.faa i ∧ AllowedA g n i

/-! ## The bit sets of the last region as steps on words of a shared memory -/

/-- Modelled from the spec: the number of bits of a machine word of the bit
array (`bit_array.h` is not among the sources). -/
def WORD : Nat := 64

/-- Modelled from the spec: the words of `bit_array_create(n)`, `⌈n/64⌉`
zero words. -/
def wordsCreate (n : Nat) : List Nat := List.replicate ((n + (WORD - 1)) / WORD) 0

/-- Bit `q` of a bit array stored in the words `ws`. -/
def bitOf (ws : List Nat) (q : Nat) : Bool := (ws.getD (q / WORD) 0).testBit (q % WORD)

/-- The array of a bit set: `0` for `S1`, `1` for `S2`, `2` for `S3`. -/
def BitOp.arr : BitOp → Nat
  | .s1 _ => 0
  | .s2 _ => 1
  | .s3 _ => 2

/-- The bit position of a bit set. -/
def BitOp.pos : BitOp → Nat
  | .s1 q => q
  | .s2 q => q
  | .s3 q => q

/-- The memory of the last region: the words of `S1`, `S2`, `S3` (shared),
and one private register per worker. -/
structure WMem where
  words : List (List Nat)
  reg : List Nat
deriving DecidableEq, Repr

/-- The steps that a worker of the last region can take on the memory.
Modelled from the spec: `or b` is `parallel_or_bit_array_set_bit`, an atomic
OR of the mask of the bit into the enclosing word, one indivisible step;
`load w b` and `store w b` are the two steps of the plain
`bit_array_set_bit`: worker `w` reads the enclosing word into its register,
and later writes the register with the bit set. -/
inductive WOp where
  | or (b : BitOp)
  | load (w : Nat) (b : BitOp)
  | store (w : Nat) (b : BitOp)
deriving DecidableEq, Repr

/-- Effect of one step on the memory. -/
def applyWord (m : WMem) : WOp → Except Fault WMem
  | .or b =>
    match rd m.words b.arr with
    | .error e => .error e
    | .ok ws =>
      match rd ws (b.pos / WORD) with
      | .error e => .error e
      | .ok x =>
        match wr ws (b.pos / WORD) (x ||| 2 ^ (b.pos % WORD)) with
        | .error e => .error e
        | .ok ws1 =>
          match wr m.words b.arr ws1 with
          | .error e => .error e
          | .ok W => .ok ⟨W, m.reg⟩
  | .load w b =>
    match rd m.words b.arr with
    | .error e => .error e
    | .ok ws =>
      match rd ws (b.pos / WORD) with
      | .error e => .error e
      | .ok x =>
        match wr m.reg w x with
        | .error e => .error e
        | .ok r => .ok ⟨m.words, r⟩
  | .store w b =>
    match rd m.reg w with
    | .error e => .error e
    | .ok x =>
      match rd m.words b.arr with
      | .error e => .error e
      | .ok ws =>
        match wr ws (b.pos / WORD) (x ||| 2 ^ (b.pos % WORD)) with
        | .error e => .error e
        | .ok ws1 =>
          match wr m.words b.arr ws1 with
          | .error e => .error e
          | .ok W => .ok ⟨W, m.reg⟩

/-- The programs of the workers of the last region as in the source: atomic
bit sets. -/
def atomicE (threads : Nat) (t : Tree) (higher : List Nat) (ET ET2 : List ENode) :
    List (List WOp) :=
  (workersE threads t higher ET ET2).map (fun l => l.map WOp.or)

/-- The programs of the workers of the last region with the plain
`bit_array_set_bit` in place of the atomic one: a read and a write of the
word per bit set. -/
def plainE (threads : Nat) (t : Tree) (higher : List Nat) (ET ET2 : List ENode) :
    List (List WOp) :=
  (List.range threads).map
    (fun h => ((opsE threads t higher ET ET2 h).map
      (fun b => [WOp.load h b, WOp.store h b])).flatten)

/-- The memory when the last region starts: three zeroed bit arrays of
`N1`, `N2`, `N3` bits and `threads` registers. -/
def memE (threads N1 N2 N3 : Nat) : WMem :=
  ⟨[wordsCreate N1, wordsCreate N2, wordsCreate N3], List.replicate threads 0⟩

/-- The bit arrays that the words of the memory stand for. -/
def absBits (N1 N2 N3 : Nat) (m : WMem) : Bits :=
  ⟨tab N1 (bitOf (m.words.getD 0 [])), tab N2 (bitOf (m.words.getD 1 [])),
    tab N3 (bitOf (m.words.getD 2 []))⟩

/-- The step `op` is an atomic bit set inside its array. -/
def AtomicE (N1 N2 N3 : Nat) (op : WOp) : Prop :=
  ∃ b, op = WOp.or b ∧ AllowedE N1 N2 N3 b

/-- The memory holds three arrays of words for `N1`, `N2`, `N3` bits. -/
def WMem.Sized (N1 N2 N3 : Nat) (m : WMem) : Prop :=
  m.words.length = 3 ∧ ∀ a, a < 3 →
    (m.words.getD a []).length = ([N1, N2, N3].getD a 0 + (WORD - 1)) / WORD

/-- A graph on five vertices with canonical order `[0, 1, 2, 3, 4]` and the
edges `0-1`, `0-2`, `1-3`, `2-3`, `2-4` (`n = 5`, `m = 5`); the list of vertex 2
is `3 4 0`. -/
def fiveG : Graph :=
  { V := [⟨0, 1, 0⟩, ⟨2, 3, 1⟩, ⟨4, 6, 2⟩, ⟨7, 8, 3⟩, ⟨9, 9, 4⟩],
    E := [⟨0, 1, 2⟩, ⟨0, 2, 6⟩, ⟨1, 0, 0⟩, ⟨1, 3, 7⟩, ⟨2, 3, 8⟩, ⟨2, 4, 9⟩, ⟨2, 0, 1⟩,
      ⟨3, 1, 3⟩, ⟨3, 2, 4⟩, ⟨4, 2, 5⟩],
    n := 5, m := 5 }

/-- The spanning tree of `fiveG` with the edges `0-1`, `0-2`, `1-3`, `2-4`,
rooted at vertex 0. -/
def fiveT : Tree :=
  { N := [⟨0, 1⟩, ⟨2, 3⟩, ⟨4, 5⟩, ⟨6, 6⟩, ⟨7, 7⟩],
    E := [⟨0, 1, 2⟩, ⟨0, 2, 4⟩, ⟨1, 0, 0⟩, ⟨1, 3, 6⟩, ⟨2, 0, 1⟩, ⟨2, 4, 7⟩, ⟨3, 1, 3⟩,
      ⟨4, 2, 5⟩],
    n := 5 }

/-- Embedding of the tree half-edges of `fiveT` into those of `fiveG`. -/
def fiveEmb (i : Nat) : Nat := [0, 1, 2, 3, 6, 5, 7, 9].getD i 0

/-- The counter `higher_numb` of `fiveG`, `fiveT` when the last region
starts. -/
def fiveHigher : List Nat := [1, 0, 1, 0, 0]

/-- The ranked tour `ET` of `fiveG`, `fiveT` (the value computed by
`rankedTours 2 8 fiveG fiveT`). -/
def fiveET : List ENode :=
  [⟨-1, 0, 0⟩, ⟨-3, 0, 5⟩, ⟨-4, 0, 4⟩, ⟨-1, 0, 1⟩, ⟨-6, 0, 8⟩, ⟨-2, 0, 6⟩, ⟨-4, 0, 3⟩,
    ⟨-6, 0, 7⟩]

/-- The ranked tour `ET2` of `fiveG`, `fiveT`. -/
def fiveET2 : List ENode :=
  [⟨-1, 1, 0⟩, ⟨-3, 1, 4⟩, ⟨-4, 0, 3⟩, ⟨-1, 1, 1⟩, ⟨-6, 0, 7⟩, ⟨-2, 1, 5⟩, ⟨-4, 0, 2⟩,
    ⟨-6, 0, 6⟩]

/-- The reads of every iteration of every worker of the last region are
inside the arrays. -/
def ReadsE (threads : Nat) (t : Tree) (higher : List Nat) (ET ET2 : List ENode) : Prop :=
  ∀ h, h < threads → ∀ i,
    i < chunkHi threads ((2 * t.n) % UINT / threads) h (usub ((2 * t.n) % UINT) 2) →
    chunkLo ((2 * t.n) % UINT / threads) h none ≤ i →
    i < ET.length ∧ i < ET2.length ∧ i < t.E.length ∧ t.src i < higher.length

instance (threads : Nat) (t : Tree) (higher : List Nat) (ET ET2 : List ENode) :
    Decidable (ReadsE threads t higher ET ET2) := by
  unfold ReadsE; exact inferInstance

theorem tab_length {α : Type} (N : Nat) (G : Nat → α) : (tab N G).length = N := by
  simp [tab]

theorem rd_tab {α : Type} {N : Nat} (G : Nat → α) {j : Nat} (h : j < N) :
    rd (tab N G) j = .ok (G j) := by
  simp [rd, tab, List.getElem?_range, h]

theorem wr_tab {α : Type} {N : Nat} (G : Nat → α) {j : Nat} (h : j < N) (v : α) :
    wr (tab N G) j v = .ok (tab N (Function.update G j v)) := by
  unfold wr
  rw [if_pos (by simpa [tab] using h)]
  congr 1
  apply List.ext_getElem?
  intro k
  simp only [tab, List.getElem?_set, List.getElem?_map, List.length_map, List.length_range]
  by_cases hk : j = k
  · subst hk; simp [h, List.getElem?_range]
  · rw [if_neg hk]
    by_cases hkN : k < N
    · simp [List.getElem?_range, hkN, Function.update, Ne.symm hk]
    · simp [List.getElem?_eq_none, not_lt.mp hkN]

theorem tab_congr {α : Type} {N : Nat} {G G' : Nat → α} (h : ∀ j, j < N → G j = G' j) :
    tab N G = tab N G' := by
  unfold tab
  apply List.map_congr_left
  intro a ha
  exact h a (List.mem_range.mp ha)

theorem eq_tab {α : Type} (A : List α) (d : α) : A = tab A.length (fun j => A.getD j d) := by
  apply List.ext_getElem?
  intro k
  simp only [tab, List.getElem?_map]
  by_cases hk : k < A.length
  · simp [List.getElem?_range, hk, List.getD_eq_getElem?_getD]
  · simp [List.getElem?_eq_none, not_lt.mp hk]

theorem forLoop_inv {σ : Type} (Inv : Nat → σ → Prop) (body : σ → Nat → Except Fault σ) :
    ∀ (cnt lo : Nat) (st : σ), Inv lo st →
      (∀ k st, lo ≤ k → k < lo + cnt → Inv k st → ∃ st1, body st k = .ok st1 ∧ Inv (k + 1) st1) →
      ∃ st1, forLoop body lo cnt st = .ok st1 ∧ Inv (lo + cnt) st1
  | 0, lo, st, h0, _ => ⟨st, rfl, by simpa using h0⟩
  | cnt + 1, lo, st, h0, hstep => by
    obtain ⟨st1, hb, h1⟩ := hstep lo st (le_refl _) (by omega) h0
    obtain ⟨st2, hl, h2⟩ := forLoop_inv Inv body cnt (lo + 1) st1 h1
      (fun k st hk1 hk2 hi => hstep k st (by omega) (by omega) hi)
    refine ⟨st2, ?_, ?_⟩
    · simp [forLoop, hb, hl]
    · have : lo + (cnt + 1) = lo + 1 + cnt := by omega
      rw [this]; exact h2

theorem LRCtx.OK.chk_pos {c : LRCtx} (h : c.OK) : 1 ≤ c.chk := by
  rw [h.chk_eq]
  exact (Nat.one_le_div_iff h.s_pos).mpr h.s_le

theorem LRCtx.OK.s_chk {c : LRCtx} (h : c.OK) : c.s * c.chk ≤ c.N := by
  rw [h.chk_eq]
  exact Nat.mul_div_le _ _

theorem LRCtx.OK.N_pos {c : LRCtx} (h : c.OK) : 1 ≤ c.N := by
  have h1 := h.s_pos
  have h2 := h.s_le
  omega

theorem LRCtx.OK.sp_lt {c : LRCtx} (h : c.OK) {i : Nat} (hi : i < c.s) : i * c.chk < c.N := by
  have h2 := h.chk_pos
  have h3 := h.s_chk
  have : (i + 1) * c.chk ≤ c.s * c.chk := Nat.mul_le_mul_right _ hi
  have : (i + 1) * c.chk = i * c.chk + c.chk := by ring
  omega

theorem LRCtx.OK.isSp_mul {c : LRCtx} (h : c.OK) {i : Nat} (hi : i < c.s) :
    c.isSp (i * c.chk) := by
  have h2 := h.chk_pos
  refine ⟨Nat.mul_mod_left _ _, ?_⟩
  rw [Nat.mul_div_cancel _ h2]; exact hi

theorem LRCtx.isSp_eq {c : LRCtx} {j : Nat} (hj : c.isSp j) : j / c.chk * c.chk = j := by
  have := Nat.div_add_mod j c.chk
  rw [hj.1, Nat.mul_comm] at this
  simpa using this

theorem LRCtx.OK.isSp_zero {c : LRCtx} (h : c.OK) : c.isSp 0 := by
  have := h.isSp_mul h.s_pos
  simpa using this

theorem LRCtx.OK.split_ok {c : LRCtx} (h : c.OK) :
    forLoop (lrSplit c.chk) 0 c.s (tab c.N c.G0, tab c.s (fun _ => ⟨0, 0, 0, 0⟩)) =
      .ok (tab c.N c.G1, tab c.s c.S1) := by
  obtain ⟨st, hst, hinv⟩ := forLoop_inv
    (fun k (st : List ENode × List SublistNode) =>
      st.1 = tab c.N (fun j => if c.isSp j ∧ j / c.chk < k then c.G1 j else c.G0 j) ∧
      st.2 = tab c.s (fun i => if i < k then c.S1 i else ⟨0, 0, 0, 0⟩))
    (lrSplit c.chk) c.s 0 (tab c.N c.G0, tab c.s (fun _ => ⟨0, 0, 0, 0⟩))
    ⟨by simp, by simp⟩
    (by
      rintro k ⟨A, sub⟩ _ hk ⟨hA, hsub⟩
      simp only at hA hsub
      have hks : k < c.s := by omega
      have hx := h.sp_lt hks
      have hsp := h.isSp_mul hks
      have hdiv : k * c.chk / c.chk = k := Nat.mul_div_cancel _ h.chk_pos
      subst hA hsub
      refine ⟨(tab c.N (fun j => if c.isSp j ∧ j / c.chk < k + 1 then c.G1 j else c.G0 j),
        tab c.s (fun i => if i < k + 1 then c.S1 i else ⟨0, 0, 0, 0⟩)), ?_, rfl, rfl⟩
      simp only [lrSplit]
      rw [rd_tab _ hx]
      simp only [hdiv, lt_self_iff_false, and_false, if_false]
      rw [wr_tab _ hks, wr_tab _ hx]
      simp only
      congr 2
      · apply tab_congr
        intro j hj
        by_cases hjx : j = k * c.chk
        · subst hjx
          simp [Function.update, hsp, hdiv, LRCtx.G1]
        · simp only [Function.update, hjx, dite_false]
          by_cases hjs : c.isSp j
          · have hne : j / c.chk ≠ k := by
              intro he; apply hjx; rw [← he, LRCtx.isSp_eq hjs]
            have : (j / c.chk < k + 1) ↔ (j / c.chk < k) := by omega
            simp [hjs, this]
          · simp [hjs]
      · apply tab_congr
        intro i hi
        by_cases hik : i = k
        · subst hik; simp [Function.update, LRCtx.S1]
        · have : (i < k + 1) ↔ (i < k) := by omega
          simp [Function.update, hik, this])
  rw [hst]
  obtain ⟨h1, h2⟩ := hinv
  have e1 : st.1 = tab c.N c.G1 := by
    rw [h1]; apply tab_congr; intro j hj
    by_cases hjs : c.isSp j
    · have := hjs.2; simp [hjs] ; intro h; omega
    · simp [hjs, LRCtx.G1]
  have e2 : st.2 = tab c.s c.S1 := by
    rw [h2]; apply tab_congr; intro i hi; simp [hi]
  cases st; simp only at e1 e2; subst e1 e2; rfl

theorem LRCtx.base_le (c : LRCtx) : ∀ t, c.base t ≤ t
  | 0 => by simp [LRCtx.base]
  | t + 1 => by
    have := LRCtx.base_le c t
    simp only [LRCtx.base]; split <;> omega

theorem LRCtx.base_lt (c : LRCtx) : ∀ t, 1 ≤ t → c.base t < t
  | 0, h => by omega
  | t + 1, _ => by
    have := c.base_le t
    simp only [LRCtx.base]; split <;> omega

theorem LRCtx.OK.base_sp {c : LRCtx} (h : c.OK) : ∀ t, 1 ≤ t → c.isSp (c.node (c.base t))
  | 0, h0 => by omega
  | t + 1, _ => by
    simp only [LRCtx.base]
    by_cases hs : c.isSp (c.node t)
    · simp [hs]
    · simp only [hs, if_false]
      by_cases ht : t = 0
      · subst ht; exfalso; apply hs; rw [h.node_zero]; exact h.isSp_zero
      · exact LRCtx.OK.base_sp h t (by omega)

theorem LRCtx.base_mono (c : LRCtx) (u : Nat) : ∀ v, u ≤ v → c.base u ≤ c.base v
  | 0, h => by have : u = 0 := by omega
               subst this; exact le_refl _
  | v + 1, h => by
    by_cases huv : u = v + 1
    · subst huv; exact le_refl _
    · have ih := LRCtx.base_mono c u v (by omega)
      have hb := c.base_le u
      have hv := c.base_le v
      simp only [LRCtx.base]; split <;> omega

theorem LRCtx.base_ge (c : LRCtx) {e q : Nat} (he : c.isSp (c.node e)) (hq : e < q) :
    e ≤ c.base q := by
  have h1 := c.base_mono (e + 1) q (by omega)
  have h2 : c.base (e + 1) = e := by simp [LRCtx.base, he]
  omega

theorem LRCtx.base_eq_of_no_sp (c : LRCtx) {p : Nat} (hp : c.isSp (c.node p)) :
    ∀ q, p < q → (∀ u, p < u → u < q → ¬ c.isSp (c.node u)) → c.base q = p
  | 0, h, _ => by omega
  | q + 1, h, hno => by
    simp only [LRCtx.base]
    by_cases hq : p = q
    · subst hq; simp [hp]
    · have hs : ¬ c.isSp (c.node q) := hno q (by omega) (by omega)
      simp only [hs, if_false]
      exact LRCtx.base_eq_of_no_sp c hp q (by omega) (fun u h1 h2 => hno u h1 (by omega))

theorem LRCtx.OK.pre_loc {c : LRCtx} (h : c.OK) :
    ∀ t, 1 ≤ t → (c.pre (c.base t + 1) + c.loc t) % UINT = c.pre t % UINT
  | 0, h0 => by omega
  | t + 1, _ => by
    by_cases hs : c.isSp (c.node t)
    · simp [LRCtx.base, LRCtx.loc, hs]
    · have ht : 1 ≤ t := by
        by_contra h0
        have : t = 0 := by omega
        subst this; apply hs; rw [h.node_zero]; exact h.isSp_zero
      have ih := LRCtx.OK.pre_loc h t ht
      simp only [LRCtx.base, LRCtx.loc, hs, if_false]
      show (c.pre (c.base t + 1) + (c.loc t + c.rk t) % UINT) % UINT = (c.pre t + c.rk t) % UINT
      rw [Nat.add_mod_mod, ← Nat.add_assoc, Nat.add_mod, ih, ← Nat.add_mod]

theorem LRCtx.endMark_le (c : LRCtx) : ∀ d t, c.endMark d t ≤ 0
  | 0, _ => by simp [LRCtx.endMark]
  | d + 1, t => by
    simp only [LRCtx.endMark]
    split
    · generalize c.node t / c.chk = k
      omega
    · exact LRCtx.endMark_le c d (t + 1)

theorem LRCtx.endMark_zero (c : LRCtx) :
    ∀ d t, c.endMark d t = 0 → ∀ u, t ≤ u → u < t + d → ¬ c.isSp (c.node u)
  | 0, t, _, u, h1, h2 => by omega
  | d + 1, t, h0, u, h1, h2 => by
    simp only [LRCtx.endMark] at h0
    by_cases hs : c.isSp (c.node t)
    · rw [if_pos hs] at h0
      generalize c.node t / c.chk = k at h0
      omega
    · rw [if_neg hs] at h0
      by_cases hu : u = t
      · subst hu; exact hs
      · exact LRCtx.endMark_zero c d (t + 1) h0 u (by omega) (by omega)

theorem LRCtx.endMark_ne (c : LRCtx) :
    ∀ d t, c.endMark d t ≠ 0 →
      t ≤ c.endPos d t ∧ c.endPos d t < t + d ∧ c.isSp (c.node (c.endPos d t)) ∧
      c.endMark d t = -((c.node (c.endPos d t) / c.chk : Nat) : Int) - 1 ∧
      ∀ u, t ≤ u → u < c.endPos d t → ¬ c.isSp (c.node u)
  | 0, t, h0 => by simp [LRCtx.endMark] at h0
  | d + 1, t, h0 => by
    simp only [LRCtx.endMark, LRCtx.endPos] at h0 ⊢
    by_cases hs : c.isSp (c.node t)
    · rw [if_pos hs, if_pos hs]
      exact ⟨le_refl _, by omega, hs, rfl, fun u h1 h2 => by omega⟩
    · rw [if_neg hs] at h0
      rw [if_neg hs, if_neg hs]
      obtain ⟨a1, a2, a3, a4, a5⟩ := LRCtx.endMark_ne c d (t + 1) h0
      refine ⟨by omega, by omega, a3, a4, fun u h1 h2 => ?_⟩
      by_cases hu : u = t
      · subst hu; exact hs
      · exact a5 u (by omega) h2

theorem LRCtx.OK.node_inj {c : LRCtx} (h : c.OK) {u v : Nat} (hu : u < c.N) (hv : v < c.N)
    (he : c.node u = c.node v) : u = v := by
  rw [← h.pos_node u hu, ← h.pos_node v hv, he]

theorem LRCtx.OK.node_pos_of_ge {c : LRCtx} (h : c.OK) {t : Nat} (h1 : 1 ≤ t) (ht : t < c.N) :
    0 < c.node t := by
  by_contra h0
  have h0' : c.node t = c.node 0 := by rw [h.node_zero]; omega
  have := h.node_inj ht (by omega) h0'
  omega

theorem lrWalk_stop (i fuel : Nat) (A : List ENode) (curr : Int) (tmp : Nat) (h : curr ≤ 0) :
    lrWalk i fuel A curr tmp = .ok (A, curr, tmp) := by
  have : ¬ curr > 0 := by omega
  cases fuel <;> simp [lrWalk, this]

theorem LRCtx.G1_value (c : LRCtx) (j : Nat) : (c.G1 j).value = (c.G0 j).value := by
  unfold LRCtx.G1; split <;> rfl

theorem LRCtx.G1_rank (c : LRCtx) (j : Nat) : (c.G1 j).rank = (c.G0 j).rank := by
  unfold LRCtx.G1; split <;> rfl

theorem LRCtx.OK.walk_ok {c : LRCtx} (h : c.OK) (i : Nat) :
    ∀ (d t fuel : Nat) (F : Nat → ENode), 1 ≤ t → t + d = c.N → 1 ≤ d → d ≤ fuel →
      (∀ u, t ≤ u → u < c.N → c.base u = c.base t → F (c.node u) = c.G1 (c.node u)) →
      ∃ tmp, lrWalk i fuel (tab c.N F) (c.node t) (c.loc t) =
          .ok (tab c.N (c.walked i t F), c.endMark d t, tmp) ∧
        (c.endMark d t ≠ 0 →
          tmp = (c.loc (c.endPos d t) + c.rk (c.endPos d t)) % UINT) := by
  intro d
  induction d with
  | zero => intro t fuel F _ _ hd; omega
  | succ d ih =>
    intro t fuel F ht hN _ hfuel hF
    obtain ⟨fuel', rfl⟩ : ∃ f, fuel = f + 1 := ⟨fuel - 1, by omega⟩
    have htN : t < c.N := by omega
    have hpos := h.node_pos_of_ge ht htN
    have hnl := h.node_lt t htN
    have hFt := hF t le_rfl htN rfl
    have hposI : ((c.node t : Nat) : Int) > 0 := by omega
    have hnotneg : ¬ ((c.node t : Nat) : Int) < 0 := by omega
    have step : lrWalk i (fuel' + 1) (tab c.N F) (c.node t) (c.loc t) =
        lrWalk i fuel'
          (tab c.N (Function.update F (c.node t)
            ⟨-(i : Int) - 1, (c.G0 (c.node t)).value, c.loc t⟩))
          (c.G1 (c.node t)).next ((c.loc t + c.rk t) % UINT) := by
      simp only [lrWalk, rdI, wrI, hposI, hnotneg, if_true, if_false, Int.toNat_ofNat,
        rd_tab F hnl, wr_tab F hnl, hFt, LRCtx.G1_value, LRCtx.G1_rank, LRCtx.rk]
    rw [step]
    have hstate_stop : ∀ (hlast : c.isSp (c.node t) ∨ d = 0),
        tab c.N (Function.update F (c.node t)
            ⟨-(i : Int) - 1, (c.G0 (c.node t)).value, c.loc t⟩) =
          tab c.N (c.walked i t F) := by
      intro hlast
      apply tab_congr
      intro j hj
      have hpj := h.pos_lt j hj
      have hnp := h.node_pos j hj
      by_cases hjt : j = c.node t
      · subst hjt
        simp [Function.update, LRCtx.walked, h.pos_node t htN]
      · have hpne : c.pos j ≠ t := by
          intro he; apply hjt; rw [← hnp, he]
        have hcond : ¬ (t ≤ c.pos j ∧ c.base (c.pos j) = c.base t) := by
          rintro ⟨h1, h2⟩
          rcases hlast with hs | hd0
          · have := c.base_ge hs (show t < c.pos j by omega)
            have := c.base_lt t ht
            omega
          · omega
        simp [Function.update, hjt, LRCtx.walked, hcond]
    by_cases hs : c.isSp (c.node t)
    · have hnext : (c.G1 (c.node t)).next = -((c.node t / c.chk : Nat) : Int) - 1 := by
        simp [LRCtx.G1, hs]
      have hle : (c.G1 (c.node t)).next ≤ 0 := by
        rw [hnext]; generalize c.node t / c.chk = k; omega
      rw [lrWalk_stop _ _ _ _ _ hle, hstate_stop (Or.inl hs)]
      refine ⟨(c.loc t + c.rk t) % UINT, ?_, ?_⟩
      · simp only [LRCtx.endMark, if_pos hs, hnext]
      · intro _
        simp only [LRCtx.endPos, if_pos hs]
    · have hnext : (c.G1 (c.node t)).next = (c.G0 (c.node t)).next := by
        simp [LRCtx.G1, hs]
      by_cases hd0 : d = 0
      · subst hd0
        have htl : t = c.N - 1 := by omega
        have hz : (c.G0 (c.node t)).next = 0 := by rw [htl]; exact h.last
        rw [hnext, hz, lrWalk_stop _ _ _ _ _ (le_refl _), hstate_stop (Or.inr rfl)]
        refine ⟨(c.loc t + c.rk t) % UINT, ?_, ?_⟩
        · simp only [LRCtx.endMark, if_neg hs]
        · intro hne
          simp [LRCtx.endMark, hs] at hne
      · have hlk := h.link t (by omega)
        rw [hnext, hlk]
        have hloc : (c.loc t + c.rk t) % UINT = c.loc (t + 1) := by
          simp [LRCtx.loc, hs]
        have hbase : c.base (t + 1) = c.base t := by simp [LRCtx.base, hs]
        rw [hloc]
        obtain ⟨tmp, h1, h2⟩ := ih (t + 1) fuel'
          (Function.update F (c.node t) ⟨-(i : Int) - 1, (c.G0 (c.node t)).value, c.loc t⟩)
          (by omega) (by omega) (by omega) (by omega)
          (by
            intro u hu1 hu2 hu3
            have hne : c.node u ≠ c.node t := by
              intro he
              have := h.node_inj hu2 htN he
              omega
            simp only [Function.update, hne, dite_false]
            exact hF u (by omega) hu2 (by rw [hu3, hbase]))
        refine ⟨tmp, ?_, ?_⟩
        · rw [h1]
          simp only [LRCtx.endMark, if_neg hs]
          congr 2
          apply tab_congr
          intro j hj
          have hpj := h.pos_lt j hj
          have hnp := h.node_pos j hj
          by_cases hjt : j = c.node t
          · subst hjt
            simp [Function.update, LRCtx.walked, h.pos_node t htN]
          · have hpne : c.pos j ≠ t := by
              intro he; apply hjt; rw [← hnp, he]
            have hiff : (t + 1 ≤ c.pos j ∧ c.base (c.pos j) = c.base (t + 1)) ↔
                (t ≤ c.pos j ∧ c.base (c.pos j) = c.base t) := by
              rw [hbase]; constructor
              · rintro ⟨a, b⟩; exact ⟨by omega, b⟩
              · rintro ⟨a, b⟩; exact ⟨by omega, b⟩
            simp only [LRCtx.walked, hiff, Function.update, hjt, dite_false]
        · intro hne
          simp only [LRCtx.endMark, if_neg hs] at hne
          simp only [LRCtx.endPos, if_neg hs]
          exact h2 hne

theorem LRCtx.OK.P_lt {c : LRCtx} (h : c.OK) {i : Nat} (hi : i < c.s) : c.P i < c.N :=
  h.pos_lt _ (h.sp_lt hi)

theorem LRCtx.OK.node_P {c : LRCtx} (h : c.OK) {i : Nat} (hi : i < c.s) :
    c.node (c.P i) = i * c.chk :=
  h.node_pos _ (h.sp_lt hi)

theorem LRCtx.OK.isSp_P {c : LRCtx} (h : c.OK) {i : Nat} (hi : i < c.s) :
    c.isSp (c.node (c.P i)) := by
  rw [h.node_P hi]; exact h.isSp_mul hi

theorem LRCtx.OK.own_eq_iff {c : LRCtx} (h : c.OK) {u k : Nat} (hu1 : 1 ≤ u) (huN : u < c.N)
    (hk : k < c.s) : c.own u = k ↔ c.base u = c.P k := by
  have hb := c.base_lt u hu1
  have hsp := h.base_sp u hu1
  constructor
  · intro ho
    have h1 : c.node (c.base u) = k * c.chk := by
      rw [← LRCtx.isSp_eq hsp]; unfold LRCtx.own at ho; rw [ho]
    unfold LRCtx.P
    rw [← h1, h.pos_node _ (by omega)]
  · intro hb2
    unfold LRCtx.own
    rw [hb2, h.node_P hk, Nat.mul_div_cancel _ h.chk_pos]

theorem LRCtx.OK.own_lt {c : LRCtx} (h : c.OK) {u : Nat} (hu1 : 1 ≤ u) : c.own u < c.s :=
  (h.base_sp u hu1).2

/-- The splitter reached by the walker of sublist `k`, seen from any
splitter `i`: `i` is owned by `k` exactly when the walk of `k` stops at `i`. -/
theorem LRCtx.OK.owned_iff {c : LRCtx} (h : c.OK) {k i : Nat} (hk : k < c.s) (hi : i < c.s) :
    (1 ≤ c.P i ∧ c.own (c.P i) = k) ↔
      (c.endMark (c.N - (c.P k + 1)) (c.P k + 1) ≠ 0 ∧
        c.P i = c.endPos (c.N - (c.P k + 1)) (c.P k + 1)) := by
  have hpk := h.P_lt hk
  have hpi := h.P_lt hi
  have hspk := h.isSp_P hk
  have hspi := h.isSp_P hi
  constructor
  · rintro ⟨h1, h2⟩
    have hb := (h.own_eq_iff h1 hpi hk).1 h2
    have hlt := c.base_lt _ h1
    have hne : c.endMark (c.N - (c.P k + 1)) (c.P k + 1) ≠ 0 := by
      intro h0
      exact c.endMark_zero _ _ h0 (c.P i) (by omega) (by omega) hspi
    refine ⟨hne, ?_⟩
    obtain ⟨a1, a2, a3, _, a5⟩ := c.endMark_ne _ _ hne
    by_contra hq
    rcases Nat.lt_or_gt_of_ne hq with hlt2 | hgt
    · exact a5 (c.P i) (by omega) hlt2 hspi
    · have := c.base_ge a3 hgt
      omega
  · rintro ⟨hne, he⟩
    obtain ⟨a1, a2, a3, _, a5⟩ := c.endMark_ne _ _ hne
    have h1 : 1 ≤ c.P i := by omega
    refine ⟨h1, ?_⟩
    rw [h.own_eq_iff h1 hpi hk, he]
    exact c.base_eq_of_no_sp hspk _ (by omega) (fun u hu1 hu2 => a5 u (by omega) hu2)

theorem LRCtx.OK.walk_sublist {c : LRCtx} (h : c.OK) {k : Nat} (hk : k < c.s) {fuel : Nat}
    (hf : c.N ≤ fuel) :
    ∃ tmp, lrWalk k fuel (tab c.N (c.G2 k)) (c.G0 (k * c.chk)).next 0 =
        .ok (tab c.N (c.G2 (k + 1)), c.endMark (c.N - (c.P k + 1)) (c.P k + 1), tmp) ∧
      (c.endMark (c.N - (c.P k + 1)) (c.P k + 1) ≠ 0 →
        tmp = (c.loc (c.endPos (c.N - (c.P k + 1)) (c.P k + 1)) +
          c.rk (c.endPos (c.N - (c.P k + 1)) (c.P k + 1))) % UINT) := by
  have hpk := h.P_lt hk
  have hnode := h.node_P hk
  have hspk := h.isSp_P hk
  have hbase : c.base (c.P k + 1) = c.P k := by simp [LRCtx.base, hspk]
  have hloc : c.loc (c.P k + 1) = 0 := by simp [LRCtx.loc, hspk]
  by_cases hlast : c.P k + 1 < c.N
  · have hlk := h.link (c.P k) hlast
    rw [hnode] at hlk
    obtain ⟨tmp, h1, h2⟩ := h.walk_ok k (c.N - (c.P k + 1)) (c.P k + 1) fuel (c.G2 k)
      (by omega) (by omega) (by omega) (by omega)
      (by
        intro u hu1 hu2 hu3
        have hown : c.own u = k := (h.own_eq_iff (by omega) hu2 hk).2 (by rw [hu3, hbase])
        simp [LRCtx.G2, h.pos_node u hu2, hown])
    rw [hloc] at h1
    refine ⟨tmp, ?_, h2⟩
    rw [hlk, h1]
    congr 2
    apply tab_congr
    intro j hj
    have hu := h.pos_lt j hj
    simp only [LRCtx.walked, LRCtx.G2, hbase]
    by_cases hc1 : c.P k + 1 ≤ c.pos j ∧ c.base (c.pos j) = c.P k
    · have hown : c.own (c.pos j) = k := (h.own_eq_iff (by omega) hu hk).2 hc1.2
      have h1' : 1 ≤ c.pos j := by omega
      simp [hc1, hown, h1']
    · rw [if_neg hc1]
      by_cases hc2 : 1 ≤ c.pos j ∧ c.own (c.pos j) < k
      · have : 1 ≤ c.pos j ∧ c.own (c.pos j) < k + 1 := ⟨hc2.1, by omega⟩
        rw [if_pos hc2, if_pos this]
      · have : ¬ (1 ≤ c.pos j ∧ c.own (c.pos j) < k + 1) := by
          rintro ⟨a, b⟩
          by_cases hek : c.own (c.pos j) = k
          · have hb := (h.own_eq_iff a hu hk).1 hek
            have := c.base_lt _ a
            exact hc1 ⟨by omega, hb⟩
          · exact hc2 ⟨a, by omega⟩
        rw [if_neg hc2, if_neg this]
  · have hpe : c.P k = c.N - 1 := by omega
    have hz : (c.G0 (k * c.chk)).next = 0 := by
      rw [← hnode, hpe]; exact h.last
    have hd : c.N - (c.P k + 1) = 0 := by omega
    rw [hz, lrWalk_stop _ _ _ _ _ (le_refl _), hd]
    refine ⟨0, ?_, ?_⟩
    · simp only [LRCtx.endMark]
      congr 2
      apply tab_congr
      intro j hj
      have hu := h.pos_lt j hj
      simp only [LRCtx.G2]
      by_cases hc2 : 1 ≤ c.pos j ∧ c.own (c.pos j) < k
      · have : 1 ≤ c.pos j ∧ c.own (c.pos j) < k + 1 := ⟨hc2.1, by omega⟩
        rw [if_pos hc2, if_pos this]
      · have : ¬ (1 ≤ c.pos j ∧ c.own (c.pos j) < k + 1) := by
          rintro ⟨a, b⟩
          by_cases hek : c.own (c.pos j) = k
          · have hb := (h.own_eq_iff a hu hk).1 hek
            have := c.base_lt _ a
            omega
          · exact hc2 ⟨a, by omega⟩
        rw [if_neg hc2, if_neg this]
    · intro hne; simp [LRCtx.endMark] at hne

theorem LRCtx.OK.rank_step {c : LRCtx} (h : c.OK) {k : Nat} (hk : k < c.s) {fuel : Nat}
    (hf : c.N ≤ fuel) :
    lrRank fuel (tab c.N (c.G2 k), tab c.s (c.S2 k)) k =
      .ok (tab c.N (c.G2 (k + 1)), tab c.s (c.S2 (k + 1))) := by
  obtain ⟨tmp, hw, htmp⟩ := h.walk_sublist hk hf
  have hpk := h.P_lt hk
  simp only [lrRank]
  rw [rd_tab _ hk]
  simp only [LRCtx.S2] at hw ⊢
  rw [hw]
  simp only
  rw [wr_tab _ hk]
  simp only
  by_cases hne : c.endMark (c.N - (c.P k + 1)) (c.P k + 1) = 0
  · -- the walk reached the end of the list
    rw [if_neg (by simpa using hne)]
    congr 2
    apply tab_congr
    intro i hi
    have hown : ¬ (1 ≤ c.P i ∧ c.own (c.P i) = k) := by
      intro hc
      exact ((h.owned_iff hk hi).1 hc).1 hne
    have hval : (1 ≤ c.P i ∧ c.own (c.P i) < k + 1) ↔ (1 ≤ c.P i ∧ c.own (c.P i) < k) := by
      constructor
      · rintro ⟨a, b⟩
        refine ⟨a, ?_⟩
        by_contra hnb
        exact hown ⟨a, by omega⟩
      · rintro ⟨a, b⟩; exact ⟨a, by omega⟩
    by_cases hik : i = k
    · subst hik
      simp [Function.update, LRCtx.nxt, LRCtx.S2, hval]
    · have : (i < k + 1) ↔ (i < k) := by omega
      simp [Function.update, hik, this, LRCtx.S2, hval]
  · obtain ⟨a1, a2, a3, a4, a5⟩ := c.endMark_ne _ _ hne
    have htmp' := htmp hne
    rw [if_pos (by simpa using hne)]
    have hidx : -c.endMark (c.N - (c.P k + 1)) (c.P k + 1) - 1 =
        ((c.node (c.endPos (c.N - (c.P k + 1)) (c.P k + 1)) / c.chk : Nat) : Int) := by
      rw [a4]; generalize c.node (c.endPos (c.N - (c.P k + 1)) (c.P k + 1)) / c.chk = q; omega
    rw [hidx]
    have hk' := a3.2
    have hnn : ¬ (((c.node (c.endPos (c.N - (c.P k + 1)) (c.P k + 1)) / c.chk : Nat) : Int) < 0) :=
      not_lt.mpr (Nat.cast_nonneg _)
    simp only [rdI, wrI, hnn, if_false, Int.toNat_ofNat]
    rw [rd_tab _ hk']
    simp only
    rw [wr_tab _ hk']
    simp only
    congr 2
    apply tab_congr
    intro i hi
    have hPe : c.P (c.node (c.endPos (c.N - (c.P k + 1)) (c.P k + 1)) / c.chk) =
        c.endPos (c.N - (c.P k + 1)) (c.P k + 1) := by
      have e1 := LRCtx.isSp_eq a3
      show c.pos (_ * c.chk) = _
      rw [e1, h.pos_node _ (by omega)]
    have hkne : c.node (c.endPos (c.N - (c.P k + 1)) (c.P k + 1)) / c.chk ≠ k := by
      intro he
      rw [he] at hPe
      omega
    by_cases hie : i = c.node (c.endPos (c.N - (c.P k + 1)) (c.P k + 1)) / c.chk
    · have hown := (h.owned_iff hk hi).2 ⟨hne, by rw [hie, hPe]⟩
      have hik : i ≠ k := by rw [hie]; exact hkne
      have hlt : (i < k + 1) ↔ (i < k) := by omega
      have hcond : 1 ≤ c.P i ∧ c.own (c.P i) < k + 1 := ⟨hown.1, by omega⟩
      have hcond0 : ¬ (1 ≤ c.P i ∧ c.own (c.P i) < k) := by
        rintro ⟨_, b⟩; omega
      rw [← hie]
      simp only [Function.update, hik, dite_false, eq_self_iff_true, dite_true, hlt, LRCtx.S2]
      rw [if_pos hcond, htmp', ← hPe, ← hie]
    · have hown : ¬ (1 ≤ c.P i ∧ c.own (c.P i) = k) := by
        intro hc
        have := ((h.owned_iff hk hi).1 hc).2
        apply hie
        have h1 : c.node (c.P i) = i * c.chk := h.node_P hi
        rw [← this, h1, Nat.mul_div_cancel _ h.chk_pos]
      have hval : (1 ≤ c.P i ∧ c.own (c.P i) < k + 1) ↔ (1 ≤ c.P i ∧ c.own (c.P i) < k) := by
        constructor
        · rintro ⟨a, b⟩
          refine ⟨a, ?_⟩
          by_contra hnb
          exact hown ⟨a, by omega⟩
        · rintro ⟨a, b⟩; exact ⟨a, by omega⟩
      by_cases hik : i = k
      · subst hik
        simp [Function.update, hie, LRCtx.nxt, LRCtx.S2, hval, hidx]
      · have : (i < k + 1) ↔ (i < k) := by omega
        simp [Function.update, hik, hie, this, LRCtx.S2, hval]

theorem LRCtx.OK.rank_ok {c : LRCtx} (h : c.OK) {fuel : Nat} (hf : c.N ≤ fuel) :
    forLoop (lrRank fuel) 0 c.s (tab c.N c.G1, tab c.s c.S1) =
      .ok (tab c.N (c.G2 c.s), tab c.s (c.S2 c.s)) := by
  have h0 : (tab c.N c.G1, tab c.s c.S1) = (tab c.N (c.G2 0), tab c.s (c.S2 0)) := by
    congr 1
    · apply tab_congr; intro j _; simp [LRCtx.G2]
    · apply tab_congr; intro i _; simp [LRCtx.S2, LRCtx.S1]
  obtain ⟨st, hst, hinv⟩ := forLoop_inv
    (fun k (st : List ENode × List SublistNode) => st = (tab c.N (c.G2 k), tab c.s (c.S2 k)))
    (lrRank fuel) c.s 0 (tab c.N c.G1, tab c.s c.S1) h0
    (by
      intro k st _ hk hi
      subst hi
      exact ⟨_, h.rank_step (by omega) hf, rfl⟩)
  rw [hst, hinv]; simp

theorem LRCtx.OK.P_inj {c : LRCtx} (h : c.OK) {i k : Nat} (hi : i < c.s) (hk : k < c.s)
    (he : c.P i = c.P k) : i = k := by
  have h1 := h.node_P hi
  have h2 := h.node_P hk
  rw [he, h2] at h1
  exact (Nat.eq_of_mul_eq_mul_right h.chk_pos h1).symm

theorem LRCtx.OK.S2_value {c : LRCtx} (h : c.OK) {k : Nat} (hk : k < c.s) :
    (c.S2 c.s k).value % UINT = (c.loc (c.P k) + c.rk (c.P k)) % UINT := by
  simp only [LRCtx.S2]
  by_cases hp : 1 ≤ c.P k
  · rw [if_pos ⟨hp, h.own_lt hp⟩, Nat.mod_mod]
  · have hp0 : c.P k = 0 := by omega
    have hc : ¬ (1 ≤ c.P k ∧ c.own (c.P k) < c.s) := fun hh => hp hh.1
    rw [if_neg hc, hp0]
    have : k * c.chk = c.node 0 := by rw [← hp0, h.node_P hk]
    simp [LRCtx.loc, LRCtx.rk, this]

theorem LRCtx.OK.combine_ok {c : LRCtx} (h : c.OK) :
    ∀ (d p k fuel tmp : Nat), k < c.s → c.P k = p → c.N - p ≤ d → d ≤ fuel →
      (tmp + c.loc p) % UINT = c.pre p % UINT →
      lrCombine fuel (tab c.s (c.S3p p)) (k : Int) tmp = .ok (tab c.s c.S3) := by
  intro d
  induction d with
  | zero =>
    intro p k fuel tmp hk hp hd _ _
    have := h.P_lt hk
    omega
  | succ d ih =>
    intro p k fuel tmp hk hp hd hfuel hinv
    obtain ⟨fuel', rfl⟩ : ∃ f, fuel = f + 1 := ⟨fuel - 1, by omega⟩
    have hpk := h.P_lt hk
    have hspk := h.isSp_P hk
    have hnn : ¬ ((k : Nat) : Int) < 0 := not_lt.mpr (Nat.cast_nonneg _)
    have hcur : c.S3p p k = c.S2 c.s k := by simp [LRCtx.S3p, hp]
    have hval := h.S2_value hk
    have hnew : ((c.S2 c.s k).value + tmp) % UINT = c.pre (c.P k + 1) % UINT := by
      rw [Nat.add_mod, hval, ← Nat.add_mod]
      show (c.loc (c.P k) + c.rk (c.P k) + tmp) % UINT = (c.pre (c.P k) + c.rk (c.P k)) % UINT
      rw [hp]
      have : c.loc p + c.rk p + tmp = (tmp + c.loc p) + c.rk p := by ring
      rw [this, Nat.add_mod, hinv, ← Nat.add_mod]
    have hstate : tab c.s (Function.update (c.S3p p) k
        ⟨(c.S2 c.s k).head, (c.S2 c.s k).next, (c.S2 c.s k).scratch,
          ((c.S2 c.s k).value + tmp) % UINT⟩) =
        tab c.s (c.S3p (p + 1)) := by
      apply tab_congr
      intro i hi
      by_cases hik : i = k
      · subst hik
        have : c.P i < p + 1 := by omega
        simp [Function.update, LRCtx.S3p, this, LRCtx.S3, hnew]
      · have hne : c.P i ≠ p := by
          intro he; apply hik; exact h.P_inj hi hk (by rw [he, hp])
        have : (c.P i < p + 1) ↔ (c.P i < p) := by omega
        simp [Function.update, hik, LRCtx.S3p, this]
    have hnext : (c.S2 c.s k).next = c.nxt k := by simp [LRCtx.S2, hk]
    simp only [lrCombine, rdI, wrI, hnn, if_false, Int.toNat_ofNat]
    rw [rd_tab _ hk]
    simp only [hcur]
    rw [wr_tab _ hk]
    simp only
    rw [hstate]
    simp only [hnext]
    by_cases hend : c.endMark (c.N - (c.P k + 1)) (c.P k + 1) = 0
    · have hlt : c.nxt k < 0 := by simp [LRCtx.nxt, hend]
      rw [if_pos hlt]
      congr 1
      apply tab_congr
      intro i hi
      have hpi := h.P_lt hi
      have : c.P i < p + 1 := by
        by_contra hge
        exact c.endMark_zero _ _ hend (c.P i) (by omega) (by omega) (h.isSp_P hi)
      simp [LRCtx.S3p, this]
    · obtain ⟨a1, a2, a3, a4, a5⟩ := c.endMark_ne _ _ hend
      have hnx : c.nxt k = ((c.node (c.endPos (c.N - (c.P k + 1)) (c.P k + 1)) / c.chk : Nat) : Int) := by
        unfold LRCtx.nxt
        rw [a4]
        generalize c.node (c.endPos (c.N - (c.P k + 1)) (c.P k + 1)) / c.chk = q
        omega
      have hge : ¬ c.nxt k < 0 := by rw [hnx]; exact not_lt.mpr (Nat.cast_nonneg _)
      rw [if_neg hge, hnx]
      have hPe : c.P (c.node (c.endPos (c.N - (c.P k + 1)) (c.P k + 1)) / c.chk) =
          c.endPos (c.N - (c.P k + 1)) (c.P k + 1) := by
        have e1 := LRCtx.isSp_eq a3
        show c.pos (_ * c.chk) = _
        rw [e1, h.pos_node _ (by omega)]
      have hbase : c.base (c.endPos (c.N - (c.P k + 1)) (c.P k + 1)) = c.P k :=
        c.base_eq_of_no_sp hspk _ (by omega) (fun u hu1 hu2 => a5 u (by omega) hu2)
      have hst2 : tab c.s (c.S3p (p + 1)) =
          tab c.s (c.S3p (c.endPos (c.N - (c.P k + 1)) (c.P k + 1))) := by
        apply tab_congr
        intro i hi
        have : (c.P i < p + 1) ↔ (c.P i < c.endPos (c.N - (c.P k + 1)) (c.P k + 1)) := by
          constructor
          · intro hh; omega
          · intro hh
            by_contra hge2
            exact a5 (c.P i) (by omega) hh (h.isSp_P hi)
        simp [LRCtx.S3p, this]
      rw [hst2]
      apply ih (c.endPos (c.N - (c.P k + 1)) (c.P k + 1)) _ fuel' _ a3.2 hPe (by omega) (by omega)
      have hpl := h.pre_loc (c.endPos (c.N - (c.P k + 1)) (c.P k + 1)) (by omega)
      rw [hbase] at hpl
      rw [← hpl, Nat.add_mod, Nat.mod_mod, Nat.add_comm tmp, hnew, ← Nat.add_mod]

theorem LRCtx.OK.pos_ge_one {c : LRCtx} (h : c.OK) {j : Nat} (h1 : 1 ≤ j) (hj : j < c.N) :
    1 ≤ c.pos j := by
  by_contra h0
  have : c.pos j = 0 := by omega
  have h2 := h.node_pos j hj
  rw [this, h.node_zero] at h2
  omega

theorem LRCtx.OK.addLoop_ok {c : LRCtx} (h : c.OK) :
    ∀ (cnt j : Nat), 1 ≤ j → j + cnt ≤ c.N →
      lrAddLoop (tab c.s c.S3) (tab c.N (c.F4 j)) j cnt = .ok (tab c.N (c.F4 (j + cnt))) := by
  intro cnt
  induction cnt with
  | zero => intro j _ _; rfl
  | succ cnt ih =>
    intro j h1 hN
    have hj : j < c.N := by omega
    have hu := h.pos_lt j hj
    have hu1 := h.pos_ge_one h1 hj
    have hown := h.own_lt hu1
    have hcur : c.F4 j j = ⟨-(c.own (c.pos j) : Int) - 1, (c.G0 j).value, c.loc (c.pos j)⟩ := by
      have : ¬ (1 ≤ j ∧ j < j) := by omega
      simp [LRCtx.F4, this, LRCtx.G2, hu1, hown]
    have hidx : -(-(c.own (c.pos j) : Int) - 1) - 1 = ((c.own (c.pos j) : Nat) : Int) := by omega
    have hnn : ¬ ((c.own (c.pos j) : Nat) : Int) < 0 := not_lt.mpr (Nat.cast_nonneg _)
    have hP : c.P (c.own (c.pos j)) = c.base (c.pos j) :=
      ((h.own_eq_iff hu1 hu hown).1 rfl).symm
    have hrank : (c.loc (c.pos j) + c.pre (c.P (c.own (c.pos j)) + 1) % UINT) % UINT =
        c.pre (c.pos j) % UINT := by
      rw [hP, Nat.add_mod_mod, Nat.add_comm]
      exact h.pre_loc _ hu1
    simp only [lrAddLoop]
    rw [rd_tab _ hj, hcur]
    simp only [hidx, rdI, hnn, if_false, Int.toNat_ofNat]
    rw [rd_tab _ hown]
    simp only
    rw [wr_tab _ hj]
    simp only
    have hstate : tab c.N (Function.update (c.F4 j) j
        ⟨-(c.own (c.pos j) : Int) - 1, (c.G0 j).value,
          (c.loc (c.pos j) + (c.S3 (c.own (c.pos j))).value) % UINT⟩) =
        tab c.N (c.F4 (j + 1)) := by
      apply tab_congr
      intro i hi
      by_cases hij : i = j
      · subst hij
        have : 1 ≤ i ∧ i < i + 1 := ⟨h1, by omega⟩
        simp only [Function.update, dite_true, LRCtx.F4, if_pos this, LRCtx.Gfin, LRCtx.S3]
        rw [hrank]
      · have : (1 ≤ i ∧ i < j + 1) ↔ (1 ≤ i ∧ i < j) := by
          constructor
          · rintro ⟨a, b⟩; exact ⟨a, by omega⟩
          · rintro ⟨a, b⟩; exact ⟨a, by omega⟩
        simp [Function.update, hij, LRCtx.F4, this]
    rw [hstate]
    have := ih (j + 1) (by omega) (by omega)
    rw [this]
    have e : j + 1 + cnt = j + (cnt + 1) := by omega
    rw [e]

theorem LRCtx.OK.add_ok {c : LRCtx} (h : c.OK) :
    forLoop (lrAdd c.chk c.N c.s (tab c.s c.S3)) 0 c.s (tab c.N (c.G2 c.s)) =
      .ok (tab c.N (c.F4 c.N)) := by
  have hs := h.s_pos
  have hchk := h.chk_pos
  obtain ⟨st, hst, hinv⟩ := forLoop_inv
    (fun k (A : List ENode) => A = tab c.N (c.F4 (if k = c.s then c.N else k * c.chk)))
    (lrAdd c.chk c.N c.s (tab c.s c.S3)) c.s 0 (tab c.N (c.G2 c.s))
    (by
      apply tab_congr
      intro j _
      have : ¬ (0 = c.s) := by omega
      simp [LRCtx.F4, this])
    (by
      intro k A _ hk hA
      have hks : k < c.s := by omega
      have hklt := h.sp_lt hks
      subst hA
      simp only [lrAdd]
      have hne : ¬ (k = c.s) := by omega
      rw [if_neg hne]
      have hmul : (k + 1) * c.chk = k * c.chk + c.chk := by ring
      have hstart : tab c.N (c.F4 (k * c.chk)) =
          tab c.N (c.F4 (if k = 0 then k * c.chk + 1 else k * c.chk)) := by
        apply tab_congr
        intro j _
        by_cases hk0 : k = 0
        · subst hk0
          have a : ¬ (1 ≤ j ∧ j < 0 * c.chk) := by omega
          have b : ¬ (1 ≤ j ∧ j < 0 * c.chk + 1) := by omega
          simp only [LRCtx.F4, if_true, if_neg a, if_neg b]
        · simp [hk0]
      rw [hstart]
      have hll1 : 1 ≤ (if k = 0 then k * c.chk + 1 else k * c.chk) := by
        by_cases hk0 : k = 0
        · simp [hk0]
        · rw [if_neg hk0]
          have : 1 * 1 ≤ k * c.chk := Nat.mul_le_mul (by omega) hchk
          omega
      have hul : (if k = 0 then k * c.chk + 1 else k * c.chk) ≤
          (if k = c.s - 1 then c.N else k * c.chk + c.chk) ∧
          (if k = c.s - 1 then c.N else k * c.chk + c.chk) ≤ c.N := by
        by_cases hk0 : k = 0
        · subst hk0
          by_cases hk1 : 0 = c.s - 1
          · simp only [if_pos hk1]; simp; omega
          · have := h.sp_lt (show 1 < c.s by omega)
            simp only [if_neg hk1]; simp; omega
        · rw [if_neg hk0]
          by_cases hk1 : k = c.s - 1
          · rw [if_pos hk1]; omega
          · rw [if_neg hk1]
            have := h.sp_lt (show k + 1 < c.s by omega)
            omega
      have hrun := h.addLoop_ok
        ((if k = c.s - 1 then c.N else k * c.chk + c.chk) -
          (if k = 0 then k * c.chk + 1 else k * c.chk))
        (if k = 0 then k * c.chk + 1 else k * c.chk) hll1 (by omega)
      refine ⟨_, hrun, ?_⟩
      have e1 : (if k = 0 then k * c.chk + 1 else k * c.chk) +
          ((if k = c.s - 1 then c.N else k * c.chk + c.chk) -
            (if k = 0 then k * c.chk + 1 else k * c.chk)) =
          (if k = c.s - 1 then c.N else k * c.chk + c.chk) := by omega
      rw [e1]
      by_cases hk1 : k = c.s - 1
      · have : k + 1 = c.s := by omega
        rw [if_pos hk1, if_pos this]
      · have : ¬ (k + 1 = c.s) := by omega
        rw [if_neg hk1, if_neg this, hmul])
  rw [hst, hinv]
  simp

theorem LRCtx.OK.countLoop_ok {c : LRCtx} (h : c.OK) :
    ∀ (rem t : Nat), t < c.N → countLoop (tab c.N c.G0) rem (c.G0 (c.node t)).next = .ok () := by
  intro rem
  induction rem with
  | zero => intro t _; rfl
  | succ rem ih =>
    intro t ht
    by_cases hl : t + 1 < c.N
    · have hlk := h.link t hl
      have hp := h.node_pos_of_ge (show 1 ≤ t + 1 by omega) hl
      have hposI : ((c.node (t + 1) : Nat) : Int) > 0 := by omega
      have hnn : ¬ ((c.node (t + 1) : Nat) : Int) < 0 := by omega
      rw [hlk]
      simp only [countLoop, hposI, if_true, rdI, hnn, if_false, Int.toNat_ofNat]
      rw [rd_tab _ (h.node_lt _ hl)]
      exact ih (t + 1) hl
    · have : t = c.N - 1 := by omega
      rw [this, h.last]
      simp [countLoop]

theorem LRCtx.OK.Gfin_zero {c : LRCtx} (h : c.OK) :
    c.Gfin 0 = ⟨-1, (c.G0 0).value, 0⟩ := by
  have hp : c.pos 0 = 0 := by
    have := h.pos_node 0 h.N_pos
    rwa [h.node_zero] at this
  simp [LRCtx.Gfin, hp, LRCtx.own, LRCtx.base, LRCtx.pre, h.node_zero]

/-- The run of the list ranking on a chain returns the array `Gfin`. -/
theorem LRCtx.OK.listRanking_ok {c : LRCtx} (h : c.OK) {fuel : Nat} (hf : c.N ≤ fuel) :
    listRankingWith c.s fuel (tab c.N c.G0) c.N = .ok (tab c.N c.Gfin) := by
  have hs := h.s_pos
  have hN := h.N_pos
  have hs0 : ¬ (c.s = 0) := by omega
  have hcount := h.countLoop_ok c.N 0 hN
  rw [h.node_zero] at hcount
  have hcomb := h.combine_ok c.N 0 0 fuel 0 hs
    (by
      show c.pos (0 * c.chk) = 0
      have := h.pos_node 0 hN
      rw [h.node_zero] at this
      simpa using this)
    (by omega) hf (by simp [LRCtx.loc, LRCtx.pre])
  have hst0 : tab c.s (c.S3p 0) = tab c.s (c.S2 c.s) := by
    apply tab_congr; intro i _; simp [LRCtx.S3p]
  rw [hst0] at hcomb
  have hp0 : c.pos 0 = 0 := by
    have := h.pos_node 0 hN
    rwa [h.node_zero] at this
  have hF0 : c.F4 c.N 0 = c.G1 0 := by
    simp [LRCtx.F4, LRCtx.G2, hp0]
  have hG10 : c.G1 0 = ⟨-1, (c.G0 0).value, (c.G0 0).rank⟩ := by
    simp [LRCtx.G1, h.isSp_zero]
  simp only [listRankingWith, if_neg hs0]
  rw [← h.chk_eq, rd_tab _ hN]
  simp only
  rw [hcount]
  simp only
  have hrep : (List.replicate c.s (⟨0, 0, 0, 0⟩ : SublistNode)) =
      tab c.s (fun _ => ⟨0, 0, 0, 0⟩) := by
    apply List.ext_getElem?
    intro k
    by_cases hk : k < c.s
    · simp [tab, List.getElem?_range, hk, List.getElem?_replicate]
    · simp [tab, List.getElem?_eq_none, not_lt.mp hk]
  rw [hrep, h.split_ok]
  simp only
  rw [h.rank_ok hf]
  simp only [Int.Nat.cast_ofNat_Int] at hcomb ⊢
  rw [hcomb]
  simp only
  rw [h.add_ok]
  simp only
  rw [rd_tab _ hN]
  simp only
  rw [wr_tab _ hN, hF0, hG10]
  simp only
  congr 1
  apply tab_congr
  intro j hj
  by_cases hj0 : j = 0
  · subst hj0
    simp [Function.update, h.Gfin_zero]
  · have : 1 ≤ j ∧ j < c.N := ⟨by omega, hj⟩
    simp [Function.update, hj0, LRCtx.F4, this]

theorem chainCtx_ok {A : List ENode} {L : List Nat} {s : Nat} (hc : SingleChain A L)
    (hs1 : 1 ≤ s) (hs : s ≤ A.length) : (chainCtx A L s).OK := by
  obtain ⟨hperm, hhead, hlink, hlast⟩ := hc
  have hlen : L.length = A.length := by simpa using hperm.length_eq
  have hnodup : L.Nodup := hperm.nodup_iff.mpr (List.nodup_range _)
  have hmem : ∀ j, j ∈ L ↔ j < A.length := by
    intro j; rw [hperm.mem_iff, List.mem_range]
  refine ⟨hs1, hs, rfl, ?_, ?_, ?_, ?_, ?_, ?_, ?_⟩
  · intro t ht
    show L.getD t 0 < A.length
    have ht' : t < L.length := by rw [hlen]; exact ht
    rw [List.getD_eq_getElem _ _ ht']
    exact (hmem _).1 (List.getElem_mem ht')
  · intro j hj
    show L.indexOf j < A.length
    rw [← hlen]
    exact List.indexOf_lt_length.mpr ((hmem j).2 hj)
  · intro j hj
    show L.getD (L.indexOf j) 0 = j
    have hi : L.indexOf j < L.length := List.indexOf_lt_length.mpr ((hmem j).2 hj)
    rw [List.getD_eq_getElem _ _ hi]
    exact List.getElem_indexOf hi
  · intro t ht
    show L.indexOf (L.getD t 0) = t
    have ht' : t < L.length := by rw [hlen]; exact ht
    rw [List.getD_eq_getElem _ _ ht']
    exact List.indexOf_getElem hnodup t ht'
  · show L.getD 0 0 = 0
    obtain ⟨ys, rfl⟩ := List.head?_eq_some_iff.mp hhead
    rfl
  · intro t ht
    have ht' : t + 1 < A.length := ht
    exact hlink t (by rw [hlen]; omega)
  · have := hlast
    rw [hlen] at this
    exact this

theorem getD_tab {α : Type} {N : Nat} (G : Nat → α) (d : α) {j : Nat} (h : j < N) :
    (tab N G).getD j d = G j := by
  simp [tab, List.getD_eq_getElem?_getD, List.getElem?_range, h]

theorem chainCtx_pre (A : List ENode) (L : List Nat) (s : Nat) :
    ∀ t, t ≤ L.length → (chainCtx A L s).pre t = rankBefore A L t
  | 0, _ => by simp [LRCtx.pre, rankBefore]
  | t + 1, ht => by
    have ih := chainCtx_pre A L s t (by omega)
    have ht' : t < L.length := by omega
    simp only [LRCtx.pre, ih, rankBefore, List.take_succ, List.getElem?_eq_getElem ht',
      Option.toList, List.map_append, List.sum_append, List.map_cons, List.map_nil,
      List.sum_cons, List.sum_nil, Nat.add_zero]
    congr 1
    show rankAt A (L.getD t 0) = rankAt A L[t]
    rw [List.getD_eq_getElem _ _ ht']

/-- On a single chain that ends with `next = 0`, with `1 ≤ s ≤ N` splitters
and fuel `≥ N`, the list ranking returns; every node then holds the sum modulo
`2^32` of the original ranks of the nodes before it, and the `value` fields
are unchanged. -/
theorem listRankingWith_chain {A : List ENode} {L : List Nat} {s fuel : Nat}
    (hc : SingleChain A L) (hs1 : 1 ≤ s) (hs : s ≤ A.length) (hf : A.length ≤ fuel) :
    ∃ A1, listRankingWith s fuel A A.length = .ok A1 ∧ A1.length = A.length ∧
      (∀ t, t < A.length → rankAt A1 (L.getD t 0) = rankBefore A L t % UINT) ∧
      (∀ j, j < A.length → valueAt A1 j = valueAt A j) := by
  have hok := chainCtx_ok hc hs1 hs
  have hrun := hok.listRanking_ok (show (chainCtx A L s).N ≤ fuel from hf)
  have hA : A = tab A.length (fun j => A.getD j ⟨0, 0, 0⟩) := eq_tab A _
  have hlen : L.length = A.length := by simpa using hc.1.length_eq
  refine ⟨tab A.length (chainCtx A L s).Gfin, ?_, tab_length _ _, ?_, ?_⟩
  · rw [show listRankingWith s fuel A A.length =
        listRankingWith s fuel (tab A.length (fun j => A.getD j ⟨0, 0, 0⟩)) A.length from
      congrArg (fun B => listRankingWith s fuel B A.length) hA]
    exact hrun
  · intro t ht
    have hn : L.getD t 0 < A.length := hok.node_lt t ht
    have hp := hok.pos_node t ht
    show (List.getD (tab A.length (chainCtx A L s).Gfin) (L.getD t 0) ⟨0, 0, 0⟩).rank = _
    rw [getD_tab _ _ hn]
    show (chainCtx A L s).pre ((chainCtx A L s).pos ((chainCtx A L s).node t)) % UINT = _
    rw [hp, chainCtx_pre A L s t (by omega)]
  · intro j hj
    show (List.getD (tab A.length (chainCtx A L s).Gfin) j ⟨0, 0, 0⟩).value = _
    rw [getD_tab _ _ hj]
    rfl

theorem rankBefore_succ (A : List ENode) (L : List Nat) {t : Nat} (ht : t < L.length) :
    rankBefore A L (t + 1) = rankBefore A L t + rankAt A (L.getD t 0) := by
  simp only [rankBefore, List.take_succ, List.getElem?_eq_getElem ht, Option.toList,
    List.map_append, List.sum_append, List.map_cons, List.map_nil, List.sum_cons,
    List.sum_nil, Nat.add_zero]
  rw [List.getD_eq_getElem _ _ ht]

theorem rankBefore_mono (A : List ENode) (L : List Nat) (t : Nat) :
    ∀ u, t ≤ u → u ≤ L.length → rankBefore A L t ≤ rankBefore A L u
  | 0, h, _ => by
    have : t = 0 := by omega
    subst this; exact le_refl _
  | u + 1, h, hu => by
    by_cases htu : t = u + 1
    · subst htu; exact le_refl _
    · have ih := rankBefore_mono A L t u (by omega) (by omega)
      rw [rankBefore_succ A L (show u < L.length by omega)]
      omega

theorem clog2Aux_le (x : Nat) : ∀ f k, clog2Aux x f k ≤ k + f
  | 0, k => by simp [clog2Aux]
  | f + 1, k => by
    have := clog2Aux_le x f (k + 1)
    simp only [clog2Aux]; split <;> omega

theorem clog2Aux_ge (x : Nat) : ∀ f k, k ≤ clog2Aux x f k
  | 0, k => by simp [clog2Aux]
  | f + 1, k => by
    have := clog2Aux_ge x f (k + 1)
    simp only [clog2Aux]; split <;> omega

/-- With one worker and at least two nodes the number of splitters lies
between 1 and the number of nodes. -/
theorem splitters_one {N : Nat} (hN : 2 ≤ N) : 1 ≤ splitters N 1 ∧ splitters N 1 ≤ N := by
  have h0 : ¬ (N = 0) := by omega
  simp only [splitters, if_neg h0, pow_one, clog2]
  refine ⟨?_, by simpa using clog2Aux_le N N 0⟩
  obtain ⟨f, rfl⟩ : ∃ f, N = f + 1 := ⟨N - 1, by omega⟩
  have h1 : ¬ (2 ^ 0 ≥ f + 1) := by simp; omega
  simp only [clog2Aux, if_neg h1]
  exact clog2Aux_ge _ _ _

theorem lrWalk_mono (i : Nat) : ∀ (f k : Nat) (A : List ENode) (curr : Int) (tmp : Nat)
    (r : List ENode × Int × Nat), lrWalk i f A curr tmp = .ok r →
    lrWalk i (f + k) A curr tmp = .ok r := by
  intro f
  induction f with
  | zero =>
    intro k A curr tmp r h
    by_cases hc : curr > 0
    · simp [lrWalk, hc] at h
    · have hle : curr ≤ 0 := by omega
      rw [lrWalk_stop _ _ _ _ _ hle] at h ⊢
      exact h
  | succ f ih =>
    intro k A curr tmp r h
    have e : f + 1 + k = (f + k) + 1 := by omega
    rw [e]
    by_cases hc : curr > 0
    · simp only [lrWalk, hc, if_true] at h ⊢
      cases h1 : rdI A curr with
      | error e1 => rw [h1] at h; simp at h
      | ok nd =>
        rw [h1] at h
        simp only at h ⊢
        cases h2 : wrI A curr { nd with rank := tmp, next := -(i : Int) - 1 } with
        | error e2 => rw [h2] at h; simp at h
        | ok A1 =>
          rw [h2] at h
          simp only at h ⊢
          exact ih k _ _ _ _ h
    · have hle : curr ≤ 0 := by omega
      rw [lrWalk_stop _ _ _ _ _ hle] at h ⊢
      exact h

theorem lrRank_mono (f k : Nat) (st r : List ENode × List SublistNode) (i : Nat)
    (h : lrRank f st i = .ok r) : lrRank (f + k) st i = .ok r := by
  simp only [lrRank] at h ⊢
  cases h1 : rd st.2 i with
  | error e1 => rw [h1] at h; simp at h
  | ok sn =>
    rw [h1] at h
    simp only at h ⊢
    cases h2 : lrWalk i f st.1 sn.scratch 0 with
    | error e2 => rw [h2] at h; simp at h
    | ok w =>
      rw [lrWalk_mono i f k _ _ _ _ h2]
      rw [h2] at h
      exact h

theorem forLoop_mono {σ : Type} (b1 b2 : σ → Nat → Except Fault σ)
    (hb : ∀ st k r, b1 st k = .ok r → b2 st k = .ok r) :
    ∀ (cnt lo : Nat) (st r : σ), forLoop b1 lo cnt st = .ok r → forLoop b2 lo cnt st = .ok r
  | 0, lo, st, r, h => by simpa [forLoop] using h
  | cnt + 1, lo, st, r, h => by
    simp only [forLoop] at h ⊢
    cases h1 : b1 st lo with
    | error e1 => rw [h1] at h; simp at h
    | ok st1 =>
      rw [h1] at h
      rw [hb _ _ _ h1]
      exact forLoop_mono b1 b2 hb cnt (lo + 1) st1 r h

/-- The sequential pass over the sublist table never stops when every entry
points to another entry. -/
theorem lrCombine_cycle : ∀ (fuel : Nat) (sub : List SublistNode) (k tmp : Nat),
    k < sub.length →
    (∀ i, i < sub.length → 0 ≤ (sub.getD i ⟨0, 0, 0, 0⟩).next ∧
      (sub.getD i ⟨0, 0, 0, 0⟩).next < sub.length) →
    lrCombine fuel sub (k : Int) tmp = .error Fault.outOfFuel := by
  intro fuel
  induction fuel with
  | zero => intro sub k tmp _ _; rfl
  | succ fuel ih =>
    intro sub k tmp hk hall
    have hnn : ¬ ((k : Nat) : Int) < 0 := not_lt.mpr (Nat.cast_nonneg _)
    have hsub : sub = tab sub.length (fun j => sub.getD j ⟨0, 0, 0, 0⟩) := eq_tab sub _
    obtain ⟨h1, h2⟩ := hall k hk
    simp only [lrCombine, rdI, wrI, hnn, if_false, Int.toNat_ofNat]
    rw [hsub, rd_tab _ (by simpa using hk)]
    simp only
    rw [wr_tab _ (by simpa using hk)]
    simp only [tab_length]
    rw [if_neg (by omega)]
    obtain ⟨k1, hk1⟩ : ∃ k1 : Nat, (sub.getD k ⟨0, 0, 0, 0⟩).next = (k1 : Int) :=
      ⟨(sub.getD k ⟨0, 0, 0, 0⟩).next.toNat, by omega⟩
    rw [hk1]
    have hk1lt : k1 < sub.length := by omega
    refine ih _ k1 _ (by rw [tab_length]; exact hk1lt) ?_
    intro i hi
    rw [tab_length] at hi ⊢
    rw [getD_tab _ _ hi]
    have hi2 := hall i hi
    by_cases hik : i = k
    · subst hik
      simp only [Function.update, dite_true]
      exact ⟨by omega, by omega⟩
    · simp only [Function.update, hik, dite_false]
      exact hi2

theorem listRankingWith_combine_error {s fuel size : Nat} {A : List ENode} {hd : ENode}
    {st1 st2 : List ENode × List SublistNode} {e : Fault} (hs : ¬ (s = 0))
    (h0 : rd A 0 = .ok hd) (hc : countLoop A size hd.next = .ok ())
    (h1 : forLoop (lrSplit (size / s)) 0 s (A, List.replicate s ⟨0, 0, 0, 0⟩) = .ok st1)
    (h2 : forLoop (lrRank fuel) 0 s st1 = .ok st2)
    (h3 : lrCombine fuel st2.2 0 0 = .error e) :
    listRankingWith s fuel A size = .error e := by
  simp only [listRankingWith, if_neg hs, h0, hc, h1, h2, h3]

theorem six_never_returns (k : Nat) :
    listRankingWith 3 (2 + k) (sixNodes (-1)) 6 = .error Fault.outOfFuel := by
  have h1 : forLoop (lrSplit (6 / 3)) 0 3
      (sixNodes (-1), List.replicate 3 (⟨0, 0, 0, 0⟩ : SublistNode)) = .ok sixSplit := by
    decide
  have h2 : forLoop (lrRank (2 + k)) 0 3 sixSplit = .ok sixRanked :=
    forLoop_mono (lrRank 2) (lrRank (2 + k)) (fun st i r h => lrRank_mono 2 k st r i h)
      3 0 _ _ (by decide)
  have h3 : lrCombine (2 + k) sixRanked.2 ((0 : Nat) : Int) 0 = .error Fault.outOfFuel :=
    lrCombine_cycle _ _ 0 0 (by decide) (by decide)
  have h0 : rd (sixNodes (-1)) 0 = .ok ⟨1, 0, 1⟩ := by decide
  have hc : countLoop (sixNodes (-1)) 6 (⟨1, 0, 1⟩ : ENode).next = .ok () := by decide
  exact listRankingWith_combine_error (by decide) h0 hc h1 h2 h3

/-- C1: on `A = [1,1,1,1,1]` (`N = 5`) with `P = 4` workers, so with chunk
`⌈5/4⌉ = 2`, `parallel_prefix_sum` leaves the array: the carry loop executes
`A[5] += A[3]`, an access outside `[0, 5)`, although `P ≤ N`. -/
theorem C1_prefix_sum_out_of_bounds :
    parallel_prefix_sum 4 [1, 1, 1, 1, 1] 5 = .error Fault.outOfBounds := by
  decide

/-- C2 (counterexample): on the chain `0 → 1` with both ranks 1 the run with
one worker leaves `rank = 1` in node 1, not the sum `2` of the ranks from the
head up to and including node 1; a one-node list divides by zero, and with
three workers (three splitters for two nodes) node 1 gets rank 0. -/
theorem C2_inclusive_sum_refuted :
    SingleChain twoNodes [0, 1] ∧
    (∃ A1, parallel_list_ranking 1 2 twoNodes 2 = .ok A1 ∧
      rankAt A1 1 ≠ rankBefore twoNodes [0, 1] (1 + 1) % UINT) ∧
    parallel_list_ranking 1 1 [⟨0, 0, 1⟩] 1 = .error Fault.divByZero ∧
    ranksOf (parallel_list_ranking 3 2 twoNodes 2) = .ok [0, 0] :=
  ⟨by decide, ⟨[⟨-1, 0, 0⟩, ⟨-1, 0, 1⟩], by decide, by decide⟩, by decide, by decide⟩

/-- C2 (amended): on a single chain that ends with `next = 0`, when the number
of splitters `⌈log2(N)·P⌉` lies between 1 and `N` (so `N ≥ 2`), the run
returns and every node holds the sum modulo `2^32` of the original ranks of the
nodes strictly before it on the list; in particular `A[0].rank = 0`. -/
theorem C2_exclusive_ranks (A : List ENode) (L : List Nat) (threads fuel : Nat)
    (hc : SingleChain A L) (hs1 : 1 ≤ splitters A.length threads)
    (hs : splitters A.length threads ≤ A.length) (hf : A.length ≤ fuel) :
    ∃ A1, parallel_list_ranking threads fuel A A.length = .ok A1 ∧
      A1.length = A.length ∧ rankAt A1 0 = 0 ∧
      ∀ t, t < A.length → rankAt A1 (L.getD t 0) = rankBefore A L t % UINT := by
  obtain ⟨A1, h1, h2, h3, _⟩ := listRankingWith_chain hc hs1 hs hf
  refine ⟨A1, h1, h2, ?_, h3⟩
  have hN : 0 < A.length := by omega
  have h0 := h3 0 hN
  have hhead : L.getD 0 0 = 0 := by
    obtain ⟨ys, rfl⟩ := List.head?_eq_some_iff.mp hc.2.1
    rfl
  rw [hhead] at h0
  rw [h0]
  simp [rankBefore]

/-- C2 (witness): the amended statement applied to the chain `0 → 1`. -/
theorem C2_exclusive_ranks_witness :
    SingleChain twoNodes [0, 1] ∧ 1 ≤ splitters twoNodes.length 1 ∧
    splitters twoNodes.length 1 ≤ twoNodes.length ∧ twoNodes.length ≤ 2 ∧
    ∃ A1, parallel_list_ranking 1 2 twoNodes twoNodes.length = .ok A1 ∧
      A1.length = twoNodes.length ∧ rankAt A1 0 = 0 ∧
      ∀ t, t < twoNodes.length →
        rankAt A1 ([0, 1].getD t 0) = rankBefore twoNodes [0, 1] t % UINT :=
  ⟨by decide, by decide, by decide, by decide,
    C2_exclusive_ranks twoNodes [0, 1] 1 2 (by decide) (by decide) (by decide) (by decide)⟩

/-- C3 (counterexample): on the chain `0 → 1 → 2` with ranks
`2^32 - 1, 1, 0` and one splitter, the final rank of node 2 (`0`) is smaller
than the final rank of its predecessor node 1 (`2^32 - 1`): the ranks are not
non-decreasing along the list. -/
theorem C3_wrap_breaks_monotone :
    SingleChain wrapNodes [0, 1, 2] ∧
    ∃ A1, listRankingWith 1 3 wrapNodes 3 = .ok A1 ∧ rankAt A1 2 < rankAt A1 1 :=
  ⟨by decide, [⟨-1, 0, 0⟩, ⟨-1, 0, 4294967295⟩, ⟨-1, 0, 0⟩], by decide, by decide⟩

/-- C3 (amended): on a single chain of `N ≥ 2` nodes that ends with `next = 0`,
for every splitter count `1 ≤ s ≤ N`, the run returns, `A[0].rank = 0`, the
final rank of a successor is the final rank of its predecessor plus the
predecessor's original rank modulo `2^32`, every final rank is the sum modulo
`2^32` of the original ranks of the strictly preceding nodes, and the final
ranks are non-decreasing along the list when the sum of all original ranks is
below `2^32`. -/
theorem C3_ranks_along_list (A : List ENode) (L : List Nat) (s fuel : Nat)
    (hc : SingleChain A L) (hN : 2 ≤ A.length) (hs1 : 1 ≤ s) (hs : s ≤ A.length)
    (hf : A.length ≤ fuel) :
    ∃ A1, listRankingWith s fuel A A.length = .ok A1 ∧ rankAt A1 0 = 0 ∧
      (∀ t, t + 1 < A.length →
        rankAt A1 (L.getD (t + 1) 0) =
          (rankAt A1 (L.getD t 0) + rankAt A (L.getD t 0)) % UINT) ∧
      (∀ t, t < A.length → rankAt A1 (L.getD t 0) = rankBefore A L t % UINT) ∧
      (rankBefore A L A.length < UINT → ∀ t, t + 1 < A.length →
        rankAt A1 (L.getD t 0) ≤ rankAt A1 (L.getD (t + 1) 0)) := by
  obtain ⟨A1, h1, _, h3, _⟩ := listRankingWith_chain hc hs1 hs hf
  have hlen : L.length = A.length := by simpa using hc.1.length_eq
  have hhead : L.getD 0 0 = 0 := by
    obtain ⟨ys, rfl⟩ := List.head?_eq_some_iff.mp hc.2.1
    rfl
  refine ⟨A1, h1, ?_, ?_, h3, ?_⟩
  · have h0 := h3 0 (by omega)
    rw [hhead] at h0
    rw [h0]
    simp [rankBefore]
  · intro t ht
    rw [h3 (t + 1) ht, h3 t (by omega), rankBefore_succ A L (by omega), Nat.mod_add_mod]
  · intro hsum t ht
    have m1 := rankBefore_mono A L t (t + 1) (by omega) (by omega)
    have m2 := rankBefore_mono A L (t + 1) A.length (by omega) (by omega)
    rw [h3 (t + 1) ht, h3 t (by omega), Nat.mod_eq_of_lt (by omega),
      Nat.mod_eq_of_lt (by omega)]
    exact m1

/-- C3 (witness): the amended statement applied to the chain `0 → 1` with one
splitter. -/
theorem C3_ranks_along_list_witness :
    SingleChain twoNodes [0, 1] ∧ 2 ≤ twoNodes.length ∧
    ∃ A1, listRankingWith 1 2 twoNodes twoNodes.length = .ok A1 ∧ rankAt A1 0 = 0 ∧
      (∀ t, t + 1 < twoNodes.length →
        rankAt A1 ([0, 1].getD (t + 1) 0) =
          (rankAt A1 ([0, 1].getD t 0) + rankAt twoNodes ([0, 1].getD t 0)) % UINT) ∧
      (∀ t, t < twoNodes.length →
        rankAt A1 ([0, 1].getD t 0) = rankBefore twoNodes [0, 1] t % UINT) ∧
      (rankBefore twoNodes [0, 1] twoNodes.length < UINT → ∀ t, t + 1 < twoNodes.length →
        rankAt A1 ([0, 1].getD t 0) ≤ rankAt A1 ([0, 1].getD (t + 1) 0)) :=
  ⟨by decide, by decide,
    C3_ranks_along_list twoNodes [0, 1] 1 2 (by decide) (by decide) (by decide) (by decide)
      (by decide)⟩

/-- C9 (counterexample): for `N = 6`, `next = [1,2,3,4,5,-1]`, all ranks 1,
and one worker, no amount of fuel makes the routine return: the walk of the
last sublist stores `-(-1)-1 = 0` as successor of sublist 2, and the loop over
the sublist table cycles `0 → 1 → 2 → 0` forever. -/
theorem C9_negative_terminator_diverges :
    ¬ ∃ fuel A1, parallel_list_ranking 1 fuel (sixNodes (-1)) 6 = .ok A1 := by
  rintro ⟨fuel, A1, h⟩
  have hs : splitters 6 1 = 3 := by decide
  simp only [parallel_list_ranking, hs] at h
  rcases Nat.lt_or_ge fuel 2 with hlt | hge
  · have h01 : fuel = 0 ∨ fuel = 1 := by omega
    rcases h01 with rfl | rfl
    · have : listRankingWith 3 0 (sixNodes (-1)) 6 = .error Fault.outOfFuel := by decide
      rw [this] at h; cases h
    · have : listRankingWith 3 1 (sixNodes (-1)) 6 = .error Fault.outOfFuel := by decide
      rw [this] at h; cases h
  · obtain ⟨k, rfl⟩ : ∃ k, fuel = 2 + k := ⟨fuel - 2, by omega⟩
    rw [six_never_returns k] at h
    cases h

/-- C9 (amended): the end-of-list marker is `0`: on a single chain of
`N ≥ 2` nodes whose last node has `next = 0`, the run with one worker and fuel
`≥ N` returns, and every node holds the sum modulo `2^32` of the original
ranks of the nodes before it. -/
theorem C9_zero_terminated (A : List ENode) (L : List Nat) (fuel : Nat)
    (hc : SingleChain A L) (hN : 2 ≤ A.length) (hf : A.length ≤ fuel) :
    ∃ A1, parallel_list_ranking 1 fuel A A.length = .ok A1 ∧
      ∀ t, t < A.length → rankAt A1 (L.getD t 0) = rankBefore A L t % UINT := by
  obtain ⟨hs1, hs⟩ := splitters_one hN
  obtain ⟨A1, h1, _, h3, _⟩ := listRankingWith_chain hc hs1 hs hf
  exact ⟨A1, h1, h3⟩

/-- C9 (witness): for `N = 6`, `next = [1,2,3,4,5,0]`, all ranks 1, the run
returns the ranks `[0,1,2,3,4,5]`. -/
theorem C9_zero_terminated_witness :
    SingleChain (sixNodes 0) [0, 1, 2, 3, 4, 5] ∧ 2 ≤ (sixNodes 0).length ∧
    ranksOf (parallel_list_ranking 1 6 (sixNodes 0) 6) = .ok [0, 1, 2, 3, 4, 5] ∧
    ∃ A1, parallel_list_ranking 1 6 (sixNodes 0) (sixNodes 0).length = .ok A1 ∧
      ∀ t, t < (sixNodes 0).length →
        rankAt A1 ([0, 1, 2, 3, 4, 5].getD t 0) =
          rankBefore (sixNodes 0) [0, 1, 2, 3, 4, 5] t % UINT :=
  ⟨by decide, by decide, by decide,
    C9_zero_terminated (sixNodes 0) [0, 1, 2, 3, 4, 5] 6 (by decide) (by decide) (by decide)⟩

/-- C10: for the two-node chain `0 → 1` with ranks `[1, 1]` and three workers
the code takes `⌈log2(2)·3⌉ = 3 > 2` splitters, so `chk = 0` and every splitter
sits on node 0; the final ranks are `[0, 0]`, whereas one splitter gives
`[0, 1]`: the rank of the head is lost. -/
theorem C10_more_splitters_than_nodes :
    splitters 2 3 = 3 ∧
    ranksOf (parallel_list_ranking 3 2 twoNodes 2) = .ok [0, 0] ∧
    ranksOf (listRankingWith 1 2 twoNodes 2) = .ok [0, 1] := by
  decide

/-- C8: on the triangle the runs with 1 and 2 workers agree, the run with 3
workers leaves the counter arrays in the second region (index 3 of arrays of
length 3), and the run with 8 workers returns other bit strings
(`S1 = 11010101`, `S2 = 111000` instead of `S1 = 11101011`, `S2 = 110100`). -/
theorem C8_worker_count_changes_output :
    parallel_succinct_graph 1 4 triangleG triangleT =
      .ok ⟨[true, true, true, false, true, false, true, true],
        [true, true, false, true, false, false], [true, false]⟩ ∧
    parallel_succinct_graph 2 4 triangleG triangleT =
      parallel_succinct_graph 1 4 triangleG triangleT ∧
    parallel_succinct_graph 3 4 triangleG triangleT = .error Fault.outOfBounds ∧
    parallel_succinct_graph 8 4 triangleG triangleT =
      .ok ⟨[true, true, false, true, false, true, false, true],
        [true, true, true, false, false, false], [true, false]⟩ := by
  decide

theorem ValidInput.H_ge {g : Graph} {t : Tree} {emb : Nat → Nat} (h : ValidInput g t emb) :
    2 ≤ t.H := by
  have := h.n_ge
  unfold Tree.H; omega

theorem ValidInput.fwd_iff {g : Graph} {t : Tree} {emb : Nat → Nat} (h : ValidInput g t emb)
    {i : Nat} (hi : i < t.H) : isFwd g t i ↔ (t.src i = 0 ∨ i ≠ t.first (t.src i)) := by
  constructor
  · intro hf
    by_contra hc
    have h1 : t.src i ≠ 0 := fun h0 => hc (Or.inl h0)
    have h2 : i = t.first (t.src i) := by
      by_contra h3; exact hc (Or.inr h3)
    have := h.t_back i hi h1 h2
    unfold isFwd at hf
    omega
  · exact h.t_fwd i hi

theorem ValidInput.twin_fwd {g : Graph} {t : Tree} {emb : Nat → Nat} (h : ValidInput g t emb)
    {i : Nat} (hi : i < t.H) : isFwd g t (t.twin i) ↔ ¬ isFwd g t i := by
  have hne : g.ord (t.src i) ≠ g.ord (t.tgt i) := by
    by_cases hc : t.src i = 0 ∨ i ≠ t.first (t.src i)
    · have := h.t_fwd i hi hc; omega
    · have h1 : t.src i ≠ 0 := fun h0 => hc (Or.inl h0)
      have h2 : i = t.first (t.src i) := by
        by_contra h3; exact hc (Or.inr h3)
      have := h.t_back i hi h1 h2; omega
  unfold isFwd
  rw [h.t_twin_src i hi, h.t_twin_tgt i hi]
  omega

/-- The target `w` of a forward half-edge `c` is not the root, and the twin
of `c` is the first half-edge of `w`. -/
theorem ValidInput.fwd_tgt {g : Graph} {t : Tree} {emb : Nat → Nat} (h : ValidInput g t emb)
    {c : Nat} (hc : c < t.H) (hf : isFwd g t c) :
    t.tgt c ≠ 0 ∧ t.tgt c < t.n ∧ t.twin c = t.first (t.tgt c) ∧
      g.ord (t.src c) < g.ord (t.tgt c) := by
  have htw := h.t_twin_lt c hc
  have hb : ¬ isFwd g t (t.twin c) := by
    rw [h.twin_fwd hc]; exact fun hn => hn hf
  rw [h.fwd_iff htw, h.t_twin_src c hc] at hb
  have h1 : t.tgt c ≠ 0 := fun h0 => hb (Or.inl h0)
  have h2 : t.twin c = t.first (t.tgt c) := by
    by_contra h3; exact hb (Or.inr h3)
  exact ⟨h1, h.t_tgt_lt c hc, h2, hf⟩

/-- The half-edges after the first one in the range of a non-root node `w`
are forward half-edges to vertices of higher order. -/
theorem ValidInput.child {g : Graph} {t : Tree} {emb : Nat → Nat} (h : ValidInput g t emb)
    {w d : Nat} (hw : w < t.n) (h1 : t.first w < d ∨ w = 0) (hd0 : t.first w ≤ d)
    (h2 : d ≤ t.last w) :
    d < t.H ∧ t.src d = w ∧ isFwd g t d := by
  obtain ⟨a, b⟩ := h.t_range_src w hw d hd0 h2
  refine ⟨a, b, ?_⟩
  rw [h.fwd_iff a, b]
  rcases h1 with h1 | h1
  · right; omega
  · left; exact h1

theorem headOr_append (l1 l2 : List Nat) (k : Int) :
    headOr (l1 ++ l2) k = headOr l1 (headOr l2 k) := by
  cases l1 <;> rfl

theorem Linked_append (nx : Nat → Int) (l2 : List Nat) (k : Int) :
    ∀ l1, Linked nx l1 (headOr l2 k) → Linked nx l2 k → Linked nx (l1 ++ l2) k
  | [], _, h2 => h2
  | a :: l, h1, h2 => by
    obtain ⟨ha, hl⟩ := h1
    refine ⟨?_, Linked_append nx l2 k l hl h2⟩
    show nx a = headOr (l ++ l2) k
    rw [headOr_append]; exact ha

theorem mem_concatOver (f : Nat → List Nat) (x : Nat) :
    ∀ cnt d, x ∈ concatOver f d cnt ↔ ∃ e, d ≤ e ∧ e < d + cnt ∧ x ∈ f e
  | 0, d => by
    simp only [concatOver, List.not_mem_nil, false_iff]
    rintro ⟨e, h1, h2, _⟩; omega
  | cnt + 1, d => by
    simp only [concatOver, List.mem_append, mem_concatOver f x cnt (d + 1)]
    constructor
    · rintro (h | ⟨e, h1, h2, h3⟩)
      · exact ⟨d, le_refl _, by omega, h⟩
      · exact ⟨e, by omega, by omega, h3⟩
    · rintro ⟨e, h1, h2, h3⟩
      by_cases he : e = d
      · subst he; exact Or.inl h3
      · exact Or.inr ⟨e, by omega, by omega, h3⟩

theorem ValidInput.children_linked {g : Graph} {t : Tree} {emb : Nat → Nat}
    (h : ValidInput g t emb) (f w : Nat) (hw : w < t.n)
    (ih : ∀ d, (t.first w < d ∨ w = 0) → t.first w ≤ d → d ≤ t.last w →
      Linked (tourNext t) (subTour t f d) ((csucc t d : Nat) : Int) ∧
        ∀ k1, headOr (subTour t f d) k1 = (d : Int))
    (rest : List Nat) (k : Int) (hrest : Linked (tourNext t) rest k)
    (hhead : headOr rest k = ((t.first w : Nat) : Int)) :
    ∀ cnt d, (t.first w < d ∨ w = 0) → t.first w ≤ d → d + cnt = t.last w + 1 →
      Linked (tourNext t) (concatOver (subTour t f) d cnt ++ rest) k ∧
        headOr (concatOver (subTour t f) d cnt ++ rest) k =
          if cnt = 0 then headOr rest k else (d : Int)
  | 0, d, _, _, _ => by simpa [concatOver] using hrest
  | cnt + 1, d, h1, h0, h2 => by
    obtain ⟨ihl, ihh⟩ := ValidInput.children_linked h f w hw ih rest k hrest hhead cnt (d + 1)
      (by omega) (by omega) (by omega)
    obtain ⟨hd1, hd2⟩ := ih d h1 h0 (by omega)
    obtain ⟨_, hsrc, _⟩ := h.child hw h1 h0 (show d ≤ t.last w by omega)
    have hcs : ((csucc t d : Nat) : Int) =
        headOr (concatOver (subTour t f) (d + 1) cnt ++ rest) k := by
      rw [ihh]
      unfold csucc
      rw [hsrc]
      by_cases hc : cnt = 0
      · have : d = t.last w := by omega
        rw [if_pos hc, if_pos this, hhead]
      · have : ¬ (d = t.last w) := by omega
        rw [if_neg hc, if_neg this]
    simp only [concatOver, List.append_assoc]
    refine ⟨Linked_append _ _ _ _ (by rw [← hcs]; exact hd1) ihl, ?_⟩
    rw [headOr_append, hd2]
    simp

theorem ValidInput.subTour_linked {g : Graph} {t : Tree} {emb : Nat → Nat}
    (h : ValidInput g t emb) :
    ∀ f c, c < t.H → isFwd g t c → t.n ≤ f + g.ord (t.tgt c) →
      Linked (tourNext t) (subTour t f c) ((csucc t c : Nat) : Int) ∧
        ∀ k1, headOr (subTour t f c) k1 = (c : Int)
  | 0, c, hc, _, hn => by
    have := h.ord_lt _ (h.t_tgt_lt c hc)
    omega
  | f + 1, c, hc, hf, hn => by
    obtain ⟨hw0, hw, htw, hord⟩ := h.fwd_tgt hc hf
    have hne := h.t_nonempty _ hw
    obtain ⟨_, hfs⟩ := h.t_range_src _ hw (t.first (t.tgt c)) (le_refl _) hne
    have hkids := h.children_linked f (t.tgt c) hw
      (fun d h1 h0 h2 => by
        obtain ⟨a, b, c1⟩ := h.child hw h1 h0 h2
        apply ValidInput.subTour_linked h f d a c1
        have : g.ord (t.src d) < g.ord (t.tgt d) := c1
        rw [b] at this
        omega)
      [t.twin c] ((csucc t c : Nat) : Int)
      (by
        show tourNext t (t.twin c) = _ ∧ True
        simp [tourNext, h.t_twin_twin c hc, headOr])
      (by simp [headOr, htw])
      (t.last (t.tgt c) - t.first (t.tgt c)) (t.first (t.tgt c) + 1)
      (by left; omega) (by omega) (by omega)
    obtain ⟨hl, hh⟩ := hkids
    refine ⟨⟨?_, hl⟩, fun k1 => rfl⟩
    rw [hh]
    show ((csucc t (t.twin c) : Nat) : Int) = _
    rw [htw]
    unfold csucc
    rw [hfs]
    by_cases hleaf : t.last (t.tgt c) - t.first (t.tgt c) = 0
    · have : t.first (t.tgt c) = t.last (t.tgt c) := by omega
      rw [if_pos hleaf, if_pos this]
      simp [headOr]
    · have : ¬ (t.first (t.tgt c) = t.last (t.tgt c)) := by omega
      rw [if_neg hleaf, if_neg this]

/-- The tour is linked by the `next` pointers of the classifier, starts with
half-edge 0 and ends on a half-edge whose `next` is 0. -/
theorem ValidInput.tour_linked {g : Graph} {t : Tree} {emb : Nat → Nat}
    (h : ValidInput g t emb) :
    Linked (tourNext t) (tour t) 0 ∧ headOr (tour t) 0 = 0 := by
  have hn : 0 < t.n := by have := h.n_ge; omega
  have hkids := h.children_linked t.n 0 hn
    (fun d h1 h0 h2 => by
      obtain ⟨a, b, c1⟩ := h.child hn h1 h0 h2
      exact h.subTour_linked t.n d a c1 (by omega))
    [] 0 trivial (by simp [headOr, h.t_root])
    (t.last 0 + 1) 0 (Or.inr rfl) (by rw [h.t_root]) (by omega)
  simp only [List.append_nil] at hkids
  refine ⟨hkids.1, ?_⟩
  have := hkids.2
  simpa [tour] using this

theorem ValidInput.zero_fwd {g : Graph} {t : Tree} {emb : Nat → Nat} (h : ValidInput g t emb) :
    0 < t.H ∧ t.src 0 = 0 ∧ isFwd g t 0 := by
  have hn : 0 < t.n := by have := h.n_ge; omega
  have hne := h.t_nonempty 0 hn
  rw [h.t_root] at hne
  obtain ⟨a, b⟩ := h.t_range_src 0 hn 0 (by rw [h.t_root]) hne
  exact ⟨a, b, (h.fwd_iff a).2 (Or.inl b)⟩

/-- Every element of a sub-tour is a half-edge of the tree; apart from the
entering half-edge it is a backward half-edge or leaves a non-root node. -/
theorem ValidInput.subTour_mem {g : Graph} {t : Tree} {emb : Nat → Nat}
    (h : ValidInput g t emb) :
    ∀ f c x, c < t.H → isFwd g t c → x ∈ subTour t f c →
      x < t.H ∧ (x = c ∨ ¬ isFwd g t x ∨ t.src x ≠ 0)
  | 0, c, x, _, _, hx => by simp [subTour] at hx
  | f + 1, c, x, hc, hf, hx => by
    obtain ⟨hw0, hw, htw, _⟩ := h.fwd_tgt hc hf
    simp only [subTour, List.mem_cons, List.mem_append, List.mem_singleton, List.not_mem_nil, or_false] at hx
    rcases hx with rfl | hx | rfl
    · exact ⟨hc, Or.inl rfl⟩
    · rw [mem_concatOver] at hx
      obtain ⟨d, h1, h2, h3⟩ := hx
      obtain ⟨a, b, c1⟩ := h.child hw (Or.inl (by omega)) (by omega)
        (show d ≤ t.last (t.tgt c) by omega)
      obtain ⟨r1, r2⟩ := ValidInput.subTour_mem h f d x a c1 h3
      refine ⟨r1, ?_⟩
      rcases r2 with rfl | r2 | r2
      · right; right; rw [b]; exact hw0
      · exact Or.inr (Or.inl r2)
      · exact Or.inr (Or.inr r2)
    · refine ⟨h.t_twin_lt c hc, Or.inr (Or.inl ?_)⟩
      rw [h.twin_fwd hc]; exact fun hn => hn hf

/-- A sub-tour contains, with every forward half-edge, its twin and the
half-edges to the children of its target. -/
theorem ValidInput.subTour_closed {g : Graph} {t : Tree} {emb : Nat → Nat}
    (h : ValidInput g t emb) :
    ∀ f c, c < t.H → isFwd g t c → t.n ≤ f + g.ord (t.tgt c) →
      ∀ x, x ∈ subTour t f c → isFwd g t x →
        t.twin x ∈ subTour t f c ∧
          ∀ d, t.first (t.tgt x) < d → d ≤ t.last (t.tgt x) → d ∈ subTour t f c
  | 0, c, hc, _, hn => by
    have := h.ord_lt _ (h.t_tgt_lt c hc)
    omega
  | f + 1, c, hc, hf, hn => by
    intro x hx hfx
    obtain ⟨hw0, hw, htw, hord⟩ := h.fwd_tgt hc hf
    have hfuel : ∀ d, t.first (t.tgt c) < d → d ≤ t.last (t.tgt c) →
        d < t.H ∧ isFwd g t d ∧ t.n ≤ f + g.ord (t.tgt d) := by
      intro d h1 h2
      obtain ⟨a, b, c1⟩ := h.child hw (Or.inl h1) (by omega) h2
      refine ⟨a, c1, ?_⟩
      have : g.ord (t.src d) < g.ord (t.tgt d) := c1
      rw [b] at this
      omega
    have hhead : ∀ d, t.first (t.tgt c) < d → d ≤ t.last (t.tgt c) → d ∈ subTour t f d := by
      intro d h1 h2
      obtain ⟨a, c1, c2⟩ := hfuel d h1 h2
      have hl := h.ord_lt _ (h.t_tgt_lt d a)
      obtain ⟨f1, rfl⟩ : ∃ f1, f = f1 + 1 := ⟨f - 1, by omega⟩
      simp [subTour]
    simp only [subTour, List.mem_cons, List.mem_append, List.mem_singleton, List.not_mem_nil, or_false] at hx ⊢
    rcases hx with rfl | hx | rfl
    · refine ⟨Or.inr (Or.inr rfl), fun d h1 h2 => Or.inr (Or.inl ?_)⟩
      rw [mem_concatOver]
      exact ⟨d, by omega, by omega, hhead d h1 h2⟩
    · rw [mem_concatOver] at hx
      obtain ⟨e, h1, h2, h3⟩ := hx
      obtain ⟨a, c1, c2⟩ := hfuel e (by omega) (by omega)
      obtain ⟨r1, r2⟩ := ValidInput.subTour_closed h f e a c1 c2 x h3 hfx
      refine ⟨Or.inr (Or.inl ?_), fun d hd1 hd2 => Or.inr (Or.inl ?_)⟩
      · rw [mem_concatOver]; exact ⟨e, h1, h2, r1⟩
      · rw [mem_concatOver]; exact ⟨e, h1, h2, r2 d hd1 hd2⟩
    · exfalso
      have := (h.twin_fwd hc).1 hfx
      exact this hf

theorem ValidInput.tour_mem {g : Graph} {t : Tree} {emb : Nat → Nat} (h : ValidInput g t emb)
    {x : Nat} (hx : x ∈ tour t) : x < t.H := by
  have hn : 0 < t.n := by have := h.n_ge; omega
  unfold tour at hx
  rw [mem_concatOver] at hx
  obtain ⟨e, _, h2, h3⟩ := hx
  obtain ⟨a, _, c1⟩ := h.child hn (Or.inr rfl) (by rw [h.t_root]; omega)
    (show e ≤ t.last 0 by omega)
  exact (h.subTour_mem t.n e x a c1 h3).1

theorem ValidInput.tour_closed {g : Graph} {t : Tree} {emb : Nat → Nat}
    (h : ValidInput g t emb) {x : Nat} (hx : x ∈ tour t) (hfx : isFwd g t x) :
    t.twin x ∈ tour t ∧ ∀ d, t.first (t.tgt x) < d → d ≤ t.last (t.tgt x) → d ∈ tour t := by
  have hn : 0 < t.n := by have := h.n_ge; omega
  unfold tour at hx ⊢
  rw [mem_concatOver] at hx
  obtain ⟨e, h1, h2, h3⟩ := hx
  obtain ⟨a, _, c1⟩ := h.child hn (Or.inr rfl) (by rw [h.t_root]; omega)
    (show e ≤ t.last 0 by omega)
  obtain ⟨r1, r2⟩ := h.subTour_closed t.n e a c1 (by omega) x h3 hfx
  refine ⟨?_, fun d hd1 hd2 => ?_⟩
  · rw [mem_concatOver]; exact ⟨e, h1, h2, r1⟩
  · rw [mem_concatOver]; exact ⟨e, h1, h2, r2 d hd1 hd2⟩

/-- Every forward half-edge is on the tour. -/
theorem ValidInput.fwd_mem_tour {g : Graph} {t : Tree} {emb : Nat → Nat}
    (h : ValidInput g t emb) :
    ∀ k c, g.ord (t.src c) = k → c < t.H → isFwd g t c → c ∈ tour t := by
  intro k
  induction k using Nat.strong_induction_on with
  | _ k ih =>
    intro c hk hc hf
    have hn : 0 < t.n := by have := h.n_ge; omega
    obtain ⟨hr1, hr2⟩ := h.t_range c hc
    by_cases hs : t.src c = 0
    · rw [hs, h.t_root] at hr1
      rw [hs] at hr2
      unfold tour
      rw [mem_concatOver]
      refine ⟨c, by omega, by omega, ?_⟩
      obtain ⟨n1, hn1⟩ : ∃ n1, t.n = n1 + 1 := ⟨t.n - 1, by omega⟩
      rw [hn1]; simp [subTour]
    · have hu := h.t_src_lt c hc
      have hne := h.t_nonempty _ hu
      obtain ⟨pa, pb⟩ := h.t_range_src _ hu (t.first (t.src c)) (le_refl _) hne
      have hpback : ¬ isFwd g t (t.first (t.src c)) := by
        rw [h.fwd_iff pa, pb]
        rintro (h0 | h0)
        · exact hs h0
        · exact h0 rfl
      have hc1 : isFwd g t (t.twin (t.first (t.src c))) := (h.twin_fwd pa).2 hpback
      have hc1lt := h.t_twin_lt _ pa
      have hord : g.ord (t.tgt (t.first (t.src c))) < g.ord (t.src c) := by
        have := h.t_back _ pa (by rw [pb]; exact hs) (by rw [pb])
        rw [pb] at this
        exact this
      have hmem := ih (g.ord (t.src (t.twin (t.first (t.src c)))))
        (by rw [h.t_twin_src _ pa, ← hk]; exact hord)
        (t.twin (t.first (t.src c))) rfl hc1lt hc1
      obtain ⟨_, hkids⟩ := h.tour_closed hmem hc1
      rw [h.t_twin_tgt _ pa, pb] at hkids
      apply hkids c _ hr2
      have := (h.fwd_iff hc).1 hf
      rcases this with h0 | h0
      · exact absurd h0 hs
      · omega

/-- Every half-edge of the tree is on the tour. -/
theorem ValidInput.mem_tour {g : Graph} {t : Tree} {emb : Nat → Nat}
    (h : ValidInput g t emb) {i : Nat} (hi : i < t.H) : i ∈ tour t := by
  by_cases hf : isFwd g t i
  · exact h.fwd_mem_tour _ i rfl hi hf
  · have hft : isFwd g t (t.twin i) := (h.twin_fwd hi).2 hf
    have hm := h.fwd_mem_tour _ (t.twin i) rfl (h.t_twin_lt i hi) hft
    have := (h.tour_closed hm hft).1
    rwa [h.t_twin_twin i hi] at this

theorem ValidInput.csucc_src {g : Graph} {t : Tree} {emb : Nat → Nat} (h : ValidInput g t emb)
    {p : Nat} (hp : p < t.H) : csucc t p < t.H ∧ t.src (csucc t p) = t.src p := by
  have hv := h.t_src_lt p hp
  obtain ⟨r1, r2⟩ := h.t_range p hp
  unfold csucc
  by_cases hl : p = t.last (t.src p)
  · rw [if_pos hl]
    exact h.t_range_src _ hv _ (le_refl _) (by omega)
  · rw [if_neg hl]
    exact h.t_range_src _ hv _ (by omega) (by omega)

theorem ValidInput.csucc_inj {g : Graph} {t : Tree} {emb : Nat → Nat} (h : ValidInput g t emb)
    {p q : Nat} (hp : p < t.H) (hq : q < t.H) (he : csucc t p = csucc t q) : p = q := by
  have h1 := (h.csucc_src hp).2
  have h2 := (h.csucc_src hq).2
  rw [he, h2] at h1
  obtain ⟨p1, p2⟩ := h.t_range p hp
  obtain ⟨q1, q2⟩ := h.t_range q hq
  unfold csucc at he
  rw [h1] at he q1 q2
  by_cases hpl : p = t.last (t.src p)
  · by_cases hql : q = t.last (t.src p)
    · omega
    · rw [if_pos hpl, if_neg hql] at he; omega
  · by_cases hql : q = t.last (t.src p)
    · rw [if_neg hpl, if_pos hql] at he; omega
    · rw [if_neg hpl, if_neg hql] at he; omega

theorem ValidInput.tourNext_inj {g : Graph} {t : Tree} {emb : Nat → Nat}
    (h : ValidInput g t emb) {i j : Nat} (hi : i < t.H) (hj : j < t.H)
    (he : tourNext t i = tourNext t j) : i = j := by
  unfold tourNext at he
  have he1 : csucc t (t.twin i) = csucc t (t.twin j) := by exact_mod_cast he
  have := h.csucc_inj (h.t_twin_lt i hi) (h.t_twin_lt j hj) he1
  rw [← h.t_twin_twin i hi, ← h.t_twin_twin j hj, this]

theorem Linked_pred (nx : Nat → Int) (k : Int) (x : Nat) :
    ∀ (r : List Nat) (b : Nat), Linked nx (b :: r) k → x ∈ r →
      ∃ y, y ∈ b :: r ∧ nx y = (x : Int)
  | [], _, _, hx => by simp at hx
  | c :: r, b, hl, hx => by
    obtain ⟨hb, hr⟩ := hl
    rcases List.mem_cons.mp hx with rfl | hx1
    · exact ⟨b, List.mem_cons_self _ _, hb⟩
    · obtain ⟨y, hy1, hy2⟩ := Linked_pred nx k x r c hr hx1
      exact ⟨y, List.mem_cons_of_mem _ hy1, hy2⟩

theorem nodup_of_linked (nx : Nat → Int) (k : Int) :
    ∀ (r : List Nat) (a : Nat), Linked nx (a :: r) k →
      (∀ x, x ∈ a :: r → ∀ y, y ∈ a :: r → nx x = nx y → x = y) → a ∉ r →
      (a :: r).Nodup
  | [], a, _, _, _ => by simp
  | b :: r, a, hl, hinj, ha => by
    obtain ⟨hab, hr⟩ := hl
    have hb : b ∉ r := by
      intro hbr
      obtain ⟨y, hy1, hy2⟩ := Linked_pred nx k b r b hr hbr
      have hya : y = a := by
        apply hinj y (List.mem_cons_of_mem _ hy1) a (List.mem_cons_self _ _)
        rw [hy2, hab]; rfl
      rw [hya] at hy1
      exact ha hy1
    have ih := nodup_of_linked nx k r b hr
      (fun x hx y hy => hinj x (List.mem_cons_of_mem _ hx) y (List.mem_cons_of_mem _ hy)) hb
    exact List.nodup_cons.mpr ⟨ha, ih⟩

/-- The tour starts with half-edge 0, which does not occur again. -/
theorem ValidInput.tour_head {g : Graph} {t : Tree} {emb : Nat → Nat}
    (h : ValidInput g t emb) : ∃ r, tour t = 0 :: r ∧ 0 ∉ r := by
  have hn : 0 < t.n := by have := h.n_ge; omega
  obtain ⟨h0, hs0, hf0⟩ := h.zero_fwd
  obtain ⟨hw0, hw, htw, _⟩ := h.fwd_tgt h0 hf0
  obtain ⟨n1, hn1⟩ : ∃ n1, t.n = n1 + 1 := ⟨t.n - 1, by omega⟩
  refine ⟨(concatOver (subTour t n1) (t.first (t.tgt 0) + 1)
      (t.last (t.tgt 0) - t.first (t.tgt 0)) ++ [t.twin 0]) ++
      concatOver (subTour t t.n) 1 (t.last 0), ?_, ?_⟩
  · show concatOver (subTour t t.n) 0 (t.last 0 + 1) = _
    simp only [concatOver]
    rw [hn1]
    simp [subTour]
  · simp only [List.mem_append, List.mem_singleton, mem_concatOver]
    rintro ((⟨d, h1, h2, h3⟩ | h3) | ⟨e, h1, h2, h3⟩)
    · obtain ⟨a, b, c1⟩ := h.child hw (Or.inl (by omega)) (by omega)
        (show d ≤ t.last (t.tgt 0) by omega)
      obtain ⟨_, r2⟩ := h.subTour_mem n1 d 0 a c1 h3
      rcases r2 with r2 | r2 | r2
      · rw [← r2, hs0] at b; exact hw0 b.symm
      · exact r2 hf0
      · exact r2 hs0
    · have h5 : ¬ isFwd g t (t.twin 0) := by
        rw [h.twin_fwd h0]; exact fun hn => hn hf0
      rw [← h3] at h5
      exact h5 hf0
    · obtain ⟨a, b, c1⟩ := h.child hn (Or.inr rfl) (by rw [h.t_root]; omega)
        (show e ≤ t.last 0 by omega)
      obtain ⟨_, r2⟩ := h.subTour_mem t.n e 0 a c1 h3
      rcases r2 with r2 | r2 | r2
      · omega
      · exact r2 hf0
      · exact r2 hs0

/-- The tour visits every half-edge of the tree exactly once. -/
theorem ValidInput.tour_perm {g : Graph} {t : Tree} {emb : Nat → Nat}
    (h : ValidInput g t emb) : (tour t).Perm (List.range t.H) := by
  obtain ⟨r, hr, h0⟩ := h.tour_head
  have hl := h.tour_linked.1
  have hnodup : (tour t).Nodup := by
    rw [hr] at hl ⊢
    apply nodup_of_linked (tourNext t) 0 r 0 hl _ h0
    intro x hx y hy he
    rw [← hr] at hx hy
    exact h.tourNext_inj (h.tour_mem hx) (h.tour_mem hy) he
  apply (List.perm_ext_iff_of_nodup hnodup (List.nodup_range _)).mpr
  intro a
  rw [List.mem_range]
  exact ⟨fun ha => h.tour_mem ha, fun ha => h.mem_tour ha⟩

theorem ValidInput.tour_length {g : Graph} {t : Tree} {emb : Nat → Nat}
    (h : ValidInput g t emb) : (tour t).length = t.H := by
  simpa using h.tour_perm.length_eq

theorem Linked_getD (nx : Nat → Int) (k : Int) :
    ∀ (L : List Nat), Linked nx L k →
      (∀ p, p + 1 < L.length → nx (L.getD p 0) = ((L.getD (p + 1) 0 : Nat) : Int)) ∧
      (L ≠ [] → nx (L.getD (L.length - 1) 0) = k)
  | [], _ => ⟨fun p hp => by simp at hp, fun hne => absurd rfl hne⟩
  | [a], hl => by
    refine ⟨fun p hp => by simp at hp, fun _ => ?_⟩
    simpa [Linked, headOr] using hl.1
  | a :: b :: r, hl => by
    obtain ⟨hab, hr⟩ := hl
    obtain ⟨ih1, ih2⟩ := Linked_getD nx k (b :: r) hr
    refine ⟨fun p hp => ?_, fun _ => ?_⟩
    · cases p with
      | zero => simpa [headOr] using hab
      | succ p =>
        have := ih1 p (by simpa using hp)
        simpa using this
    · have := ih2 (by simp)
      simpa using this

theorem rd_getD {α : Type} (A : List α) (d : α) {i : Nat} (h : i < A.length) :
    rd A i = .ok (A.getD i d) := by
  simp [rd, List.getD_eq_getElem?_getD, List.getElem?_eq_getElem h]

theorem replicate_eq_tab {α : Type} (n : Nat) (a : α) : List.replicate n a = tab n (fun _ => a) := by
  apply List.ext_getElem?
  intro k
  by_cases hk : k < n
  · simp [tab, List.getElem?_range, hk, List.getElem?_replicate]
  · simp [tab, List.getElem?_eq_none, not_lt.mp hk]

theorem cntLow_succ (g : Graph) (v k : Nat) :
    cntLow g v (k + 1) = cntLow g v k +
      (if 1 ≤ k ∧ g.src k = v ∧ g.ord (g.src k) > g.ord (g.tgt k) then 1 else 0) := by
  unfold cntLow
  rw [Finset.range_succ, Finset.filter_insert]
  by_cases hc : 1 ≤ k ∧ g.src k = v ∧ g.ord (g.src k) > g.ord (g.tgt k)
  · rw [if_pos hc, if_pos hc, Finset.card_insert_of_not_mem (by simp)]
  · rw [if_neg hc, if_neg hc]; rfl

theorem cntHigh_succ (g : Graph) (v k : Nat) :
    cntHigh g v (k + 1) = cntHigh g v k +
      (if 1 ≤ k ∧ g.src k = v ∧ ¬ (g.ord (g.src k) > g.ord (g.tgt k)) then 1 else 0) := by
  unfold cntHigh
  rw [Finset.range_succ, Finset.filter_insert]
  by_cases hc : 1 ≤ k ∧ g.src k = v ∧ ¬ (g.ord (g.src k) > g.ord (g.tgt k))
  · rw [if_pos hc, if_pos hc, Finset.card_insert_of_not_mem (by simp)]
  · rw [if_neg hc, if_neg hc]; rfl

theorem cntLow_add_cntHigh_le (g : Graph) (v : Nat) :
    ∀ k, k ≤ 2 * g.m → cntLow g v k + cntHigh g v k ≤ g.deg v := by
  intro k hk
  unfold cntLow cntHigh Graph.deg
  rw [← Finset.card_union_of_disjoint]
  · apply Finset.card_le_card
    intro i hi
    simp only [Finset.mem_union, Finset.mem_filter, Finset.mem_range] at hi ⊢
    rcases hi with ⟨a, _, b, _⟩ | ⟨a, _, b, _⟩ <;> exact ⟨by omega, b⟩
  · rw [Finset.disjoint_left]
    intro i h1 h2
    simp only [Finset.mem_filter] at h1 h2
    exact h2.2.2.2 h1.2.2.2

theorem ValidInput.phaseA_ok {g : Graph} {t : Tree} {emb : Nat → Nat}
    (h : ValidInput g t emb) :
    forLoop (countEdge g) 1 (2 * g.m - 1) (List.replicate t.n 0, List.replicate t.n 0) =
      .ok (tab t.n (fun v => cntLow g v (2 * g.m)), tab t.n (fun v => cntHigh g v (2 * g.m))) := by
  have hm : 1 ≤ 2 * g.m := by have := h.n_ge; have := h.m_ge; omega
  obtain ⟨st, hst, hinv⟩ := forLoop_inv
    (fun k (st : List Nat × List Nat) =>
      st = (tab t.n (fun v => cntLow g v k), tab t.n (fun v => cntHigh g v k)))
    (countEdge g) (2 * g.m - 1) 1 (List.replicate t.n 0, List.replicate t.n 0)
    (by
      rw [replicate_eq_tab]
      refine Prod.ext ?_ ?_
      · apply tab_congr; intro v _
        show 0 = cntLow g v (0 + 1)
        rw [cntLow_succ]; simp [cntLow]
      · apply tab_congr; intro v _
        show 0 = cntHigh g v (0 + 1)
        rw [cntHigh_succ]; simp [cntHigh])
    (by
      intro k st hk1 hk2 hinv
      subst hinv
      have hk : k < 2 * g.m := by omega
      have hs := h.g_src_lt k hk
      have ht := h.g_tgt_lt k hk
      have hdeg := h.deg_lt _ hs
      have hsum := cntLow_add_cntHigh_le g (g.src k) (k + 1) (by omega)
      have hL := cntLow_succ g (g.src k) k
      have hH := cntHigh_succ g (g.src k) k
      simp only [countEdge]
      rw [rd_getD g.E ⟨0, 0, 0⟩ (by rw [h.lenGE]; exact hk)]
      simp only
      rw [rd_getD g.V ⟨0, 0, 0⟩ (by rw [h.lenV]; exact hs)]
      simp only
      rw [rd_getD g.V ⟨0, 0, 0⟩ (by rw [h.lenV]; exact ht)]
      simp only
      by_cases hc : g.ord (g.src k) > g.ord (g.tgt k)
      · have hc1 : (g.V.getD (g.E.getD k ⟨0, 0, 0⟩).src ⟨0, 0, 0⟩).order >
            (g.V.getD (g.E.getD k ⟨0, 0, 0⟩).tgt ⟨0, 0, 0⟩).order := hc
        rw [if_pos hc1, show (g.E.getD k ⟨0, 0, 0⟩).src = g.src k from rfl]
        rw [rd_tab _ hs]
        simp only
        rw [wr_tab _ hs]
        refine ⟨_, rfl, ?_⟩
        have c1 : 1 ≤ k ∧ g.src k = g.src k ∧ g.ord (g.src k) > g.ord (g.tgt k) :=
          ⟨hk1, rfl, hc⟩
        have c2 : ¬ (1 ≤ k ∧ g.src k = g.src k ∧ ¬ (g.ord (g.src k) > g.ord (g.tgt k))) :=
          fun hh => hh.2.2 hc
        rw [if_pos c1] at hL
        rw [if_neg c2] at hH
        congr 1
        · apply tab_congr
          intro v _
          by_cases hv : v = g.src k
          · subst hv
            have : (cntLow g (g.src k) k + 1) % USHORT = cntLow g (g.src k) k + 1 :=
              Nat.mod_eq_of_lt (by omega)
            simp only [Function.update, dite_true]
            show (cntLow g (g.src k) k + 1) % USHORT = _
            rw [this, hL]
          · have e := cntLow_succ g v k
            have : ¬ (1 ≤ k ∧ g.src k = v ∧ g.ord (g.src k) > g.ord (g.tgt k)) :=
              fun hh => hv hh.2.1.symm
            rw [if_neg this] at e
            simp only [Function.update, hv, dite_false]
            rw [e]; rfl
        · apply tab_congr
          intro v _
          have e := cntHigh_succ g v k
          have : ¬ (1 ≤ k ∧ g.src k = v ∧ ¬ (g.ord (g.src k) > g.ord (g.tgt k))) :=
            fun hh => hh.2.2 hc
          rw [if_neg this] at e
          rw [e]; rfl
      · have hc1 : ¬ ((g.V.getD (g.E.getD k ⟨0, 0, 0⟩).src ⟨0, 0, 0⟩).order >
            (g.V.getD (g.E.getD k ⟨0, 0, 0⟩).tgt ⟨0, 0, 0⟩).order) := hc
        rw [if_neg hc1, show (g.E.getD k ⟨0, 0, 0⟩).src = g.src k from rfl]
        rw [rd_tab _ hs]
        simp only
        rw [wr_tab _ hs]
        refine ⟨_, rfl, ?_⟩
        have c1 : 1 ≤ k ∧ g.src k = g.src k ∧ ¬ (g.ord (g.src k) > g.ord (g.tgt k)) :=
          ⟨hk1, rfl, hc⟩
        rw [if_pos c1] at hH
        congr 1
        · apply tab_congr
          intro v _
          have e := cntLow_succ g v k
          have : ¬ (1 ≤ k ∧ g.src k = v ∧ g.ord (g.src k) > g.ord (g.tgt k)) :=
            fun hh => hc hh.2.2
          rw [if_neg this] at e
          rw [e]; rfl
        · apply tab_congr
          intro v _
          by_cases hv : v = g.src k
          · subst hv
            have : (cntHigh g (g.src k) k + 1) % USHORT = cntHigh g (g.src k) k + 1 :=
              Nat.mod_eq_of_lt (by omega)
            simp only [Function.update, dite_true]
            show (cntHigh g (g.src k) k + 1) % USHORT = _
            rw [this, hH]
          · have e := cntHigh_succ g v k
            have : ¬ (1 ≤ k ∧ g.src k = v ∧ ¬ (g.ord (g.src k) > g.ord (g.tgt k))) :=
              fun hh => hv hh.2.1.symm
            rw [if_neg this] at e
            simp only [Function.update, hv, dite_false]
            rw [e]; rfl)
  rw [hst, hinv]
  have : 1 + (2 * g.m - 1) = 2 * g.m := by omega
  rw [this]

theorem usub_eq {a b : Nat} (hb : b ≤ a) (ha : a < UINT) : usub a b = a - b := by
  unfold usub
  rw [Nat.mod_eq_of_lt ha, Nat.mod_eq_of_lt (by omega : b < UINT), if_pos hb]

theorem ValidInput.H_lt {g : Graph} {t : Tree} {emb : Nat → Nat} (h : ValidInput g t emb) :
    t.H ≤ 2 * g.m ∧ t.H + 2 = 2 * t.n := by
  have := h.n_ge
  have := h.m_ge
  unfold Tree.H
  omega

theorem ValidInput.emb_pos {g : Graph} {t : Tree} {emb : Nat → Nat} (h : ValidInput g t emb)
    {p : Nat} (hp : p < t.H) (hs : t.src p ≠ 0) : 1 ≤ emb p := by
  by_contra h0
  have : emb p = 0 := by omega
  have h1 := h.emb_src p hp
  rw [this, h.g_first] at h1
  exact hs h1.symm

theorem ValidInput.cntLow_ge {g : Graph} {t : Tree} {emb : Nat → Nat} (h : ValidInput g t emb)
    {v : Nat} (hv : v < t.n) (hv0 : v ≠ 0) : 1 ≤ cntLow g v (2 * g.m) := by
  have hne := h.t_nonempty v hv
  obtain ⟨pa, pb⟩ := h.t_range_src v hv (t.first v) (le_refl _) hne
  unfold cntLow
  apply Finset.card_pos.mpr
  refine ⟨emb (t.first v), ?_⟩
  simp only [Finset.mem_filter, Finset.mem_range]
  refine ⟨h.emb_lt _ pa, h.emb_pos pa (by rw [pb]; exact hv0), ?_, ?_⟩
  · rw [h.emb_src _ pa, pb]
  · rw [h.emb_src _ pa, h.emb_tgt _ pa]
    exact h.t_back _ pa (by rw [pb]; exact hv0) (by rw [pb])

theorem ValidInput.cntHigh_ge {g : Graph} {t : Tree} {emb : Nat → Nat} (h : ValidInput g t emb)
    {v : Nat} (hv : v < t.n) (hv0 : v ≠ 0) : t.last v - t.first v ≤ cntHigh g v (2 * g.m) := by
  unfold cntHigh
  rw [← Nat.card_Ioc]
  apply Finset.card_le_card_of_injOn emb
  · intro d hd
    have hd' := Finset.mem_Ioc.mp hd
    obtain ⟨a, b, c1⟩ := h.child hv (Or.inl hd'.1) (by omega) hd'.2
    simp only [Finset.mem_filter, Finset.mem_range]
    refine ⟨h.emb_lt _ a, h.emb_pos a (by rw [b]; exact hv0), ?_, ?_⟩
    · rw [h.emb_src _ a, b]
    · rw [h.emb_src _ a, h.emb_tgt _ a]
      have : g.ord (t.src d) < g.ord (t.tgt d) := c1
      omega
  · intro d hd e he hde
    have hd' := Finset.mem_Ioc.mp hd
    have he' := Finset.mem_Ioc.mp he
    obtain ⟨a, _, _⟩ := h.child hv (Or.inl hd'.1) (by omega) hd'.2
    obtain ⟨a2, _, _⟩ := h.child hv (Or.inl he'.1) (by omega) he'.2
    exact h.emb_inj d a e a2 hde

theorem ValidInput.phaseB_ok {g : Graph} {t : Tree} {emb : Nat → Nat}
    (h : ValidInput g t emb) :
    forLoop (adjustNode t) 1 (t.n - 1)
      (tab t.n (fun v => cntLow g v (2 * g.m)), tab t.n (fun v => cntHigh g v (2 * g.m))) =
      .ok (tab t.n (lowF g), tab t.n (highF g t)) := by
  have hn := h.n_ge
  obtain ⟨st, hst, hinv⟩ := forLoop_inv
    (fun k (st : List Nat × List Nat) =>
      st = (tab t.n (fun v => if 1 ≤ v ∧ v < k then lowF g v else cntLow g v (2 * g.m)),
        tab t.n (fun v => if 1 ≤ v ∧ v < k then highF g t v else cntHigh g v (2 * g.m))))
    (adjustNode t) (t.n - 1) 1
    (tab t.n (fun v => cntLow g v (2 * g.m)), tab t.n (fun v => cntHigh g v (2 * g.m)))
    (by
      refine Prod.ext ?_ ?_
      · apply tab_congr; intro v _
        have : ¬ (1 ≤ v ∧ v < 1) := by omega
        simp only [if_neg this]
      · apply tab_congr; intro v _
        have : ¬ (1 ≤ v ∧ v < 1) := by omega
        simp only [if_neg this])
    (by
      intro k st hk1 hk2 hinv
      subst hinv
      have hk : k < t.n := by omega
      have hk0 : k ≠ 0 := by omega
      have hnot : ¬ (1 ≤ k ∧ k < k) := by omega
      have hlo := h.cntLow_ge hk hk0
      have hhi := h.cntHigh_ge hk hk0
      have hsum := cntLow_add_cntHigh_le g k (2 * g.m) (le_refl _)
      have hdeg := h.deg_lt k hk
      have hne := h.t_nonempty k hk
      obtain ⟨pa, _⟩ := h.t_range_src k hk (t.last k) hne (le_refl _)
      have hHlt := h.H_lt
      have hsz := h.size_lt
      have hus : usub (t.last k) (t.first k) = t.last k - t.first k :=
        usub_eq hne (by omega)
      simp only [adjustNode]
      rw [rd_tab _ hk]
      simp only [if_neg hnot]
      rw [wr_tab _ hk]
      simp only
      rw [rd_getD t.N ⟨0, 0⟩ (by rw [h.lenN]; exact hk)]
      simp only
      rw [rd_tab _ hk]
      simp only [if_neg hnot]
      rw [wr_tab _ hk]
      refine ⟨_, rfl, ?_⟩
      have hus' : usub (t.N.getD k ⟨0, 0⟩).last (t.N.getD k ⟨0, 0⟩).first =
          t.last k - t.first k := hus
      rw [hus']
      have hUS : USHORT = 65536 := rfl
      refine Prod.ext ?_ ?_
      · apply tab_congr
        intro v _
        by_cases hv : v = k
        · subst hv
          have c : 1 ≤ v ∧ v < v + 1 := by omega
          simp only [Function.update, dite_true, if_pos c, lowF, if_pos hk1]
          rw [show cntLow g v (2 * g.m) + (USHORT - 1) =
            (cntLow g v (2 * g.m) - 1) + USHORT by omega, Nat.add_mod_right,
            Nat.mod_eq_of_lt (by omega)]
        · have c : (1 ≤ v ∧ v < k + 1) ↔ (1 ≤ v ∧ v < k) := by omega
          simp only [Function.update, hv, dite_false, c]
      · apply tab_congr
        intro v _
        by_cases hv : v = k
        · subst hv
          have c : 1 ≤ v ∧ v < v + 1 := by omega
          simp only [Function.update, dite_true, if_pos c, highF, if_pos hk1]
          rw [Nat.mod_eq_of_lt (by omega : t.last v - t.first v < USHORT)]
          rw [show cntHigh g v (2 * g.m) + (USHORT - (t.last v - t.first v)) =
            (cntHigh g v (2 * g.m) - (t.last v - t.first v)) + USHORT by omega,
            Nat.add_mod_right, Nat.mod_eq_of_lt (by omega)]
        · have c : (1 ≤ v ∧ v < k + 1) ↔ (1 ≤ v ∧ v < k) := by omega
          simp only [Function.update, hv, dite_false, c])
  rw [hst, hinv]
  congr 1
  refine Prod.ext ?_ ?_
  · apply tab_congr; intro v hv
    by_cases h1 : 1 ≤ v
    · have : 1 ≤ v ∧ v < 1 + (t.n - 1) := by omega
      simp only [if_pos this]
    · have : ¬ (1 ≤ v ∧ v < 1 + (t.n - 1)) := fun hh => h1 hh.1
      simp only [if_neg this, lowF, if_neg h1]
  · apply tab_congr; intro v hv
    by_cases h1 : 1 ≤ v
    · have : 1 ≤ v ∧ v < 1 + (t.n - 1) := by omega
      simp only [if_pos this]
    · have : ¬ (1 ≤ v ∧ v < 1 + (t.n - 1)) := fun hh => h1 hh.1
      simp only [if_neg this, highF, if_neg h1]

/-- With one worker the first two regions leave `lowF` and `highF` in the
counter arrays. -/
theorem ValidInput.counters_ok {g : Graph} {t : Tree} {emb : Nat → Nat}
    (h : ValidInput g t emb) :
    counters 1 g t = .ok (tab t.n (lowF g), tab t.n (highF g t)) := by
  have hA := h.phaseA_ok
  have hB := h.phaseB_ok
  simp only [counters, forLoop, phaseA, phaseB, chunkLo, chunkHi, Nat.div_one, if_true,
    Nat.sub_self]
  rw [hA]
  simp only
  rw [hB]

theorem Tree.src_fold (t : Tree) (i : Nat) : (t.E.getD i ⟨0, 0, 0⟩).src = t.src i := rfl

theorem Tree.tgt_fold (t : Tree) (i : Nat) : (t.E.getD i ⟨0, 0, 0⟩).tgt = t.tgt i := rfl

theorem Tree.twin_fold (t : Tree) (i : Nat) : (t.E.getD i ⟨0, 0, 0⟩).p_tgt = t.twin i := rfl

theorem Tree.first_fold (t : Tree) (v : Nat) : (t.N.getD v ⟨0, 0⟩).first = t.first v := rfl

theorem Tree.last_fold (t : Tree) (v : Nat) : (t.N.getD v ⟨0, 0⟩).last = t.last v := rfl

theorem Graph.ord_fold (g : Graph) (v : Nat) : (g.V.getD v ⟨0, 0, 0⟩).order = g.ord v := rfl

theorem forLoop_one {σ : Type} (body : σ → Nat → Except Fault σ) (lo : Nat) (st : σ) :
    forLoop body lo 1 st = body st lo := by
  simp only [forLoop]
  cases body st lo <;> rfl

theorem ValidInput.tourNext_eq {g : Graph} {t : Tree} {emb : Nat → Nat}
    (h : ValidInput g t emb) {i : Nat} (hi : i < t.H) :
    tourNext t i = ((if t.twin i = t.last (t.tgt i) then t.first (t.tgt i)
      else t.twin i + 1 : Nat) : Int) := by
  unfold tourNext csucc
  rw [h.t_twin_src i hi]

theorem ValidInput.fwd_next {g : Graph} {t : Tree} {emb : Nat → Nat}
    (h : ValidInput g t emb) {i : Nat} (hi : i < t.H) (hf : isFwd g t i) :
    (if t.first (t.tgt i) = t.last (t.tgt i) then ((t.twin i : Nat) : Int)
      else ((t.first (t.tgt i) + 1 : Nat) : Int)) = tourNext t i := by
  obtain ⟨_, _, htw, _⟩ := h.fwd_tgt hi hf
  rw [h.tourNext_eq hi, htw]
  by_cases hc : t.first (t.tgt i) = t.last (t.tgt i)
  · rw [if_pos hc, if_pos hc]
  · rw [if_neg hc, if_neg hc]

theorem ValidInput.back_next {g : Graph} {t : Tree} {emb : Nat → Nat}
    (h : ValidInput g t emb) {i : Nat} (hi : i < t.H) :
    (if t.tgt i = 0 ∧ t.twin i = t.last 0 then (0 : Int)
      else if t.twin i = t.last (t.tgt i) then ((t.first (t.tgt i) : Nat) : Int)
      else ((t.twin i + 1 : Nat) : Int)) = tourNext t i := by
  rw [h.tourNext_eq hi]
  by_cases hc : t.tgt i = 0 ∧ t.twin i = t.last 0
  · obtain ⟨h0, h1⟩ := hc
    have : t.twin i = t.last (t.tgt i) := by rw [h0]; exact h1
    rw [if_pos ⟨h0, h1⟩, if_pos this, h0, h.t_root]
    rfl
  · rw [if_neg hc]
    by_cases hc2 : t.twin i = t.last (t.tgt i)
    · rw [if_pos hc2, if_pos hc2]
    · rw [if_neg hc2, if_neg hc2]

theorem ValidInput.back_src {g : Graph} {t : Tree} {emb : Nat → Nat}
    (h : ValidInput g t emb) {i : Nat} (hi : i < t.H) (hb : ¬ isFwd g t i) :
    t.src i ≠ 0 ∧ i = t.first (t.src i) := by
  rw [h.fwd_iff hi] at hb
  constructor
  · exact fun h0 => hb (Or.inl h0)
  · by_contra h3; exact hb (Or.inr h3)

theorem ValidInput.classify_step {g : Graph} {t : Tree} {emb : Nat → Nat}
    (h : ValidInput g t emb) {k : Nat} (hk : k < t.H) :
    classifyEdge g t (tab t.n (lowF g)) (tab t.n (highF g t)) (t.last 0)
      (tab t.H (fun i => if i < k then etF g t i else ⟨0, 0, 0⟩),
        tab t.H (fun i => if i < k then et2F g t i else ⟨0, 0, 0⟩)) k =
      .ok (tab t.H (fun i => if i < k + 1 then etF g t i else ⟨0, 0, 0⟩),
        tab t.H (fun i => if i < k + 1 then et2F g t i else ⟨0, 0, 0⟩)) := by
  have hs := h.t_src_lt k hk
  have ht := h.t_tgt_lt k hk
  have hupd : ∀ (F : Nat → ENode) (v : ENode), v = F k →
      tab t.H (Function.update (fun i => if i < k then F i else ⟨0, 0, 0⟩) k v) =
        tab t.H (fun i => if i < k + 1 then F i else ⟨0, 0, 0⟩) := by
    intro F v hv
    apply tab_congr
    intro i _
    by_cases hik : i = k
    · subst hik
      have : i < i + 1 := by omega
      simp only [Function.update, dite_true, if_pos this, hv]
    · have : (i < k + 1) ↔ (i < k) := by omega
      simp only [Function.update, hik, dite_false, this]
  have hnot : ¬ (k < k) := by omega
  simp only [classifyEdge]
  rw [rd_getD t.E ⟨0, 0, 0⟩ (by rw [h.lenTE]; exact hk)]
  simp only [Tree.src_fold, Tree.tgt_fold, Tree.twin_fold]
  rw [rd_getD t.N ⟨0, 0⟩ (by rw [h.lenN]; exact hs)]
  simp only
  rw [rd_getD t.N ⟨0, 0⟩ (by rw [h.lenN]; exact ht)]
  simp only [Tree.first_fold, Tree.last_fold]
  rw [rd_getD g.V ⟨0, 0, 0⟩ (by rw [h.lenV]; exact hs)]
  simp only
  rw [rd_getD g.V ⟨0, 0, 0⟩ (by rw [h.lenV]; exact ht)]
  simp only [Graph.ord_fold]
  rw [rd_tab _ hk]
  simp only [if_neg hnot]
  by_cases hf : isFwd g t k
  · have hf1 : g.ord (t.src k) < g.ord (t.tgt k) := hf
    rw [if_pos hf1, rd_tab _ ht]
    simp only
    rw [wr_tab _ hk]
    simp only
    rw [wr_tab _ hk]
    rw [hupd (etF g t) _ (by simp only [etF, wgt, if_pos hf, h.fwd_next hk hf]),
      hupd (et2F g t) _ (by simp only [et2F, if_pos hf, h.fwd_next hk hf])]
  · have hf1 : ¬ (g.ord (t.src k) < g.ord (t.tgt k)) := hf
    have hbn := h.back_next hk
    rw [if_neg hf1, rd_tab _ hs]
    simp only
    by_cases hroot : t.tgt k = 0 ∧ t.twin k = t.last 0
    · rw [if_pos hroot] at hbn
      rw [if_pos hroot, wr_tab _ hk]
      simp only
      rw [wr_tab _ hk]
      rw [hupd (etF g t) _ (by simp only [etF, wgt, if_neg hf, hbn]),
        hupd (et2F g t) _ (by simp only [et2F, if_neg hf, hbn])]
    · rw [if_neg hroot] at hbn
      rw [if_neg hroot, wr_tab _ hk]
      simp only
      rw [wr_tab _ hk]
      rw [hupd (etF g t) _ (by simp only [etF, wgt, if_neg hf, hbn]),
        hupd (et2F g t) _ (by simp only [et2F, if_neg hf, hbn])]

/-- With one worker the classifier fills `ET` and `ET2` with `etF` and
`et2F`. -/
theorem ValidInput.eulerTours_ok {g : Graph} {t : Tree} {emb : Nat → Nat}
    (h : ValidInput g t emb) :
    eulerTours 1 g t (tab t.n (lowF g)) (tab t.n (highF g t)) =
      .ok (tab t.H (etF g t), tab t.H (et2F g t)) := by
  have hn := h.n_ge
  have hHlt := h.H_lt
  have hsz := h.size_lt
  have hnp : (2 * t.n) % UINT = 2 * t.n := Nat.mod_eq_of_lt (by omega)
  have hsize : usub (2 * t.n) 2 = t.H := by
    rw [usub_eq (by omega) (by omega)]; rfl
  obtain ⟨st, hst, hinv⟩ := forLoop_inv
    (fun k (st : List ENode × List ENode) =>
      st = (tab t.H (fun i => if i < k then etF g t i else ⟨0, 0, 0⟩),
        tab t.H (fun i => if i < k then et2F g t i else ⟨0, 0, 0⟩)))
    (classifyEdge g t (tab t.n (lowF g)) (tab t.n (highF g t)) (t.last 0)) t.H 0
    (List.replicate t.H ⟨0, 0, 0⟩, List.replicate t.H ⟨0, 0, 0⟩)
    (by
      rw [replicate_eq_tab]
      refine Prod.ext ?_ ?_ <;> (apply tab_congr; intro i _; simp))
    (by
      intro k st _ hk hinv
      subst hinv
      exact ⟨_, h.classify_step (by omega), rfl⟩)
  unfold eulerTours
  simp only [hnp, hsize]
  rw [rd_getD t.N ⟨0, 0⟩ (by rw [h.lenN]; omega)]
  simp only [Tree.last_fold]
  rw [forLoop_one]
  have hlo : chunkLo (2 * t.n / 1) 0 none = 0 := by simp [chunkLo]
  have hhi : chunkHi 1 (2 * t.n / 1) 0 t.H = t.H := by simp [chunkHi]
  simp only [phaseC, hlo, hhi, Nat.sub_zero]
  rw [hst, hinv]
  simp only [Nat.zero_add]
  apply congrArg Except.ok
  refine Prod.ext ?_ ?_ <;> (apply tab_congr; intro i hi; simp only [if_pos hi])

theorem sum_map_range (f : Nat → Nat) :
    ∀ k, ((List.range k).map f).sum = Finset.sum (Finset.range k) f
  | 0 => by simp
  | k + 1 => by
    rw [List.range_succ, List.map_append, List.sum_append, sum_map_range f k,
      Finset.sum_range_succ]
    simp

theorem ValidInput.Wsum_total {g : Graph} {t : Tree} {emb : Nat → Nat}
    (h : ValidInput g t emb) : Wsum g t t.H = Finset.sum (Finset.range t.H) (wgt g t) := by
  unfold Wsum
  rw [← h.tour_length, List.take_length, ← sum_map_range, h.tour_length]
  exact (h.tour_perm.map _).sum_eq

theorem ValidInput.sum_fwd {g : Graph} {t : Tree} {emb : Nat → Nat} (h : ValidInput g t emb)
    (f : Nat → Nat) :
    Finset.sum (Finset.range t.H) (fun i => if isFwd g t i then f (t.tgt i) else 0) =
      Finset.sum (Finset.Ico 1 t.n) f := by
  rw [← Finset.sum_filter]
  apply Finset.sum_nbij' (fun i => t.tgt i) (fun v => t.twin (t.first v))
  · intro i hi
    simp only [Finset.mem_filter, Finset.mem_range] at hi
    obtain ⟨a, b, _, _⟩ := h.fwd_tgt hi.1 hi.2
    simp only [Finset.mem_Ico]
    omega
  · intro v hv
    simp only [Finset.mem_Ico] at hv
    have hne := h.t_nonempty v hv.2
    obtain ⟨pa, pb⟩ := h.t_range_src v hv.2 (t.first v) (le_refl _) hne
    simp only [Finset.mem_filter, Finset.mem_range]
    refine ⟨h.t_twin_lt _ pa, (h.twin_fwd pa).2 ?_⟩
    rw [h.fwd_iff pa, pb]
    rintro (h0 | h0)
    · omega
    · exact h0 rfl
  · intro i hi
    simp only [Finset.mem_filter, Finset.mem_range] at hi
    obtain ⟨_, _, c, _⟩ := h.fwd_tgt hi.1 hi.2
    rw [← c, h.t_twin_twin i hi.1]
  · intro v hv
    simp only [Finset.mem_Ico] at hv
    have hne := h.t_nonempty v hv.2
    obtain ⟨pa, pb⟩ := h.t_range_src v hv.2 (t.first v) (le_refl _) hne
    rw [h.t_twin_tgt _ pa, pb]
  · intro i _; rfl

theorem ValidInput.sum_back {g : Graph} {t : Tree} {emb : Nat → Nat} (h : ValidInput g t emb)
    (f : Nat → Nat) :
    Finset.sum (Finset.range t.H) (fun i => if ¬ isFwd g t i then f (t.src i) else 0) =
      Finset.sum (Finset.Ico 1 t.n) f := by
  rw [← Finset.sum_filter]
  apply Finset.sum_nbij' (fun i => t.src i) (fun v => t.first v)
  · intro i hi
    simp only [Finset.mem_filter, Finset.mem_range] at hi
    obtain ⟨a, _⟩ := h.back_src hi.1 hi.2
    have := h.t_src_lt i hi.1
    simp only [Finset.mem_Ico]
    omega
  · intro v hv
    simp only [Finset.mem_Ico] at hv
    have hne := h.t_nonempty v hv.2
    obtain ⟨pa, pb⟩ := h.t_range_src v hv.2 (t.first v) (le_refl _) hne
    simp only [Finset.mem_filter, Finset.mem_range]
    refine ⟨pa, ?_⟩
    rw [h.fwd_iff pa, pb]
    rintro (h0 | h0)
    · omega
    · exact h0 rfl
  · intro i hi
    simp only [Finset.mem_filter, Finset.mem_range] at hi
    exact (h.back_src hi.1 hi.2).2.symm
  · intro v hv
    simp only [Finset.mem_Ico] at hv
    have hne := h.t_nonempty v hv.2
    exact (h.t_range_src v hv.2 (t.first v) (le_refl _) hne).2
  · intro i _; rfl

/-- The total weight of the tour is the number of parentheses plus the number
of brackets. -/
theorem ValidInput.Wsum_eq {g : Graph} {t : Tree} {emb : Nat → Nat} (h : ValidInput g t emb) :
    Wsum g t t.H = t.H + brk g t := by
  rw [h.Wsum_total]
  have e : ∀ i, wgt g t i = 1 + ((if isFwd g t i then lowF g (t.tgt i) else 0) +
      (if ¬ isFwd g t i then highF g t (t.src i) else 0)) := by
    intro i
    unfold wgt
    by_cases hf : isFwd g t i
    · have hn : ¬ ¬ isFwd g t i := fun hh => hh hf
      rw [if_pos hf, if_pos hf, if_neg hn]; omega
    · rw [if_neg hf, if_neg hf, if_pos hf]; omega
  rw [Finset.sum_congr rfl (fun i _ => e i), Finset.sum_add_distrib, Finset.sum_add_distrib,
    h.sum_fwd, h.sum_back]
  simp [brk, Finset.sum_add_distrib]

theorem ValidInput.cnt_deg {g : Graph} {t : Tree} {emb : Nat → Nat} (h : ValidInput g t emb)
    {v : Nat} (hv0 : v ≠ 0) : cntLow g v (2 * g.m) + cntHigh g v (2 * g.m) = g.deg v := by
  unfold cntLow cntHigh Graph.deg
  rw [← Finset.card_union_of_disjoint]
  · congr 1
    ext i
    simp only [Finset.mem_union, Finset.mem_filter, Finset.mem_range]
    constructor
    · rintro (⟨a, _, b, _⟩ | ⟨a, _, b, _⟩) <;> exact ⟨a, b⟩
    · rintro ⟨a, b⟩
      have h1 : 1 ≤ i := by
        by_contra h0
        have : i = 0 := by omega
        rw [this, h.g_first] at b
        exact hv0 b.symm
      by_cases hc : g.ord (g.src i) > g.ord (g.tgt i)
      · exact Or.inl ⟨a, h1, b, hc⟩
      · exact Or.inr ⟨a, h1, b, hc⟩
  · rw [Finset.disjoint_left]
    intro i h1 h2
    simp only [Finset.mem_filter] at h1 h2
    exact h2.2.2.2 h1.2.2.2

theorem ValidInput.seed_deg {g : Graph} {t : Tree} {emb : Nat → Nat} (h : ValidInput g t emb)
    {v : Nat} (hv : v < t.n) (hv0 : v ≠ 0) :
    lowF g v + highF g t v + (t.last v + 1 - t.first v) = g.deg v := by
  have h1 := h.cntLow_ge hv hv0
  have h2 := h.cntHigh_ge hv hv0
  have h3 := h.t_nonempty v hv
  have h4 := h.cnt_deg hv0
  have hv1 : 1 ≤ v := by omega
  simp only [lowF, highF, if_pos hv1]
  omega

theorem ValidInput.sum_deg {g : Graph} {t : Tree} {emb : Nat → Nat} (h : ValidInput g t emb) :
    Finset.sum (Finset.range t.n) (fun v => g.deg v) = 2 * g.m := by
  have := @Finset.card_eq_sum_card_fiberwise Nat Nat _ (fun i => g.src i)
    (Finset.range (2 * g.m)) (Finset.range t.n)
    (fun i hi => Finset.mem_range.mpr (h.g_src_lt i (Finset.mem_range.mp hi)))
  rw [Finset.card_range] at this
  rw [this]
  rfl

theorem ValidInput.fiber_eq {g : Graph} {t : Tree} {emb : Nat → Nat} (h : ValidInput g t emb)
    {v : Nat} (hv : v < t.n) :
    (Finset.range t.H).filter (fun i => t.src i = v) = Finset.Icc (t.first v) (t.last v) := by
  ext i
  simp only [Finset.mem_filter, Finset.mem_range, Finset.mem_Icc]
  constructor
  · rintro ⟨a, b⟩
    have := h.t_range i a
    rw [b] at this
    exact this
  · rintro ⟨a, b⟩
    exact h.t_range_src v hv i a b

theorem ValidInput.sum_tdeg {g : Graph} {t : Tree} {emb : Nat → Nat} (h : ValidInput g t emb) :
    Finset.sum (Finset.range t.n) (fun v => t.last v + 1 - t.first v) = t.H := by
  have := @Finset.card_eq_sum_card_fiberwise Nat Nat _ (fun i => t.src i)
    (Finset.range t.H) (Finset.range t.n)
    (fun i hi => Finset.mem_range.mpr (h.t_src_lt i (Finset.mem_range.mp hi)))
  rw [Finset.card_range] at this
  rw [this]
  apply Finset.sum_congr rfl
  intro v hv
  rw [h.fiber_eq (Finset.mem_range.mp hv), Nat.card_Icc]

/-- The root has at least as many graph half-edges as tree half-edges. -/
theorem ValidInput.root_deg {g : Graph} {t : Tree} {emb : Nat → Nat} (h : ValidInput g t emb) :
    t.last 0 + 1 ≤ g.deg 0 := by
  have hn : 0 < t.n := by have := h.n_ge; omega
  have hc : (Finset.Icc (t.first 0) (t.last 0)).card = t.last 0 + 1 := by
    rw [Nat.card_Icc, h.t_root]; rfl
  rw [← hc]
  unfold Graph.deg
  apply Finset.card_le_card_of_injOn emb
  · intro d hd
    have hd1 := Finset.mem_Icc.mp hd
    obtain ⟨a, b⟩ := h.t_range_src 0 hn d hd1.1 hd1.2
    simp only [Finset.mem_filter, Finset.mem_range]
    exact ⟨h.emb_lt d a, by rw [h.emb_src d a, b]⟩
  · intro d hd e he hde
    have hd1 := Finset.mem_Icc.mp hd
    have he1 := Finset.mem_Icc.mp he
    obtain ⟨a, _⟩ := h.t_range_src 0 hn d hd1.1 hd1.2
    obtain ⟨a2, _⟩ := h.t_range_src 0 hn e he1.1 he1.2
    exact h.emb_inj d a e a2 hde

theorem sum_range_split (f : Nat → Nat) {n : Nat} (hn : 0 < n) :
    Finset.sum (Finset.range n) f = f 0 + Finset.sum (Finset.Ico 1 n) f := by
  rw [Finset.range_eq_Ico, Finset.sum_eq_sum_Ico_succ_bot hn]

/-- Brackets, root degree and tree half-edges add up to the graph
half-edges plus the tree degree of the root. -/
theorem ValidInput.brk_eq {g : Graph} {t : Tree} {emb : Nat → Nat} (h : ValidInput g t emb) :
    brk g t + g.deg 0 + t.H = 2 * g.m + (t.last 0 + 1) := by
  have hn : 0 < t.n := by have := h.n_ge; omega
  have h1 := h.sum_deg
  have h2 := h.sum_tdeg
  rw [sum_range_split _ hn] at h1 h2
  have h3 : Finset.sum (Finset.Ico 1 t.n)
      (fun v => lowF g v + highF g t v + (t.last v + 1 - t.first v)) =
      Finset.sum (Finset.Ico 1 t.n) (fun v => g.deg v) := by
    apply Finset.sum_congr rfl
    intro v hv
    have hv1 := Finset.mem_Ico.mp hv
    exact h.seed_deg hv1.2 (by omega)
  rw [Finset.sum_add_distrib] at h3
  have h4 : t.last 0 + 1 - t.first 0 = t.last 0 + 1 := by rw [h.t_root]; rfl
  rw [h4] at h2
  unfold brk
  omega

theorem ValidInput.brk_le {g : Graph} {t : Tree} {emb : Nat → Nat} (h : ValidInput g t emb) :
    t.H + brk g t ≤ 2 * g.m := by
  have := h.brk_eq
  have := h.root_deg
  omega

theorem ValidInput.tourAt_lt {g : Graph} {t : Tree} {emb : Nat → Nat} (h : ValidInput g t emb)
    {p : Nat} (hp : p < t.H) : tourAt t p < t.H := by
  unfold tourAt
  have hp1 : p < (tour t).length := by rw [h.tour_length]; exact hp
  rw [List.getD_eq_getElem _ _ hp1]
  exact h.tour_mem (List.getElem_mem hp1)

theorem ValidInput.Wsum_succ {g : Graph} {t : Tree} {emb : Nat → Nat} (h : ValidInput g t emb)
    {p : Nat} (hp : p < t.H) : Wsum g t (p + 1) = Wsum g t p + wgt g t (tourAt t p) := by
  have hp1 : p < (tour t).length := by rw [h.tour_length]; exact hp
  simp only [Wsum, List.take_succ, List.getElem?_eq_getElem hp1, Option.toList,
    List.map_append, List.sum_append, List.map_cons, List.map_nil, List.sum_cons,
    List.sum_nil, Nat.add_zero, tourAt]
  rw [List.getD_eq_getElem _ _ hp1]

theorem wgt_pos (g : Graph) (t : Tree) (i : Nat) : 1 ≤ wgt g t i := by
  unfold wgt; split <;> omega

theorem ValidInput.Wsum_mono {g : Graph} {t : Tree} {emb : Nat → Nat} (h : ValidInput g t emb)
    (p : Nat) : ∀ q, p ≤ q → q ≤ t.H → Wsum g t p + (q - p) ≤ Wsum g t q
  | 0, h1, _ => by
    have : p = 0 := by omega
    subst this; simp
  | q + 1, h1, h2 => by
    by_cases hpq : p = q + 1
    · subst hpq; simp
    · have ih := ValidInput.Wsum_mono h p q (by omega) (by omega)
      have hs := h.Wsum_succ (show q < t.H by omega)
      have := wgt_pos g t (tourAt t q)
      omega

theorem Wsum_zero (g : Graph) (t : Tree) : Wsum g t 0 = 0 := by
  simp [Wsum]

/-- Bounds on the final ranks: position `p` has rank at least `p`, and the
rank of every position is below `2m`. -/
theorem ValidInput.Wsum_bound {g : Graph} {t : Tree} {emb : Nat → Nat} (h : ValidInput g t emb)
    {p : Nat} (hp : p < t.H) :
    p ≤ Wsum g t p ∧ Wsum g t p + 1 ≤ Wsum g t (p + 1) ∧ Wsum g t (p + 1) ≤ 2 * g.m ∧
      Wsum g t (p + 1) ≤ t.H + brk g t ∧
      Wsum g t (p + 1) - (p + 1) ≤ brk g t := by
  have h0 := h.Wsum_mono 0 p (by omega) (by omega)
  have h1 := h.Wsum_mono p (p + 1) (by omega) (by omega)
  have h2 := h.Wsum_mono (p + 1) t.H (by omega) (le_refl _)
  have h3 := h.Wsum_eq
  have h4 := h.brk_le
  rw [Wsum_zero] at h0
  omega

/-! ## List ranking of the two Euler tour arrays -/

/-- An array whose `next` fields are those of the classifier is a single
chain along the Euler tour. -/
theorem ValidInput.chain_tab {g : Graph} {t : Tree} {emb : Nat → Nat} (h : ValidInput g t emb)
    (F : Nat → ENode) (hF : ∀ i, (F i).next = tourNext t i) :
    SingleChain (tab t.H F) (tour t) := by
  obtain ⟨r, hr, _⟩ := h.tour_head
  obtain ⟨hl, _⟩ := h.tour_linked
  obtain ⟨g1, g2⟩ := Linked_getD (tourNext t) 0 (tour t) hl
  have hlen := h.tour_length
  have hH := h.H_ge
  have hnext : ∀ p, p < t.H → nextAt (tab t.H F) ((tour t).getD p 0) =
      tourNext t ((tour t).getD p 0) := by
    intro p hp
    have := h.tourAt_lt hp
    unfold tourAt at this
    unfold nextAt
    rw [getD_tab _ _ this, hF]
  refine ⟨?_, ?_, ?_, ?_⟩
  · rw [tab_length]; exact h.tour_perm
  · rw [hr]; rfl
  · intro p hp
    rw [hlen] at hp
    rw [hnext p (by omega)]
    exact g1 p (by rw [hlen]; omega)
  · rw [hlen, hnext _ (by omega)]
    have := g2 (by rw [hr]; simp)
    rw [hlen] at this
    exact this

theorem ValidInput.rankBefore_et {g : Graph} {t : Tree} {emb : Nat → Nat}
    (h : ValidInput g t emb) (p : Nat) :
    rankBefore (tab t.H (etF g t)) (tour t) p = Wsum g t p := by
  unfold rankBefore Wsum
  congr 1
  apply List.map_congr_left
  intro j hj
  have hj1 : j < t.H := h.tour_mem (List.mem_of_mem_take hj)
  unfold rankAt
  rw [getD_tab _ _ hj1]
  rfl

theorem ValidInput.rankBefore_et2 {g : Graph} {t : Tree} {emb : Nat → Nat}
    (h : ValidInput g t emb) {p : Nat} (hp : p ≤ t.H) :
    rankBefore (tab t.H (et2F g t)) (tour t) p = p := by
  unfold rankBefore
  have e : ((tour t).take p).map (rankAt (tab t.H (et2F g t))) =
      ((tour t).take p).map (fun _ => 1) := by
    apply List.map_congr_left
    intro j hj
    have hj1 : j < t.H := h.tour_mem (List.mem_of_mem_take hj)
    unfold rankAt
    rw [getD_tab _ _ hj1]
    rfl
  rw [e]
  simp [List.length_take, h.tour_length, hp]

/-- With one worker and fuel `≥ 2n - 2` both list rankings return: `ET[i]`
holds the total weight before `i` on the tour, `ET2[i]` holds the position of
`i` on the tour, and `ET2[i].value` still tells whether `i` is forward. -/
theorem ValidInput.rankTours_ok {g : Graph} {t : Tree} {emb : Nat → Nat}
    (h : ValidInput g t emb) {fuel : Nat} (hf : t.H ≤ fuel) :
    ∃ R1 R2 : Nat → ENode,
      rankTours 1 fuel t (tab t.H (etF g t), tab t.H (et2F g t)) =
        .ok (tab t.H R1, tab t.H R2) ∧
      (∀ p, p < t.H → (R1 (tourAt t p)).rank = Wsum g t p) ∧
      (∀ p, p < t.H → (R2 (tourAt t p)).rank = p) ∧
      (∀ i, i < t.H → (R2 i).value = if isFwd g t i then 1 else 0) := by
  have hn := h.n_ge
  have hHlt := h.H_lt
  have hsz := h.size_lt
  have hH := h.H_ge
  have hUINT : UINT = 4294967296 := rfl
  have hnp : (2 * t.n) % UINT = 2 * t.n := Nat.mod_eq_of_lt (by omega)
  have hsize : usub (2 * t.n) 2 = t.H := by
    rw [usub_eq (by omega) (by omega)]; rfl
  obtain ⟨hs1, hs⟩ := splitters_one hH
  have c1 := h.chain_tab (etF g t) (fun _ => rfl)
  have c2 := h.chain_tab (et2F g t) (fun _ => rfl)
  obtain ⟨A1, a1, a2, a3, _⟩ := @listRankingWith_chain _ _ (splitters t.H 1) fuel c1
    hs1 (by rw [tab_length]; exact hs) (by rw [tab_length]; exact hf)
  obtain ⟨A2, b1, b2, b3, b4⟩ := @listRankingWith_chain _ _ (splitters t.H 1) fuel c2
    hs1 (by rw [tab_length]; exact hs) (by rw [tab_length]; exact hf)
  rw [tab_length] at a1 a2 a3 b1 b2 b3 b4
  refine ⟨fun j => A1.getD j ⟨0, 0, 0⟩, fun j => A2.getD j ⟨0, 0, 0⟩, ?_, ?_, ?_, ?_⟩
  · have e1 := eq_tab A1 ⟨0, 0, 0⟩
    have e2 := eq_tab A2 ⟨0, 0, 0⟩
    rw [a2] at e1
    rw [b2] at e2
    unfold rankTours
    rw [hnp, hsize]
    unfold rankBoth parallel_list_ranking
    rw [a1]
    simp only
    rw [b1]
    simp only
    rw [← e1, ← e2]
  · intro p hp
    have := a3 p hp
    rw [h.rankBefore_et] at this
    have hb := h.Wsum_mono p t.H (by omega) (le_refl _)
    have hb2 := h.Wsum_eq
    have hb3 := h.brk_le
    rw [Nat.mod_eq_of_lt (by omega)] at this
    exact this
  · intro p hp
    have := b3 p hp
    rw [h.rankBefore_et2 (by omega), Nat.mod_eq_of_lt (by omega)] at this
    exact this
  · intro i hi
    have := b4 i hi
    unfold valueAt at this
    rw [getD_tab _ _ hi] at this
    exact this

theorem ValidInput.tour_nodup {g : Graph} {t : Tree} {emb : Nat → Nat}
    (h : ValidInput g t emb) : (tour t).Nodup :=
  (h.tour_perm.nodup_iff).2 (List.nodup_range _)

theorem ValidInput.posOf_lt {g : Graph} {t : Tree} {emb : Nat → Nat} (h : ValidInput g t emb)
    {i : Nat} (hi : i < t.H) : posOf t i < t.H := by
  have := List.indexOf_lt_length.mpr (h.mem_tour hi)
  rw [h.tour_length] at this
  exact this

theorem ValidInput.tourAt_posOf {g : Graph} {t : Tree} {emb : Nat → Nat} (h : ValidInput g t emb)
    {i : Nat} (hi : i < t.H) : tourAt t (posOf t i) = i := by
  unfold tourAt posOf
  have hl := List.indexOf_lt_length.mpr (h.mem_tour hi)
  rw [List.getD_eq_getElem _ _ hl]
  exact List.getElem_indexOf hl

theorem ValidInput.posOf_tourAt {g : Graph} {t : Tree} {emb : Nat → Nat} (h : ValidInput g t emb)
    {p : Nat} (hp : p < t.H) : posOf t (tourAt t p) = p := by
  unfold tourAt posOf
  have hl : p < (tour t).length := by rw [h.tour_length]; exact hp
  rw [List.getD_eq_getElem _ _ hl]
  exact List.indexOf_getElem h.tour_nodup p hl

theorem ValidInput.posOf_inj {g : Graph} {t : Tree} {emb : Nat → Nat} (h : ValidInput g t emb)
    {i j : Nat} (hi : i < t.H) (hj : j < t.H) (he : posOf t i = posOf t j) : i = j := by
  rw [← h.tourAt_posOf hi, ← h.tourAt_posOf hj, he]

/-- With one worker and fuel `≥ 2n - 2` both list rankings return: `ET[i]`
holds the total weight before `i` on the tour, `ET2[i]` holds the position of
`i` on the tour, and `ET2[i].value` still tells whether `i` is forward. -/
theorem ValidInput.rankTours_pos {g : Graph} {t : Tree} {emb : Nat → Nat}
    (h : ValidInput g t emb) {fuel : Nat} (hf : t.H ≤ fuel) :
    ∃ R1 R2 : Nat → ENode,
      rankTours 1 fuel t (tab t.H (etF g t), tab t.H (et2F g t)) =
        .ok (tab t.H R1, tab t.H R2) ∧
      (∀ i, i < t.H → (R1 i).rank = r1F g t i) ∧
      (∀ i, i < t.H → (R2 i).rank = posOf t i) ∧
      (∀ i, i < t.H → (R2 i).value = if isFwd g t i then 1 else 0) := by
  obtain ⟨R1, R2, e, a, b, c⟩ := h.rankTours_ok hf
  refine ⟨R1, R2, e, ?_, ?_, c⟩
  · intro i hi
    have := a _ (h.posOf_lt hi)
    rw [h.tourAt_posOf hi] at this
    exact this
  · intro i hi
    have := b _ (h.posOf_lt hi)
    rw [h.tourAt_posOf hi] at this
    exact this

/-- Bounds on the two ranks of a half-edge. -/
theorem ValidInput.r1F_bound {g : Graph} {t : Tree} {emb : Nat → Nat} (h : ValidInput g t emb)
    {i : Nat} (hi : i < t.H) :
    posOf t i ≤ r1F g t i ∧ r1F g t i + wgt g t i ≤ 2 * g.m ∧
      r1F g t i + wgt g t i - (posOf t i + 1) ≤ brk g t := by
  have hp := h.posOf_lt hi
  obtain ⟨a, _, c, _, e⟩ := h.Wsum_bound hp
  have hs := h.Wsum_succ hp
  rw [h.tourAt_posOf hi] at hs
  unfold r1F
  rw [hs] at c e
  exact ⟨a, c, e⟩

theorem s1F_succ (g : Graph) (t : Tree) (k q : Nat) :
    s1F g t (k + 1) q = (s1F g t k q || decide (q = r1F g t k + 1)) := by
  simp only [s1F, List.range_succ, List.any_append, List.any_cons, List.any_nil, Bool.or_false]

theorem s2F_succ (g : Graph) (t : Tree) (k q : Nat) :
    s2F g t (k + 1) q =
      (s2F g t k q || (decide (isFwd g t k) && decide (q = posOf t k + 1))) := by
  simp only [s2F, List.range_succ, List.any_append, List.any_cons, List.any_nil, Bool.or_false]

theorem s3F_succ (g : Graph) (t : Tree) (k q : Nat) :
    s3F g t (k + 1) q = (s3F g t k q || (!decide (isFwd g t k) &&
      (decide (loF g t k ≤ q) && decide (q < loF g t k + highF g t (t.src k))))) := by
  simp only [s3F, List.range_succ, List.any_append, List.any_cons, List.any_nil, Bool.or_false]

/-- Setting the bits `ll .. ll+cnt-1` one after the other. -/
theorem forLoop_setBits {N : Nat} : ∀ (cnt ll : Nat) (F : Nat → Bool), ll + cnt ≤ N →
    forLoop bit_array_set_bit ll cnt (tab N F) =
      .ok (tab N (fun q => F q || (decide (ll ≤ q) && decide (q < ll + cnt))))
  | 0, ll, F, _ => by
    show Except.ok (tab N F) = _
    apply congrArg Except.ok
    apply tab_congr
    intro q _
    have : ¬ (ll ≤ q ∧ q < ll + 0) := by omega
    by_cases h1 : ll ≤ q
    · have h2 : ¬ q < ll + 0 := by omega
      simp [h1, h2]
    · simp [h1]
  | cnt + 1, ll, F, hb => by
    have hw : bit_array_set_bit (tab N F) ll = .ok (tab N (Function.update F ll true)) := by
      unfold bit_array_set_bit
      exact wr_tab F (by omega) true
    have ih := @forLoop_setBits N cnt (ll + 1) (Function.update F ll true) (by omega)
    simp only [forLoop, hw]
    rw [ih]
    apply congrArg Except.ok
    apply tab_congr
    intro q _
    by_cases h1 : q = ll
    · subst h1
      have a1 : q < q + (cnt + 1) := by omega
      simp [Function.update, a1]
    · have a1 : (ll + 1 ≤ q) ↔ (ll ≤ q) := by omega
      have a2 : (q < ll + 1 + cnt) ↔ (q < ll + (cnt + 1)) := by omega
      simp only [Function.update, h1, dite_false, a1, a2]

theorem update_or {F : Nat → Bool} {G : Nat → Bool} {N x : Nat}
    (hG : ∀ q, G q = (F q || decide (q = x))) :
    tab N (Function.update F x true) = tab N G := by
  apply tab_congr
  intro q _
  rw [hG]
  by_cases h1 : q = x
  · subst h1; simp [Function.update]
  · simp [Function.update, h1]

theorem ValidInput.brk_room {g : Graph} {t : Tree} {emb : Nat → Nat} (h : ValidInput g t emb) :
    brk g t ≤ 2 * (g.m + 1 - t.n) := by
  have h1 := h.brk_le
  have h2 := h.H_lt
  have h3 := h.m_ge
  omega

/-- One iteration of the last region on half-edge `k`. -/
theorem ValidInput.emit_step {g : Graph} {t : Tree} {emb : Nat → Nat} (h : ValidInput g t emb)
    {R1 R2 : Nat → ENode}
    (hr1 : ∀ i, i < t.H → (R1 i).rank = r1F g t i)
    (hr2 : ∀ i, i < t.H → (R2 i).rank = posOf t i)
    (hv : ∀ i, i < t.H → (R2 i).value = if isFwd g t i then 1 else 0)
    {k : Nat} (hk : k < t.H) :
    emitEdge t (tab t.n (highF g t)) (tab t.H R1) (tab t.H R2)
      ⟨tab (2 * g.m + 2) (s1F g t k), tab (2 * t.n) (s2F g t k),
        tab (2 * (g.m + 1 - t.n)) (s3F g t k)⟩ k =
    .ok ⟨tab (2 * g.m + 2) (s1F g t (k + 1)), tab (2 * t.n) (s2F g t (k + 1)),
        tab (2 * (g.m + 1 - t.n)) (s3F g t (k + 1))⟩ := by
  have hsz := h.size_lt
  have hHlt := h.H_lt
  have hUINT : UINT = 4294967296 := rfl
  obtain ⟨b1, b2, b3⟩ := h.r1F_bound hk
  have hw := wgt_pos g t k
  have hp := h.posOf_lt hk
  have hroom := h.brk_room
  have hs := h.t_src_lt k hk
  have e1 : (r1F g t k + 1) % UINT = r1F g t k + 1 := Nat.mod_eq_of_lt (by omega)
  have e2 : (posOf t k + 1) % UINT = posOf t k + 1 := Nat.mod_eq_of_lt (by omega)
  have hS1 : bit_array_set_bit (tab (2 * g.m + 2) (s1F g t k)) (r1F g t k + 1) =
      .ok (tab (2 * g.m + 2) (s1F g t (k + 1))) := by
    unfold bit_array_set_bit
    rw [wr_tab _ (by omega), update_or (s1F_succ g t k)]
  simp only [emitEdge]
  rw [rd_tab _ hk]
  simp only [hr1 k hk, e1]
  rw [hS1]
  simp only
  rw [rd_tab _ hk]
  simp only [hr2 k hk, hv k hk, e2]
  by_cases hf : isFwd g t k
  · have hne : (1 : Nat) ≠ 0 := by omega
    have hS2 : bit_array_set_bit (tab (2 * t.n) (s2F g t k)) (posOf t k + 1) =
        .ok (tab (2 * t.n) (s2F g t (k + 1))) := by
      unfold bit_array_set_bit
      rw [wr_tab _ (by omega)]
      apply congrArg Except.ok
      apply update_or
      intro q
      rw [s2F_succ]
      simp [hf]
    have hS3 : tab (2 * (g.m + 1 - t.n)) (s3F g t k) =
        tab (2 * (g.m + 1 - t.n)) (s3F g t (k + 1)) := by
      apply tab_congr
      intro q _
      rw [s3F_succ]
      simp [hf]
    rw [if_pos hf, if_pos hne, hS2]
    simp only
    rw [hS3]
  · have hne : ¬ ((0 : Nat) ≠ 0) := by omega
    have hwk : wgt g t k = highF g t (t.src k) + 1 := by
      unfold wgt; rw [if_neg hf]
    have hlo : usub (r1F g t k) (posOf t k) = loF g t k := by
      rw [usub_eq b1 (by omega)]; rfl
    have hlo2 : loF g t k = r1F g t k - posOf t k := rfl
    have hul : (loF g t k + highF g t (t.src k)) % UINT = loF g t k + highF g t (t.src k) :=
      Nat.mod_eq_of_lt (by omega)
    have hS2 : tab (2 * t.n) (s2F g t k) = tab (2 * t.n) (s2F g t (k + 1)) := by
      apply tab_congr
      intro q _
      rw [s2F_succ]
      simp [hf]
    have hS3 := @forLoop_setBits (2 * (g.m + 1 - t.n)) (highF g t (t.src k)) (loF g t k)
      (s3F g t k) (by omega)
    have hS3b : tab (2 * (g.m + 1 - t.n)) (fun q => s3F g t k q ||
        (decide (loF g t k ≤ q) && decide (q < loF g t k + highF g t (t.src k)))) =
        tab (2 * (g.m + 1 - t.n)) (s3F g t (k + 1)) := by
      apply tab_congr
      intro q _
      rw [s3F_succ]
      simp [hf]
    rw [if_neg hf, if_neg hne, rd_getD t.E ⟨0, 0, 0⟩ (by rw [h.lenTE]; exact hk)]
    simp only [Tree.src_fold]
    rw [rd_tab _ hs]
    simp only [hlo, hul, Nat.add_sub_cancel_left]
    rw [hS3]
    simp only
    rw [hS2, hS3b]

theorem usub_succ {g n : Nat} (h1 : n ≤ g + 1) (h2 : g + 1 < UINT) :
    (usub g n + 1) % UINT = g + 1 - n := by
  have hU : UINT = 4294967296 := rfl
  unfold usub
  rw [Nat.mod_eq_of_lt (by omega : g < UINT), Nat.mod_eq_of_lt (by omega : n < UINT)]
  by_cases hc : n ≤ g
  · rw [if_pos hc, Nat.mod_eq_of_lt (by omega)]
    omega
  · rw [if_neg hc]
    have : g + UINT - n + 1 = UINT := by omega
    rw [this, Nat.mod_self]
    omega

theorem ValidInput.emitLoop_ok {g : Graph} {t : Tree} {emb : Nat → Nat} (h : ValidInput g t emb)
    {R1 R2 : Nat → ENode}
    (hr1 : ∀ i, i < t.H → (R1 i).rank = r1F g t i)
    (hr2 : ∀ i, i < t.H → (R2 i).rank = posOf t i)
    (hv : ∀ i, i < t.H → (R2 i).value = if isFwd g t i then 1 else 0) :
    forLoop (emitEdge t (tab t.n (highF g t)) (tab t.H R1) (tab t.H R2)) 0 t.H
      ⟨bit_array_create (2 * g.m + 2), bit_array_create (2 * t.n),
        bit_array_create (2 * (g.m + 1 - t.n))⟩ =
    .ok ⟨tab (2 * g.m + 2) (s1F g t t.H), tab (2 * t.n) (s2F g t t.H),
        tab (2 * (g.m + 1 - t.n)) (s3F g t t.H)⟩ := by
  obtain ⟨st, hst, hinv⟩ := forLoop_inv
    (fun k (st : Bits) =>
      st = ⟨tab (2 * g.m + 2) (s1F g t k), tab (2 * t.n) (s2F g t k),
        tab (2 * (g.m + 1 - t.n)) (s3F g t k)⟩)
    (emitEdge t (tab t.n (highF g t)) (tab t.H R1) (tab t.H R2)) t.H 0
    ⟨bit_array_create (2 * g.m + 2), bit_array_create (2 * t.n),
        bit_array_create (2 * (g.m + 1 - t.n))⟩
    (by
      unfold bit_array_create
      rw [replicate_eq_tab, replicate_eq_tab, replicate_eq_tab]
      rfl)
    (by
      intro k st _ hk hinv
      subst hinv
      exact ⟨_, h.emit_step hr1 hr2 hv (by omega), rfl⟩)
  rw [hst, hinv, Nat.zero_add]

/-- With one worker the last region and the three framing bits produce
`bitsF`. -/
theorem ValidInput.emitBits_ok {g : Graph} {t : Tree} {emb : Nat → Nat} (h : ValidInput g t emb)
    {R1 R2 : Nat → ENode}
    (hr1 : ∀ i, i < t.H → (R1 i).rank = r1F g t i)
    (hr2 : ∀ i, i < t.H → (R2 i).rank = posOf t i)
    (hv : ∀ i, i < t.H → (R2 i).value = if isFwd g t i then 1 else 0) :
    emitBits 1 g t (tab t.n (highF g t)) (tab t.H R1) (tab t.H R2) = .ok (bitsF g t) := by
  have hn := h.n_ge
  have hm := h.m_ge
  have hHlt := h.H_lt
  have hsz := h.size_lt
  have hUINT : UINT = 4294967296 := rfl
  have hnp : (2 * t.n) % UINT = 2 * t.n := Nat.mod_eq_of_lt (by omega)
  have hsize : usub (2 * t.n) 2 = t.H := by
    rw [usub_eq (by omega) (by omega)]; rfl
  have hnb1 : (usub g.m t.n + 1) % UINT = g.m + 1 - t.n := usub_succ hm (by omega)
  have hnb : (2 * (g.m + 1 - t.n)) % UINT = 2 * (g.m + 1 - t.n) := Nat.mod_eq_of_lt (by omega)
  have hnt0 : 2 * t.n + 2 * (g.m + 1 - t.n) = 2 * g.m + 2 := by omega
  have hnt : (2 * g.m + 2) % UINT = 2 * g.m + 2 := Nat.mod_eq_of_lt (by omega)
  have hlast : usub (2 * g.m + 2) 1 = 2 * g.m + 1 := by
    rw [usub_eq (by omega) (by omega)]; rfl
  have hlo : chunkLo (2 * t.n / 1) 0 none = 0 := by simp [chunkLo]
  have hhi : chunkHi 1 (2 * t.n / 1) 0 t.H = t.H := by simp [chunkHi]
  unfold emitBits
  simp only [hnp, hnb1, hnb, hnt0, hnt, hsize, hlast]
  rw [forLoop_one]
  simp only [phaseE, hlo, hhi, Nat.sub_zero]
  rw [h.emitLoop_ok hr1 hr2 hv]
  simp only
  have a1 : tab (2 * g.m + 2) (Function.update (s1F g t t.H) 0 true) =
      tab (2 * g.m + 2) (fun q => s1F g t t.H q || decide (q = 0)) :=
    update_or (fun _ => rfl)
  have a2 : tab (2 * g.m + 2)
      (Function.update (fun q => s1F g t t.H q || decide (q = 0)) (2 * g.m + 1) true) =
      tab (2 * g.m + 2) (S1F g t) :=
    update_or (fun _ => rfl)
  have a3 : tab (2 * t.n) (Function.update (s2F g t t.H) 0 true) = tab (2 * t.n) (S2F g t) :=
    update_or (fun _ => rfl)
  unfold bit_array_set_bit
  rw [wr_tab _ (by omega), a1]
  simp only
  rw [wr_tab _ (by omega), a2]
  simp only
  rw [wr_tab _ (by omega), a3]
  rfl

theorem rankedTours_of {threads fuel : Nat} {g : Graph} {t : Tree}
    {c : List Nat × List Nat} {et r : List ENode × List ENode} (h0 : threads ≠ 0)
    (hc : counters threads g t = .ok c) (he : eulerTours threads g t c.1 c.2 = .ok et)
    (hr : rankTours threads fuel t et = .ok r) :
    rankedTours threads fuel g t = .ok (c.2, r.1, r.2) := by
  unfold rankedTours
  rw [if_neg h0, hc]
  simp only
  rw [he]
  simp only
  rw [hr]

/-- With one worker and fuel `≥ 2n - 2` the first four regions return the
counter `higher_numb` and the two ranked arrays. -/
theorem ValidInput.rankedTours_ok {g : Graph} {t : Tree} {emb : Nat → Nat}
    (h : ValidInput g t emb) {fuel : Nat} (hf : t.H ≤ fuel) :
    ∃ R1 R2 : Nat → ENode,
      rankedTours 1 fuel g t = .ok (tab t.n (highF g t), tab t.H R1, tab t.H R2) ∧
      (∀ i, i < t.H → (R1 i).rank = r1F g t i) ∧
      (∀ i, i < t.H → (R2 i).rank = posOf t i) ∧
      (∀ i, i < t.H → (R2 i).value = if isFwd g t i then 1 else 0) := by
  obtain ⟨R1, R2, e, a, b, c⟩ := h.rankTours_pos hf
  exact ⟨R1, R2, rankedTours_of (by omega) h.counters_ok h.eulerTours_ok e, a, b, c⟩

theorem run_of {threads fuel : Nat} {g : Graph} {t : Tree}
    {r : List Nat × List ENode × List ENode} {b : Bits}
    (hr : rankedTours threads fuel g t = .ok r)
    (hb : emitBits threads g t r.1 r.2.1 r.2.2 = .ok b) :
    parallel_succinct_graph threads fuel g t = .ok b := by
  unfold parallel_succinct_graph
  rw [hr]
  exact hb

/-- The reference run: with one worker and fuel `≥ 2n - 2` the routine
returns the bit arrays `bitsF`. -/
theorem ValidInput.run_ok {g : Graph} {t : Tree} {emb : Nat → Nat}
    (h : ValidInput g t emb) {fuel : Nat} (hf : t.H ≤ fuel) :
    parallel_succinct_graph 1 fuel g t = .ok (bitsF g t) := by
  obtain ⟨R1, R2, e, a, b, c⟩ := h.rankedTours_ok hf
  exact run_of e (h.emitBits_ok a b c)

theorem triangle_valid : ValidInput triangleG triangleT triangleEmb where
  n_ge := by decide
  m_ge := by decide
  size_lt := by decide
  lenV := by decide
  lenGE := by decide
  lenN := by decide
  lenTE := by decide
  ord_lt := by decide
  ord_inj := by decide
  root_lowest := by decide
  g_src_lt := by decide
  g_tgt_lt := by decide
  g_loop := by decide
  g_first := by decide
  g_twin_lt := by decide
  g_twin_src := by decide
  g_twin_tgt := by decide
  g_twin_twin := by decide
  deg_lt := by decide
  t_src_lt := by decide
  t_tgt_lt := by decide
  t_range := by decide
  t_range_src := by decide
  t_nonempty := by decide
  t_root := by decide
  t_twin_lt := by decide
  t_twin_src := by decide
  t_twin_tgt := by decide
  t_twin_twin := by decide
  t_back := by decide
  t_fwd := by decide
  emb_lt := by decide
  emb_src := by decide
  emb_tgt := by decide
  emb_inj := by decide

theorem Dyck_nil : Dyck [] := by
  constructor
  · intro k; simp
  · rfl

theorem Dyck_append {a b : List Bool} (ha : Dyck a) (hb : Dyck b) : Dyck (a ++ b) := by
  constructor
  · intro k
    rw [List.take_append_eq_append_take, List.count_append, List.count_append]
    have h1 := ha.1 k
    have h2 := hb.1 (k - a.length)
    omega
  · rw [List.count_append, List.count_append, ha.2, hb.2]

theorem Dyck_wrap {a : List Bool} (ha : Dyck a) : Dyck (true :: (a ++ [false])) := by
  constructor
  · intro k
    cases k with
    | zero => simp
    | succ k =>
      rw [List.take_succ_cons, List.take_append_eq_append_take]
      have h1 := ha.1 k
      have h2 : (List.take (k - a.length) [false]).count false ≤ 1 := by
        have := (List.take_sublist (k - a.length) [false]).count_le false
        simpa using this
      have h3 : (List.take (k - a.length) [false]).count true = 0 := by
        apply List.count_eq_zero.mpr
        intro hm
        have := List.mem_of_mem_take hm
        simp at this
      simp only [List.count_cons, List.count_append, h3]
      simp
      omega
  · have := ha.2
    simp only [List.count_cons, List.count_append, List.count_nil]
    simp
    omega

theorem tourWord_append (g : Graph) (t : Tree) (a b : List Nat) :
    tourWord g t (a ++ b) = tourWord g t a ++ tourWord g t b := by
  simp [tourWord]

theorem Dyck_concatOver (g : Graph) (t : Tree) (f : Nat → List Nat) :
    ∀ cnt d, (∀ e, d ≤ e → e < d + cnt → Dyck (tourWord g t (f e))) →
      Dyck (tourWord g t (concatOver f d cnt))
  | 0, _, _ => Dyck_nil
  | cnt + 1, d, hf => by
    show Dyck (tourWord g t (f d ++ concatOver f (d + 1) cnt))
    rw [tourWord_append]
    exact Dyck_append (hf d (le_refl _) (by omega))
      (Dyck_concatOver g t f cnt (d + 1) (fun e h1 h2 => hf e (by omega) (by omega)))

theorem ValidInput.subTour_dyck {g : Graph} {t : Tree} {emb : Nat → Nat}
    (h : ValidInput g t emb) :
    ∀ f c, c < t.H → isFwd g t c → t.n ≤ f + g.ord (t.tgt c) →
      Dyck (tourWord g t (subTour t f c))
  | 0, c, hc, _, hn => by
    have := h.ord_lt _ (h.t_tgt_lt c hc)
    omega
  | f + 1, c, hc, hf, hn => by
    obtain ⟨hw0, hw, htw, hord⟩ := h.fwd_tgt hc hf
    have hb : ¬ isFwd g t (t.twin c) := by
      rw [h.twin_fwd hc]; exact fun hn => hn hf
    have hkids := Dyck_concatOver g t (subTour t f) (t.last (t.tgt c) - t.first (t.tgt c))
      (t.first (t.tgt c) + 1)
      (fun e h1 h2 => by
        have hne := h.t_nonempty _ hw
        obtain ⟨a, b, c1⟩ := h.child hw (Or.inl (by omega)) (by omega) (by omega : e ≤ t.last (t.tgt c))
        have c2 : g.ord (t.src e) < g.ord (t.tgt e) := c1
        rw [b] at c2
        exact ValidInput.subTour_dyck h f e a c1 (by omega))
    have := Dyck_wrap hkids
    simp only [subTour, tourWord, List.map_cons, List.map_append, List.map_nil, hf, hb,
      decide_True, decide_False]
    exact this

theorem ValidInput.tour_dyck {g : Graph} {t : Tree} {emb : Nat → Nat}
    (h : ValidInput g t emb) : Dyck (tourWord g t (tour t)) := by
  have hn : 0 < t.n := by have := h.n_ge; omega
  apply Dyck_concatOver
  intro e h1 h2
  obtain ⟨a, b, c1⟩ := h.child hn (Or.inr rfl) (by rw [h.t_root]; omega) (by omega : e ≤ t.last 0)
  exact h.subTour_dyck t.n e a c1 (by omega)

theorem ValidInput.s2F_pos {g : Graph} {t : Tree} {emb : Nat → Nat} (h : ValidInput g t emb)
    {p : Nat} (hp : p < t.H) :
    s2F g t t.H (p + 1) = decide (isFwd g t (tourAt t p)) := by
  unfold s2F
  by_cases hf : isFwd g t (tourAt t p)
  · rw [decide_eq_true hf, List.any_eq_true]
    refine ⟨tourAt t p, List.mem_range.mpr (h.tourAt_lt hp), ?_⟩
    rw [h.posOf_tourAt hp]
    simp [hf]
  · rw [decide_eq_false hf, List.any_eq_false]
    intro i hi hc
    have hi1 := List.mem_range.mp hi
    simp only [Bool.and_eq_true, decide_eq_true_eq] at hc
    obtain ⟨c1, c2⟩ := hc
    have : p = posOf t i := by omega
    rw [this, h.tourAt_posOf hi1] at hf
    exact hf c1

theorem ValidInput.s2F_out {g : Graph} {t : Tree} {emb : Nat → Nat} (h : ValidInput g t emb)
    {q : Nat} (hq : q = 0 ∨ t.H < q) : s2F g t t.H q = false := by
  unfold s2F
  rw [List.any_eq_false]
  intro i hi hc
  have hi1 := List.mem_range.mp hi
  have := h.posOf_lt hi1
  simp only [Bool.and_eq_true, decide_eq_true_eq] at hc
  omega

/-- The final `S2` is an opening parenthesis, the word of the Euler tour,
and a closing parenthesis. -/
theorem ValidInput.S2_eq {g : Graph} {t : Tree} {emb : Nat → Nat} (h : ValidInput g t emb) :
    (bitsF g t).S2 = true :: (tourWord g t (tour t) ++ [false]) := by
  have hH := h.H_lt
  have hlen : (true :: (tourWord g t (tour t) ++ [false])).length = 2 * t.n := by
    simp [tourWord, h.tour_length]; omega
  have e := eq_tab (true :: (tourWord g t (tour t) ++ [false])) false
  rw [hlen] at e
  rw [e]
  show tab (2 * t.n) (S2F g t) = _
  apply tab_congr
  intro q hq
  unfold S2F
  cases q with
  | zero => simp
  | succ p =>
    rw [List.getD_cons_succ]
    by_cases hp : p < t.H
    · have hp1 : p < (tourWord g t (tour t)).length := by
        simp [tourWord, h.tour_length]; exact hp
      have hp2 : p < (tour t).length := by rw [h.tour_length]; exact hp
      rw [h.s2F_pos hp, List.getD_append _ _ _ _ hp1, List.getD_eq_getElem _ _ hp1]
      simp only [tourWord, List.getElem_map, tourAt, List.getD_eq_getElem _ _ hp2]
      simp
    · have hp3 : p = t.H := by omega
      have hp1 : (tourWord g t (tour t)).length ≤ p := by
        simp [tourWord, h.tour_length]; omega
      have hl : (tourWord g t (tour t)).length = t.H := by simp [tourWord, h.tour_length]
      rw [h.s2F_out (Or.inr (by omega)), List.getD_append_right _ _ _ _ hp1, hl, hp3]
      simp

theorem count_true_false (w : List Bool) : w.count true + w.count false = w.length := by
  induction w with
  | nil => rfl
  | cons a w ih =>
    cases a <;> simp [List.count_cons] <;> omega

/-! ## Counting the one-bits -/

theorem count_tab (F : Nat → Bool) :
    ∀ N, (tab N F).count true = ((Finset.range N).filter (fun q => F q = true)).card
  | 0 => by simp [tab]
  | N + 1 => by
    have ih := count_tab F N
    unfold tab at ih ⊢
    rw [List.range_succ, List.map_append, List.count_append, ih, Finset.range_succ,
      Finset.filter_insert]
    by_cases hF : F N = true
    · rw [if_pos hF, Finset.card_insert_of_not_mem (by simp)]
      simp [hF]
    · rw [if_neg hF]
      simp [hF]

theorem ValidInput.r1F_lt {g : Graph} {t : Tree} {emb : Nat → Nat} (h : ValidInput g t emb)
    {i j : Nat} (hi : i < t.H) (hj : j < t.H) (hlt : posOf t i < posOf t j) :
    r1F g t i + wgt g t i ≤ r1F g t j ∧
      r1F g t i + wgt g t i - (posOf t i + 1) ≤ r1F g t j - posOf t j := by
  have hpi := h.posOf_lt hi
  have hpj := h.posOf_lt hj
  have hs := h.Wsum_succ hpi
  rw [h.tourAt_posOf hi] at hs
  have hm := h.Wsum_mono (posOf t i + 1) (posOf t j) (by omega) (by omega)
  have hw := wgt_pos g t i
  obtain ⟨a, _⟩ := h.r1F_bound hi
  unfold r1F at *
  omega

theorem ValidInput.r1F_inj {g : Graph} {t : Tree} {emb : Nat → Nat} (h : ValidInput g t emb)
    {i j : Nat} (hi : i < t.H) (hj : j < t.H) (he : r1F g t i = r1F g t j) : i = j := by
  apply h.posOf_inj hi hj
  by_contra hne
  have hwi := wgt_pos g t i
  have hwj := wgt_pos g t j
  rcases Nat.lt_or_gt_of_ne hne with hlt | hlt
  · have := (h.r1F_lt hi hj hlt).1
    omega
  · have := (h.r1F_lt hj hi hlt).1
    omega

theorem s1F_true (g : Graph) (t : Tree) (k q : Nat) :
    s1F g t k q = true ↔ ∃ i, i < k ∧ q = r1F g t i + 1 := by
  unfold s1F
  rw [List.any_eq_true]
  constructor
  · rintro ⟨i, hi, hc⟩
    exact ⟨i, List.mem_range.mp hi, by simpa using hc⟩
  · rintro ⟨i, hi, hc⟩
    exact ⟨i, List.mem_range.mpr hi, by simpa using hc⟩

/-- The final `S1` has a one at every position `ET[i].rank + 1` and at both
ends, and nowhere else: `2n` ones. -/
theorem ValidInput.S1_count {g : Graph} {t : Tree} {emb : Nat → Nat} (h : ValidInput g t emb) :
    (bitsF g t).S1.count true = 2 * t.n := by
  have hH := h.H_lt
  show (tab (2 * g.m + 2) (S1F g t)).count true = 2 * t.n
  rw [count_tab]
  have hset : (Finset.range (2 * g.m + 2)).filter (fun q => S1F g t q = true) =
      insert 0 (insert (2 * g.m + 1) ((Finset.range t.H).image (fun i => r1F g t i + 1))) := by
    ext q
    simp only [Finset.mem_filter, Finset.mem_range, Finset.mem_insert, Finset.mem_image, S1F,
      Bool.or_eq_true, decide_eq_true_eq, s1F_true]
    constructor
    · rintro ⟨_, (⟨i, hi, hq⟩ | h0) | h1⟩
      · exact Or.inr (Or.inr ⟨i, hi, hq.symm⟩)
      · exact Or.inl h0
      · exact Or.inr (Or.inl h1)
    · rintro (h0 | h1 | ⟨i, hi, hq⟩)
      · exact ⟨by omega, Or.inl (Or.inr h0)⟩
      · exact ⟨by omega, Or.inr h1⟩
      · obtain ⟨_, b, _⟩ := h.r1F_bound hi
        have := wgt_pos g t i
        exact ⟨by omega, Or.inl (Or.inl ⟨i, hi, hq.symm⟩)⟩
  rw [hset, Finset.card_insert_of_not_mem, Finset.card_insert_of_not_mem,
    Finset.card_image_of_injOn, Finset.card_range]
  · omega
  · intro i hi j hj he
    have hi1 := Finset.mem_range.mp (Finset.mem_coe.mp hi)
    have hj1 := Finset.mem_range.mp (Finset.mem_coe.mp hj)
    exact h.r1F_inj hi1 hj1 (by simpa using he)
  · simp only [Finset.mem_image, Finset.mem_range, not_exists, not_and]
    intro i hi hq
    obtain ⟨_, b, _⟩ := h.r1F_bound hi
    have := wgt_pos g t i
    omega
  · simp only [Finset.mem_insert, Finset.mem_image, Finset.mem_range, not_or, not_exists,
      not_and]
    refine ⟨by omega, ?_⟩
    intro i _ hq
    omega

theorem ValidInput.ord_ne {g : Graph} {t : Tree} {emb : Nat → Nat} (h : ValidInput g t emb)
    {i : Nat} (hi : i < 2 * g.m) : g.ord (g.src i) ≠ g.ord (g.tgt i) := by
  intro he
  exact h.g_loop i hi (h.ord_inj _ (h.g_src_lt i hi) _ (h.g_tgt_lt i hi) he)

/-- Exactly one of the two half-edges of every edge goes to the vertex of
lower order. -/
theorem ValidInput.desc_card {g : Graph} {t : Tree} {emb : Nat → Nat} (h : ValidInput g t emb) :
    ((Finset.range (2 * g.m)).filter
      (fun i => g.ord (g.src i) > g.ord (g.tgt i))).card = g.m := by
  have h1 := @Finset.filter_card_add_filter_neg_card_eq_card Nat (Finset.range (2 * g.m))
    (fun i => g.ord (g.src i) > g.ord (g.tgt i)) _ _
  have h2 : ((Finset.range (2 * g.m)).filter
      (fun i => g.ord (g.src i) > g.ord (g.tgt i))).card =
      ((Finset.range (2 * g.m)).filter
        (fun i => ¬ (g.ord (g.src i) > g.ord (g.tgt i)))).card := by
    apply Finset.card_nbij' (fun i => g.twin i) (fun i => g.twin i)
    · intro i hi
      simp only [Finset.mem_filter, Finset.mem_range] at hi ⊢
      refine ⟨h.g_twin_lt i hi.1, ?_⟩
      rw [h.g_twin_src i hi.1, h.g_twin_tgt i hi.1]
      omega
    · intro i hi
      simp only [Finset.mem_filter, Finset.mem_range] at hi ⊢
      refine ⟨h.g_twin_lt i hi.1, ?_⟩
      rw [h.g_twin_src i hi.1, h.g_twin_tgt i hi.1]
      have := h.ord_ne hi.1
      omega
    · intro i hi
      simp only [Finset.mem_filter, Finset.mem_range] at hi
      exact h.g_twin_twin i hi.1
    · intro i hi
      simp only [Finset.mem_filter, Finset.mem_range] at hi
      exact h.g_twin_twin i hi.1
  rw [Finset.card_range] at h1
  omega

theorem ValidInput.sum_cntLow {g : Graph} {t : Tree} {emb : Nat → Nat} (h : ValidInput g t emb) :
    Finset.sum (Finset.Ico 1 t.n) (fun v => cntLow g v (2 * g.m)) = g.m := by
  have hn : 0 < t.n := by have := h.n_ge; omega
  have key := @Finset.card_eq_sum_card_fiberwise Nat Nat _ (fun i => g.src i)
    ((Finset.range (2 * g.m)).filter (fun i => g.ord (g.src i) > g.ord (g.tgt i)))
    (Finset.Ico 1 t.n)
    (fun i hi => by
      simp only [Finset.mem_filter, Finset.mem_range] at hi
      have h1 := h.g_src_lt i hi.1
      have h2 := h.g_tgt_lt i hi.1
      simp only [Finset.mem_Ico]
      refine ⟨?_, h1⟩
      by_contra h0
      have hs0 : g.src i = 0 := by omega
      have hd := hi.2
      rw [hs0] at hd
      by_cases ht0 : g.tgt i = 0
      · rw [ht0] at hd; omega
      · have := h.root_lowest _ h2 ht0
        omega)
  rw [h.desc_card] at key
  refine Eq.trans ?_ key.symm
  apply Finset.sum_congr rfl
  intro v hv
  have hv1 := Finset.mem_Ico.mp hv
  unfold cntLow
  congr 1
  ext i
  simp only [Finset.mem_filter, Finset.mem_range]
  constructor
  · rintro ⟨a, _, b, c⟩
    exact ⟨⟨a, c⟩, b⟩
  · rintro ⟨⟨a, c⟩, b⟩
    refine ⟨a, ?_, b, c⟩
    by_contra h0
    have : i = 0 := by omega
    rw [this, h.g_first] at b
    omega

theorem ValidInput.sum_lowF {g : Graph} {t : Tree} {emb : Nat → Nat} (h : ValidInput g t emb) :
    Finset.sum (Finset.Ico 1 t.n) (fun v => lowF g v) + t.n = g.m + 1 := by
  have hn := h.n_ge
  have h1 := h.sum_cntLow
  have h2 : Finset.sum (Finset.Ico 1 t.n) (fun v => lowF g v + 1) =
      Finset.sum (Finset.Ico 1 t.n) (fun v => cntLow g v (2 * g.m)) := by
    apply Finset.sum_congr rfl
    intro v hv
    have hv1 := Finset.mem_Ico.mp hv
    have := h.cntLow_ge hv1.2 (by omega)
    simp only [lowF, if_pos hv1.1]
    omega
  rw [Finset.sum_add_distrib, Finset.sum_const, Nat.card_Ico] at h2
  simp only [smul_eq_mul, Nat.mul_one] at h2
  omega

/-- The widths of the bracket ranges add up to the number of non-tree
edges, less the non-tree edges at the root. -/
theorem ValidInput.sum_highF {g : Graph} {t : Tree} {emb : Nat → Nat} (h : ValidInput g t emb) :
    Finset.sum (Finset.Ico 1 t.n) (fun v => highF g t v) + t.n + g.deg 0 =
      g.m + 1 + (t.last 0 + 1) := by
  have h1 := h.sum_lowF
  have h2 := h.brk_eq
  have h3 := h.H_lt
  unfold brk at h2
  rw [Finset.sum_add_distrib] at h2
  omega

theorem s3F_true (g : Graph) (t : Tree) (k q : Nat) :
    s3F g t k q = true ↔ ∃ i, i < k ∧ ¬ isFwd g t i ∧ loF g t i ≤ q ∧
      q < loF g t i + highF g t (t.src i) := by
  unfold s3F
  rw [List.any_eq_true]
  constructor
  · rintro ⟨i, hi, hc⟩
    simp only [Bool.and_eq_true, Bool.not_eq_true', decide_eq_false_iff_not,
      decide_eq_true_eq] at hc
    exact ⟨i, List.mem_range.mp hi, hc.1, hc.2.1, hc.2.2⟩
  · rintro ⟨i, hi, c1, c2, c3⟩
    refine ⟨i, List.mem_range.mpr hi, ?_⟩
    simp only [Bool.and_eq_true, Bool.not_eq_true', decide_eq_false_iff_not,
      decide_eq_true_eq]
    exact ⟨c1, c2, c3⟩

/-- The bracket range of a backward half-edge lies inside `S3`. -/
theorem ValidInput.back_range {g : Graph} {t : Tree} {emb : Nat → Nat} (h : ValidInput g t emb)
    {i : Nat} (hi : i < t.H) (hb : ¬ isFwd g t i) :
    loF g t i + highF g t (t.src i) ≤ 2 * (g.m + 1 - t.n) := by
  obtain ⟨a, _, c⟩ := h.r1F_bound hi
  have hroom := h.brk_room
  have hw : wgt g t i = highF g t (t.src i) + 1 := by
    unfold wgt; rw [if_neg hb]
  unfold loF
  omega

/-- The bracket ranges of two backward half-edges do not overlap. -/
theorem ValidInput.back_disjoint {g : Graph} {t : Tree} {emb : Nat → Nat}
    (h : ValidInput g t emb) {i j : Nat} (hi : i < t.H) (hj : j < t.H)
    (hbi : ¬ isFwd g t i) (hbj : ¬ isFwd g t j) (hne : i ≠ j) :
    loF g t i + highF g t (t.src i) ≤ loF g t j ∨
      loF g t j + highF g t (t.src j) ≤ loF g t i := by
  have hwi : wgt g t i = highF g t (t.src i) + 1 := by
    unfold wgt; rw [if_neg hbi]
  have hwj : wgt g t j = highF g t (t.src j) + 1 := by
    unfold wgt; rw [if_neg hbj]
  obtain ⟨ai, _, _⟩ := h.r1F_bound hi
  obtain ⟨aj, _, _⟩ := h.r1F_bound hj
  have hp : posOf t i ≠ posOf t j := fun he => hne (h.posOf_inj hi hj he)
  unfold loF
  rcases Nat.lt_or_gt_of_ne hp with hlt | hlt
  · have := (h.r1F_lt hi hj hlt).2
    left; omega
  · have := (h.r1F_lt hj hi hlt).2
    right; omega

/-- The number of ones of the final `S3` is the total width of the bracket
ranges. -/
theorem ValidInput.S3_count {g : Graph} {t : Tree} {emb : Nat → Nat} (h : ValidInput g t emb) :
    (bitsF g t).S3.count true = Finset.sum (Finset.Ico 1 t.n) (fun v => highF g t v) := by
  show (tab (2 * (g.m + 1 - t.n)) (s3F g t t.H)).count true = _
  rw [count_tab]
  have hset : (Finset.range (2 * (g.m + 1 - t.n))).filter (fun q => s3F g t t.H q = true) =
      ((Finset.range t.H).filter (fun i => ¬ isFwd g t i)).biUnion
        (fun i => Finset.Ico (loF g t i) (loF g t i + highF g t (t.src i))) := by
    ext q
    simp only [Finset.mem_filter, Finset.mem_range, Finset.mem_biUnion, Finset.mem_Ico,
      s3F_true]
    constructor
    · rintro ⟨_, i, hi, c1, c2, c3⟩
      exact ⟨i, ⟨hi, c1⟩, c2, c3⟩
    · rintro ⟨i, ⟨hi, c1⟩, c2, c3⟩
      have := h.back_range hi c1
      exact ⟨by omega, i, hi, c1, c2, c3⟩
  rw [hset, Finset.card_biUnion]
  · rw [← h.sum_back (fun v => highF g t v), ← Finset.sum_filter]
    apply Finset.sum_congr rfl
    intro i _
    rw [Nat.card_Ico]
    omega
  · intro i hi j hj hne
    simp only [Finset.mem_filter, Finset.mem_range] at hi hj
    rw [Finset.disjoint_left]
    intro q hq1 hq2
    simp only [Finset.mem_Ico] at hq1 hq2
    rcases h.back_disjoint hi.1 hj.1 hi.2 hj.2 hne with hd | hd <;> omega

/-! ## The bit arrays of a valid input (reference run with one worker) -/

theorem ValidInput.S_ends {g : Graph} {t : Tree} {emb : Nat → Nat} (h : ValidInput g t emb) :
    (bitsF g t).S1.getD 0 false = true ∧ (bitsF g t).S2.getD 0 false = true ∧
      (bitsF g t).S1.getD (2 * g.m + 1) false = true ∧
      (bitsF g t).S2.getD (2 * t.n - 1) false = false := by
  have hH := h.H_lt
  have hn := h.n_ge
  refine ⟨?_, ?_, ?_, ?_⟩
  · show (tab (2 * g.m + 2) (S1F g t)).getD _ _ = _
    rw [getD_tab _ _ (by omega)]
    simp [S1F]
  · show (tab (2 * t.n) (S2F g t)).getD _ _ = _
    rw [getD_tab _ _ (by omega)]
    simp [S2F]
  · show (tab (2 * g.m + 2) (S1F g t)).getD _ _ = _
    rw [getD_tab _ _ (by omega)]
    simp [S1F]
  · show (tab (2 * t.n) (S2F g t)).getD _ _ = _
    rw [getD_tab _ _ (by omega)]
    unfold S2F
    rw [h.s2F_out (Or.inr (by omega))]
    have : ¬ (2 * t.n - 1 = 0) := by omega
    simp [this]

theorem take_count_le (w : List Bool) (k : Nat) (a : Bool) :
    (w.take k).count a ≤ w.count a :=
  (List.take_sublist k w).count_le a

/-- In the reference run (one worker, sizes that fit in a `uint`) for
every valid input the routine returns, and its `S2`, read with `1` as an
opening and `0` as a closing parenthesis, is a balanced word of length `2n`:
no prefix has more zeros than ones, there are exactly `n` ones and `n` zeros,
and the excess of ones over zeros of a prefix (the nesting depth) never
exceeds `n`. -/
theorem S2_balanced_one_worker {g : Graph} {t : Tree} {emb : Nat → Nat} (h : ValidInput g t emb)
    {fuel : Nat} (hf : t.H ≤ fuel) :
    ∃ b, parallel_succinct_graph 1 fuel g t = .ok b ∧ b.S2.length = 2 * t.n ∧
      (∀ k, (b.S2.take k).count false ≤ (b.S2.take k).count true) ∧
      b.S2.count true = t.n ∧ b.S2.count false = t.n ∧
      (∀ k, (b.S2.take k).count true - (b.S2.take k).count false ≤ t.n) := by
  have hd := Dyck_wrap h.tour_dyck
  have hH := h.H_lt
  have hlen : (true :: (tourWord g t (tour t) ++ [false])).length = 2 * t.n := by
    simp [tourWord, h.tour_length]; omega
  have hc := count_true_false (true :: (tourWord g t (tour t) ++ [false]))
  have h2 := hd.2
  have ht : (true :: (tourWord g t (tour t) ++ [false])).count true = t.n := by omega
  refine ⟨bitsF g t, h.run_ok hf, ?_⟩
  rw [h.S2_eq]
  refine ⟨hlen, hd.1, ht, by omega, ?_⟩
  intro k
  have := take_count_le (true :: (tourWord g t (tour t) ++ [false])) k true
  omega

/-- The statement `S2_balanced_one_worker` applied to the triangle with the
tree `0-1, 0-2`. -/
theorem S2_balanced_one_worker_triangle :
    ValidInput triangleG triangleT triangleEmb ∧ triangleT.H ≤ 4 ∧
      ∃ b, parallel_succinct_graph 1 4 triangleG triangleT = .ok b ∧
        b.S2.length = 2 * triangleT.n ∧
        (∀ k, (b.S2.take k).count false ≤ (b.S2.take k).count true) ∧
        b.S2.count true = triangleT.n ∧ b.S2.count false = triangleT.n ∧
        (∀ k, (b.S2.take k).count true - (b.S2.take k).count false ≤ triangleT.n) :=
  ⟨triangle_valid, by decide, S2_balanced_one_worker triangle_valid (by decide)⟩

/-- In the reference run (one worker) for every valid input in which
every edge of `G` at the root is a tree edge (the root has as many half-edges
in `G` as in `T`), the routine returns and `S3` has `m - n + 1` ones: the index
ranges `[ET[i].rank - ET2[i].rank, ET[i].rank - ET2[i].rank + higher[src i])`
of the backward half-edges `i` lie inside `[0, 2(m - n + 1))`, are pairwise
disjoint, and their widths add up to `m - n + 1`, the number of non-tree
edges. -/
theorem S3_ones_one_worker {g : Graph} {t : Tree} {emb : Nat → Nat} (h : ValidInput g t emb)
    (hroot : g.deg 0 = t.last 0 + 1) {fuel : Nat} (hf : t.H ≤ fuel) :
    ∃ hi ET ET2 b, rankedTours 1 fuel g t = .ok (hi, ET, ET2) ∧
      parallel_succinct_graph 1 fuel g t = .ok b ∧
      b.S3.length = 2 * (g.m + 1 - t.n) ∧ b.S3.count true = g.m + 1 - t.n ∧
      (∀ i, i < t.H → ¬ isFwd g t i → rankAt ET2 i ≤ rankAt ET i ∧
        rankAt ET i - rankAt ET2 i + hi.getD (t.src i) 0 ≤ 2 * (g.m + 1 - t.n)) ∧
      (∀ i j, i < t.H → j < t.H → ¬ isFwd g t i → ¬ isFwd g t j → i ≠ j →
        rankAt ET i - rankAt ET2 i + hi.getD (t.src i) 0 ≤ rankAt ET j - rankAt ET2 j ∨
        rankAt ET j - rankAt ET2 j + hi.getD (t.src j) 0 ≤ rankAt ET i - rankAt ET2 i) ∧
      Finset.sum ((Finset.range t.H).filter (fun i => ¬ isFwd g t i))
        (fun i => hi.getD (t.src i) 0) = g.m + 1 - t.n := by
  obtain ⟨R1, R2, e, a, b, _⟩ := h.rankedTours_ok hf
  have hsum := h.sum_highF
  have hm := h.m_ge
  have hlo : ∀ i, i < t.H → rankAt (tab t.H R1) i - rankAt (tab t.H R2) i = loF g t i := by
    intro i hi
    unfold rankAt
    rw [getD_tab _ _ hi, getD_tab _ _ hi, a i hi, b i hi]
    rfl
  have hw : ∀ i, i < t.H → (tab t.n (highF g t)).getD (t.src i) 0 = highF g t (t.src i) :=
    fun i hi => getD_tab _ _ (h.t_src_lt i hi)
  refine ⟨_, _, _, bitsF g t, e, h.run_ok hf, tab_length _ _, ?_, ?_, ?_, ?_⟩
  · rw [h.S3_count]; omega
  · intro i hi hb
    refine ⟨?_, ?_⟩
    · unfold rankAt
      rw [getD_tab _ _ hi, getD_tab _ _ hi, a i hi, b i hi]
      exact (h.r1F_bound hi).1
    · rw [hlo i hi, hw i hi]
      exact h.back_range hi hb
  · intro i j hi hj hbi hbj hne
    rw [hlo i hi, hlo j hj, hw i hi, hw j hj]
    exact h.back_disjoint hi hj hbi hbj hne
  · have e1 : Finset.sum ((Finset.range t.H).filter (fun i => ¬ isFwd g t i))
        (fun i => (tab t.n (highF g t)).getD (t.src i) 0) =
        Finset.sum ((Finset.range t.H).filter (fun i => ¬ isFwd g t i))
          (fun i => highF g t (t.src i)) := by
      apply Finset.sum_congr rfl
      intro i hi
      exact hw i (Finset.mem_range.mp (Finset.mem_filter.mp hi).1)
    rw [e1, Finset.sum_filter, h.sum_back (fun v => highF g t v)]
    omega

/-- The statement `S3_ones_one_worker` applied to the triangle, whose root has the
two tree edges only. -/
theorem S3_ones_one_worker_triangle :
    ValidInput triangleG triangleT triangleEmb ∧
      triangleG.deg 0 = triangleT.last 0 + 1 ∧ triangleT.H ≤ 4 ∧
      ∃ hi ET ET2 b, rankedTours 1 4 triangleG triangleT = .ok (hi, ET, ET2) ∧
        parallel_succinct_graph 1 4 triangleG triangleT = .ok b ∧
        b.S3.length = 2 * (triangleG.m + 1 - triangleT.n) ∧
        b.S3.count true = triangleG.m + 1 - triangleT.n ∧
        (∀ i, i < triangleT.H → ¬ isFwd triangleG triangleT i →
          rankAt ET2 i ≤ rankAt ET i ∧
          rankAt ET i - rankAt ET2 i + hi.getD (triangleT.src i) 0 ≤
            2 * (triangleG.m + 1 - triangleT.n)) ∧
        (∀ i j, i < triangleT.H → j < triangleT.H → ¬ isFwd triangleG triangleT i →
          ¬ isFwd triangleG triangleT j → i ≠ j →
          rankAt ET i - rankAt ET2 i + hi.getD (triangleT.src i) 0 ≤
              rankAt ET j - rankAt ET2 j ∨
            rankAt ET j - rankAt ET2 j + hi.getD (triangleT.src j) 0 ≤
              rankAt ET i - rankAt ET2 i) ∧
        Finset.sum ((Finset.range triangleT.H).filter (fun i => ¬ isFwd triangleG triangleT i))
          (fun i => hi.getD (triangleT.src i) 0) = triangleG.m + 1 - triangleT.n :=
  ⟨triangle_valid, by decide, by decide, S3_ones_one_worker triangle_valid (by decide) (by decide)⟩

/-- Inside the range and below `2^32 - 1`, `nextE` steps to `i + 1` and stops
at `v.last`. -/
theorem nextE_in_range (v : Vertex) (i : Nat) (hi : i ≤ v.last) (hl : v.last + 1 < UINT) :
    nextE v i = if i < v.last then i + 1 else v.last := by
  unfold nextE cmin
  rw [Nat.mod_eq_of_lt (by omega)]
  by_cases hc : i < v.last
  · rw [if_pos hc]
    by_cases hc2 : v.last < i + 1
    · omega
    · rw [if_neg hc2]
  · rw [if_neg hc]
    have : v.last < i + 1 := by omega
    rw [if_pos this]

/-- For a position `i ≥ 1` inside the range, `prevE` steps to `i - 1` and
stops at `v.first`. -/
theorem prevE_in_range (v : Vertex) (i : Nat) (h0 : 1 ≤ i) (hf : v.first ≤ i) (hu : i < UINT) :
    prevE v i = if i > v.first then i - 1 else v.first := by
  unfold prevE cmax
  rw [usub_eq h0 hu]
  by_cases hc : i > v.first
  · rw [if_pos hc]
    by_cases hc2 : v.first > i - 1
    · omega
    · rw [if_neg hc2]
  · rw [if_neg hc]
    have : v.first > i - 1 := by omega
    rw [if_pos this]

/-- At position `0` the subtraction `i - 1` wraps around, whatever the range
of the vertex is. -/
theorem prevE_zero (v : Vertex) (hf : v.first < UINT - 1) : prevE v 0 = UINT - 1 := by
  have hU : UINT = 4294967296 := rfl
  have e : usub 0 1 = UINT - 1 := by decide
  unfold prevE cmax
  rw [e]
  by_cases hc : v.first > UINT - 1
  · omega
  · rw [if_neg hc]

/-! ## The list handed to the list ranking -/

theorem ValidInput.next_et {g : Graph} {t : Tree} {emb : Nat → Nat} (_h : ValidInput g t emb)
    {i : Nat} (hi : i < t.H) :
    nextAt (tab t.H (etF g t)) i = tourNext t i ∧ nextAt (tab t.H (et2F g t)) i = tourNext t i := by
  unfold nextAt
  rw [getD_tab _ _ hi, getD_tab _ _ hi]
  exact ⟨rfl, rfl⟩

/-- The half-edge that closes the tour: the twin of the last half-edge of the
root. -/
theorem ValidInput.closing {g : Graph} {t : Tree} {emb : Nat → Nat} (h : ValidInput g t emb) :
    t.twin (t.last 0) < t.H ∧ tourNext t (t.twin (t.last 0)) = 0 := by
  have hn : 0 < t.n := by have := h.n_ge; omega
  have hne := h.t_nonempty 0 hn
  obtain ⟨a, b⟩ := h.t_range_src 0 hn (t.last 0) hne (le_refl _)
  refine ⟨h.t_twin_lt _ a, ?_⟩
  unfold tourNext csucc
  rw [h.t_twin_twin _ a, b, if_pos rfl, h.t_root]
  rfl

theorem ValidInput.next_pos {g : Graph} {t : Tree} {emb : Nat → Nat} (h : ValidInput g t emb)
    {i : Nat} (hi : i < t.H) (hne : i ≠ t.twin (t.last 0)) :
    ∃ k, 1 ≤ k ∧ k < t.H ∧ tourNext t i = ((k : Nat) : Int) := by
  obtain ⟨c1, c2⟩ := h.closing
  obtain ⟨a, _⟩ := h.csucc_src (h.t_twin_lt i hi)
  refine ⟨csucc t (t.twin i), ?_, a, rfl⟩
  by_contra h0
  have hz : csucc t (t.twin i) = 0 := by omega
  have : tourNext t i = tourNext t (t.twin (t.last 0)) := by
    rw [c2]; unfold tourNext; rw [hz]; rfl
  exact hne (h.tourNext_inj hi c1 this)

/-- C12 (counterexample): on the triangle with the spanning tree `0-1, 0-2`
the run with one worker returns `S2 = 110100`, not `111000`. -/
theorem C12_triangle_S2_refuted :
    ∃ b, parallel_succinct_graph 1 4 triangleG triangleT = .ok b ∧
      b.S2 ≠ [true, true, true, false, false, false] :=
  ⟨⟨[true, true, true, false, true, false, true, true],
    [true, true, false, true, false, false], [true, false]⟩, by decide, by decide⟩

/-- In the reference run (one worker) for every valid input the routine
returns bit arrays `S1` of length `2m + 2` and `S2` of length `2n` in which
bit 0 of `S1`, the last bit `2m + 1` of `S1` and bit 0 of `S2` are `1`, and
the last bit `2n - 1` of `S2` is `0`. -/
theorem framing_bits_one_worker {g : Graph} {t : Tree} {emb : Nat → Nat} (h : ValidInput g t emb)
    {fuel : Nat} (hf : t.H ≤ fuel) :
    ∃ b, parallel_succinct_graph 1 fuel g t = .ok b ∧
      b.S1.length = 2 * g.m + 2 ∧ b.S2.length = 2 * t.n ∧
      b.S1.getD 0 false = true ∧ b.S1.getD (2 * g.m + 1) false = true ∧
      b.S2.getD 0 false = true ∧ b.S2.getD (2 * t.n - 1) false = false := by
  obtain ⟨e0, e1, e2, e3⟩ := h.S_ends
  exact ⟨bitsF g t, h.run_ok hf, tab_length _ _, tab_length _ _, e0, e2, e1, e3⟩

/-- The statement `framing_bits_one_worker` applied to the triangle. -/
theorem framing_bits_one_worker_triangle :
    ValidInput triangleG triangleT triangleEmb ∧ triangleT.H ≤ 4 ∧
      ∃ b, parallel_succinct_graph 1 4 triangleG triangleT = .ok b ∧
        b.S1.length = 2 * triangleG.m + 2 ∧ b.S2.length = 2 * triangleT.n ∧
        b.S1.getD 0 false = true ∧ b.S1.getD (2 * triangleG.m + 1) false = true ∧
        b.S2.getD 0 false = true ∧ b.S2.getD (2 * triangleT.n - 1) false = false :=
  ⟨triangle_valid, by decide, framing_bits_one_worker triangle_valid (by decide)⟩

/-- C15: for the vertex with the range `[0, 1]` and the position `i = 0`,
`prevE` returns `2^32 - 1`, a position outside the range: `i - 1` wraps
around before `max` is taken.  On the same vertex `nextE(v, 0) = 1`,
`nextE(v, 1) = 1` and `prevE(v, 1) = 0` are as documented. -/
theorem C15_prevE_wraps_at_zero :
    prevE ⟨0, 1, 0⟩ 0 = 4294967295 ∧ ¬ (prevE ⟨0, 1, 0⟩ 0 ≤ 1) ∧
      nextE ⟨0, 1, 0⟩ 0 = 1 ∧ nextE ⟨0, 1, 0⟩ 1 = 1 ∧ prevE ⟨0, 1, 0⟩ 1 = 0 := by
  decide

/-- For every valid input, after the classification loop run with one worker
the `next` fields of `ET` form a single simple path, and so do those of `ET2`,
which are the same: there is an ordering `L` of all indices of `[0, 2n-2)`,
each exactly once, that starts with index 0, in which every node points to the
following one and the last one has `next = 0`; no other node has
`next = 0`. -/
theorem single_path_one_worker {g : Graph} {t : Tree} {emb : Nat → Nat} (h : ValidInput g t emb) :
    ∃ lo hi ET ET2 L, counters 1 g t = .ok (lo, hi) ∧
      eulerTours 1 g t lo hi = .ok (ET, ET2) ∧
      ET.length = 2 * t.n - 2 ∧ ET2.length = 2 * t.n - 2 ∧
      SingleChain ET L ∧ SingleChain ET2 L ∧
      (∀ i, i < 2 * t.n - 2 → nextAt ET2 i = nextAt ET i) ∧
      (∀ i, i < 2 * t.n - 2 → nextAt ET i = 0 → i = L.getD (L.length - 1) 0) := by
  have c1 := h.chain_tab (etF g t) (fun _ => rfl)
  have c2 := h.chain_tab (et2F g t) (fun _ => rfl)
  refine ⟨_, _, _, _, tour t, h.counters_ok, h.eulerTours_ok, tab_length _ _, tab_length _ _,
    c1, c2, ?_, ?_⟩
  · intro i hi
    have := h.next_et (show i < t.H from hi)
    rw [this.1, this.2]
  · intro i hi h0
    have hi1 : i < t.H := hi
    have hH := h.H_ge
    have hlast := c1.2.2.2
    rw [h.tour_length] at hlast ⊢
    have hl : (tour t).getD (t.H - 1) 0 < t.H := h.tourAt_lt (by omega)
    rw [(h.next_et hi1).1] at h0
    rw [(h.next_et hl).1] at hlast
    exact h.tourNext_inj hi1 hl (by rw [h0, hlast])

/-- The statement `single_path_one_worker` applied to the triangle. -/
theorem single_path_one_worker_triangle :
    ValidInput triangleG triangleT triangleEmb ∧
      ∃ lo hi ET ET2 L, counters 1 triangleG triangleT = .ok (lo, hi) ∧
        eulerTours 1 triangleG triangleT lo hi = .ok (ET, ET2) ∧
        ET.length = 2 * triangleT.n - 2 ∧ ET2.length = 2 * triangleT.n - 2 ∧
        SingleChain ET L ∧ SingleChain ET2 L ∧
        (∀ i, i < 2 * triangleT.n - 2 → nextAt ET2 i = nextAt ET i) ∧
        (∀ i, i < 2 * triangleT.n - 2 → nextAt ET i = 0 → i = L.getD (L.length - 1) 0) :=
  ⟨triangle_valid, single_path_one_worker triangle_valid⟩

/-- For every valid input, after the classification loop run with one worker
the twin of `T.E[T.N[0].last]` is a half-edge of `[0, 2n-2)` with
`ET.next = 0`, and every other half-edge of `[0, 2n-2)` has a successor in
`[1, 2n-2)`; so exactly one half-edge ends the list. -/
theorem one_terminator_one_worker {g : Graph} {t : Tree} {emb : Nat → Nat} (h : ValidInput g t emb) :
    ∃ lo hi ET ET2, counters 1 g t = .ok (lo, hi) ∧
      eulerTours 1 g t lo hi = .ok (ET, ET2) ∧
      t.twin (t.last 0) < 2 * t.n - 2 ∧ nextAt ET (t.twin (t.last 0)) = 0 ∧
      ∀ i, i < 2 * t.n - 2 → i ≠ t.twin (t.last 0) →
        ∃ k, 1 ≤ k ∧ k < 2 * t.n - 2 ∧ nextAt ET i = ((k : Nat) : Int) := by
  obtain ⟨c1, c2⟩ := h.closing
  refine ⟨_, _, _, _, h.counters_ok, h.eulerTours_ok, c1, ?_, ?_⟩
  · rw [(h.next_et c1).1]; exact c2
  · intro i hi hne
    have hi1 : i < t.H := hi
    rw [(h.next_et hi1).1]
    exact h.next_pos hi1 hne

/-- The statement `one_terminator_one_worker` applied to the triangle. -/
theorem one_terminator_one_worker_triangle :
    ValidInput triangleG triangleT triangleEmb ∧
      ∃ lo hi ET ET2, counters 1 triangleG triangleT = .ok (lo, hi) ∧
        eulerTours 1 triangleG triangleT lo hi = .ok (ET, ET2) ∧
        triangleT.twin (triangleT.last 0) < 2 * triangleT.n - 2 ∧
        nextAt ET (triangleT.twin (triangleT.last 0)) = 0 ∧
        ∀ i, i < 2 * triangleT.n - 2 → i ≠ triangleT.twin (triangleT.last 0) →
          ∃ k, 1 ≤ k ∧ k < 2 * triangleT.n - 2 ∧ nextAt ET i = ((k : Nat) : Int) :=
  ⟨triangle_valid, one_terminator_one_worker triangle_valid⟩

theorem wr_length {α : Type} {A A1 : List α} {i : Nat} {v : α} (h : wr A i v = .ok A1) :
    A1.length = A.length := by
  unfold wr at h
  by_cases hc : i < A.length
  · rw [if_pos hc] at h
    cases h
    simp
  · rw [if_neg hc] at h
    cases h

/-- A property that every successful iteration keeps is kept by the loop. -/
theorem forLoop_keeps {σ : Type} (Inv : σ → Prop) (body : σ → Nat → Except Fault σ)
    (hb : ∀ st k st1, body st k = .ok st1 → Inv st → Inv st1) :
    ∀ (cnt lo : Nat) (st st1 : σ), forLoop body lo cnt st = .ok st1 → Inv st → Inv st1
  | 0, lo, st, st1, h, hi => by
    simp only [forLoop] at h
    cases h
    exact hi
  | cnt + 1, lo, st, st1, h, hi => by
    simp only [forLoop] at h
    cases hs : body st lo with
    | error e => rw [hs] at h; cases h
    | ok st2 =>
      rw [hs] at h
      exact forLoop_keeps Inv body hb cnt (lo + 1) st2 st1 h (hb st lo st2 hs hi)

theorem setBits_length {S S1 : List Bool} {ll cnt : Nat}
    (h : forLoop bit_array_set_bit ll cnt S = .ok S1) : S1.length = S.length :=
  forLoop_keeps (fun X => X.length = S.length) bit_array_set_bit
    (fun st k st1 hs hi => by
      unfold bit_array_set_bit at hs
      exact (wr_length hs).trans hi)
    cnt ll S S1 h rfl

theorem emitEdge_length {t : Tree} {higher : List Nat} {ET ET2 : List ENode} {st st1 : Bits}
    {i : Nat} (h : emitEdge t higher ET ET2 st i = .ok st1) :
    st1.S1.length = st.S1.length ∧ st1.S2.length = st.S2.length ∧
      st1.S3.length = st.S3.length := by
  unfold emitEdge at h
  cases h1 : rd ET i with
  | error e => rw [h1] at h; cases h
  | ok a =>
    rw [h1] at h
    simp only at h
    cases h2 : bit_array_set_bit st.S1 ((a.rank + 1) % UINT) with
    | error e => rw [h2] at h; cases h
    | ok S1 =>
      rw [h2] at h
      simp only at h
      have l1 : S1.length = st.S1.length := by
        unfold bit_array_set_bit at h2
        exact wr_length h2
      cases h3 : rd ET2 i with
      | error e => rw [h3] at h; cases h
      | ok b =>
        rw [h3] at h
        simp only at h
        by_cases hv : b.value ≠ 0
        · rw [if_pos hv] at h
          cases h4 : bit_array_set_bit st.S2 ((b.rank + 1) % UINT) with
          | error e => rw [h4] at h; cases h
          | ok S2 =>
            rw [h4] at h
            cases h
            have l2 : S2.length = st.S2.length := by
              unfold bit_array_set_bit at h4
              exact wr_length h4
            exact ⟨l1, l2, rfl⟩
        · rw [if_neg hv] at h
          cases h5 : rd t.E i with
          | error e => rw [h5] at h; cases h
          | ok e =>
            rw [h5] at h
            simp only at h
            cases h6 : rd higher e.src with
            | error e1 => rw [h6] at h; cases h
            | ok hg =>
              rw [h6] at h
              simp only at h
              cases h7 : forLoop bit_array_set_bit (usub a.rank b.rank)
                  ((usub a.rank b.rank + hg) % UINT - usub a.rank b.rank) st.S3 with
              | error e1 => rw [h7] at h; cases h
              | ok S3 =>
                rw [h7] at h
                cases h
                exact ⟨l1, rfl, setBits_length h7⟩

theorem phaseE_length {threads chk top : Nat} {t : Tree} {higher : List Nat}
    {ET ET2 : List ENode} {st st1 : Bits} {k : Nat}
    (h : phaseE threads chk top t higher ET ET2 st k = .ok st1) :
    st1.S1.length = st.S1.length ∧ st1.S2.length = st.S2.length ∧
      st1.S3.length = st.S3.length := by
  unfold phaseE at h
  exact forLoop_keeps
    (fun X => X.S1.length = st.S1.length ∧ X.S2.length = st.S2.length ∧
      X.S3.length = st.S3.length)
    (emitEdge t higher ET ET2)
    (fun s k s1 hs hi => by
      obtain ⟨a, b, c⟩ := emitEdge_length hs
      exact ⟨a.trans hi.1, b.trans hi.2.1, c.trans hi.2.2⟩)
    _ _ st st1 h ⟨rfl, rfl, rfl⟩

/-- The bit arrays that `emitBits` returns have the lengths with which they
were created. -/
theorem emitBits_length {threads : Nat} {g : Graph} {t : Tree} {higher : List Nat}
    {ET ET2 : List ENode} {b : Bits} (h : emitBits threads g t higher ET ET2 = .ok b) :
    b.S1.length = num_total g t ∧ b.S2.length = num_parentheses t ∧
      b.S3.length = num_brackets g t := by
  unfold emitBits at h
  simp only at h
  cases h1 : forLoop (phaseE threads ((2 * t.n) % UINT / threads) (usub ((2 * t.n) % UINT) 2)
      t higher ET ET2) 0 threads
      ⟨bit_array_create (((2 * t.n) % UINT + (2 * ((usub g.m t.n + 1) % UINT)) % UINT) % UINT),
        bit_array_create ((2 * t.n) % UINT),
        bit_array_create ((2 * ((usub g.m t.n + 1) % UINT)) % UINT)⟩ with
  | error e => rw [h1] at h; cases h
  | ok b1 =>
    rw [h1] at h
    simp only at h
    have hl := forLoop_keeps
      (fun X : Bits => X.S1.length = num_total g t ∧ X.S2.length = num_parentheses t ∧
        X.S3.length = num_brackets g t)
      (phaseE threads ((2 * t.n) % UINT / threads) (usub ((2 * t.n) % UINT) 2) t higher ET ET2)
      (fun s k s1 hs hi => by
        obtain ⟨a, b, c⟩ := phaseE_length hs
        exact ⟨a.trans hi.1, b.trans hi.2.1, c.trans hi.2.2⟩)
      _ _ _ b1 h1
      ⟨by simp [bit_array_create, num_total, num_parentheses, num_brackets],
        by simp [bit_array_create, num_parentheses],
        by simp [bit_array_create, num_brackets]⟩
    cases h2 : bit_array_set_bit b1.S1 0 with
    | error e => rw [h2] at h; cases h
    | ok S1a =>
      rw [h2] at h
      simp only at h
      cases h3 : bit_array_set_bit S1a
          (usub (((2 * t.n) % UINT + (2 * ((usub g.m t.n + 1) % UINT)) % UINT) % UINT) 1) with
      | error e => rw [h3] at h; cases h
      | ok S1b =>
        rw [h3] at h
        simp only at h
        cases h4 : bit_array_set_bit b1.S2 0 with
        | error e => rw [h4] at h; cases h
        | ok S2a =>
          rw [h4] at h
          cases h
          unfold bit_array_set_bit at h2 h3 h4
          refine ⟨?_, ?_, hl.2.2⟩
          · show S1b.length = _
            rw [wr_length h3, wr_length h2]; exact hl.1
          · show S2a.length = _
            rw [wr_length h4]; exact hl.2.1

theorem run_length {threads fuel : Nat} {g : Graph} {t : Tree} {b : Bits}
    (h : parallel_succinct_graph threads fuel g t = .ok b) :
    b.S1.length = num_total g t ∧ b.S2.length = num_parentheses t ∧
      b.S3.length = num_brackets g t := by
  unfold parallel_succinct_graph at h
  cases h1 : rankedTours threads fuel g t with
  | error e => rw [h1] at h; cases h
  | ok r =>
    rw [h1] at h
    exact emitBits_length h

theorem sizes_eq {g : Graph} {t : Tree} (hm : t.n ≤ g.m + 1) (hsz : 2 * g.m + 2 < UINT) :
    num_total g t = 2 * g.m + 2 ∧ num_parentheses t = 2 * t.n ∧
      num_brackets g t = 2 * (g.m + 1 - t.n) := by
  have hU : UINT = 4294967296 := rfl
  have e1 : num_parentheses t = 2 * t.n := Nat.mod_eq_of_lt (by omega)
  have e2 : num_brackets g t = 2 * (g.m + 1 - t.n) := by
    unfold num_brackets
    rw [usub_succ hm (by omega), Nat.mod_eq_of_lt (by omega)]
  refine ⟨?_, e1, e2⟩
  unfold num_total
  rw [e1, e2, Nat.mod_eq_of_lt (by omega)]
  omega

/-- C13: for every input with `m ≥ n - 1` and `2m + 2 < 2^32` the sizes
computed on lines 67-69 are `num_total = 2m + 2`,
`num_parentheses = 2n` and `num_brackets = 2(m - n + 1)`, the arrays created
with them have these lengths, and whenever the routine returns, with any
number of workers, `S1`, `S2` and `S3` have these lengths. -/
theorem C13_lengths (g : Graph) (t : Tree) (hm : t.n ≤ g.m + 1) (hsz : 2 * g.m + 2 < UINT) :
    num_total g t = 2 * g.m + 2 ∧ num_parentheses t = 2 * t.n ∧
      num_brackets g t = 2 * (g.m + 1 - t.n) ∧
      (bit_array_create (num_total g t)).length = 2 * g.m + 2 ∧
      (bit_array_create (num_parentheses t)).length = 2 * t.n ∧
      (bit_array_create (num_brackets g t)).length = 2 * (g.m + 1 - t.n) ∧
      ∀ threads fuel b, parallel_succinct_graph threads fuel g t = .ok b →
        b.S1.length = 2 * g.m + 2 ∧ b.S2.length = 2 * t.n ∧
          b.S3.length = 2 * (g.m + 1 - t.n) := by
  obtain ⟨e1, e2, e3⟩ := sizes_eq hm hsz
  refine ⟨e1, e2, e3, ?_, ?_, ?_, ?_⟩
  · rw [e1]; simp [bit_array_create]
  · rw [e2]; simp [bit_array_create]
  · rw [e3]; simp [bit_array_create]
  · intro threads fuel b hb
    obtain ⟨a1, a2, a3⟩ := run_length hb
    exact ⟨by rw [a1, e1], by rw [a2, e2], by rw [a3, e3]⟩

/-- C13 (witness): the statement applied to the triangle, whose run with one
worker returns. -/
theorem C13_lengths_witness :
    triangleT.n ≤ triangleG.m + 1 ∧ 2 * triangleG.m + 2 < UINT ∧
      (∃ b, parallel_succinct_graph 1 4 triangleG triangleT = .ok b) ∧
      (num_total triangleG triangleT = 2 * triangleG.m + 2 ∧
        num_parentheses triangleT = 2 * triangleT.n ∧
        num_brackets triangleG triangleT = 2 * (triangleG.m + 1 - triangleT.n) ∧
        (bit_array_create (num_total triangleG triangleT)).length = 2 * triangleG.m + 2 ∧
        (bit_array_create (num_parentheses triangleT)).length = 2 * triangleT.n ∧
        (bit_array_create (num_brackets triangleG triangleT)).length =
          2 * (triangleG.m + 1 - triangleT.n) ∧
        ∀ threads fuel b, parallel_succinct_graph threads fuel triangleG triangleT = .ok b →
          b.S1.length = 2 * triangleG.m + 2 ∧ b.S2.length = 2 * triangleT.n ∧
            b.S3.length = 2 * (triangleG.m + 1 - triangleT.n)) :=
  ⟨by decide, by decide, ⟨_, triangle_valid.run_ok (by decide)⟩,
    C13_lengths triangleG triangleT (by decide) (by decide)⟩

theorem lowerNbrs_card {g : Graph} (hs : g.Simple) (v : Nat) :
    (lowerNbrs g v).card = (lowerEdges g v).card := by
  unfold lowerNbrs
  apply Finset.card_image_of_injOn
  intro i hi j hj he
  have hi1 := Finset.mem_filter.mp (Finset.mem_coe.mp hi)
  have hj1 := Finset.mem_filter.mp (Finset.mem_coe.mp hj)
  exact hs i (Finset.mem_range.mp hi1.1) j (Finset.mem_range.mp hj1.1)
    (by rw [hi1.2.1, hj1.2.1]) he

theorem upperNbrs_card {g : Graph} (hs : g.Simple) (v : Nat) :
    (upperNbrs g v).card = (upperEdges g v).card := by
  unfold upperNbrs
  apply Finset.card_image_of_injOn
  intro i hi j hj he
  have hi1 := Finset.mem_filter.mp (Finset.mem_coe.mp hi)
  have hj1 := Finset.mem_filter.mp (Finset.mem_coe.mp hj)
  exact hs i (Finset.mem_range.mp hi1.1) j (Finset.mem_range.mp hj1.1)
    (by rw [hi1.2.1, hj1.2.1]) he

theorem ValidInput.cntLow_edges {g : Graph} {t : Tree} {emb : Nat → Nat}
    (h : ValidInput g t emb) {v : Nat} (hv0 : v ≠ 0) :
    cntLow g v (2 * g.m) = (lowerEdges g v).card := by
  unfold cntLow lowerEdges
  congr 1
  ext i
  simp only [Finset.mem_filter, Finset.mem_range]
  constructor
  · rintro ⟨a, _, b, c⟩
    rw [b] at c
    exact ⟨a, b, c⟩
  · rintro ⟨a, b, c⟩
    refine ⟨a, ?_, b, by rw [b]; exact c⟩
    by_contra h0
    have : i = 0 := by omega
    rw [this, h.g_first] at b
    exact hv0 b.symm

theorem ValidInput.cntHigh_edges {g : Graph} {t : Tree} {emb : Nat → Nat}
    (h : ValidInput g t emb) {v : Nat} (hv0 : v ≠ 0) :
    cntHigh g v (2 * g.m) = (upperEdges g v).card := by
  unfold cntHigh upperEdges
  congr 1
  ext i
  simp only [Finset.mem_filter, Finset.mem_range]
  constructor
  · rintro ⟨a, _, b, c⟩
    have hne := h.ord_ne a
    rw [b] at c hne
    exact ⟨a, b, by omega⟩
  · rintro ⟨a, b, c⟩
    refine ⟨a, ?_, b, by rw [b]; omega⟩
    by_contra h0
    have : i = 0 := by omega
    rw [this, h.g_first] at b
    exact hv0 b.symm

/-- At the root the first region misses half-edge 0. -/
theorem ValidInput.cntHigh_root {g : Graph} {t : Tree} {emb : Nat → Nat}
    (h : ValidInput g t emb) : cntHigh g 0 (2 * g.m) + 1 = (upperEdges g 0).card := by
  have hn := h.n_ge
  have hm := h.m_ge
  have h0 : 0 < 2 * g.m := by omega
  have hset : upperEdges g 0 = insert 0 ((Finset.range (2 * g.m)).filter
      (fun i => 1 ≤ i ∧ g.src i = 0 ∧ ¬ (g.ord (g.src i) > g.ord (g.tgt i)))) := by
    ext i
    simp only [upperEdges, Finset.mem_filter, Finset.mem_range, Finset.mem_insert]
    constructor
    · rintro ⟨a, b, c⟩
      by_cases hi : i = 0
      · exact Or.inl hi
      · exact Or.inr ⟨a, by omega, b, by rw [b]; omega⟩
    · rintro (hi | ⟨a, _, b, c⟩)
      · subst hi
        have ht := h.g_tgt_lt 0 h0
        have hl := h.g_loop 0 h0
        rw [h.g_first] at hl
        exact ⟨h0, h.g_first, h.root_lowest _ ht (fun e => hl e.symm)⟩
      · have hne := h.ord_ne a
        rw [b] at c hne
        exact ⟨a, b, by omega⟩
  rw [hset, Finset.card_insert_of_not_mem]
  · rfl
  · simp

theorem ValidInput.tree_deg {g : Graph} {t : Tree} {emb : Nat → Nat} (h : ValidInput g t emb)
    {v : Nat} (hv : v < t.n) : t.deg v = t.last v - t.first v + 1 := by
  have hne := h.t_nonempty v hv
  obtain ⟨a, _⟩ := h.t_range_src v hv (t.last v) hne (le_refl _)
  have hH := h.H_lt
  have hsz := h.size_lt
  have hU : UINT = 4294967296 := rfl
  unfold Tree.deg degree
  show (usub (t.last v) (t.first v) + 1) % UINT = _
  rw [usub_eq hne (by omega), Nat.mod_eq_of_lt (by omega)]

/-- The upper neighbours of a non-root vertex that are tree neighbours are
its children. -/
theorem ValidInput.upper_tree {g : Graph} {t : Tree} {emb : Nat → Nat} (h : ValidInput g t emb)
    {v : Nat} (hv : v < t.n) (hv0 : v ≠ 0) :
    (upperNbrs g v).filter (fun u => u ∈ treeNbrs t v) =
      (Finset.Ioc (t.first v) (t.last v)).image (fun d => t.tgt d) := by
  ext u
  simp only [Finset.mem_filter, Finset.mem_image, Finset.mem_Ioc, upperNbrs, upperEdges,
    treeNbrs, Finset.mem_range]
  constructor
  · rintro ⟨⟨i, ⟨_, _, hi3⟩, hiu⟩, d, ⟨hd1, hd2⟩, hdu⟩
    refine ⟨d, ?_, hdu⟩
    obtain ⟨r1, r2⟩ := h.t_range d hd1
    rw [hd2] at r1 r2
    refine ⟨?_, r2⟩
    by_contra hc
    have hdf : d = t.first v := by omega
    have := h.t_back d hd1 (by rw [hd2]; exact hv0) (by rw [hd2]; exact hdf)
    rw [hd2, hdu] at this
    rw [hiu] at hi3
    omega
  · rintro ⟨d, ⟨hd1, hd2⟩, hdu⟩
    obtain ⟨a, b, c1⟩ := h.child hv (Or.inl hd1) (by omega) hd2
    have c2 : g.ord (t.src d) < g.ord (t.tgt d) := c1
    rw [b] at c2
    refine ⟨⟨emb d, ⟨h.emb_lt d a, by rw [h.emb_src d a, b], ?_⟩, ?_⟩, d, ⟨a, b⟩, hdu⟩
    · rw [h.emb_tgt d a]; exact c2
    · rw [h.emb_tgt d a]; exact hdu

theorem ValidInput.children_card {g : Graph} {t : Tree} {emb : Nat → Nat}
    (h : ValidInput g t emb) (hs : g.Simple) {v : Nat} (hv : v < t.n) :
    ((Finset.Ioc (t.first v) (t.last v)).image (fun d => t.tgt d)).card =
      t.last v - t.first v := by
  rw [Finset.card_image_of_injOn, Nat.card_Ioc]
  intro d hd e he hde
  have hd1 := Finset.mem_Ioc.mp (Finset.mem_coe.mp hd)
  have he1 := Finset.mem_Ioc.mp (Finset.mem_coe.mp he)
  obtain ⟨a, b⟩ := h.t_range_src v hv d (by omega) hd1.2
  obtain ⟨a2, b2⟩ := h.t_range_src v hv e (by omega) he1.2
  have hde1 : t.tgt d = t.tgt e := hde
  apply h.emb_inj d a e a2
  apply hs _ (h.emb_lt d a) _ (h.emb_lt e a2)
  · rw [h.emb_src d a, h.emb_src e a2, b, b2]
  · rw [h.emb_tgt d a, h.emb_tgt e a2, hde1]

/-- Upper neighbours are the children and the upper neighbours outside the
tree. -/
theorem ValidInput.upper_split {g : Graph} {t : Tree} {emb : Nat → Nat}
    (h : ValidInput g t emb) (hs : g.Simple) {v : Nat} (hv : v < t.n) (hv0 : v ≠ 0) :
    (upperNbrs g v).card = (nonTreeUpper g t v).card + (t.last v - t.first v) := by
  have h1 := @Finset.filter_card_add_filter_neg_card_eq_card Nat (upperNbrs g v)
    (fun u => u ∈ treeNbrs t v) _ _
  rw [h.upper_tree hv hv0, h.children_card hs hv] at h1
  unfold nonTreeUpper
  omega

theorem triangle_simple : triangleG.Simple := by decide

theorem ValidInput.lowF_lt {g : Graph} {t : Tree} {emb : Nat → Nat} (h : ValidInput g t emb)
    {v : Nat} (hv : v < t.n) (hv0 : v ≠ 0) :
    cntLow g v (2 * g.m) < USHORT ∧ cntHigh g v (2 * g.m) < USHORT := by
  have h1 := h.cnt_deg hv0
  have h2 := h.deg_lt v hv
  omega

/-- C18: for every valid input whose graph has no parallel edges, with one
worker, and every vertex `v` of `[1, n)`: after the first two regions
`lower_numb[v]` is the number of neighbours `u` of `v` in `G` with
`order[u] < order[v]`, minus one; that number is at least 1 and below `2^16`,
so nothing wraps. -/
theorem C18_lower_count {g : Graph} {t : Tree} {emb : Nat → Nat} (h : ValidInput g t emb)
    (hs : g.Simple) (v : Nat) (hv1 : 1 ≤ v) (hv : v < t.n) :
    ∃ lo hi, counters 1 g t = .ok (lo, hi) ∧
      lo.getD v 0 + 1 = (lowerNbrs g v).card ∧ (lowerNbrs g v).card < USHORT := by
  have hv0 : v ≠ 0 := by omega
  have h1 := h.cntLow_ge hv hv0
  have h2 := (h.lowF_lt hv hv0).1
  have h3 := h.cntLow_edges hv0
  have h4 := lowerNbrs_card hs v
  refine ⟨_, _, h.counters_ok, ?_, by omega⟩
  rw [getD_tab _ _ hv]
  simp only [lowF, if_pos hv1]
  omega

/-- C18 (witness): the statement applied to vertex 1 of the triangle. -/
theorem C18_lower_count_witness :
    ValidInput triangleG triangleT triangleEmb ∧ triangleG.Simple ∧ 1 ≤ 1 ∧ 1 < triangleT.n ∧
      ∃ lo hi, counters 1 triangleG triangleT = .ok (lo, hi) ∧
        lo.getD 1 0 + 1 = (lowerNbrs triangleG 1).card ∧
        (lowerNbrs triangleG 1).card < USHORT :=
  ⟨triangle_valid, triangle_simple, by decide, by decide,
    C18_lower_count triangle_valid triangle_simple 1 (by decide) (by decide)⟩

/-- C19 (counterexample): on the triangle (a valid input without parallel
edges) vertex 1 has one neighbour of higher order and tree degree 1, but
`higher_numb[1]` is `1` after the first two regions, not `1 - 1 = 0`. -/
theorem C19_higher_refuted :
    ValidInput triangleG triangleT triangleEmb ∧ triangleG.Simple ∧
      (upperNbrs triangleG 1).card = 1 ∧ triangleT.deg 1 = 1 ∧
      ∃ lo hi, counters 1 triangleG triangleT = .ok (lo, hi) ∧ hi.getD 1 0 = 1 ∧
        hi.getD 1 0 ≠ (upperNbrs triangleG 1).card - triangleT.deg 1 :=
  ⟨triangle_valid, triangle_simple, by decide, by decide, [0, 0, 1], [1, 1, 0], by decide,
    by decide, by decide⟩

/-- C19 (amended): for every valid input whose graph has no parallel edges,
with one worker, and every vertex `v` of `[1, n)`: after the first two regions
`higher_numb[v]` is the number of neighbours `u` of `v` in `G` with
`order[u] > order[v]`, minus the tree degree of `v` less one (line 117
subtracts `T.N[v].last - T.N[v].first`, the number of children), and the tree
degree is `T.N[v].last - T.N[v].first + 1`. -/
theorem C19_higher_count {g : Graph} {t : Tree} {emb : Nat → Nat} (h : ValidInput g t emb)
    (hs : g.Simple) (v : Nat) (hv1 : 1 ≤ v) (hv : v < t.n) :
    ∃ lo hi, counters 1 g t = .ok (lo, hi) ∧
      t.deg v = t.last v - t.first v + 1 ∧ t.deg v - 1 ≤ (upperNbrs g v).card ∧
      hi.getD v 0 = (upperNbrs g v).card - (t.deg v - 1) ∧
      (upperNbrs g v).card < USHORT := by
  have hv0 : v ≠ 0 := by omega
  have h1 := h.cntHigh_ge hv hv0
  have h2 := (h.lowF_lt hv hv0).2
  have h3 := h.cntHigh_edges hv0
  have h4 := upperNbrs_card hs v
  have h5 := h.tree_deg hv
  refine ⟨_, _, h.counters_ok, h5, by omega, ?_, by omega⟩
  rw [getD_tab _ _ hv]
  simp only [highF, if_pos hv1]
  omega

/-- C19 (witness): the amended statement applied to vertex 1 of the
triangle. -/
theorem C19_higher_count_witness :
    ValidInput triangleG triangleT triangleEmb ∧ triangleG.Simple ∧ 1 ≤ 1 ∧ 1 < triangleT.n ∧
      ∃ lo hi, counters 1 triangleG triangleT = .ok (lo, hi) ∧
        triangleT.deg 1 = triangleT.last 1 - triangleT.first 1 + 1 ∧
        triangleT.deg 1 - 1 ≤ (upperNbrs triangleG 1).card ∧
        hi.getD 1 0 = (upperNbrs triangleG 1).card - (triangleT.deg 1 - 1) ∧
        (upperNbrs triangleG 1).card < USHORT :=
  ⟨triangle_valid, triangle_simple, by decide, by decide,
    C19_higher_count triangle_valid triangle_simple 1 (by decide) (by decide)⟩

/-- C20 (counterexample): on the triangle (a valid input without parallel
edges) both neighbours of the root are tree neighbours, so the root has no
neighbour outside the tree, but `higher_numb[0]` is `1` after the second
region. -/
theorem C20_root_refuted :
    ValidInput triangleG triangleT triangleEmb ∧ triangleG.Simple ∧
      (nonTreeUpper triangleG triangleT 0).card = 0 ∧
      ∃ lo hi, counters 1 triangleG triangleT = .ok (lo, hi) ∧ hi.getD 0 0 = 1 ∧
        hi.getD 0 0 ≠ (nonTreeUpper triangleG triangleT 0).card :=
  ⟨triangle_valid, triangle_simple, by decide, [0, 0, 1], [1, 1, 0], by decide,
    by decide, by decide⟩

/-- C20 (amended): for every valid input whose graph has no parallel edges,
with one worker: after the second region `higher_numb[v]` is, for every vertex
`v` of `[1, n)`, the number of neighbours `u` of `v` in `G` that are not tree
neighbours of `v` and have `order[u] > order[v]`; at the root, which the
second region skips and whose half-edge 0 the first region skips,
`higher_numb[0]` is the number of neighbours of the root minus one. -/
theorem C20_higher_non_tree {g : Graph} {t : Tree} {emb : Nat → Nat} (h : ValidInput g t emb)
    (hs : g.Simple) :
    ∃ lo hi, counters 1 g t = .ok (lo, hi) ∧
      (∀ v, 1 ≤ v → v < t.n → hi.getD v 0 = (nonTreeUpper g t v).card) ∧
      hi.getD 0 0 + 1 = (upperNbrs g 0).card := by
  have hn := h.n_ge
  refine ⟨_, _, h.counters_ok, ?_, ?_⟩
  · intro v hv1 hv
    have hv0 : v ≠ 0 := by omega
    have h1 := h.cntHigh_ge hv hv0
    have h3 := h.cntHigh_edges hv0
    have h4 := upperNbrs_card hs v
    have h5 := h.upper_split hs hv hv0
    rw [getD_tab _ _ hv]
    simp only [highF, if_pos hv1]
    omega
  · have h1 := h.cntHigh_root
    have h4 := upperNbrs_card hs 0
    have hne : ¬ (1 ≤ 0) := by omega
    rw [getD_tab _ _ (by omega)]
    simp only [highF, if_neg hne]
    omega

/-- C20 (witness): the amended statement applied to the triangle. -/
theorem C20_higher_non_tree_witness :
    ValidInput triangleG triangleT triangleEmb ∧ triangleG.Simple ∧
      ∃ lo hi, counters 1 triangleG triangleT = .ok (lo, hi) ∧
        (∀ v, 1 ≤ v → v < triangleT.n →
          hi.getD v 0 = (nonTreeUpper triangleG triangleT v).card) ∧
        hi.getD 0 0 + 1 = (upperNbrs triangleG 0).card :=
  ⟨triangle_valid, triangle_simple, C20_higher_non_tree triangle_valid triangle_simple⟩

theorem segSum_self (G : Nat → Nat) (a : Nat) : segSum G a a = 0 := by
  simp [segSum]

theorem segSum_succ (G : Nat → Nat) {a b : Nat} (h : a ≤ b) :
    segSum G a (b + 1) = segSum G a b + G b := by
  unfold segSum
  rw [Finset.sum_Ico_succ_top h]

theorem segSum_bot (G : Nat → Nat) {a b : Nat} (h : a < b) :
    segSum G a b = G a + segSum G (a + 1) b := by
  unfold segSum
  rw [Finset.sum_eq_sum_Ico_succ_bot h]

theorem segSum_add (G : Nat → Nat) {a b c : Nat} (h1 : a ≤ b) (h2 : b ≤ c) :
    segSum G a b + segSum G b c = segSum G a c := by
  unfold segSum
  exact Finset.sum_Ico_consecutive G h1 h2

theorem segSum_congr {G G1 : Nat → Nat} {a b : Nat} (h : ∀ k, a ≤ k → k < b → G k = G1 k) :
    segSum G a b = segSum G1 a b := by
  unfold segSum
  apply Finset.sum_congr rfl
  intro k hk
  have := Finset.mem_Ico.mp hk
  exact h k this.1 this.2

theorem mod_add_mod (x y : Nat) : (x % UINT + y) % UINT = (x + y) % UINT := by
  unfold UINT; omega

theorem add_mod_mod (x y : Nat) : (x + y % UINT) % UINT = (x + y) % UINT := by
  unfold UINT; omega

/-- The local scan of `cnt` cells from `j` with incoming accumulator `acc`. -/
theorem scanLoop_tab {N : Nat} : ∀ (cnt j acc : Nat) (G : Nat → Nat), j + cnt ≤ N →
    scanLoop (tab N G) j acc cnt =
      .ok (tab N (fun k => if j ≤ k ∧ k < j + cnt then (acc + segSum G j (k + 1)) % UINT
        else G k))
  | 0, j, acc, G, _ => by
    show Except.ok (tab N G) = _
    apply congrArg Except.ok
    apply tab_congr
    intro k _
    have : ¬ (j ≤ k ∧ k < j + 0) := by omega
    rw [if_neg this]
  | cnt + 1, j, acc, G, hb => by
    have ih := @scanLoop_tab N cnt (j + 1) ((G j + acc) % UINT)
      (Function.update G j ((G j + acc) % UINT)) (by omega)
    simp only [scanLoop]
    rw [rd_tab _ (by omega)]
    simp only
    rw [wr_tab _ (by omega)]
    simp only
    rw [ih]
    apply congrArg Except.ok
    apply tab_congr
    intro k _
    by_cases hk : k = j
    · subst hk
      have a1 : ¬ (k + 1 ≤ k ∧ k < k + 1 + cnt) := by omega
      have a2 : k ≤ k ∧ k < k + (cnt + 1) := by omega
      rw [if_neg a1, if_pos a2, segSum_succ G (le_refl k), segSum_self]
      simp only [Function.update, dite_true, Nat.zero_add]
      rw [Nat.add_comm]
    · by_cases hin : j + 1 ≤ k ∧ k < j + 1 + cnt
      · have a2 : j ≤ k ∧ k < j + (cnt + 1) := by omega
        have e1 : segSum (Function.update G j ((G j + acc) % UINT)) (j + 1) (k + 1) =
            segSum G (j + 1) (k + 1) := by
          apply segSum_congr
          intro l hl _
          have : l ≠ j := by omega
          simp [Function.update, this]
        rw [if_pos hin, if_pos a2, e1, segSum_bot G (by omega : j < k + 1), mod_add_mod]
        congr 1
        omega
      · have a2 : ¬ (j ≤ k ∧ k < j + (cnt + 1)) := by omega
        rw [if_neg hin, if_neg a2]
        simp [Function.update, hk]

/-- The loop `A[k] += acc` over `cnt` cells from `j`. -/
theorem addLoop_tab {N : Nat} (acc : Nat) : ∀ (cnt j : Nat) (G : Nat → Nat), j + cnt ≤ N →
    addLoop acc (tab N G) j cnt =
      .ok (tab N (fun k => if j ≤ k ∧ k < j + cnt then (G k + acc) % UINT else G k))
  | 0, j, G, _ => by
    show Except.ok (tab N G) = _
    apply congrArg Except.ok
    apply tab_congr
    intro k _
    have : ¬ (j ≤ k ∧ k < j + 0) := by omega
    rw [if_neg this]
  | cnt + 1, j, G, hb => by
    have ih := @addLoop_tab N acc cnt (j + 1) (Function.update G j ((G j + acc) % UINT))
      (by omega)
    simp only [addLoop]
    rw [rd_tab _ (by omega)]
    simp only
    rw [wr_tab _ (by omega)]
    simp only
    rw [ih]
    apply congrArg Except.ok
    apply tab_congr
    intro k _
    by_cases hk : k = j
    · subst hk
      have a1 : ¬ (k + 1 ≤ k ∧ k < k + 1 + cnt) := by omega
      have a2 : k ≤ k ∧ k < k + (cnt + 1) := by omega
      rw [if_neg a1, if_pos a2]
      simp [Function.update]
    · by_cases hin : j + 1 ≤ k ∧ k < j + 1 + cnt
      · have a2 : j ≤ k ∧ k < j + (cnt + 1) := by omega
        rw [if_pos hin, if_pos a2]
        simp [Function.update, hk]
      · have a2 : ¬ (j ≤ k ∧ k < j + (cnt + 1)) := by omega
        rw [if_neg hin, if_neg a2]
        simp [Function.update, hk]

/-- The statement `A[dst] += A[src]` on a tabulated array. -/
theorem addCell_tab {N : Nat} (G : Nat → Nat) {dst src : Nat} (hd : dst < N) (hs : src < N) :
    addCell (tab N G) dst src = .ok (tab N (Function.update G dst ((G dst + G src) % UINT))) := by
  unfold addCell
  rw [rd_tab _ hs]
  simp only
  rw [rd_tab _ hd]
  simp only
  rw [wr_tab _ hd]

theorem take_sum_eq (A : List Nat) :
    ∀ j, (A.take j).sum = segSum (fun k => A.getD k 0) 0 j
  | 0 => by simp [segSum]
  | j + 1 => by
    rw [segSum_succ _ (Nat.zero_le j), ← take_sum_eq A j]
    by_cases hj : j < A.length
    · rw [List.take_succ, List.sum_append, List.getElem?_eq_getElem hj,
        List.getD_eq_getElem _ _ hj]
      simp
    · have h1 : A.length ≤ j := by omega
      rw [List.take_of_length_le (by omega : A.length ≤ j + 1), List.take_of_length_le h1,
        List.getD_eq_default _ _ h1]
      rfl

theorem chunk_div {c i k : Nat} (h1 : i * c ≤ k) (h2 : k < (i + 1) * c) : k / c = i :=
  Nat.div_eq_of_lt_le h1 h2

theorem psG1_chunk (F : Nat → Nat) {c i k : Nat} (h1 : i * c ≤ k) (h2 : k < (i + 1) * c) :
    psG1 F c k = segSum F (i * c) (k + 1) % UINT := by
  unfold psG1
  rw [chunk_div h1 h2]

theorem pre_split (F : Nat → Nat) {a k : Nat} (h : a ≤ k + 1) :
    (segSum F a (k + 1) % UINT + segSum F 0 a % UINT) % UINT = psPre F k := by
  unfold psPre
  rw [← segSum_add F (Nat.zero_le a) h, mod_add_mod, add_mod_mod, Nat.add_comm]

/-- The local scan of chunk `i`. -/
theorem psLocal_step (F : Nat → Nat) {N c i : Nat} (hi : i * c ≤ N) :
    psLocal c N (tab N (fun k => if k < i * c then psG1 F c k else F k)) i =
      .ok (tab N (fun k => if k < (i + 1) * c then psG1 F c k else F k)) := by
  have e : (i + 1) * c = i * c + c := Nat.succ_mul i c
  unfold psLocal
  simp only
  rw [scanLoop_tab _ _ _ _ (by split <;> omega)]
  apply congrArg Except.ok
  apply tab_congr
  intro k hk
  by_cases hin : i * c ≤ k ∧ k < i * c + ((if i * c + c > N then N else i * c + c) - i * c)
  · have hk2 : k < (i + 1) * c := by
      split at hin <;> omega
    have e1 : segSum (fun k => if k < i * c then psG1 F c k else F k) (i * c) (k + 1) =
        segSum F (i * c) (k + 1) := by
      apply segSum_congr
      intro l hl _
      have : ¬ l < i * c := by omega
      simp only [if_neg this]
    rw [if_pos hin, if_pos hk2, e1, Nat.zero_add, psG1_chunk F hin.1 hk2]
  · rw [if_neg hin]
    by_cases hlt : k < i * c
    · have : k < (i + 1) * c := by omega
      rw [if_pos hlt, if_pos this]
    · have : ¬ k < (i + 1) * c := by
        split at hin <;> omega
      rw [if_neg hlt, if_neg this]

/-- The first region: every cell holds the sum of its chunk up to itself. -/
theorem psLocal_all (F : Nat → Nat) {N c P : Nat} (hlast : (P - 1) * c < N)
    (hcover : N ≤ P * c) :
    forLoop (psLocal c N) 0 P (tab N F) = .ok (tab N (psG1 F c)) := by
  obtain ⟨st, hst, hinv⟩ := forLoop_inv
    (fun k (st : List Nat) => st = tab N (fun j => if j < k * c then psG1 F c j else F j))
    (psLocal c N) P 0 (tab N F)
    (by
      apply tab_congr
      intro j _
      have : ¬ j < 0 * c := by omega
      rw [if_neg this])
    (by
      intro k st _ hk hinv
      subst hinv
      have hkc : k * c ≤ (P - 1) * c := Nat.mul_le_mul_right c (by omega)
      exact ⟨_, psLocal_step F (by omega), rfl⟩)
  rw [hst, hinv]
  apply congrArg Except.ok
  apply tab_congr
  intro j hj
  have e : (0 + P) * c = P * c := by rw [Nat.zero_add]
  have : j < (0 + P) * c := by omega
  rw [if_pos this]

theorem mul_end {c q k : Nat} (hc : 0 < c) (h : k + 1 = q * c) :
    (k + 1) % c = 0 ∧ (k + 1) / c = q := by
  rw [h]
  exact ⟨Nat.mul_mod_left q c, Nat.mul_div_cancel q hc⟩

theorem end_mul {c k : Nat} (h : (k + 1) % c = 0) :
    ∃ q, (k + 1) / c = q ∧ k + 1 = q * c := by
  have := Nat.div_add_mod (k + 1) c
  rw [h, Nat.add_zero, Nat.mul_comm] at this
  exact ⟨_, rfl, this.symm⟩

theorem psC_end (F : Nat → Nat) {c i q k : Nat} (hc : 0 < c) (h : k + 1 = q * c)
    (hq : q ≤ i) : psC F c i k = psPre F k := by
  obtain ⟨a, b⟩ := mul_end hc h
  unfold psC
  rw [if_pos ⟨a, by rw [b]; exact hq⟩]

theorem psC_other (F : Nat → Nat) {c i k : Nat} (h : ¬ ((k + 1) % c = 0 ∧ (k + 1) / c ≤ i)) :
    psC F c i k = psG1 F c k := by
  unfold psC
  rw [if_neg h]

/-- One iteration of the carry loop. -/
theorem psCarry_step (F : Nat → Nat) {N c i : Nat} (hc : 0 < c) (hi : 1 ≤ i)
    (hb : (i + 1) * c ≤ N) :
    psCarry c (tab N (psC F c i)) i = .ok (tab N (psC F c (i + 1))) := by
  have e : (i + 1) * c = i * c + c := Nat.succ_mul i c
  have hic : c ≤ i * c := Nat.le_mul_of_pos_left c (by omega)
  have hs : i * c - 1 + 1 = i * c := by omega
  have hd : (i + 1) * c - 1 + 1 = (i + 1) * c := by omega
  have vsrc : psC F c i (i * c - 1) = psPre F (i * c - 1) := psC_end F hc hs (le_refl i)
  have vdst : psC F c i ((i + 1) * c - 1) = segSum F (i * c) ((i + 1) * c) % UINT := by
    obtain ⟨a, b⟩ := mul_end hc hd
    rw [psC_other F (by rw [b]; omega), psG1_chunk F (by omega : i * c ≤ (i + 1) * c - 1)
      (by omega), hd]
  unfold psCarry
  rw [addCell_tab _ (by omega) (by omega), vsrc, vdst]
  apply congrArg Except.ok
  apply tab_congr
  intro k _
  by_cases hk : k = (i + 1) * c - 1
  · subst hk
    have := pre_split F (show i * c ≤ (i + 1) * c - 1 + 1 by omega)
    rw [hd] at this
    simp only [Function.update, dite_true]
    rw [psC_end F hc hd (le_refl _)]
    unfold psPre at this ⊢
    rw [hs, hd]
    rw [hd] at this
    exact this
  · simp only [Function.update, hk, dite_false]
    unfold psC
    by_cases hm : (k + 1) % c = 0
    · obtain ⟨q, hq1, hq⟩ := end_mul hm
      rw [hq1]
      have hne : q ≠ i + 1 := by
        intro he
        rw [he] at hq
        omega
      have : (q ≤ i) ↔ (q ≤ i + 1) := by omega
      simp only [hm, true_and, this]
    · simp only [hm, false_and]

/-- The carry loop: the last cells of all full chunks hold prefix sums. -/
theorem psCarry_all (F : Nat → Nat) {N c P : Nat} (hc : 0 < c) (hP : 2 ≤ P)
    (hlast : (P - 1) * c < N) :
    forLoop (psCarry c) 1 (P - 1 - 1) (tab N (psG1 F c)) = .ok (tab N (psC F c (P - 1))) := by
  obtain ⟨st, hst, hinv⟩ := forLoop_inv
    (fun k (st : List Nat) => st = tab N (psC F c k))
    (psCarry c) (P - 1 - 1) 1 (tab N (psG1 F c))
    (by
      apply tab_congr
      intro k _
      unfold psC
      by_cases hm : (k + 1) % c = 0 ∧ (k + 1) / c ≤ 1
      · rw [if_pos hm]
        obtain ⟨q, hqd, hq⟩ := end_mul hm.1
        have hm2 := hm.2
        rw [hqd] at hm2
        have hq1 : q = 1 := by
          have : q ≠ 0 := by
            intro h0
            rw [h0] at hq
            omega
          omega
        rw [hq1, Nat.one_mul] at hq
        unfold psPre
        rw [psG1_chunk F (show 0 * c ≤ k by omega) (by omega), Nat.zero_mul]
      · rw [if_neg hm])
    (by
      intro k st hk1 hk2 hinv
      subst hinv
      have hkc : (k + 1) * c ≤ (P - 1) * c := Nat.mul_le_mul_right c (by omega)
      exact ⟨_, psCarry_step F hc hk1 (by omega), rfl⟩)
  rw [hst, hinv]
  have : 1 + (P - 1 - 1) = P - 1 := by omega
  rw [this]

/-- The carry into `A[size-1]`. -/
theorem psLast_step (F : Nat → Nat) {N c P : Nat} (hc : 0 < c) (hP : 2 ≤ P)
    (hlast : (P - 1) * c < N) (hcover : N ≤ P * c) :
    addCell (tab N (psC F c (P - 1))) (N - 1) ((P - 1) * c - 1) =
      .ok (tab N (psD F c N P)) := by
  have e : (P - 1 + 1) * c = P * c := by
    have : P - 1 + 1 = P := by omega
    rw [this]
  have hpc : c ≤ (P - 1) * c := Nat.le_mul_of_pos_left c (by omega)
  have hs : (P - 1) * c - 1 + 1 = (P - 1) * c := by omega
  have hN : N - 1 + 1 = N := by omega
  have vsrc : psC F c (P - 1) ((P - 1) * c - 1) = psPre F ((P - 1) * c - 1) :=
    psC_end F hc hs (le_refl _)
  have vdst : psC F c (P - 1) (N - 1) = segSum F ((P - 1) * c) N % UINT := by
    have hno : ¬ ((N - 1 + 1) % c = 0 ∧ (N - 1 + 1) / c ≤ P - 1) := by
      rintro ⟨a, b⟩
      obtain ⟨q, hqd, hq⟩ := end_mul a
      rw [hqd] at b
      have := Nat.mul_le_mul_right c b
      omega
    rw [psC_other F hno, psG1_chunk F (show (P - 1) * c ≤ N - 1 by omega) (by omega), hN]
  rw [addCell_tab _ (by omega) (by omega), vsrc, vdst]
  apply congrArg Except.ok
  apply tab_congr
  intro k _
  unfold psD
  by_cases hk : k = N - 1
  · subst hk
    have := pre_split F (show (P - 1) * c ≤ N - 1 + 1 by omega)
    simp only [Function.update, dite_true, if_true]
    unfold psPre at this ⊢
    rw [hs]
    rw [hN] at this ⊢
    exact this
  · simp only [Function.update, hk, dite_false, if_false]

/-- One iteration of the last region. -/
theorem psAdd_step (F : Nat → Nat) {N c i : Nat} (hc : 0 < c) (hi : 1 ≤ i)
    (hb : i * c < N) :
    psAdd c N (tab N (psE F c N i)) i = .ok (tab N (psE F c N (i + 1))) := by
  have e : (i + 1) * c = i * c + c := Nat.succ_mul i c
  have hic : c ≤ i * c := Nat.le_mul_of_pos_left c (by omega)
  have vacc : psE F c N i (i * c - 1) = psPre F (i * c - 1) := by
    unfold psE
    rw [if_pos (Or.inl (by omega))]
  unfold psAdd
  simp only
  rw [rd_tab _ (by omega), vacc]
  simp only
  rw [addLoop_tab _ _ _ _ (by split <;> omega)]
  apply congrArg Except.ok
  apply tab_congr
  intro k hk
  by_cases hin : i * c ≤ k ∧
      k < i * c + ((if i * c + c - 1 ≥ N then N - 1 else i * c + c - 1) - i * c)
  · have hk2 : k < i * c + c - 1 ∧ k < N - 1 := by
      split at hin <;> omega
    have hnd : ¬ (k + 1) % c = 0 := by
      intro hm
      obtain ⟨q, _, hq⟩ := end_mul hm
      have h1 : i * c < q * c := by omega
      have h2 : q * c < (i + 1) * c := by omega
      have h3 := Nat.lt_of_mul_lt_mul_right h1
      have h4 := Nat.lt_of_mul_lt_mul_right h2
      omega
    have hold : ¬ (k < i * c ∨ (k + 1) % c = 0 ∨ k = N - 1) := by
      rintro (a | a | a)
      · omega
      · exact hnd a
      · omega
    have hnew : k < (i + 1) * c ∨ (k + 1) % c = 0 ∨ k = N - 1 := Or.inl (by omega)
    have hs : i * c - 1 + 1 = i * c := by omega
    have := pre_split F (show i * c ≤ k + 1 by omega)
    rw [if_pos hin]
    unfold psE
    rw [if_neg hold, if_pos hnew, psG1_chunk F hin.1 (by omega)]
    unfold psPre at this ⊢
    rw [hs]
    exact this
  · rw [if_neg hin]
    unfold psE
    by_cases hold : k < i * c ∨ (k + 1) % c = 0 ∨ k = N - 1
    · have hnew : k < (i + 1) * c ∨ (k + 1) % c = 0 ∨ k = N - 1 := by
        rcases hold with a | a | a
        · exact Or.inl (by omega)
        · exact Or.inr (Or.inl a)
        · exact Or.inr (Or.inr a)
      rw [if_pos hold, if_pos hnew]
    · have hnew : ¬ (k < (i + 1) * c ∨ (k + 1) % c = 0 ∨ k = N - 1) := by
        rintro (a | a | a)
        · have h1 : ¬ k < i * c := fun x => hold (Or.inl x)
          have h2 : k ≠ N - 1 := fun x => hold (Or.inr (Or.inr x))
          have h3 : k + 1 ≠ (i + 1) * c := by
            intro x
            exact hold (Or.inr (Or.inl (mul_end hc x).1))
          apply hin
          split <;> omega
        · exact hold (Or.inr (Or.inl a))
        · exact hold (Or.inr (Or.inr a))
      rw [if_neg hold, if_neg hnew]

/-- The last region: every cell holds its prefix sum. -/
theorem psAdd_all (F : Nat → Nat) {N c P : Nat} (hc : 0 < c) (hP : 2 ≤ P)
    (hlast : (P - 1) * c < N) (hcover : N ≤ P * c) :
    forLoop (psAdd c N) 1 (P - 1) (tab N (psD F c N P)) = .ok (tab N (psPre F)) := by
  obtain ⟨st, hst, hinv⟩ := forLoop_inv
    (fun k (st : List Nat) => st = tab N (psE F c N k))
    (psAdd c N) (P - 1) 1 (tab N (psD F c N P))
    (by
      apply tab_congr
      intro k hk
      unfold psD psE psC
      by_cases h1 : k = N - 1
      · rw [if_pos h1, if_pos (Or.inr (Or.inr h1))]
      · rw [if_neg h1]
        by_cases hm : (k + 1) % c = 0
        · obtain ⟨q, hqd, hq⟩ := end_mul hm
          have hle : (k + 1) / c ≤ P - 1 := by
            rw [hqd]
            by_contra hgt
            have : P ≤ q := by omega
            have := Nat.mul_le_mul_right c this
            omega
          rw [if_pos ⟨hm, hle⟩, if_pos (Or.inr (Or.inl hm))]
        · have hno : ¬ ((k + 1) % c = 0 ∧ (k + 1) / c ≤ P - 1) := fun x => hm x.1
          rw [if_neg hno]
          by_cases h0 : k < 1 * c
          · rw [if_pos (Or.inl h0)]
            unfold psPre
            rw [psG1_chunk F (show 0 * c ≤ k by omega) (by omega), Nat.zero_mul]
          · have : ¬ (k < 1 * c ∨ (k + 1) % c = 0 ∨ k = N - 1) := by
              rintro (a | a | a)
              · exact h0 a
              · exact hm a
              · exact h1 a
            rw [if_neg this])
    (by
      intro k st hk1 hk2 hinv
      subst hinv
      have hkc : k * c ≤ (P - 1) * c := Nat.mul_le_mul_right c (by omega)
      exact ⟨_, psAdd_step F hc hk1 (by omega), rfl⟩)
  rw [hst, hinv]
  apply congrArg Except.ok
  apply tab_congr
  intro k hk
  have e : 1 + (P - 1) = P := by omega
  rw [e]
  unfold psE
  rw [if_pos (Or.inl (by omega))]

theorem psPre_eq (A : List Nat) :
    tab A.length (psPre (fun j => A.getD j 0)) = inclusivePrefixSums A := by
  unfold inclusivePrefixSums
  apply tab_congr
  intro k _
  unfold psPre
  rw [take_sum_eq]

/-- The three regions on a tabulated array whose chunks cover the array and
whose last chunk is not empty. -/
theorem prefix_sum_tab (F : Nat → Nat) {N P c : Nat} (hP : 1 ≤ P) (hcd : ceilDiv N P = c)
    (hcover : N ≤ P * c) (hlast : (P - 1) * c < N) :
    parallel_prefix_sum P (tab N F) N = .ok (tab N (psPre F)) := by
  have hP0 : ¬ P = 0 := by omega
  have hc : 0 < c := by
    rcases Nat.eq_zero_or_pos c with h0 | h0
    · rw [h0] at hcover; omega
    · exact h0
  unfold parallel_prefix_sum
  rw [if_neg hP0]
  simp only
  rw [hcd, psLocal_all F hlast hcover]
  simp only
  by_cases h2 : 2 ≤ P
  · have hgt : P > 1 := by omega
    rw [psCarry_all F hc h2 hlast]
    simp only
    rw [if_pos hgt, psLast_step F hc h2 hlast hcover]
    simp only
    exact psAdd_all F hc h2 hlast hcover
  · have hP1 : P = 1 := by omega
    subst hP1
    have hgt : ¬ (1 > 1) := by omega
    simp only [Nat.sub_self, Nat.zero_sub, forLoop, if_neg hgt]
    apply congrArg Except.ok
    apply tab_congr
    intro k hk
    unfold psPre
    rw [psG1_chunk F (show 0 * c ≤ k by omega) (by omega), Nat.zero_mul]

/-- When the `P` chunks of the size `chk` that the code computes cover the
array and the last chunk is not empty, the three regions of
`parallel_prefix_sum` leave the inclusive prefix sums in `A`. -/
theorem prefix_sum_ok (A : List Nat) (P : Nat) (hP : 1 ≤ P)
    (hcover : A.length ≤ P * ceilDiv A.length P)
    (hlast : (P - 1) * ceilDiv A.length P < A.length) :
    parallel_prefix_sum P A A.length = .ok (inclusivePrefixSums A) := by
  have h1 := prefix_sum_tab (fun j => A.getD j 0) hP rfl hcover hlast
  rw [← eq_tab A 0, psPre_eq] at h1
  exact h1

theorem prefix_last (A : List Nat) (hA : 0 < A.length) :
    (inclusivePrefixSums A).getD (A.length - 1) 0 = A.sum % UINT := by
  unfold inclusivePrefixSums
  rw [getD_tab _ _ (by omega)]
  have : A.length - 1 + 1 = A.length := by omega
  rw [this, List.take_length]

/-- With `argc ≥ 3` the harness goes on with `argv[1]`, `argv[2]`, `argv[3]`. -/
theorem main_args_read {α : Type} (p a1 a2 : α) (rest : List α) :
    main_args (p :: a1 :: a2 :: rest) = .read a1 a2 rest.head? := by
  unfold main_args
  have : ¬ ((p :: a1 :: a2 :: rest).length < 3) := by simp
  rw [if_neg this]

/-- The usage exit is taken exactly when `argc < 3`. -/
theorem main_args_usage {α : Type} (argv : List α) :
    main_args argv = .usage ↔ argv.length < 3 := by
  constructor
  · intro h
    by_contra hc
    match argv, hc, h with
    | [], hc, _ => simp at hc
    | [_], hc, _ => simp at hc
    | [_, _], hc, _ => simp at hc
    | p :: a1 :: a2 :: rest, _, h =>
      rw [main_args_read] at h
      cases h
  · intro h
    unfold main_args
    rw [if_pos h]

/-- C25: called with the program name and two file arguments only (graph
and tree, `argc = 3`), `main` does not take the usage exit: it goes on and
calls `read_canonical_ordering_from_file` with `argv[3]`, the null pointer.
With one file argument it exits with the usage line, with three it reads all
three files. -/
theorem C25_two_arguments_accepted :
    main_args [0, 1, 2] = MainAction.read 1 2 none ∧
      main_args [0, 1, 2] ≠ MainAction.usage ∧
      main_args [0, 1] = MainAction.usage ∧
      main_args [0, 1, 2, 3] = MainAction.read 1 2 (some 3) := by
  decide

/-- C21: on the triangle (a valid input, `n = 3`, `m = 3`) with three workers the second
region runs with the chunk size `2m/3 = 2` of the first region, so worker 1
handles the indices `[2, 4)`, touches index `3` of the arrays of length `3`
and the run leaves the arrays; with seven workers the chunk size is `0`, the
last worker handles `[0, 3)` and `lower_numb[0]` of the root is decremented to
`65535`, whereas one worker leaves it at `0`. -/
theorem C21_phaseB_chunk_overrun :
    ValidInput triangleG triangleT triangleEmb ∧
      triangleT.n = 3 ∧
      chunkLo (2 * triangleG.m / 3) 1 (some 1) = 2 ∧
      chunkHi 3 (2 * triangleG.m / 3) 1 triangleT.n = 4 ∧
      counters 3 triangleG triangleT = .error Fault.outOfBounds ∧
      chunkLo (2 * triangleG.m / 7) 6 (some 1) = 0 ∧
      chunkHi 7 (2 * triangleG.m / 7) 6 triangleT.n = 3 ∧
      counters 7 triangleG triangleT = .ok ([65535, 0, 1], [1, 1, 0]) ∧
      counters 1 triangleG triangleT = .ok ([0, 0, 1], [1, 1, 0]) :=
  ⟨triangle_valid, by decide⟩

/-- In the reference run (one worker) for every valid input the
`2n - 2` positions `ET[i].rank + 1` at which the last region sets bits of `S1`
are pairwise distinct and lie strictly between `0` and `2m + 1`; `S1` has
exactly `2n` ones, at these positions and at the two framing positions, and
its `2(m - n + 1)` zeros are exactly the remaining positions, those of the
brackets. -/
theorem S1_positions_one_worker {g : Graph} {t : Tree} {emb : Nat → Nat} (h : ValidInput g t emb)
    {fuel : Nat} (hf : t.H ≤ fuel) :
    ∃ hi ET ET2 b, rankedTours 1 fuel g t = .ok (hi, ET, ET2) ∧
      parallel_succinct_graph 1 fuel g t = .ok b ∧
      (∀ i, i < 2 * t.n - 2 → 0 < rankAt ET i + 1 ∧ rankAt ET i + 1 < 2 * g.m + 1) ∧
      (∀ i j, i < 2 * t.n - 2 → j < 2 * t.n - 2 → rankAt ET i + 1 = rankAt ET j + 1 → i = j) ∧
      b.S1.length = 2 * g.m + 2 ∧
      b.S1.count true = 2 * t.n ∧ b.S1.count false = 2 * (g.m + 1 - t.n) ∧
      (∀ q, q < 2 * g.m + 2 → (b.S1.getD q false = true ↔
        (q = 0 ∨ q = 2 * g.m + 1 ∨ ∃ i, i < 2 * t.n - 2 ∧ q = rankAt ET i + 1))) := by
  obtain ⟨R1, R2, e, a, _, _⟩ := h.rankedTours_ok hf
  have hm := h.m_ge
  have hr : ∀ i, i < t.H → rankAt (tab t.H R1) i = r1F g t i := by
    intro i hi
    unfold rankAt
    rw [getD_tab _ _ hi, a i hi]
  have hlen : (bitsF g t).S1.length = 2 * g.m + 2 := tab_length _ _
  have hc := count_true_false (bitsF g t).S1
  have hone := h.S1_count
  refine ⟨_, _, _, bitsF g t, e, h.run_ok hf, ?_, ?_, hlen, hone, by omega, ?_⟩
  · intro i hi
    have hi1 : i < t.H := hi
    obtain ⟨_, b, _⟩ := h.r1F_bound hi1
    have := wgt_pos g t i
    rw [hr i hi1]
    omega
  · intro i j hi hj he
    have hi1 : i < t.H := hi
    have hj1 : j < t.H := hj
    rw [hr i hi1, hr j hj1] at he
    exact h.r1F_inj hi1 hj1 (by omega)
  · intro q hq
    show (tab (2 * g.m + 2) (S1F g t)).getD q false = true ↔ _
    rw [getD_tab _ _ hq]
    simp only [S1F, Bool.or_eq_true, decide_eq_true_eq, s1F_true]
    constructor
    · rintro ((⟨i, hi, hqi⟩ | h0) | h1)
      · exact Or.inr (Or.inr ⟨i, hi, by rw [hr i hi]; exact hqi⟩)
      · exact Or.inl h0
      · exact Or.inr (Or.inl h1)
    · rintro (h0 | h1 | ⟨i, hi, hqi⟩)
      · exact Or.inl (Or.inr h0)
      · exact Or.inr h1
      · have hi1 : i < t.H := hi
        exact Or.inl (Or.inl ⟨i, hi1, by rw [← hr i hi1]; exact hqi⟩)

/-- The statement `S1_positions_one_worker` applied to the triangle. -/
theorem S1_positions_one_worker_triangle :
    ValidInput triangleG triangleT triangleEmb ∧ triangleT.H ≤ 4 ∧
      ∃ hi ET ET2 b, rankedTours 1 4 triangleG triangleT = .ok (hi, ET, ET2) ∧
        parallel_succinct_graph 1 4 triangleG triangleT = .ok b ∧
        (∀ i, i < 2 * triangleT.n - 2 →
          0 < rankAt ET i + 1 ∧ rankAt ET i + 1 < 2 * triangleG.m + 1) ∧
        (∀ i j, i < 2 * triangleT.n - 2 → j < 2 * triangleT.n - 2 →
          rankAt ET i + 1 = rankAt ET j + 1 → i = j) ∧
        b.S1.length = 2 * triangleG.m + 2 ∧
        b.S1.count true = 2 * triangleT.n ∧
        b.S1.count false = 2 * (triangleG.m + 1 - triangleT.n) ∧
        (∀ q, q < 2 * triangleG.m + 2 → (b.S1.getD q false = true ↔
          (q = 0 ∨ q = 2 * triangleG.m + 1 ∨
            ∃ i, i < 2 * triangleT.n - 2 ∧ q = rankAt ET i + 1))) :=
  ⟨triangle_valid, by decide, S1_positions_one_worker triangle_valid (by decide)⟩

/-! ## What one iteration of the classifier writes -/

/-- One iteration of the classifier on tabulated arrays. -/
theorem classifyEdge_tab (g : Graph) (t : Tree) (lower higher : List Nat) (root_last : Nat)
    {N1 N2 : Nat} (F1 F2 : Nat → ENode) (i : Nat)
    (hi : i < t.E.length) (hs : t.src i < t.N.length) (ht : t.tgt i < t.N.length)
    (hvs : t.src i < g.V.length) (hvt : t.tgt i < g.V.length)
    (h1 : i < N1) (h2 : i < N2) (hl : t.tgt i < lower.length) (hh : t.src i < higher.length) :
    classifyEdge g t lower higher root_last (tab N1 F1, tab N2 F2) i =
      .ok (tab N1 (Function.update F1 i
          (if g.ord (t.src i) < g.ord (t.tgt i) then
            ⟨if t.first (t.tgt i) = t.last (t.tgt i) then ((t.twin i : Nat) : Int)
              else ((t.first (t.tgt i) + 1 : Nat) : Int), (F1 i).value,
              lower.getD (t.tgt i) 0 + 1⟩
          else
            ⟨if t.tgt i = 0 ∧ t.twin i = root_last then 0
              else if t.twin i = t.last (t.tgt i) then ((t.first (t.tgt i) : Nat) : Int)
              else ((t.twin i + 1 : Nat) : Int), (F1 i).value,
              higher.getD (t.src i) 0 + 1⟩)),
        tab N2 (Function.update F2 i
          (if g.ord (t.src i) < g.ord (t.tgt i) then
            ⟨if t.first (t.tgt i) = t.last (t.tgt i) then ((t.twin i : Nat) : Int)
              else ((t.first (t.tgt i) + 1 : Nat) : Int), 1, 1⟩
          else
            ⟨if t.tgt i = 0 ∧ t.twin i = root_last then 0
              else if t.twin i = t.last (t.tgt i) then ((t.first (t.tgt i) : Nat) : Int)
              else ((t.twin i + 1 : Nat) : Int), 0, 1⟩))) := by
  simp only [classifyEdge]
  rw [rd_getD t.E ⟨0, 0, 0⟩ hi]
  simp only [Tree.src_fold, Tree.tgt_fold, Tree.twin_fold]
  rw [rd_getD t.N ⟨0, 0⟩ hs]
  simp only
  rw [rd_getD t.N ⟨0, 0⟩ ht]
  simp only [Tree.first_fold, Tree.last_fold]
  rw [rd_getD g.V ⟨0, 0, 0⟩ hvs]
  simp only
  rw [rd_getD g.V ⟨0, 0, 0⟩ hvt]
  simp only [Graph.ord_fold]
  rw [rd_tab _ h1]
  simp only
  by_cases hf : g.ord (t.src i) < g.ord (t.tgt i)
  · rw [if_pos hf, if_pos hf, if_pos hf, rd_getD lower 0 hl]
    simp only
    rw [wr_tab _ h1]
    simp only
    rw [wr_tab _ h2]
  · rw [if_neg hf, if_neg hf, if_neg hf, rd_getD higher 0 hh]
    simp only
    by_cases hroot : t.tgt i = 0 ∧ t.twin i = root_last
    · rw [if_pos hroot, if_pos hroot, wr_tab _ h1]
      simp only
      rw [wr_tab _ h2]
    · rw [if_neg hroot, if_neg hroot, wr_tab _ h1]
      simp only
      rw [wr_tab _ h2]

/-- C22: for every tree half-edge `i` whose reads are in bounds, with
`e = T.E[i]`, one iteration of the classifier returns and writes at index `i`
(and nowhere else): if `order[e.src] < order[e.tgt]` then `ET2[i].value = 1`,
`ET[i].rank = lower[e.tgt] + 1`, `ET2[i].rank = 1` and `next = e.p_tgt` when
`T.N[e.tgt].first = T.N[e.tgt].last`, else `T.N[e.tgt].first + 1`; otherwise
`ET2[i].value = 0`, `ET[i].rank = higher[e.src] + 1`, `ET2[i].rank = 1` and
`next = 0` when `e.tgt = 0` and `e.p_tgt = T.N[0].last`, else
`T.N[e.tgt].first` when `e.p_tgt = T.N[e.tgt].last`, else `e.p_tgt + 1`; and
`ET[i].next = ET2[i].next` in every case. -/
theorem C22_classifier_writes (g : Graph) (t : Tree) (lower higher : List Nat)
    (ET ET2 : List ENode) (i : Nat)
    (hi : i < t.E.length) (hs : t.src i < t.N.length) (ht : t.tgt i < t.N.length)
    (hvs : t.src i < g.V.length) (hvt : t.tgt i < g.V.length)
    (h1 : i < ET.length) (h2 : i < ET2.length)
    (hl : t.tgt i < lower.length) (hh : t.src i < higher.length) :
    ∃ ET1 ET21, classifyEdge g t lower higher (t.last 0) (ET, ET2) i = .ok (ET1, ET21) ∧
      (g.ord (t.src i) < g.ord (t.tgt i) →
        valueAt ET21 i = 1 ∧ rankAt ET1 i = lower.getD (t.tgt i) 0 + 1 ∧ rankAt ET21 i = 1 ∧
        nextAt ET1 i = if t.first (t.tgt i) = t.last (t.tgt i) then ((t.twin i : Nat) : Int)
          else ((t.first (t.tgt i) + 1 : Nat) : Int)) ∧
      (¬ g.ord (t.src i) < g.ord (t.tgt i) →
        valueAt ET21 i = 0 ∧ rankAt ET1 i = higher.getD (t.src i) 0 + 1 ∧ rankAt ET21 i = 1 ∧
        nextAt ET1 i = if t.tgt i = 0 ∧ t.twin i = t.last 0 then 0
          else if t.twin i = t.last (t.tgt i) then ((t.first (t.tgt i) : Nat) : Int)
          else ((t.twin i + 1 : Nat) : Int)) ∧
      nextAt ET21 i = nextAt ET1 i ∧
      (∀ j, j ≠ i → ET1.getD j ⟨0, 0, 0⟩ = ET.getD j ⟨0, 0, 0⟩ ∧
        ET21.getD j ⟨0, 0, 0⟩ = ET2.getD j ⟨0, 0, 0⟩) := by
  have e1 := eq_tab ET ⟨0, 0, 0⟩
  have e2 := eq_tab ET2 ⟨0, 0, 0⟩
  have hstep := classifyEdge_tab g t lower higher (t.last 0)
    (fun j => ET.getD j ⟨0, 0, 0⟩) (fun j => ET2.getD j ⟨0, 0, 0⟩) i hi hs ht hvs hvt h1 h2 hl hh
  rw [← e1, ← e2] at hstep
  refine ⟨_, _, hstep, ?_, ?_, ?_, ?_⟩
  · intro hf
    unfold valueAt rankAt nextAt
    rw [getD_tab _ _ h1, getD_tab _ _ h2]
    simp only [Function.update, dite_true, if_pos hf, and_self]
  · intro hf
    unfold valueAt rankAt nextAt
    rw [getD_tab _ _ h1, getD_tab _ _ h2]
    simp only [Function.update, dite_true, if_neg hf, and_self]
  · unfold nextAt
    rw [getD_tab _ _ h1, getD_tab _ _ h2]
    simp only [Function.update, dite_true]
    by_cases hf : g.ord (t.src i) < g.ord (t.tgt i)
    · simp only [if_pos hf]
    · simp only [if_neg hf]
  · intro j hj
    constructor
    · by_cases hjl : j < ET.length
      · rw [getD_tab _ _ hjl]
        simp only [Function.update, hj, dite_false]
      · have hjl1 : ET.length ≤ j := by omega
        rw [List.getD_eq_default _ _ (by rw [tab_length]; exact hjl1),
          List.getD_eq_default _ _ hjl1]
    · by_cases hjl : j < ET2.length
      · rw [getD_tab _ _ hjl]
        simp only [Function.update, hj, dite_false]
      · have hjl1 : ET2.length ≤ j := by omega
        rw [List.getD_eq_default _ _ (by rw [tab_length]; exact hjl1),
          List.getD_eq_default _ _ hjl1]

/-- C22 (witness): the statement applied to the backward half-edge `2` of
the triangle, with the counters of the run and empty Euler tour arrays. -/
theorem C22_classifier_writes_witness :
    ∃ ET1 ET21, classifyEdge triangleG triangleT [0, 0, 1] [1, 1, 0] (triangleT.last 0)
        (List.replicate 4 ⟨0, 0, 0⟩, List.replicate 4 ⟨0, 0, 0⟩) 2 = .ok (ET1, ET21) ∧
      (triangleG.ord (triangleT.src 2) < triangleG.ord (triangleT.tgt 2) →
        valueAt ET21 2 = 1 ∧ rankAt ET1 2 = [0, 0, 1].getD (triangleT.tgt 2) 0 + 1 ∧
        rankAt ET21 2 = 1 ∧
        nextAt ET1 2 = if triangleT.first (triangleT.tgt 2) = triangleT.last (triangleT.tgt 2)
          then ((triangleT.twin 2 : Nat) : Int)
          else ((triangleT.first (triangleT.tgt 2) + 1 : Nat) : Int)) ∧
      (¬ triangleG.ord (triangleT.src 2) < triangleG.ord (triangleT.tgt 2) →
        valueAt ET21 2 = 0 ∧ rankAt ET1 2 = [1, 1, 0].getD (triangleT.src 2) 0 + 1 ∧
        rankAt ET21 2 = 1 ∧
        nextAt ET1 2 = if triangleT.tgt 2 = 0 ∧ triangleT.twin 2 = triangleT.last 0 then 0
          else if triangleT.twin 2 = triangleT.last (triangleT.tgt 2)
          then ((triangleT.first (triangleT.tgt 2) : Nat) : Int)
          else ((triangleT.twin 2 + 1 : Nat) : Int)) ∧
      nextAt ET21 2 = nextAt ET1 2 ∧
      (∀ j, j ≠ 2 → ET1.getD j ⟨0, 0, 0⟩ = (List.replicate 4 ⟨0, 0, 0⟩).getD j ⟨0, 0, 0⟩ ∧
        ET21.getD j ⟨0, 0, 0⟩ = (List.replicate 4 ⟨0, 0, 0⟩).getD j ⟨0, 0, 0⟩) :=
  C22_classifier_writes triangleG triangleT [0, 0, 1] [1, 1, 0]
    (List.replicate 4 ⟨0, 0, 0⟩) (List.replicate 4 ⟨0, 0, 0⟩) 2
    (by decide) (by decide) (by decide) (by decide) (by decide) (by decide) (by decide)
    (by decide) (by decide)

theorem findTwin_tab {M : Nat} (G : Nat → Edge) (s : Nat) :
    ∀ cnt j, (∀ k, j ≤ k → k < j + cnt → k < M) →
      findTwin (tab M G) s j cnt = .ok (scanF (fun k => (G k).tgt) s j cnt)
  | 0, _, _ => rfl
  | cnt + 1, j, hb => by
    simp only [findTwin, scanF]
    rw [rd_tab _ (hb j (le_refl _) (by omega))]
    simp only
    by_cases hc : (G j).tgt = s
    · rw [if_pos hc, if_pos hc]
    · rw [if_neg hc, if_neg hc]
      exact findTwin_tab G s cnt (j + 1) (fun k h1 h2 => hb k (by omega) (by omega))

theorem scanF_found (tg : Nat → Nat) (s : Nat) :
    ∀ cnt j, (∃ k, j ≤ k ∧ k < j + cnt ∧ tg k = s) →
      ∃ k0, scanF tg s j cnt = some k0 ∧ j ≤ k0 ∧ k0 < j + cnt ∧ tg k0 = s
  | 0, j, h => by
    obtain ⟨k, h1, h2, _⟩ := h
    omega
  | cnt + 1, j, h => by
    simp only [scanF]
    by_cases hc : tg j = s
    · rw [if_pos hc]
      exact ⟨j, rfl, le_refl _, by omega, hc⟩
    · rw [if_neg hc]
      obtain ⟨k, h1, h2, h3⟩ := h
      have hkj : k ≠ j := fun e => hc (e ▸ h3)
      obtain ⟨k0, a, b, c, d⟩ := scanF_found tg s cnt (j + 1) ⟨k, by omega, by omega, h3⟩
      exact ⟨k0, a, by omega, by omega, d⟩

theorem SymmetricLists.scan_ok {R : List (Nat × Nat)} {E : List Edge}
    (h : SymmetricLists R E) {i : Nat} (hi : i < E.length) :
    scanF (tgtOf E) (srcOf E i) (R.getD (tgtOf E i) (0, 0)).1
        ((R.getD (tgtOf E i) (0, 0)).2 + 1 - (R.getD (tgtOf E i) (0, 0)).1) =
      some (twF R E i) ∧
    twF R E i < E.length ∧ srcOf E (twF R E i) = tgtOf E i ∧
      tgtOf E (twF R E i) = srcOf E i := by
  obtain ⟨p, hp, hps, hpt⟩ := h.symm i hi
  have hr := h.in_range p hp
  rw [hps] at hr
  obtain ⟨k0, a, b, c, d⟩ := scanF_found (tgtOf E) (srcOf E i)
    ((R.getD (tgtOf E i) (0, 0)).2 + 1 - (R.getD (tgtOf E i) (0, 0)).1)
    (R.getD (tgtOf E i) (0, 0)).1 ⟨p, hr.1, by omega, hpt⟩
  have hk := h.range i hi k0 b (by omega)
  have e : twF R E i = k0 := by
    unfold twF
    rw [a]
    rfl
  rw [e]
  exact ⟨a, hk.1, hk.2, d⟩

theorem twG_tgt (R : List (Nat × Nat)) (E : List Edge) (k : Nat) :
    (fun j => (twG R E k j).tgt) = tgtOf E := by
  funext j
  unfold twG
  by_cases hj : j < k
  · rw [if_pos hj]
  · rw [if_neg hj]
    rfl

/-- One iteration of the outer loop of the post-pass. -/
theorem SymmetricLists.step_ok {R : List (Nat × Nat)} {E : List Edge}
    (h : SymmetricLists R E) {k : Nat} (hk : k < E.length) :
    twinStep R (tab E.length (twG R E k)) k = .ok (tab E.length (twG R E (k + 1))) := by
  obtain ⟨a, b, c, d⟩ := h.scan_ok hk
  have hkk : ¬ k < k := by omega
  have e0 : twG R E k k = E.getD k ⟨0, 0, 0⟩ := by
    unfold twG
    rw [if_neg hkk]
  have hbound : ∀ j, (R.getD (tgtOf E k) (0, 0)).1 ≤ j →
      j < (R.getD (tgtOf E k) (0, 0)).1 +
        ((R.getD (tgtOf E k) (0, 0)).2 + 1 - (R.getD (tgtOf E k) (0, 0)).1) →
      j < E.length := fun j h1 h2 => (h.range k hk j h1 (by omega)).1
  have ft : (E.getD k ⟨0, 0, 0⟩).tgt = tgtOf E k := rfl
  have fs : (E.getD k ⟨0, 0, 0⟩).src = srcOf E k := rfl
  unfold twinStep
  rw [rd_tab _ hk, e0]
  simp only
  rw [ft, fs, rd_getD R (0, 0) (h.tgt_lt k hk)]
  simp only
  rw [findTwin_tab _ _ _ _ hbound, twG_tgt, a]
  simp only
  rw [wr_tab _ hk]
  apply congrArg Except.ok
  apply tab_congr
  intro j _
  unfold twG
  by_cases hj : j = k
  · subst hj
    have : j < j + 1 := by omega
    simp only [Function.update, dite_true, if_pos this]
  · have : (j < k + 1) ↔ (j < k) := by omega
    simp only [Function.update, hj, dite_false, this]

/-- The post-pass returns and leaves involutive twin pointers that reverse
source and target. -/
theorem SymmetricLists.fill_ok {R : List (Nat × Nat)} {E : List Edge}
    (h : SymmetricLists R E) :
    ∃ E1, fill_twins R E.length E = .ok E1 ∧ Twinned E E1 := by
  obtain ⟨st, hst, hinv⟩ := forLoop_inv
    (fun k (st : List Edge) => st = tab E.length (twG R E k))
    (twinStep R) E.length 0 E
    (by
      have e := eq_tab E ⟨0, 0, 0⟩
      refine e.trans (tab_congr ?_)
      intro j _
      unfold twG
      have : ¬ j < 0 := by omega
      rw [if_neg this])
    (by
      intro k st _ hk hinv
      subst hinv
      exact ⟨_, h.step_ok (by omega), rfl⟩)
  rw [Nat.zero_add] at hinv
  refine ⟨st, hst, ?_⟩
  have hval : ∀ i, i < E.length →
      st.getD i ⟨0, 0, 0⟩ = ⟨srcOf E i, tgtOf E i, twF R E i⟩ := by
    intro i hi
    rw [hinv, getD_tab _ _ hi]
    unfold twG
    rw [if_pos hi]
  refine ⟨by rw [hinv, tab_length], ?_⟩
  intro i hi
  obtain ⟨_, b, c, d⟩ := h.scan_ok hi
  obtain ⟨_, b2, c2, d2⟩ := h.scan_ok b
  have v1 := hval i hi
  have v2 := hval _ b
  have htw : twinOf st i = twF R E i := by simp only [twinOf, v1]
  have hs1 : srcOf st i = srcOf E i := by simp only [srcOf, v1]
  have ht1 : tgtOf st i = tgtOf E i := by simp only [tgtOf, v1]
  have htw2 : twinOf st (twF R E i) = twF R E (twF R E i) := by simp only [twinOf, v2]
  have hs2 : srcOf st (twF R E i) = srcOf E (twF R E i) := by simp only [srcOf, v2]
  have ht2 : tgtOf st (twF R E i) = tgtOf E (twF R E i) := by simp only [tgtOf, v2]
  rw [htw, hs1, ht1, htw2, hs2, ht2]
  refine ⟨rfl, rfl, b, ?_, c, d⟩
  exact h.simple _ b2 _ hi (by rw [c2, d]) (by rw [d2, c])

theorem triangleRawG_lists :
    SymmetricLists (triangleRawG.V.map (fun v => (v.first, v.last))) triangleRawG.E where
  tgt_lt := by decide
  in_range := by decide
  range := by decide
  simple := by decide
  symm := by decide

theorem triangleRawT_lists :
    SymmetricLists (triangleRawT.N.map (fun v => (v.first, v.last))) triangleRawT.E where
  tgt_lt := by decide
  in_range := by decide
  range := by decide
  simple := by decide
  symm := by decide

/-- C24: when the first pass of a reader has stored the adjacency lists of a
simple graph with symmetric lists (`SymmetricLists`), the twin post-pass of
`read_graph_from_file` and that of `read_tree_from_file` return and set
`p_tgt` so that for every half-edge `i`: `E[E[i].p_tgt].p_tgt = i`,
`E[E[i].p_tgt].src = E[i].tgt` and `E[E[i].p_tgt].tgt = E[i].src`; sources and
targets are left as they were. -/
theorem C24_twin_postpass (g : Graph) (t : Tree)
    (hgl : g.E.length = 2 * g.m) (hgs : 2 * g.m < UINT)
    (hg : SymmetricLists (g.V.map (fun v => (v.first, v.last))) g.E)
    (htn : 1 ≤ t.n) (htl : t.E.length = 2 * (t.n - 1)) (hts : 2 * t.n < UINT)
    (ht : SymmetricLists (t.N.map (fun v => (v.first, v.last))) t.E) :
    (∃ E1, graph_twins g = .ok E1 ∧ Twinned g.E E1) ∧
      (∃ E1, tree_twins t = .ok E1 ∧ Twinned t.E E1) := by
  have hU : UINT = 4294967296 := rfl
  constructor
  · obtain ⟨E1, h1, h2⟩ := hg.fill_ok
    refine ⟨E1, ?_, h2⟩
    unfold graph_twins
    rw [Nat.mod_eq_of_lt hgs, ← hgl]
    exact h1
  · obtain ⟨E1, h1, h2⟩ := ht.fill_ok
    refine ⟨E1, ?_, h2⟩
    unfold tree_twins
    rw [usub_eq htn (by omega), Nat.mod_eq_of_lt (by omega), ← htl]
    exact h1

/-- C24 (witness): the statement applied to the triangle and its spanning
tree; the post-passes give the twin pointers of `triangleG` and
`triangleT`. -/
theorem C24_twin_postpass_witness :
    triangleRawG.E.length = 2 * triangleRawG.m ∧ 2 * triangleRawG.m < UINT ∧
      SymmetricLists (triangleRawG.V.map (fun v => (v.first, v.last))) triangleRawG.E ∧
      1 ≤ triangleRawT.n ∧ triangleRawT.E.length = 2 * (triangleRawT.n - 1) ∧
      2 * triangleRawT.n < UINT ∧
      SymmetricLists (triangleRawT.N.map (fun v => (v.first, v.last))) triangleRawT.E ∧
      graph_twins triangleRawG = .ok triangleG.E ∧ tree_twins triangleRawT = .ok triangleT.E ∧
      ((∃ E1, graph_twins triangleRawG = .ok E1 ∧ Twinned triangleRawG.E E1) ∧
        (∃ E1, tree_twins triangleRawT = .ok E1 ∧ Twinned triangleRawT.E E1)) :=
  ⟨by decide, by decide, triangleRawG_lists, by decide, by decide, by decide,
    triangleRawT_lists, by decide, by decide,
    C24_twin_postpass triangleRawG triangleRawT (by decide) (by decide) triangleRawG_lists
      (by decide) (by decide) (by decide) triangleRawT_lists⟩

theorem forLoop_eq_runSeq {σ : Type} (body : σ → Nat → Except Fault σ) :
    ∀ (cnt lo : Nat) (st : σ), forLoop body lo cnt st = runSeq body (List.range' lo cnt) st
  | 0, _, _ => rfl
  | cnt + 1, lo, st => by
    simp only [forLoop, List.range', runSeq]
    cases body st lo with
    | error e => rfl
    | ok st1 => exact forLoop_eq_runSeq body cnt (lo + 1) st1

theorem flatten_set_perm {α : Type} (a : α) (w : List α) :
    ∀ (progs : List (List α)) (h : Nat), progs.getD h [] = a :: w →
      (a :: (progs.set h w).flatten).Perm progs.flatten
  | [], h, hp => by simp at hp
  | p :: ps, 0, hp => by
    have : p = a :: w := by simpa using hp
    subst this
    simp
  | p :: ps, h + 1, hp => by
    have hp1 : ps.getD h [] = a :: w := by simpa using hp
    have ih := flatten_set_perm a w ps h hp1
    simp only [List.set_cons_succ, List.flatten_cons]
    exact (List.perm_middle.symm).trans (List.Perm.append_left p ih)

/-- Whatever the schedule, the run performs operations of the programs one
after the other: if every operation keeps an invariant of the operations done
so far, the run returns, the invariant holds at the end, and the operations
done and those left are together the operations of the programs. -/
theorem runSchedule_inv {σ α : Type} (act : σ → α → Except Fault σ)
    (Inv : List α → σ → Prop) (Allowed : α → Prop)
    (hstep : ∀ done st a, Inv done st → Allowed a →
      ∃ st1, act st a = .ok st1 ∧ Inv (done ++ [a]) st1) :
    ∀ (s : List Nat) (progs : List (List α)) (st : σ) (done : List α), Inv done st →
      (∀ a, a ∈ progs.flatten → Allowed a) →
      ∃ progs1 st1 done1, runSchedule act s (progs, st) = .ok (progs1, st1) ∧
        Inv done1 st1 ∧ (done1 ++ progs1.flatten).Perm (done ++ progs.flatten)
  | [], progs, st, done, hi, _ => ⟨progs, st, done, rfl, hi, List.Perm.refl _⟩
  | h :: s, progs, st, done, hi, hall => by
    cases hp : progs.getD h [] with
    | nil =>
      obtain ⟨p1, s1, d1, e, i1, pm⟩ := runSchedule_inv act Inv Allowed hstep s progs st done hi hall
      refine ⟨p1, s1, d1, ?_, i1, pm⟩
      simp only [runSchedule, stepWorker, hp]
      exact e
    | cons a w =>
      have hperm := flatten_set_perm a w progs h hp
      have ha : Allowed a := hall a (hperm.subset (List.mem_cons_self _ _))
      obtain ⟨st1, hact, hi1⟩ := hstep done st a hi ha
      obtain ⟨p1, s1, d1, e, i1, pm⟩ := runSchedule_inv act Inv Allowed hstep s
        (progs.set h w) st1 (done ++ [a]) hi1
        (fun b hb => hall b (hperm.subset (List.mem_cons_of_mem _ hb)))
      refine ⟨p1, s1, d1, ?_, i1, ?_⟩
      · simp only [runSchedule, stepWorker, hp, hact]
        exact e
      · refine pm.trans ?_
        rw [List.append_assoc]
        exact List.Perm.append_left done hperm

/-- Worker `h` of the first region runs its iterations one after the
other. -/
theorem phaseA_eq_runSeq (threads : Nat) (g : Graph) (st : List Nat × List Nat) (h : Nat) :
    phaseA threads (2 * g.m / threads) g st h = runSeq (countEdge g) (itersA threads g h) st := by
  unfold phaseA itersA
  exact forLoop_eq_runSeq _ _ _ _

theorem incLow_snoc (g : Graph) (done : List Nat) (i v : Nat) :
    incLow g (done ++ [i]) v = incLow g done v +
      (if g.src i = v ∧ g.ord (g.src i) > g.ord (g.tgt i) then 1 else 0) := by
  unfold incLow
  rw [List.countP_append, List.countP_singleton]
  by_cases hc : g.src i = v ∧ g.ord (g.src i) > g.ord (g.tgt i)
  · simp [hc]
  · simp [hc]

theorem incHigh_snoc (g : Graph) (done : List Nat) (i v : Nat) :
    incHigh g (done ++ [i]) v = incHigh g done v +
      (if g.src i = v ∧ ¬ (g.ord (g.src i) > g.ord (g.tgt i)) then 1 else 0) := by
  unfold incHigh
  rw [List.countP_append, List.countP_singleton]
  by_cases hc : g.src i = v ∧ ¬ (g.ord (g.src i) > g.ord (g.tgt i))
  · simp [hc]
  · simp [hc]

theorem ushort_succ (x : Nat) : (x % USHORT + 1) % USHORT = (x + 1) % USHORT := by
  unfold USHORT; omega

/-- One atomic increment on counters that hold the numbers of increments
done so far. -/
theorem countEdge_step (g : Graph) (n : Nat) (done : List Nat) (i : Nat)
    (ha : AllowedA g n i) :
    countEdge g (tab n (fun v => incLow g done v % USHORT),
        tab n (fun v => incHigh g done v % USHORT)) i =
      .ok (tab n (fun v => incLow g (done ++ [i]) v % USHORT),
        tab n (fun v => incHigh g (done ++ [i]) v % USHORT)) := by
  obtain ⟨h1, h2, h3, h4⟩ := ha
  simp only [countEdge]
  rw [rd_getD g.E ⟨0, 0, 0⟩ h1]
  simp only
  rw [show (g.E.getD i ⟨0, 0, 0⟩).src = g.src i from rfl,
    show (g.E.getD i ⟨0, 0, 0⟩).tgt = g.tgt i from rfl, rd_getD g.V ⟨0, 0, 0⟩ h2]
  simp only
  rw [rd_getD g.V ⟨0, 0, 0⟩ h3]
  simp only [Graph.ord_fold]
  by_cases hc : g.ord (g.src i) > g.ord (g.tgt i)
  · rw [if_pos hc, rd_tab _ h4]
    simp only
    rw [wr_tab _ h4]
    apply congrArg Except.ok
    refine Prod.ext ?_ ?_
    · apply tab_congr
      intro v _
      rw [incLow_snoc]
      by_cases hv : v = g.src i
      · subst hv
        have : g.src i = g.src i ∧ g.ord (g.src i) > g.ord (g.tgt i) := ⟨rfl, hc⟩
        rw [if_pos this]
        simp only [Function.update, dite_true]
        exact ushort_succ _
      · have : ¬ (g.src i = v ∧ g.ord (g.src i) > g.ord (g.tgt i)) := fun x => hv x.1.symm
        simp only [Function.update, hv, dite_false, if_neg this, Nat.add_zero]
    · apply tab_congr
      intro v _
      rw [incHigh_snoc]
      have : ¬ (g.src i = v ∧ ¬ (g.ord (g.src i) > g.ord (g.tgt i))) := fun x => x.2 hc
      simp only [if_neg this, Nat.add_zero]
  · rw [if_neg hc, rd_tab _ h4]
    simp only
    rw [wr_tab _ h4]
    apply congrArg Except.ok
    refine Prod.ext ?_ ?_
    · apply tab_congr
      intro v _
      rw [incLow_snoc]
      have : ¬ (g.src i = v ∧ g.ord (g.src i) > g.ord (g.tgt i)) := fun x => hc x.2
      simp only [if_neg this, Nat.add_zero]
    · apply tab_congr
      intro v _
      rw [incHigh_snoc]
      by_cases hv : v = g.src i
      · subst hv
        have : g.src i = g.src i ∧ ¬ (g.ord (g.src i) > g.ord (g.tgt i)) := ⟨rfl, hc⟩
        rw [if_pos this]
        simp only [Function.update, dite_true]
        exact ushort_succ _
      · have : ¬ (g.src i = v ∧ ¬ (g.ord (g.src i) > g.ord (g.tgt i))) :=
          fun x => hv x.1.symm
        simp only [Function.update, hv, dite_false, if_neg this, Nat.add_zero]

theorem runSeq_s3 (A B : List Bool) :
    ∀ (cnt ll : Nat) (C : List Bool),
      runSeq applyBit ((List.range' ll cnt).map BitOp.s3) ⟨A, B, C⟩ =
        match forLoop bit_array_set_bit ll cnt C with
        | .error e => .error e
        | .ok S3 => .ok ⟨A, B, S3⟩
  | 0, _, _ => rfl
  | cnt + 1, ll, C => by
    simp only [List.range', List.map_cons, runSeq, applyBit, forLoop]
    cases bit_array_set_bit C ll with
    | error e => rfl
    | ok S => exact runSeq_s3 A B cnt (ll + 1) S

/-- One iteration of the last region is the sequence of its bit sets. -/
theorem emitEdge_eq_ops (t : Tree) (higher : List Nat) (ET ET2 : List ENode) (st : Bits)
    (i : Nat) (h1 : i < ET.length) (h2 : i < ET2.length) (h3 : i < t.E.length)
    (h4 : t.src i < higher.length) :
    emitEdge t higher ET ET2 st i = runSeq applyBit (emitOps t higher ET ET2 i) st := by
  obtain ⟨A, B, C⟩ := st
  unfold emitEdge emitOps
  rw [rd_getD ET ⟨0, 0, 0⟩ h1]
  simp only [runSeq, applyBit]
  cases bit_array_set_bit A (((ET.getD i ⟨0, 0, 0⟩).rank + 1) % UINT) with
  | error e => rfl
  | ok S1 =>
    simp only
    rw [rd_getD ET2 ⟨0, 0, 0⟩ h2]
    simp only
    by_cases hv : (ET2.getD i ⟨0, 0, 0⟩).value ≠ 0
    · rw [if_pos hv, if_pos hv]
      simp only [runSeq, applyBit]
      cases bit_array_set_bit B (((ET2.getD i ⟨0, 0, 0⟩).rank + 1) % UINT) with
      | error e => rfl
      | ok S2 => rfl
    · rw [if_neg hv, if_neg hv, rd_getD t.E ⟨0, 0, 0⟩ h3]
      simp only [Tree.src_fold]
      rw [rd_getD higher 0 h4]
      simp only
      refine Eq.trans ?_ (runSeq_s3 _ _ _ _ _).symm
      cases forLoop bit_array_set_bit
          (usub (ET.getD i ⟨0, 0, 0⟩).rank (ET2.getD i ⟨0, 0, 0⟩).rank)
          ((usub (ET.getD i ⟨0, 0, 0⟩).rank (ET2.getD i ⟨0, 0, 0⟩).rank +
              higher.getD (t.src i) 0) % UINT -
            usub (ET.getD i ⟨0, 0, 0⟩).rank (ET2.getD i ⟨0, 0, 0⟩).rank) C with
      | error e => rfl
      | ok S3 => rfl

theorem runSeq_append {σ α : Type} (act : σ → α → Except Fault σ) :
    ∀ (l1 l2 : List α) (st : σ),
      runSeq act (l1 ++ l2) st =
        match runSeq act l1 st with
        | .ok st1 => runSeq act l2 st1
        | .error e => .error e
  | [], _, _ => rfl
  | a :: l1, l2, st => by
    simp only [List.cons_append, runSeq]
    cases act st a with
    | error e => rfl
    | ok st1 => exact runSeq_append act l1 l2 st1

theorem runSeq_flatten {σ α β : Type} (body : σ → β → Except Fault σ)
    (act : σ → α → Except Fault σ) (f : β → List α) :
    ∀ (l : List β) (st : σ), (∀ i, i ∈ l → ∀ st1, body st1 i = runSeq act (f i) st1) →
      runSeq body l st = runSeq act (l.map f).flatten st
  | [], _, _ => rfl
  | i :: l, st, hb => by
    simp only [List.map_cons, List.flatten_cons, runSeq]
    rw [runSeq_append, hb i (List.mem_cons_self i l) st]
    cases runSeq act (f i) st with
    | error e => rfl
    | ok st1 =>
      exact runSeq_flatten body act f l st1 (fun j hj => hb j (List.mem_cons_of_mem i hj))

/-- Worker `h` of the last region performs the bit sets of its program one
after the other. -/
theorem phaseE_eq_runSeq (threads : Nat) (t : Tree) (higher : List Nat) (ET ET2 : List ENode)
    (st : Bits) (h : Nat)
    (hb : ∀ i, chunkLo ((2 * t.n) % UINT / threads) h none ≤ i →
      i < chunkHi threads ((2 * t.n) % UINT / threads) h (usub ((2 * t.n) % UINT) 2) →
      i < ET.length ∧ i < ET2.length ∧ i < t.E.length ∧ t.src i < higher.length) :
    phaseE threads ((2 * t.n) % UINT / threads) (usub ((2 * t.n) % UINT) 2) t higher ET ET2 st h =
      runSeq applyBit (opsE threads t higher ET ET2 h) st := by
  unfold phaseE opsE
  simp only
  rw [forLoop_eq_runSeq]
  apply runSeq_flatten
  intro i hi st1
  rw [List.mem_range'_1] at hi
  have b := hb i hi.1 (by omega)
  exact emitEdge_eq_ops t higher ET ET2 st1 i b.1 b.2.1 b.2.2.1 b.2.2.2

theorem getD_set_self {α : Type} (l : List α) (h : Nat) (w d : α) (hh : h < l.length) :
    (l.set h w).getD h d = w := by
  rw [List.getD_eq_getElem?_getD, List.getElem?_set_self hh]
  rfl

theorem getD_set_ne {α : Type} (l : List α) (h k : Nat) (w d : α) (hk : h ≠ k) :
    (l.set h w).getD k d = l.getD k d := by
  rw [List.getD_eq_getElem?_getD, List.getD_eq_getElem?_getD, List.getElem?_set_ne hk]

/-- After a schedule, worker `h` has dropped as many operations from its
program as it has moved. -/
theorem runSchedule_progs {σ α : Type} (act : σ → α → Except Fault σ) :
    ∀ (s : List Nat) (progs progs1 : List (List α)) (st st1 : σ),
      runSchedule act s (progs, st) = .ok (progs1, st1) →
        progs1.length = progs.length ∧
        ∀ h, progs1.getD h [] = (progs.getD h []).drop (s.count h)
  | [], progs, progs1, st, st1, e => by
    simp only [runSchedule, Except.ok.injEq, Prod.mk.injEq] at e
    obtain ⟨e1, _⟩ := e
    subst e1
    exact ⟨rfl, fun h => by simp⟩
  | k :: s, progs, progs1, st, st1, e => by
    simp only [runSchedule, stepWorker] at e
    cases hp : progs.getD k [] with
    | nil =>
      rw [hp] at e
      simp only at e
      obtain ⟨a, b⟩ := runSchedule_progs act s progs progs1 st st1 e
      refine ⟨a, fun h => ?_⟩
      rw [b h]
      by_cases hk : k = h
      · subst hk; rw [hp]; simp
      · rw [List.count_cons_of_ne (fun e => hk e.symm)]
    | cons x w =>
      rw [hp] at e
      simp only at e
      cases ha : act st x with
      | error er => rw [ha] at e; simp at e
      | ok st2 =>
        rw [ha] at e
        simp only at e
        obtain ⟨a, b⟩ := runSchedule_progs act s (progs.set k w) progs1 st2 st1 e
        have hkl : k < progs.length := by
          by_contra hn
          rw [List.getD_eq_default _ _ (by omega)] at hp
          exact List.noConfusion hp
        refine ⟨by rw [a, List.length_set], fun h => ?_⟩
        rw [b h]
        by_cases hk : k = h
        · subst hk
          rw [getD_set_self _ _ _ _ hkl, hp, List.count_cons_self, List.drop_succ_cons]
        · rw [getD_set_ne _ _ _ _ _ hk, List.count_cons_of_ne (fun e => hk e.symm)]

/-- After a complete schedule every worker has finished. -/
theorem complete_finished {σ α : Type} (act : σ → α → Except Fault σ) (s : List Nat)
    (progs progs1 : List (List α)) (st st1 : σ) (hc : Complete s progs)
    (e : runSchedule act s (progs, st) = .ok (progs1, st1)) : progs1.flatten = [] := by
  obtain ⟨a, b⟩ := runSchedule_progs act s progs progs1 st st1 e
  rw [List.flatten_eq_nil_iff]
  intro l hl
  obtain ⟨h, hh, rfl⟩ := List.getElem_of_mem hl
  have e1 : progs1.getD h [] = progs1[h] := by
    rw [List.getD_eq_getElem?_getD, List.getElem?_eq_getElem hh]; rfl
  rw [← e1, b h]
  exact List.drop_eq_nil_of_le (hc h (by omega))

/-- With one worker whose chunk `chk` is shorter than the array, the scan
stops at `chk`: the cells from `chk` on keep their values. -/
theorem prefix_sum_one_short (F : Nat → Nat) {N c : Nat} (hcd : ceilDiv N 1 = c) (hc : c ≤ N) :
    parallel_prefix_sum 1 (tab N F) N =
      .ok (tab N (fun k => if k < c then psPre F k else F k)) := by
  have h10 : ¬ (1 = 0) := by omega
  have hgt : ¬ (1 > 1) := by omega
  have hul : ¬ (0 * c + c > N) := by omega
  unfold parallel_prefix_sum
  rw [if_neg h10]
  simp only
  rw [hcd, forLoop_one]
  unfold psLocal
  simp only
  rw [if_neg hul, scanLoop_tab _ _ _ _ (by omega)]
  simp only [Nat.sub_self, Nat.zero_sub, forLoop, if_neg hgt]
  apply congrArg Except.ok
  apply tab_congr
  intro k _
  unfold psPre
  by_cases hk : k < c
  · rw [if_pos hk, if_pos (by omega), Nat.zero_mul, Nat.zero_add]
  · rw [if_neg hk, if_neg (by omega)]

theorem getD_replicate_lt {α : Type} (n i : Nat) (a d : α) (h : i < n) :
    (List.replicate n a).getD i d = a := by
  rw [List.getD_eq_getElem _ _ (by rw [List.length_replicate]; exact h), List.getElem_replicate]

/-- On an array of `N` ones, one worker and a chunk `c < N`: cell `c - 1`
holds `c`, the last cell keeps the value `1`, and the inclusive prefix sum of
the last cell is `N`. -/
theorem prefix_sum_ones_short {N c i j : Nat} (hcd : ceilDiv N 1 = c) (hi : i + 1 = c)
    (hj : j + 1 = N) (hc : c < N) (hN : N < UINT) :
    (∃ B, parallel_prefix_sum 1 (List.replicate N 1) N = .ok B ∧
        B.length = N ∧ B.getD i 0 = c ∧ B.getD j 0 = 1) ∧
      (inclusivePrefixSums (List.replicate N 1)).getD j 0 = N := by
  constructor
  · refine ⟨tab N (fun k => if k < c then psPre (fun _ => 1) k else 1), ?_, ?_, ?_, ?_⟩
    · rw [replicate_eq_tab]
      exact prefix_sum_one_short _ hcd (by omega)
    · exact tab_length _ _
    · rw [getD_tab _ _ (by omega), if_pos (by omega)]
      unfold psPre segSum
      rw [Finset.sum_const, Nat.card_Ico, smul_eq_mul, Nat.mul_one, Nat.sub_zero, hi]
      exact Nat.mod_eq_of_lt (by omega)
    · rw [getD_tab _ _ (by omega), if_neg (by omega)]
  · have h := prefix_last (List.replicate N 1) (by rw [List.length_replicate]; omega)
    rw [List.length_replicate, List.sum_replicate, smul_eq_mul, Nat.mul_one,
      Nat.mod_eq_of_lt hN] at h
    have e : N - 1 = j := by omega
    rw [e] at h
    exact h

set_option maxRecDepth 8000 in
/-- The chunk size the code computes for `2^24 + 1` cells and one worker. -/
theorem ceilDiv_big : ceilDiv 16777217 1 = 16777216 := by
  decide

/-- C11: on the array of `N = 2^24 + 1` ones with one worker the chunk size
`ceil((float)size/threads)` is `2^24`, because `2^24 + 1` is not a `float` and
the conversion rounds it to `2^24`; the only worker scans the cells
`[0, 2^24)` and the last cell keeps the value `1`, whereas the inclusive
prefix sum there is `2^24 + 1`. The last chunk of size `⌈N/P⌉` is not empty
(`P = 1`). On the eight ones of the spec's test with four workers the result
is `[1, ..., 8]`. -/
theorem C11_single_precision_chunk :
    ceilDiv 16777217 1 = 16777216 ∧
      (1 - 1) * ((16777217 + 1 - 1) / 1) < 16777217 ∧
      ((∃ B, parallel_prefix_sum 1 (List.replicate 16777217 1) 16777217 = .ok B ∧
          B.length = 16777217 ∧ B.getD 16777215 0 = 16777216 ∧ B.getD 16777216 0 = 1) ∧
        (inclusivePrefixSums (List.replicate 16777217 1)).getD 16777216 0 = 16777217) ∧
      parallel_prefix_sum 4 [1, 1, 1, 1, 1, 1, 1, 1] 8 = .ok [1, 2, 3, 4, 5, 6, 7, 8] :=
  ⟨ceilDiv_big, by norm_num,
    prefix_sum_ones_short ceilDiv_big (by norm_num) (by norm_num) (by norm_num)
      (by norm_num [UINT]),
    by decide⟩

theorem path_valid : ValidInput pathG pathT pathEmb where
  n_ge := by decide
  m_ge := by decide
  size_lt := by decide
  lenV := by decide
  lenGE := by decide
  lenN := by decide
  lenTE := by decide
  ord_lt := by decide
  ord_inj := by decide
  root_lowest := by decide
  g_src_lt := by decide
  g_tgt_lt := by decide
  g_loop := by decide
  g_first := by decide
  g_twin_lt := by decide
  g_twin_src := by decide
  g_twin_tgt := by decide
  g_twin_twin := by decide
  deg_lt := by decide
  t_src_lt := by decide
  t_tgt_lt := by decide
  t_range := by decide
  t_range_src := by decide
  t_nonempty := by decide
  t_root := by decide
  t_twin_lt := by decide
  t_twin_src := by decide
  t_twin_tgt := by decide
  t_twin_twin := by decide
  t_back := by decide
  t_fwd := by decide
  emb_lt := by decide
  emb_src := by decide
  emb_tgt := by decide
  emb_inj := by decide

theorem edge_valid : ValidInput edgeG edgeT edgeEmb where
  n_ge := by decide
  m_ge := by decide
  size_lt := by decide
  lenV := by decide
  lenGE := by decide
  lenN := by decide
  lenTE := by decide
  ord_lt := by decide
  ord_inj := by decide
  root_lowest := by decide
  g_src_lt := by decide
  g_tgt_lt := by decide
  g_loop := by decide
  g_first := by decide
  g_twin_lt := by decide
  g_twin_src := by decide
  g_twin_tgt := by decide
  g_twin_twin := by decide
  deg_lt := by decide
  t_src_lt := by decide
  t_tgt_lt := by decide
  t_range := by decide
  t_range_src := by decide
  t_nonempty := by decide
  t_root := by decide
  t_twin_lt := by decide
  t_twin_src := by decide
  t_twin_tgt := by decide
  t_twin_twin := by decide
  t_back := by decide
  t_fwd := by decide
  emb_lt := by decide
  emb_src := by decide
  emb_tgt := by decide
  emb_inj := by decide

/-- C4: on the path `0 - 1 - 2` (a valid input) with three workers the
counters are right, but the list ranking of the `2n - 2 = 4` tour nodes takes
`⌈log2(4)·3⌉ = 6 > 4` splitters, all of which sit on node 0 (chunk `4/6 = 0`),
and the routine returns `S2 = 110000`: two ones instead of `n = 3`, and the
prefix of length 5 has more zeros than ones. With one worker `S2 = 111000`. -/
theorem C4_three_workers_unbalanced :
    ValidInput pathG pathT pathEmb ∧
      counters 3 pathG pathT = .ok ([0, 0, 0], [0, 0, 0]) ∧
      splitters 4 3 = 6 ∧
      parallel_succinct_graph 3 4 pathG pathT =
        .ok ⟨[true, true, true, true, false, true],
          [true, true, false, false, false, false], []⟩ ∧
      List.count true [true, true, false, false, false, false] = 2 ∧
      List.count true (List.take 5 [true, true, false, false, false, false]) <
        List.count false (List.take 5 [true, true, false, false, false, false]) ∧
      parallel_succinct_graph 1 4 pathG pathT =
        .ok ⟨[true, true, true, true, true, true],
          [true, true, true, false, false, false], []⟩ :=
  ⟨path_valid, by decide⟩

/-- C23: on the triangle (a valid input) with four workers the list ranking
of the `2n - 2 = 4` tour nodes takes `⌈log2(4)·4⌉ = 8 > 4` splitters and leaves
the ranks `[0, 2, 0, 4]` in `ET`: the positions `ET[0].rank + 1` and
`ET[2].rank + 1` are both `1`, and the routine returns `S1 = 11010101` with
five ones instead of `2n = 6`. -/
theorem C23_four_workers_positions_collide :
    ValidInput triangleG triangleT triangleEmb ∧
      splitters 4 4 = 8 ∧
      rankedTours 4 4 triangleG triangleT =
        .ok ([1, 1, 0], [⟨-8, 0, 0⟩, ⟨-1, 0, 2⟩, ⟨-1, 0, 0⟩, ⟨-1, 0, 4⟩],
          [⟨-8, 1, 0⟩, ⟨-1, 1, 1⟩, ⟨-1, 0, 0⟩, ⟨-1, 0, 2⟩]) ∧
      rankAt [⟨-8, 0, 0⟩, ⟨-1, 0, 2⟩, ⟨-1, 0, 0⟩, ⟨-1, 0, 4⟩] 0 + 1 =
        rankAt [⟨-8, 0, 0⟩, ⟨-1, 0, 2⟩, ⟨-1, 0, 0⟩, ⟨-1, 0, 4⟩] 2 + 1 ∧
      parallel_succinct_graph 4 4 triangleG triangleT =
        .ok ⟨[true, true, false, true, false, true, false, true],
          [true, true, true, false, false, false], [true, false]⟩ ∧
      List.count true [true, true, false, true, false, true, false, true] = 5 ∧
      2 * triangleT.n = 6 :=
  ⟨triangle_valid, by decide⟩

/-- C16: on the path `0 - 1 - 2` (a valid input, `2n - 2 = 4` tree
half-edges) with `2n = 6` workers the classification loop has the chunk size
`2n/6 = 1`, so worker 4 handles the indices `[4, 5)`: it reads `T.E[4]` and
writes `ET[4]`, outside the arrays of length 4, and no list is left. With
five workers the loop returns the arrays of the run with one worker. -/
theorem C16_classification_overrun :
    ValidInput pathG pathT pathEmb ∧
      counters 6 pathG pathT = .ok ([65535, 0, 0], [1, 0, 0]) ∧
      usub ((2 * pathT.n) % UINT) 2 = 4 ∧
      chunkLo ((2 * pathT.n) % UINT / 6) 4 none = 4 ∧
      chunkHi 6 ((2 * pathT.n) % UINT / 6) 4 (usub ((2 * pathT.n) % UINT) 2) = 5 ∧
      eulerTours 6 pathG pathT [65535, 0, 0] [1, 0, 0] = .error Fault.outOfBounds ∧
      parallel_succinct_graph 6 4 pathG pathT = .error Fault.outOfBounds ∧
      eulerTours 5 pathG pathT [65535, 0, 0] [1, 0, 0] =
        eulerTours 1 pathG pathT [65535, 0, 0] [1, 0, 0] ∧
      eulerTours 1 pathG pathT [65535, 0, 0] [1, 0, 0] =
        .ok ([⟨2, 0, 1⟩, ⟨0, 0, 1⟩, ⟨3, 0, 1⟩, ⟨1, 0, 1⟩],
          [⟨2, 1, 1⟩, ⟨0, 0, 1⟩, ⟨3, 1, 1⟩, ⟨1, 0, 1⟩]) :=
  ⟨path_valid, by decide⟩

/-- C17: on the single edge `0 - 1` (a valid input, `2n - 2 = 2` tree
half-edges) with `2n = 4` workers the classification loop has the chunk size
`2n/4 = 1`, so worker 2 handles the indices `[2, 3)`: it reads `T.E[2]`,
outside the array of length 2, and no half-edge gets its `next`. With one
worker half-edge 1, the twin of `T.E[T.N[0].last]`, gets `next = 0` and
half-edge 0 gets `next = 1`. -/
theorem C17_classification_overrun :
    ValidInput edgeG edgeT edgeEmb ∧
      counters 4 edgeG edgeT = .ok ([65535, 0], [1, 0]) ∧
      usub ((2 * edgeT.n) % UINT) 2 = 2 ∧
      chunkLo ((2 * edgeT.n) % UINT / 4) 2 none = 2 ∧
      chunkHi 4 ((2 * edgeT.n) % UINT / 4) 2 (usub ((2 * edgeT.n) % UINT) 2) = 3 ∧
      eulerTours 4 edgeG edgeT [65535, 0] [1, 0] = .error Fault.outOfBounds ∧
      parallel_succinct_graph 4 4 edgeG edgeT = .error Fault.outOfBounds ∧
      edgeT.twin (edgeT.last 0) = 1 ∧
      eulerTours 1 edgeG edgeT [65535, 0] [1, 0] =
        .ok ([⟨1, 0, 1⟩, ⟨0, 0, 1⟩], [⟨1, 1, 1⟩, ⟨0, 0, 1⟩]) :=
  ⟨edge_valid, by decide⟩

theorem triangle2_valid : ValidInput triangleG triangleT2 triangleEmb2 where
  n_ge := by decide
  m_ge := by decide
  size_lt := by decide
  lenV := by decide
  lenGE := by decide
  lenN := by decide
  lenTE := by decide
  ord_lt := by decide
  ord_inj := by decide
  root_lowest := by decide
  g_src_lt := by decide
  g_tgt_lt := by decide
  g_loop := by decide
  g_first := by decide
  g_twin_lt := by decide
  g_twin_src := by decide
  g_twin_tgt := by decide
  g_twin_twin := by decide
  deg_lt := by decide
  t_src_lt := by decide
  t_tgt_lt := by decide
  t_range := by decide
  t_range_src := by decide
  t_nonempty := by decide
  t_root := by decide
  t_twin_lt := by decide
  t_twin_src := by decide
  t_twin_tgt := by decide
  t_twin_twin := by decide
  t_back := by decide
  t_fwd := by decide
  emb_lt := by decide
  emb_src := by decide
  emb_tgt := by decide
  emb_inj := by decide

/-- The tour of a tree with three nodes whose root has two half-edges: both
children are leaves. -/
theorem ValidInput.tour_two_leaves {g : Graph} {t : Tree} {emb : Nat → Nat}
    (h : ValidInput g t emb) (hn : t.n = 3) (hroot : t.last 0 = 1) :
    tour t = [0, t.twin 0, 1, t.twin 1] := by
  have hl := h.tour_length
  have hH : t.H = 4 := by unfold Tree.H; omega
  have e : tour t = 0 :: (concatOver (subTour t 2) (t.first (t.tgt 0) + 1)
      (t.last (t.tgt 0) - t.first (t.tgt 0)) ++ [t.twin 0]) ++
      (1 :: (concatOver (subTour t 2) (t.first (t.tgt 1) + 1)
        (t.last (t.tgt 1) - t.first (t.tgt 1)) ++ [t.twin 1]) ++ []) := by
    unfold tour
    rw [hroot, hn]
    rfl
  rw [e, hH] at hl
  simp only [List.length_append, List.length_cons, List.length_nil] at hl
  have k0 : concatOver (subTour t 2) (t.first (t.tgt 0) + 1)
      (t.last (t.tgt 0) - t.first (t.tgt 0)) = [] := List.eq_nil_of_length_eq_zero (by omega)
  have k1 : concatOver (subTour t 2) (t.first (t.tgt 1) + 1)
      (t.last (t.tgt 1) - t.first (t.tgt 1)) = [] := List.eq_nil_of_length_eq_zero (by omega)
  rw [e, k0, k1]
  rfl

/-- C12 (amended): for every valid encoding of the triangle (`n = 3`,
`m = 3`, the root with the two tree edges `0-1` and `0-2` and no other edge)
the run with one worker returns `S1` of length 8, `S2 = 110100` of length 6
(the word of a root with two leaves) and `S3` of length 2 with exactly one
`1`. -/
theorem C12_triangle_output {g : Graph} {t : Tree} {emb : Nat → Nat} (h : ValidInput g t emb)
    (hn : t.n = 3) (hm : g.m = 3) (hroot : t.last 0 = 1) (hdeg : g.deg 0 = 2)
    {fuel : Nat} (hf : 4 ≤ fuel) :
    ∃ b, parallel_succinct_graph 1 fuel g t = .ok b ∧
      b.S1.length = 8 ∧ b.S2.length = 6 ∧ b.S3.length = 2 ∧
      b.S2 = [true, true, false, true, false, false] ∧ b.S3.count true = 1 := by
  have hH : t.H = 4 := by unfold Tree.H; omega
  have hn0 : 0 < t.n := by omega
  have hsum := h.sum_highF
  have c0 := h.child hn0 (Or.inr rfl) (by rw [h.t_root]) (by omega : 0 ≤ t.last 0)
  have c1 := h.child hn0 (Or.inr rfl) (by rw [h.t_root]; omega) (by omega : 1 ≤ t.last 0)
  have b0 : ¬ isFwd g t (t.twin 0) := by
    rw [h.twin_fwd c0.1]; exact fun hc => hc c0.2.2
  have b1 : ¬ isFwd g t (t.twin 1) := by
    rw [h.twin_fwd c1.1]; exact fun hc => hc c1.2.2
  refine ⟨bitsF g t, h.run_ok (by omega), ?_, ?_, ?_, ?_, ?_⟩
  · show (tab _ _).length = 8
    rw [tab_length, hm]
  · show (tab _ _).length = 6
    rw [tab_length, hn]
  · show (tab _ _).length = 2
    rw [tab_length, hm, hn]
  · rw [h.S2_eq, h.tour_two_leaves hn hroot]
    simp [tourWord, c0.2.2, c1.2.2, b0, b1]
  · rw [h.S3_count]
    omega

/-- C12 (witness): the statement applied to the two encodings of the
triangle that differ in the order of the list of the root (`1 2` and `2 1`);
the bit arrays `S1` and `S3` differ between them (`11101011`, `10` and
`11011101`, `01`). -/
theorem C12_triangle_output_witness :
    (ValidInput triangleG triangleT triangleEmb ∧ triangleT.n = 3 ∧ triangleG.m = 3 ∧
      triangleT.last 0 = 1 ∧ triangleG.deg 0 = 2 ∧ 4 ≤ 4 ∧
      ∃ b, parallel_succinct_graph 1 4 triangleG triangleT = .ok b ∧
        b.S1.length = 8 ∧ b.S2.length = 6 ∧ b.S3.length = 2 ∧
        b.S2 = [true, true, false, true, false, false] ∧ b.S3.count true = 1) ∧
      (∃ b, parallel_succinct_graph 1 4 triangleG triangleT2 = .ok b ∧
        b.S1.length = 8 ∧ b.S2.length = 6 ∧ b.S3.length = 2 ∧
        b.S2 = [true, true, false, true, false, false] ∧ b.S3.count true = 1) ∧
      parallel_succinct_graph 1 4 triangleG triangleT =
        .ok ⟨[true, true, true, false, true, false, true, true],
          [true, true, false, true, false, false], [true, false]⟩ ∧
      parallel_succinct_graph 1 4 triangleG triangleT2 =
        .ok ⟨[true, true, false, true, true, true, false, true],
          [true, true, false, true, false, false], [false, true]⟩ :=
  ⟨⟨triangle_valid, by decide, by decide, by decide, by decide, by decide,
      C12_triangle_output triangle_valid (by decide) (by decide) (by decide) (by decide)
        (by decide)⟩,
    C12_triangle_output triangle2_valid (by decide) (by decide) (by decide) (by decide)
      (by decide),
    by decide, by decide⟩

theorem faaIters_snoc (done : List COp) (i : Nat) :
    faaIters (done ++ [COp.faa i]) = faaIters done ++ [i] := by
  simp [faaIters, List.filterMap_append]

theorem faaIters_map (l : List Nat) : faaIters (l.map COp.faa) = l := by
  induction l with
  | nil => rfl
  | cons a l ih =>
    simp only [faaIters, List.map_cons, List.filterMap_cons] at ih ⊢
    rw [ih]

theorem atomicA_flatten (threads : Nat) (g : Graph) :
    (atomicA threads g).flatten = (workersA threads g).flatten.map COp.faa := by
  unfold atomicA
  rw [List.map_flatten]

theorem atomicA_allowed (threads n : Nat) (g : Graph)
    (hall : ∀ i, i ∈ (workersA threads g).flatten → AllowedA g n i) :
    ∀ a, a ∈ (atomicA threads g).flatten → AtomicA g n a := by
  intro a ha
  rw [atomicA_flatten, List.mem_map] at ha
  obtain ⟨i, hi, rfl⟩ := ha
  exact ⟨i, rfl, hall i hi⟩

/-- One atomic increment on a memory whose counters hold the numbers of
increments done so far. -/
theorem applyCtr_step (g : Graph) (n : Nat) (reg : List Nat) (done : List COp) (op : COp)
    (ha : AtomicA g n op) :
    applyCtr g ⟨tab n (fun v => incLow g (faaIters done) v % USHORT),
        tab n (fun v => incHigh g (faaIters done) v % USHORT), reg⟩ op =
      .ok ⟨tab n (fun v => incLow g (faaIters (done ++ [op])) v % USHORT),
        tab n (fun v => incHigh g (faaIters (done ++ [op])) v % USHORT), reg⟩ := by
  obtain ⟨i, rfl, hi⟩ := ha
  simp only [applyCtr]
  rw [countEdge_step g n (faaIters done) i hi, faaIters_snoc]

/-- Under every schedule the atomic increments of the first region return,
and the counters hold the numbers of increments issued by the steps done so
far (modulo `2^16`); the programs that remain and the steps done make up the
programs of the workers. -/
theorem atomicA_any_schedule (threads n : Nat) (g : Graph)
    (hall : ∀ i, i ∈ (workersA threads g).flatten → AllowedA g n i) (s : List Nat) :
    ∃ progs1 m, runSchedule (applyCtr g) s
        (atomicA threads g, ⟨List.replicate n 0, List.replicate n 0,
          List.replicate threads 0⟩) = .ok (progs1, m) ∧
      m.lower.length = n ∧ m.higher.length = n ∧
      (progs1.flatten = [] → ∀ v, v < n →
        m.lower.getD v 0 = incLow g (workersA threads g).flatten v % USHORT ∧
        m.higher.getD v 0 = incHigh g (workersA threads g).flatten v % USHORT) := by
  obtain ⟨p1, st1, d1, e, hinv, hperm⟩ := runSchedule_inv (applyCtr g)
    (fun done (m : CMem) =>
      m = ⟨tab n (fun v => incLow g (faaIters done) v % USHORT),
        tab n (fun v => incHigh g (faaIters done) v % USHORT), List.replicate threads 0⟩)
    (AtomicA g n)
    (fun done st a hi ha => by
      subst hi
      exact ⟨_, applyCtr_step g n _ done a ha, rfl⟩)
    s (atomicA threads g) ⟨List.replicate n 0, List.replicate n 0, List.replicate threads 0⟩ []
    (by
      have e1 : tab n (fun _ => 0) = tab n (fun v => incLow g (faaIters []) v % USHORT) := by
        apply tab_congr; intro v _; simp [incLow, faaIters]
      have e2 : tab n (fun _ => 0) = tab n (fun v => incHigh g (faaIters []) v % USHORT) := by
        apply tab_congr; intro v _; simp [incHigh, faaIters]
      show CMem.mk _ _ _ = CMem.mk _ _ _
      rw [← e1, ← e2, ← replicate_eq_tab])
    (atomicA_allowed threads n g hall)
  subst hinv
  refine ⟨p1, _, e, tab_length _ _, tab_length _ _, ?_⟩
  intro hfin v hv
  rw [hfin, List.append_nil, List.nil_append, atomicA_flatten] at hperm
  have hp2 : (faaIters d1).Perm (workersA threads g).flatten := by
    have := hperm.filterMap (fun op => match op with | COp.faa i => some i | _ => none)
    rw [← faaIters_map (workersA threads g).flatten]
    exact this
  show (tab n _).getD v 0 = _ ∧ (tab n _).getD v 0 = _
  rw [getD_tab _ _ hv, getD_tab _ _ hv]
  unfold incLow incHigh
  rw [hp2.countP_eq, hp2.countP_eq]
  exact ⟨rfl, rfl⟩

theorem BitOp.ext_iff (b c : BitOp) : b = c ↔ b.arr = c.arr ∧ b.pos = c.pos := by
  cases b <;> cases c <;> simp [BitOp.arr, BitOp.pos]

theorem BitOp.arr_lt (b : BitOp) : b.arr < 3 := by
  cases b <;> simp [BitOp.arr]

theorem AllowedE_iff (N1 N2 N3 : Nat) (b : BitOp) :
    AllowedE N1 N2 N3 b ↔ b.pos < [N1, N2, N3].getD b.arr 0 := by
  cases b <;> simp [AllowedE, BitOp.arr, BitOp.pos]

theorem wr_set {α : Type} (A : List α) {i : Nat} (v : α) (h : i < A.length) :
    wr A i v = .ok (A.set i v) := by
  unfold wr
  rw [if_pos h]

theorem word_lt {q N : Nat} (h : q < N) : q / WORD < (N + (WORD - 1)) / WORD := by
  unfold WORD
  omega

theorem split_word (q q0 : Nat) (h : q / WORD = q0 / WORD) :
    q = q0 ↔ q0 % WORD = q % WORD := by
  have a := Nat.div_add_mod q WORD
  have b := Nat.div_add_mod q0 WORD
  rw [h] at a
  constructor
  · intro e; rw [e]
  · intro e; rw [e] at b; omega

/-- Setting bit `q0` by an OR into its word sets that bit and leaves every
other bit of the array as it was. -/
theorem bitOf_or (ws : List Nat) (q0 q : Nat) (h : q0 / WORD < ws.length) :
    bitOf (ws.set (q0 / WORD) (ws.getD (q0 / WORD) 0 ||| 2 ^ (q0 % WORD))) q =
      (bitOf ws q || decide (q = q0)) := by
  unfold bitOf
  by_cases hq : q / WORD = q0 / WORD
  · rw [hq, getD_set_self _ _ _ _ h, Nat.testBit_or, Nat.testBit_two_pow]
    congr 1
    exact decide_eq_decide.mpr (split_word q q0 hq).symm
  · have hne : ¬ q = q0 := fun e => hq (by rw [e])
    rw [getD_set_ne _ _ _ _ _ (fun e => hq e.symm), decide_eq_false hne, Bool.or_false]

/-- One atomic bit set, in terms of the words. -/
theorem applyWord_or {N1 N2 N3 : Nat} {m : WMem} (hs : m.Sized N1 N2 N3) {b : BitOp}
    (hb : AllowedE N1 N2 N3 b) :
    applyWord m (WOp.or b) =
      .ok ⟨m.words.set b.arr ((m.words.getD b.arr []).set (b.pos / WORD)
        ((m.words.getD b.arr []).getD (b.pos / WORD) 0 ||| 2 ^ (b.pos % WORD))), m.reg⟩ := by
  have ha : b.arr < m.words.length := by rw [hs.1]; exact b.arr_lt
  have hw : b.pos / WORD < (m.words.getD b.arr []).length := by
    rw [hs.2 _ b.arr_lt]
    exact word_lt ((AllowedE_iff N1 N2 N3 b).mp hb)
  simp only [applyWord]
  rw [rd_getD m.words [] ha]
  simp only
  rw [rd_getD _ 0 hw]
  simp only
  rw [wr_set _ _ hw]
  simp only
  rw [wr_set _ _ ha]

theorem Sized_or {N1 N2 N3 : Nat} {m : WMem} (hs : m.Sized N1 N2 N3) (b : BitOp) (x : Nat) :
    WMem.Sized N1 N2 N3 ⟨m.words.set b.arr ((m.words.getD b.arr []).set (b.pos / WORD) x),
      m.reg⟩ := by
  refine ⟨by simp only [List.length_set]; exact hs.1, fun a ha => ?_⟩
  show ((m.words.set b.arr _).getD a []).length = _
  by_cases e : b.arr = a
  · subst e
    rw [getD_set_self _ _ _ _ (by rw [hs.1]; exact ha), List.length_set]
    exact hs.2 _ ha
  · rw [getD_set_ne _ _ _ _ _ e]
    exact hs.2 _ ha

/-- The bits of the memory after one atomic bit set. -/
theorem bits_or {N1 N2 N3 : Nat} {m : WMem} (hs : m.Sized N1 N2 N3) {b : BitOp}
    (hb : AllowedE N1 N2 N3 b) (c : BitOp) :
    bitOf ((m.words.set b.arr ((m.words.getD b.arr []).set (b.pos / WORD)
        ((m.words.getD b.arr []).getD (b.pos / WORD) 0 ||| 2 ^ (b.pos % WORD)))).getD c.arr [])
      c.pos = (bitOf (m.words.getD c.arr []) c.pos || decide (c = b)) := by
  have ha : b.arr < m.words.length := by rw [hs.1]; exact b.arr_lt
  have hw : b.pos / WORD < (m.words.getD b.arr []).length := by
    rw [hs.2 _ b.arr_lt]
    exact word_lt ((AllowedE_iff N1 N2 N3 b).mp hb)
  by_cases e : b.arr = c.arr
  · rw [← e, getD_set_self _ _ _ _ ha, bitOf_or _ _ _ hw]
    congr 1
    apply decide_eq_decide.mpr
    rw [BitOp.ext_iff]
    exact ⟨fun h => ⟨e.symm, h⟩, fun h => h.2⟩
  · have hne : ¬ c = b := fun h => e (by rw [h])
    rw [getD_set_ne _ _ _ _ _ e, decide_eq_false hne, Bool.or_false]

theorem atomicE_flatten (threads : Nat) (t : Tree) (higher : List Nat) (ET ET2 : List ENode) :
    (atomicE threads t higher ET ET2).flatten =
      (workersE threads t higher ET ET2).flatten.map WOp.or := by
  unfold atomicE
  rw [List.map_flatten]

theorem bitOf_create (n q : Nat) : bitOf (wordsCreate n) q = false := by
  unfold bitOf wordsCreate
  by_cases h : q / WORD < (n + (WORD - 1)) / WORD
  · rw [getD_replicate_lt _ _ _ _ h, Nat.zero_testBit]
  · rw [List.getD_eq_default _ _ (by rw [List.length_replicate]; omega), Nat.zero_testBit]

theorem memE_sized (threads N1 N2 N3 : Nat) : (memE threads N1 N2 N3).Sized N1 N2 N3 := by
  refine ⟨rfl, fun a ha => ?_⟩
  have h3 : a = 0 ∨ a = 1 ∨ a = 2 := by omega
  rcases h3 with h | h | h <;> subst h <;> simp [memE, wordsCreate]

/-- Under every schedule the atomic bit sets of the last region return, and
once all workers have finished a bit of `S1`, `S2`, `S3` is `1` exactly if a
set was issued for it. -/
theorem atomicE_any_schedule (threads : Nat) (t : Tree) (higher : List Nat)
    (ET ET2 : List ENode) (N1 N2 N3 : Nat)
    (hall : ∀ b, b ∈ (workersE threads t higher ET ET2).flatten → AllowedE N1 N2 N3 b)
    (s : List Nat) :
    ∃ progs1 m, runSchedule applyWord s
        (atomicE threads t higher ET ET2, memE threads N1 N2 N3) = .ok (progs1, m) ∧
      m.Sized N1 N2 N3 ∧
      (progs1.flatten = [] → ∀ b : BitOp,
        (bitOf (m.words.getD b.arr []) b.pos = true ↔
          b ∈ (workersE threads t higher ET ET2).flatten)) := by
  obtain ⟨p1, m1, d1, e, hinv, hperm⟩ := runSchedule_inv applyWord
    (fun done (m : WMem) => m.Sized N1 N2 N3 ∧
      ∀ c : BitOp, bitOf (m.words.getD c.arr []) c.pos = decide (WOp.or c ∈ done))
    (AtomicE N1 N2 N3)
    (fun done m a hi ha => by
      obtain ⟨b, rfl, hb⟩ := ha
      refine ⟨_, applyWord_or hi.1 hb, Sized_or hi.1 b _, fun c => ?_⟩
      rw [bits_or hi.1 hb c, hi.2 c]
      simp only [List.mem_append, List.mem_singleton, WOp.or.injEq, Bool.decide_or])
    s (atomicE threads t higher ET ET2) (memE threads N1 N2 N3) []
    ⟨memE_sized threads N1 N2 N3, fun c => by
      have h3 : c.arr = 0 ∨ c.arr = 1 ∨ c.arr = 2 := by have := c.arr_lt; omega
      rcases h3 with h | h | h <;> rw [h] <;> simp [memE, bitOf_create]⟩
    (fun a ha => by
      rw [atomicE_flatten, List.mem_map] at ha
      obtain ⟨b, hb, rfl⟩ := ha
      exact ⟨b, rfl, hall b hb⟩)
  refine ⟨p1, m1, e, hinv.1, ?_⟩
  intro hfin b
  rw [hfin, List.append_nil, List.nil_append, atomicE_flatten] at hperm
  rw [hinv.2 b, decide_eq_true_iff, hperm.mem_iff, List.mem_map]
  constructor
  · rintro ⟨c, hc, e1⟩
    cases e1
    exact hc
  · intro hb
    exact ⟨b, hb, rfl⟩

/-- The words after an atomic bit set stand for the bit arrays after
`bit_array_set_bit` of the same bit: the steps on words refine the bit sets of
the model of the routine. -/
theorem applyWord_abs {N1 N2 N3 : Nat} {m : WMem} (hs : m.Sized N1 N2 N3) {b : BitOp}
    (hb : AllowedE N1 N2 N3 b) :
    ∃ m1, applyWord m (WOp.or b) = .ok m1 ∧ m1.Sized N1 N2 N3 ∧
      applyBit (absBits N1 N2 N3 m) b = .ok (absBits N1 N2 N3 m1) := by
  refine ⟨_, applyWord_or hs hb, Sized_or hs b _, ?_⟩
  have key := bits_or hs hb
  cases b with
  | s1 q =>
    have hq : q < N1 := hb
    have k1 := fun p => key (BitOp.s1 p)
    have k2 := fun p => key (BitOp.s2 p)
    have k3 := fun p => key (BitOp.s3 p)
    simp only [BitOp.arr, BitOp.pos, BitOp.s1.injEq] at k1 k2 k3
    simp only [applyBit, absBits, bit_array_set_bit, BitOp.arr, BitOp.pos]
    rw [wr_tab _ hq]
    simp only [Except.ok.injEq, Bits.mk.injEq]
    refine ⟨?_, ?_, ?_⟩
    · apply tab_congr
      intro p _
      rw [k1 p]
      by_cases hp : p = q
      · subst hp; simp [Function.update]
      · simp [Function.update, hp]
    · apply tab_congr
      intro p _
      rw [k2 p]
      simp
    · apply tab_congr
      intro p _
      rw [k3 p]
      simp
  | s2 q =>
    have hq : q < N2 := hb
    have k1 := fun p => key (BitOp.s1 p)
    have k2 := fun p => key (BitOp.s2 p)
    have k3 := fun p => key (BitOp.s3 p)
    simp only [BitOp.arr, BitOp.pos, BitOp.s2.injEq] at k1 k2 k3
    simp only [applyBit, absBits, bit_array_set_bit, BitOp.arr, BitOp.pos]
    rw [wr_tab _ hq]
    simp only [Except.ok.injEq, Bits.mk.injEq]
    refine ⟨?_, ?_, ?_⟩
    · apply tab_congr
      intro p _
      rw [k1 p]
      simp
    · apply tab_congr
      intro p _
      rw [k2 p]
      by_cases hp : p = q
      · subst hp; simp [Function.update]
      · simp [Function.update, hp]
    · apply tab_congr
      intro p _
      rw [k3 p]
      simp
  | s3 q =>
    have hq : q < N3 := hb
    have k1 := fun p => key (BitOp.s1 p)
    have k2 := fun p => key (BitOp.s2 p)
    have k3 := fun p => key (BitOp.s3 p)
    simp only [BitOp.arr, BitOp.pos, BitOp.s3.injEq] at k1 k2 k3
    simp only [applyBit, absBits, bit_array_set_bit, BitOp.arr, BitOp.pos]
    rw [wr_tab _ hq]
    simp only [Except.ok.injEq, Bits.mk.injEq]
    refine ⟨?_, ?_, ?_⟩
    · apply tab_congr
      intro p _
      rw [k1 p]
      simp
    · apply tab_congr
      intro p _
      rw [k2 p]
      simp
    · apply tab_congr
      intro p _
      rw [k3 p]
      by_cases hp : p = q
      · subst hp; simp [Function.update]
      · simp [Function.update, hp]

theorem five_valid : ValidInput fiveG fiveT fiveEmb where
  n_ge := by decide
  m_ge := by decide
  size_lt := by decide
  lenV := by decide
  lenGE := by decide
  lenN := by decide
  lenTE := by decide
  ord_lt := by decide
  ord_inj := by decide
  root_lowest := by decide
  g_src_lt := by decide
  g_tgt_lt := by decide
  g_loop := by decide
  g_first := by decide
  g_twin_lt := by decide
  g_twin_src := by decide
  g_twin_tgt := by decide
  g_twin_twin := by decide
  deg_lt := by decide
  t_src_lt := by decide
  t_tgt_lt := by decide
  t_range := by decide
  t_range_src := by decide
  t_nonempty := by decide
  t_root := by decide
  t_twin_lt := by decide
  t_twin_src := by decide
  t_twin_tgt := by decide
  t_twin_twin := by decide
  t_back := by decide
  t_fwd := by decide
  emb_lt := by decide
  emb_src := by decide
  emb_tgt := by decide
  emb_inj := by decide

/-- With a plain `counter++` an increment is lost: on `fiveG` with two
workers, iteration 4 of worker 0 and iteration 5 of worker 1 both increment
`higher_numb[2]`. In the schedule in which worker 1 reads the counter between
the read and the write of worker 0 the counter ends at `1`, although two
increments were issued for it. -/
theorem plainA_loses_increment :
    Complete [0, 0, 0, 0, 0, 0, 0, 1, 0, 1, 1, 1, 1, 1, 1, 1, 1, 1] (plainA 2 fiveG) ∧
      runSchedule (applyCtr fiveG) [0, 0, 0, 0, 0, 0, 0, 1, 0, 1, 1, 1, 1, 1, 1, 1, 1, 1]
          (plainA 2 fiveG, ⟨List.replicate 5 0, List.replicate 5 0, List.replicate 2 0⟩) =
        .ok ([[], []], ⟨[0, 1, 1, 2, 1], [1, 1, 1, 0, 0], [0, 0]⟩) ∧
      incHigh fiveG (workersA 2 fiveG).flatten 2 = 2 := by
  decide

/-- With the plain `bit_array_set_bit` a bit is lost: on `fiveG` with two
workers all bit sets of `S1` fall into word 0. In the schedule in which
worker 1 reads the word first and writes it after worker 0 has finished, the
bits that worker 0 has set are overwritten: bit 1 of `S1` is `0` although a set
was issued for it. -/
theorem plainE_loses_bit :
    Complete [1, 0, 0, 0, 0, 0, 0, 0, 0, 0, 0, 0, 0, 0, 0, 0, 0, 0, 0, 1, 1, 1, 1, 1, 1, 1]
        (plainE 2 fiveT fiveHigher fiveET fiveET2) ∧
      runSchedule applyWord
          [1, 0, 0, 0, 0, 0, 0, 0, 0, 0, 0, 0, 0, 0, 0, 0, 0, 0, 0, 1, 1, 1, 1, 1, 1, 1]
          (plainE 2 fiveT fiveHigher fiveET fiveET2, memE 2 12 10 2) =
        .ok ([[], []], ⟨[[400], [102], [2]], [0, 144]⟩) ∧
      BitOp.s1 1 ∈ (workersE 2 fiveT fiveHigher fiveET fiveET2).flatten ∧
      bitOf [400] 1 = false := by
  decide

/-- C26: the atomic updates of the first and of the last region under any
interleaving. The memory is shared by the workers, a schedule names the worker
that takes its next step, and a step is what the hardware performs
indivisibly: an atomic read-modify-write (`__sync_add_and_fetch` on a counter
of lines 95 and 97; the atomic OR of `parallel_or_bit_array_set_bit` into the
enclosing word, lines 199-206), or one plain read or write. The programs of
the workers are the loops of the source (first two parts). If all accesses
are in bounds, then under every complete schedule both regions return with all
workers finished, every `lower_numb[v]` and `higher_numb[v]` is the number of
increments issued for it by all workers together, as a 16-bit value, hence
that number itself when it is below `2^16`, and a bit of `S1`, `S2`, `S3` is
`1` exactly if a set was issued for it. With a plain `counter++` or the plain
`bit_array_set_bit` in place of the atomic steps there are complete
schedules that lose an increment or a bit (last two parts). -/
theorem C26_no_lost_update (threads n : Nat) (g : Graph) (t : Tree) (higher : List Nat)
    (ET ET2 : List ENode) (N1 N2 N3 : Nat) (sA sE : List Nat)
    (hA : ∀ i, i ∈ (workersA threads g).flatten → AllowedA g n i)
    (hR : ReadsE threads t higher ET ET2)
    (hE : ∀ b, b ∈ (workersE threads t higher ET ET2).flatten → AllowedE N1 N2 N3 b)
    (hcA : Complete sA (atomicA threads g))
    (hcE : Complete sE (atomicE threads t higher ET ET2)) :
    (∀ h st, phaseA threads (2 * g.m / threads) g st h =
        runSeq (countEdge g) (itersA threads g h) st) ∧
      (∀ h, h < threads → ∀ st,
        phaseE threads ((2 * t.n) % UINT / threads) (usub ((2 * t.n) % UINT) 2) t higher ET ET2
            st h = runSeq applyBit (opsE threads t higher ET ET2 h) st) ∧
      (∃ pA m, runSchedule (applyCtr g) sA
          (atomicA threads g, ⟨List.replicate n 0, List.replicate n 0,
            List.replicate threads 0⟩) = .ok (pA, m) ∧
        pA.flatten = [] ∧ m.lower.length = n ∧ m.higher.length = n ∧
        ∀ v, v < n →
          m.lower.getD v 0 = incLow g (workersA threads g).flatten v % USHORT ∧
          m.higher.getD v 0 = incHigh g (workersA threads g).flatten v % USHORT ∧
          (incLow g (workersA threads g).flatten v < USHORT →
            m.lower.getD v 0 = incLow g (workersA threads g).flatten v) ∧
          (incHigh g (workersA threads g).flatten v < USHORT →
            m.higher.getD v 0 = incHigh g (workersA threads g).flatten v)) ∧
      (∃ pE m, runSchedule applyWord sE
          (atomicE threads t higher ET ET2, memE threads N1 N2 N3) = .ok (pE, m) ∧
        pE.flatten = [] ∧
        ∀ b : BitOp, (bitOf (m.words.getD b.arr []) b.pos = true ↔
          b ∈ (workersE threads t higher ET ET2).flatten)) ∧
      (∃ s p m, Complete s (plainA 2 fiveG) ∧
        runSchedule (applyCtr fiveG) s
          (plainA 2 fiveG, ⟨List.replicate 5 0, List.replicate 5 0, List.replicate 2 0⟩) =
            .ok (p, m) ∧
        p.flatten = [] ∧ m.higher.getD 2 0 < incHigh fiveG (workersA 2 fiveG).flatten 2) ∧
      (∃ s p m, Complete s (plainE 2 fiveT fiveHigher fiveET fiveET2) ∧
        runSchedule applyWord s (plainE 2 fiveT fiveHigher fiveET fiveET2, memE 2 12 10 2) =
          .ok (p, m) ∧
        p.flatten = [] ∧ BitOp.s1 1 ∈ (workersE 2 fiveT fiveHigher fiveET fiveET2).flatten ∧
        bitOf (m.words.getD 0 []) 1 = false) := by
  refine ⟨fun h st => phaseA_eq_runSeq threads g st h, ?_, ?_, ?_, ?_, ?_⟩
  · intro h hh st
    exact phaseE_eq_runSeq threads t higher ET ET2 st h (fun i h1 h2 => hR h hh i h2 h1)
  · obtain ⟨pA, m, e, l1, l2, hv⟩ := atomicA_any_schedule threads n g hA sA
    have fin := complete_finished _ _ _ _ _ _ hcA e
    refine ⟨pA, m, e, fin, l1, l2, fun v hvn => ?_⟩
    obtain ⟨a, b⟩ := hv fin v hvn
    refine ⟨a, b, fun hlt => ?_, fun hlt => ?_⟩
    · rw [a, Nat.mod_eq_of_lt hlt]
    · rw [b, Nat.mod_eq_of_lt hlt]
  · obtain ⟨pE, m, e, _, hq⟩ := atomicE_any_schedule threads t higher ET ET2 N1 N2 N3 hE sE
    have fin := complete_finished _ _ _ _ _ _ hcE e
    exact ⟨pE, m, e, fin, hq fin⟩
  · obtain ⟨c, e, k⟩ := plainA_loses_increment
    refine ⟨_, _, _, c, e, rfl, ?_⟩
    rw [k]
    decide
  · obtain ⟨c, e, k, b⟩ := plainE_loses_bit
    exact ⟨_, _, _, c, e, rfl, k, b⟩

/-- C26 (witness): the statement applied to `fiveG`, `fiveT` (a valid input)
with two workers, the ranked tours of the run with two workers, and schedules
that alternate between the workers. Iterations 4 and 5, of different workers,
both increment `higher_numb[2]`, which ends at `2`; the bit sets of both
workers fall into the same words, and the words end as `S1 = 011011111100`,
`S2 = 0110011000`, `S3 = 01` (the framing bits are set after the region). -/
theorem C26_no_lost_update_witness :
    ValidInput fiveG fiveT fiveEmb ∧
      rankedTours 2 8 fiveG fiveT = .ok (fiveHigher, fiveET, fiveET2) ∧
      runSchedule (applyCtr fiveG) [0, 1, 0, 1, 0, 1, 0, 1, 1]
          (atomicA 2 fiveG, ⟨List.replicate 5 0, List.replicate 5 0, List.replicate 2 0⟩) =
        .ok ([[], []], ⟨[0, 1, 1, 2, 1], [1, 1, 2, 0, 0], [0, 0]⟩) ∧
      runSchedule applyWord [0, 1, 0, 1, 0, 1, 0, 1, 0, 0, 0, 0, 0]
          (atomicE 2 fiveT fiveHigher fiveET fiveET2, memE 2 12 10 2) =
        .ok ([[], []], ⟨[[1014], [102], [2]], [0, 0]⟩) ∧
      (∀ i, i ∈ (workersA 2 fiveG).flatten → AllowedA fiveG 5 i) ∧
      ReadsE 2 fiveT fiveHigher fiveET fiveET2 ∧
      (∀ b, b ∈ (workersE 2 fiveT fiveHigher fiveET fiveET2).flatten → AllowedE 12 10 2 b) ∧
      Complete [0, 1, 0, 1, 0, 1, 0, 1, 1] (atomicA 2 fiveG) ∧
      Complete [0, 1, 0, 1, 0, 1, 0, 1, 0, 0, 0, 0, 0]
        (atomicE 2 fiveT fiveHigher fiveET fiveET2) ∧
      ((∀ h st, phaseA 2 (2 * fiveG.m / 2) fiveG st h =
          runSeq (countEdge fiveG) (itersA 2 fiveG h) st) ∧
        (∀ h, h < 2 → ∀ st,
          phaseE 2 ((2 * fiveT.n) % UINT / 2) (usub ((2 * fiveT.n) % UINT) 2) fiveT fiveHigher
              fiveET fiveET2 st h =
            runSeq applyBit (opsE 2 fiveT fiveHigher fiveET fiveET2 h) st) ∧
        (∃ pA m, runSchedule (applyCtr fiveG) [0, 1, 0, 1, 0, 1, 0, 1, 1]
            (atomicA 2 fiveG, ⟨List.replicate 5 0, List.replicate 5 0,
              List.replicate 2 0⟩) = .ok (pA, m) ∧
          pA.flatten = [] ∧ m.lower.length = 5 ∧ m.higher.length = 5 ∧
          ∀ v, v < 5 →
            m.lower.getD v 0 = incLow fiveG (workersA 2 fiveG).flatten v % USHORT ∧
            m.higher.getD v 0 = incHigh fiveG (workersA 2 fiveG).flatten v % USHORT ∧
            (incLow fiveG (workersA 2 fiveG).flatten v < USHORT →
              m.lower.getD v 0 = incLow fiveG (workersA 2 fiveG).flatten v) ∧
            (incHigh fiveG (workersA 2 fiveG).flatten v < USHORT →
              m.higher.getD v 0 = incHigh fiveG (workersA 2 fiveG).flatten v)) ∧
        (∃ pE m, runSchedule applyWord [0, 1, 0, 1, 0, 1, 0, 1, 0, 0, 0, 0, 0]
            (atomicE 2 fiveT fiveHigher fiveET fiveET2, memE 2 12 10 2) = .ok (pE, m) ∧
          pE.flatten = [] ∧
          ∀ b : BitOp, (bitOf (m.words.getD b.arr []) b.pos = true ↔
            b ∈ (workersE 2 fiveT fiveHigher fiveET fiveET2).flatten)) ∧
        (∃ s p m, Complete s (plainA 2 fiveG) ∧
          runSchedule (applyCtr fiveG) s
            (plainA 2 fiveG, ⟨List.replicate 5 0, List.replicate 5 0, List.replicate 2 0⟩) =
              .ok (p, m) ∧
          p.flatten = [] ∧ m.higher.getD 2 0 < incHigh fiveG (workersA 2 fiveG).flatten 2) ∧
        (∃ s p m, Complete s (plainE 2 fiveT fiveHigher fiveET fiveET2) ∧
          runSchedule applyWord s (plainE 2 fiveT fiveHigher fiveET fiveET2, memE 2 12 10 2) =
            .ok (p, m) ∧
          p.flatten = [] ∧
          BitOp.s1 1 ∈ (workersE 2 fiveT fiveHigher fiveET fiveET2).flatten ∧
          bitOf (m.words.getD 0 []) 1 = false)) :=
  ⟨five_valid, by decide, by decide, by decide, by decide, by decide, by decide, by decide,
    by decide,
    C26_no_lost_update 2 5 fiveG fiveT fiveHigher fiveET fiveET2 12 10 2
      [0, 1, 0, 1, 0, 1, 0, 1, 1] [0, 1, 0, 1, 0, 1, 0, 1, 0, 0, 0, 0, 0]
      (by decide) (by decide) (by decide) (by decide) (by decide)⟩

end SuccinctPlanarGraph
